import Mathlib

/-!
# QuantumSimX: the simulation kernel, embedded in Lean

The C++ sources under `src/` are translated function by function.

Conventions of the embedding
* `double` is idealised as an element of a linearly ordered field `R`
  (exact arithmetic, no rounding); `std::complex<double>` is the pair type `c64 R`.
* `std::vector<T>` is `List T`; `v[i]` is `v.getD i 0` and `v[i] = x` is `v.set i x`.
* `std::size_t` values are natural numbers; every shift `1 << q` in the claims has `q < 64`.
* `<cmath>` (`sqrt`, `cos`, `sin`) and `std::mt19937_64` with
  `std::uniform_real_distribution` are library code: they are parameters (`Libm`, `RngSource`).
* A counted `for` loop is a left fold over `List.range`.
-/

namespace qsx

/-! ## types.hpp : complex scalars -/

/-- The complex scalar `c64` of `types.hpp`: real and imaginary part. -/
structure c64 (R : Type) where
  re : R
  im : R
deriving DecidableEq

namespace c64

variable {R : Type} [CommRing R]

instance : Zero (c64 R) := ⟨⟨0, 0⟩⟩

instance : One (c64 R) := ⟨⟨1, 0⟩⟩

instance : Add (c64 R) := ⟨fun a b => ⟨a.re + b.re, a.im + b.im⟩⟩

instance : Neg (c64 R) := ⟨fun a => ⟨-a.re, -a.im⟩⟩

instance : Sub (c64 R) := ⟨fun a b => ⟨a.re - b.re, a.im - b.im⟩⟩

instance : Mul (c64 R) :=
  ⟨fun a b => ⟨a.re * b.re - a.im * b.im, a.re * b.im + a.im * b.re⟩⟩

instance instCommRing : CommRing (c64 R) where
  add_assoc := fun ⟨a, b⟩ ⟨c, d⟩ ⟨e, f⟩ => by
    show c64.mk (a + c + e) (b + d + f) = c64.mk (a + (c + e)) (b + (d + f))
    congr 1 <;> ring
  zero_add := fun ⟨a, b⟩ => by
    show c64.mk (0 + a) (0 + b) = c64.mk a b
    congr 1 <;> ring
  add_zero := fun ⟨a, b⟩ => by
    show c64.mk (a + 0) (b + 0) = c64.mk a b
    congr 1 <;> ring
  nsmul := nsmulRec
  zsmul := zsmulRec
  neg_add_cancel := fun ⟨a, b⟩ => by
    show c64.mk (-a + a) (-b + b) = c64.mk 0 0
    congr 1 <;> ring
  add_comm := fun ⟨a, b⟩ ⟨c, d⟩ => by
    show c64.mk (a + c) (b + d) = c64.mk (c + a) (d + b)
    congr 1 <;> ring
  sub_eq_add_neg := fun ⟨a, b⟩ ⟨c, d⟩ => by
    show c64.mk (a - c) (b - d) = c64.mk (a + -c) (b + -d)
    congr 1 <;> ring
  left_distrib := fun ⟨a, b⟩ ⟨c, d⟩ ⟨e, f⟩ => by
    show c64.mk (a * (c + e) - b * (d + f)) (a * (d + f) + b * (c + e))
      = c64.mk (a * c - b * d + (a * e - b * f)) (a * d + b * c + (a * f + b * e))
    congr 1 <;> ring
  right_distrib := fun ⟨a, b⟩ ⟨c, d⟩ ⟨e, f⟩ => by
    show c64.mk ((a + c) * e - (b + d) * f) ((a + c) * f + (b + d) * e)
      = c64.mk (a * e - b * f + (c * e - d * f)) (a * f + b * e + (c * f + d * e))
    congr 1 <;> ring
  zero_mul := fun ⟨a, b⟩ => by
    show c64.mk (0 * a - 0 * b) (0 * b + 0 * a) = c64.mk 0 0
    congr 1 <;> ring
  mul_zero := fun ⟨a, b⟩ => by
    show c64.mk (a * 0 - b * 0) (a * 0 + b * 0) = c64.mk 0 0
    congr 1 <;> ring
  mul_assoc := fun ⟨a, b⟩ ⟨c, d⟩ ⟨e, f⟩ => by
    show c64.mk ((a * c - b * d) * e - (a * d + b * c) * f)
        ((a * c - b * d) * f + (a * d + b * c) * e)
      = c64.mk (a * (c * e - d * f) - b * (c * f + d * e))
        (a * (c * f + d * e) + b * (c * e - d * f))
    congr 1 <;> ring
  one_mul := fun ⟨a, b⟩ => by
    show c64.mk (1 * a - 0 * b) (1 * b + 0 * a) = c64.mk a b
    congr 1 <;> ring
  mul_one := fun ⟨a, b⟩ => by
    show c64.mk (a * 1 - b * 0) (a * 0 + b * 1) = c64.mk a b
    congr 1 <;> ring
  mul_comm := fun ⟨a, b⟩ ⟨c, d⟩ => by
    show c64.mk (a * c - b * d) (a * d + b * c) = c64.mk (c * a - d * b) (c * b + d * a)
    congr 1 <;> ring

/-- The function `std::conj`. -/
def conj (z : c64 R) : c64 R := ⟨z.re, -z.im⟩

/-- The function `std::norm`: the squared magnitude. -/
def norm (z : c64 R) : R := z.re * z.re + z.im * z.im

/-- The function `std::real`. -/
def real (z : c64 R) : R := z.re

/-- Product `double * complex` and the update `z *= double`: both parts are scaled. -/
def scale (x : R) (z : c64 R) : c64 R := ⟨x * z.re, x * z.im⟩

end c64

/-- The buffer type `vec_c64` of `types.hpp`. -/
abbrev vec_c64 (R : Type) := List (c64 R)

/-! ## Library code taken as parameters -/

/-- The `<cmath>` functions the kernel calls. -/
structure Libm (R : Type) where
  sqrt : R → R
  cos : R → R
  sin : R → R

/-- The generator `std::mt19937_64` followed by `std::uniform_real_distribution<double>(0,1)`:
for a seed, the sequence of doubles it draws. -/
abbrev RngSource (R : Type) := Nat → Nat → R

/-- The class `Rng` of `random.hpp`: the stream of its seed and the number of draws made. -/
structure Rng (R : Type) where
  stream : Nat → R
  pos : Nat

/-- Constructor `Rng(seed)`. -/
def Rng.seeded {R : Type} (src : RngSource R) (seed : Nat) : Rng R := ⟨src seed, 0⟩

/-- Method `Rng::uniform`: the next draw and the advanced generator. -/
def Rng.uniform {R : Type} (g : Rng R) : R × Rng R := (g.stream g.pos, ⟨g.stream, g.pos + 1⟩)

/-! ## gates.hpp : gate coefficient tables -/

/-- The four entries `u00 u01 u10 u11` a coefficient function writes to its out-parameters. -/
structure Coeffs (R : Type) where
  u00 : c64 R
  u01 : c64 R
  u10 : c64 R
  u11 : c64 R

namespace gates

variable {R : Type} [Field R]

def X_coeffs : Coeffs R := ⟨⟨0, 0⟩, ⟨1, 0⟩, ⟨1, 0⟩, ⟨0, 0⟩⟩

def H_coeffs (L : Libm R) : Coeffs R :=
  let s : R := 1 / L.sqrt 2
  ⟨⟨s, 0⟩, ⟨s, 0⟩, ⟨s, 0⟩, ⟨-s, 0⟩⟩

def Z_coeffs : Coeffs R := ⟨⟨1, 0⟩, ⟨0, 0⟩, ⟨0, 0⟩, ⟨-1, 0⟩⟩

def RZ_coeffs (L : Libm R) (theta : R) : Coeffs R :=
  let half : R := theta / 2
  ⟨⟨L.cos (-half), L.sin (-half)⟩, ⟨0, 0⟩, ⟨0, 0⟩, ⟨L.cos half, L.sin half⟩⟩

def Y_coeffs : Coeffs R := ⟨⟨0, 0⟩, ⟨0, -1⟩, ⟨0, 1⟩, ⟨0, 0⟩⟩

def RX_coeffs (L : Libm R) (theta : R) : Coeffs R :=
  let c : R := L.cos (theta / 2)
  let s : R := L.sin (theta / 2)
  ⟨⟨c, 0⟩, ⟨0, -s⟩, ⟨0, -s⟩, ⟨c, 0⟩⟩

def RY_coeffs (L : Libm R) (theta : R) : Coeffs R :=
  let c : R := L.cos (theta / 2)
  let s : R := L.sin (theta / 2)
  ⟨⟨c, 0⟩, ⟨s, 0⟩, ⟨-s, 0⟩, ⟨c, 0⟩⟩

def S_coeffs : Coeffs R := ⟨⟨1, 0⟩, ⟨0, 0⟩, ⟨0, 0⟩, ⟨0, 1⟩⟩

end gates

/-! ## state_vector.cpp -/

/-- The class `StateVector`: qubit count, amplitude buffer, count of gate applications. -/
structure StateVector (R : Type) where
  n_ : Nat
  amp_ : vec_c64 R
  applied_ : Nat

namespace StateVector

variable {R : Type} [Field R]

/-- Constructor `StateVector(n)`: `2^n` zeros, then `amp_[0] = 1`. -/
def init (n : Nat) : StateVector R :=
  ⟨n, (List.replicate (1 <<< n) (0 : c64 R)).set 0 ⟨1, 0⟩, 0⟩

/-- One iteration of the compensated summation in `normalize_`: state `(norm2, c)`. -/
def kahan_step (s : R × R) (a : c64 R) : R × R :=
  let y := c64.norm a - s.2
  let t := s.1 + y
  (t, (t - s.1) - y)

/-- Method `normalize_`. With a zero norm the code forms an infinite `inv` and NaN
amplitudes; the division below agrees with the code when the norm and its square root are
not zero. -/
def normalize_ (L : Libm R) (sv : StateVector R) : StateVector R :=
  let norm2 := (sv.amp_.foldl kahan_step (0, 0)).1
  let inv := 1 / L.sqrt norm2
  { sv with amp_ := sv.amp_.map (c64.scale inv) }

/-- Body of the pair loop shared by `apply_gate_1q` and `apply_controlled_1q`. -/
def pair_update (u : Coeffs R) (amp : vec_c64 R) (i j : Nat) : vec_c64 R :=
  let a0 := amp.getD i 0
  let a1 := amp.getD j 0
  (amp.set i (u.u00 * a0 + u.u01 * a1)).set j (u.u10 * a0 + u.u11 * a1)

/-- The loop of `apply_gate_1q` over `i = 0 .. N-1`. -/
def gate_1q_loop (mask : Nat) (u : Coeffs R) (amp : vec_c64 R) : vec_c64 R :=
  (List.range amp.length).foldl
    (fun a i => if i &&& mask = 0 then pair_update u a i (i ||| mask) else a) amp

/-- Method `apply_gate_1q`. -/
def apply_gate_1q (L : Libm R) (sv : StateVector R) (target : Nat) (u : Coeffs R) :
    StateVector R :=
  let mask := 1 <<< target
  let sv1 : StateVector R :=
    { sv with amp_ := gate_1q_loop mask u sv.amp_, applied_ := sv.applied_ + 1 }
  if sv1.applied_ &&& 255 = 0 then normalize_ L sv1 else sv1

/-- Exchange of two entries, `std::swap(amp_[i], amp_[j])`. -/
def swap_entries (amp : vec_c64 R) (i j : Nat) : vec_c64 R :=
  let ai := amp.getD i 0
  let aj := amp.getD j 0
  (amp.set i aj).set j ai

/-- The loop of `apply_cx` over `i = 0 .. N-1`. -/
def cx_loop (cm tm : Nat) (amp : vec_c64 R) : vec_c64 R :=
  (List.range amp.length).foldl
    (fun a i => if i &&& cm ≠ 0 ∧ i &&& tm = 0 then swap_entries a i (i ||| tm) else a) amp

/-- Method `apply_cx`. -/
def apply_cx (sv : StateVector R) (control target : Nat) : StateVector R :=
  if control = target then sv
  else { sv with amp_ := cx_loop (1 <<< control) (1 <<< target) sv.amp_ }

/-- The loop of `apply_controlled_1q` over `i = 0 .. N-1`. -/
def controlled_1q_loop (cm tm : Nat) (u : Coeffs R) (amp : vec_c64 R) : vec_c64 R :=
  (List.range amp.length).foldl
    (fun a i => if i &&& cm ≠ 0 ∧ i &&& tm = 0 then pair_update u a i (i ||| tm) else a) amp

/-- Method `apply_controlled_1q`. -/
def apply_controlled_1q (L : Libm R) (sv : StateVector R) (control target : Nat)
    (u : Coeffs R) : StateVector R :=
  if control = target then sv
  else
    let sv1 : StateVector R :=
      { sv with
        amp_ := controlled_1q_loop (1 <<< control) (1 <<< target) u sv.amp_,
        applied_ := sv.applied_ + 1 }
    if sv1.applied_ &&& 255 = 0 then normalize_ L sv1 else sv1

/-- Method `probability_of_basis`. -/
def probability_of_basis (sv : StateVector R) (basis_index : Nat) : R :=
  c64.norm (sv.amp_.getD basis_index 0)

end StateVector

/-- The inverse-CDF loop of `measure_all` and of `run_density`:
`for i: acc += p(i); if (r <= acc) { idx = i; break; }`, with `idx` initialised to `0`.
The list holds the indices still to visit. -/
def sample_loop {R : Type} [LinearOrderedField R] (p : Nat → R) (r : R) : List Nat → R → Nat
  | [], _ => 0
  | i :: rest, acc =>
    let acc1 := acc + p i
    if r ≤ acc1 then i else sample_loop p r rest acc1

/-- The bit decomposition `bits[q] = (idx >> q) & 1` for `q < n`. -/
def bits_of (n idx : Nat) : List Nat :=
  (List.range n).map (fun q => (idx >>> q) &&& 1)

namespace StateVector

variable {R : Type} [LinearOrderedField R]

/-- Method `measure_all`: the outcome bits, the state left behind and the advanced generator. -/
def measure_all (sv : StateVector R) (rng : Rng R) (collapse : Bool) :
    List Nat × StateVector R × Rng R :=
  let N := sv.amp_.length
  let d := rng.uniform
  let r := d.1
  let idx := sample_loop (fun i => c64.norm (sv.amp_.getD i 0)) r (List.range N) 0
  let bits := bits_of sv.n_ idx
  if collapse then
    (bits, { sv with amp_ := (List.replicate N (0 : c64 R)).set idx ⟨1, 0⟩ }, d.2)
  else (bits, sv, d.2)

end StateVector

/-! ## circuit.hpp / circuit.cpp : the circuit IR and the state-vector executor -/

inductive OpType where
  | H | X | Y | Z | S | RX | RY | RZ | CNOT | MEASURE | DEPHASE | DEPOL | AMPDAMP
deriving DecidableEq

/-- The record `Op`: kind, qubit indices, and the angle (or channel probability). -/
structure Op (R : Type) where
  type : OpType
  qubits : List Nat
  angle : R

structure Circuit (R : Type) where
  nqubits : Nat
  ops : List (Op R)

/-- The record `RunResult`; `outcome[q]` is the measured bit of qubit `q`. -/
structure RunResult (R : Type) where
  outcome : List Nat
  probabilities : List R

section Executor

variable {R : Type} [LinearOrderedField R]

/-- One iteration of the `switch` in `run`. `MEASURE` does nothing here, and `AMPDAMP`
has no `case`, so control leaves the `switch` without any effect. -/
def run_op (L : Libm R) (st : StateVector R × Rng R) (op : Op R) : StateVector R × Rng R :=
  let q := op.qubits.getD 0 0
  match op.type with
  | .H => (st.1.apply_gate_1q L q (gates.H_coeffs L), st.2)
  | .X => (st.1.apply_gate_1q L q gates.X_coeffs, st.2)
  | .Y => (st.1.apply_gate_1q L q gates.Y_coeffs, st.2)
  | .Z => (st.1.apply_gate_1q L q gates.Z_coeffs, st.2)
  | .S => (st.1.apply_gate_1q L q gates.S_coeffs, st.2)
  | .RX => (st.1.apply_gate_1q L q (gates.RX_coeffs L op.angle), st.2)
  | .RY => (st.1.apply_gate_1q L q (gates.RY_coeffs L op.angle), st.2)
  | .RZ => (st.1.apply_gate_1q L q (gates.RZ_coeffs L op.angle), st.2)
  | .CNOT => (st.1.apply_cx q (op.qubits.getD 1 0), st.2)
  | .DEPHASE =>
    let d := st.2.uniform
    if d.1 < op.angle then (st.1.apply_gate_1q L q gates.Z_coeffs, d.2) else (st.1, d.2)
  | .DEPOL =>
    let d := st.2.uniform
    if d.1 < op.angle then
      let e := d.2.uniform
      let u : Coeffs R :=
        if e.1 < 1 / 3 then gates.X_coeffs
        else if e.1 < 2 / 3 then gates.Y_coeffs
        else gates.Z_coeffs
      (st.1.apply_gate_1q L q u, e.2)
    else (st.1, d.2)
  | .MEASURE => st
  | .AMPDAMP => st

/-- The state and generator after the operation loop of `run`. -/
def run_state (L : Libm R) (src : RngSource R) (c : Circuit R) (seed : Nat) :
    StateVector R × Rng R :=
  c.ops.foldl (run_op L) (StateVector.init c.nqubits, Rng.seeded src seed)

/-- The executor `run(c, seed, collapse)` on the state-vector backend. -/
def run (L : Libm R) (src : RngSource R) (c : Circuit R) (seed : Nat) (collapse : Bool) :
    RunResult R :=
  let st := run_state L src c seed
  let probabilities :=
    (List.range (1 <<< c.nqubits)).map (fun i => st.1.probability_of_basis i)
  let m := st.1.measure_all st.2 collapse
  ⟨m.1, probabilities⟩

end Executor

/-! ## density_matrix.cpp -/

/-- The row-major index helper `idx(row, col, dim)`. -/
def idx (row col dim : Nat) : Nat := row * dim + col

/-- The complement `~m` of a 64-bit `std::size_t`. -/
def lnot (m : Nat) : Nat := (2 ^ 64 - 1) ^^^ m

/-- The class `DensityMatrix`: qubit count and the row-major `2^n x 2^n` buffer. -/
structure DensityMatrix (R : Type) where
  n_ : Nat
  rho_ : List (c64 R)

/-- The record `DMRunResult`. -/
structure DMRunResult (R : Type) where
  outcome : List Nat
  probabilities : List R

namespace DensityMatrix

variable {R : Type} [LinearOrderedField R]

/-- Method `dim`. -/
def dim (dm : DensityMatrix R) : Nat := 1 <<< dm.n_

/-- Constructor `DensityMatrix(n)`: the projector on `|0..0>`. -/
def init (n : Nat) : DensityMatrix R :=
  ⟨n, (List.replicate ((1 <<< n) * (1 <<< n)) (0 : c64 R)).set 0 ⟨1, 0⟩⟩

/-- Method `renormalize_`: divide by the real trace unless it is zero. The test is made on
the exact trace; a trace that vanishes only up to rounding takes the other branch in the
code. -/
def renormalize_ (dm : DensityMatrix R) : DensityMatrix R :=
  let d := dm.dim
  let tr := (List.range d).foldl (fun tr i => tr + c64.real (dm.rho_.getD (idx i i d) 0)) 0
  if tr = 0 then dm
  else
    let inv := 1 / tr
    { dm with rho_ := dm.rho_.map (c64.scale inv) }

/-- The row sweep of `apply_unitary_1q`, writing `tmp`. -/
def row_sweep (d m : Nat) (u : Coeffs R) (rho : List (c64 R)) : List (c64 R) :=
  (List.range d).foldl
    (fun tmp r =>
      let r0 := r &&& lnot m
      let r1 := r0 ||| m
      if r &&& m = 0 then
        (List.range d).foldl
          (fun tmp c =>
            tmp.set (idx r c d)
              (u.u00 * rho.getD (idx r c d) 0 + u.u01 * rho.getD (idx r1 c d) 0))
          tmp
      else
        (List.range d).foldl
          (fun tmp c =>
            tmp.set (idx r c d)
              (u.u10 * rho.getD (idx r0 c d) 0 + u.u11 * rho.getD (idx r c d) 0))
          tmp)
    (List.replicate rho.length 0)

/-- The column sweep of `apply_unitary_1q`, writing `out` from `tmp`. -/
def col_sweep (d m : Nat) (u : Coeffs R) (tmp : List (c64 R)) : List (c64 R) :=
  let u00c := c64.conj u.u00
  let u01c := c64.conj u.u01
  let u10c := c64.conj u.u10
  let u11c := c64.conj u.u11
  (List.range d).foldl
    (fun out c =>
      let c0 := c &&& lnot m
      let c1 := c0 ||| m
      if c &&& m = 0 then
        (List.range d).foldl
          (fun out r =>
            out.set (idx r c d)
              (tmp.getD (idx r c d) 0 * u00c + tmp.getD (idx r c1 d) 0 * u10c))
          out
      else
        (List.range d).foldl
          (fun out r =>
            out.set (idx r c d)
              (tmp.getD (idx r c0 d) 0 * u01c + tmp.getD (idx r c d) 0 * u11c))
          out)
    (List.replicate tmp.length 0)

/-- Method `apply_unitary_1q`. -/
def apply_unitary_1q (dm : DensityMatrix R) (target : Nat) (u : Coeffs R) : DensityMatrix R :=
  let d := dm.dim
  let m := 1 <<< target
  let tmp := row_sweep d m u dm.rho_
  let out := col_sweep d m u tmp
  renormalize_ { dm with rho_ := out }

/-- The loop of the density-matrix `apply_cx`. -/
def cx_sweep (d cm tm : Nat) (rho : List (c64 R)) : List (c64 R) :=
  (List.range d).foldl
    (fun out r =>
      let r2 := if r &&& cm ≠ 0 then r ^^^ tm else r
      (List.range d).foldl
        (fun out c =>
          let c2 := if c &&& cm ≠ 0 then c ^^^ tm else c
          out.set (idx r2 c2 d) (rho.getD (idx r c d) 0))
        out)
    (List.replicate rho.length 0)

/-- Method `apply_cx` of the density matrix. -/
def apply_cx (dm : DensityMatrix R) (control target : Nat) : DensityMatrix R :=
  { dm with rho_ := cx_sweep dm.dim (1 <<< control) (1 <<< target) dm.rho_ }

/-- The sign sweep `Z rho Z` used by `dephase` and by the third branch of `apply_pauli`:
an entry is negated when exactly one of its row and column has the target bit set.
It starts from `init` (a copy of `rho_` in `dephase`, zeros in `apply_pauli`). -/
def z_sweep (d m : Nat) (rho init : List (c64 R)) : List (c64 R) :=
  (List.range d).foldl
    (fun tmp r =>
      let rz := decide (r &&& m ≠ 0)
      (List.range d).foldl
        (fun tmp c =>
          let cz := decide (c &&& m ≠ 0)
          let val := rho.getD (idx r c d) 0
          tmp.set (idx r c d) (if xor rz cz then -val else val))
        tmp)
    init

/-- The closing loop of `dephase` and `depolarize`:
`rho_[i] = (1-p)*rho_[i] + w*other[i]`. -/
def mix (a w : R) (rho other : List (c64 R)) : List (c64 R) :=
  (List.range rho.length).foldl
    (fun x i => x.set i (c64.scale a (x.getD i 0) + c64.scale w (other.getD i 0))) rho

/-- Method `dephase`. -/
def dephase (dm : DensityMatrix R) (target : Nat) (p : R) : DensityMatrix R :=
  let d := dm.dim
  let m := 1 <<< target
  let tmp := z_sweep d m dm.rho_ dm.rho_
  renormalize_ { dm with rho_ := mix (1 - p) p dm.rho_ tmp }

/-- Branch `which == 0` of `apply_pauli`: the X conjugation. -/
def x_sweep (d m : Nat) (rho : List (c64 R)) : List (c64 R) :=
  (List.range d).foldl
    (fun out r =>
      let r2 := r ^^^ m
      (List.range d).foldl
        (fun out c =>
          let c2 := c ^^^ m
          out.set (idx r2 c2 d) (rho.getD (idx r c d) 0))
        out)
    (List.replicate rho.length 0)

/-- Branch `which == 1` of `apply_pauli`: the Y conjugation as the source computes it. -/
def y_sweep (d m : Nat) (rho : List (c64 R)) : List (c64 R) :=
  (List.range d).foldl
    (fun out r =>
      let r2 := r ^^^ m
      let rb := decide (r &&& m ≠ 0)
      (List.range d).foldl
        (fun out c =>
          let c2 := c ^^^ m
          let cb := decide (c &&& m ≠ 0)
          let v := rho.getD (idx r c d) 0
          let v1 := if rb then v * ⟨-1, 0⟩ else v * ⟨0, 1⟩
          let v2 := if cb then v1 * ⟨0, 1⟩ else v1 * ⟨-1, 0⟩
          out.set (idx r2 c2 d) v2)
        out)
    (List.replicate rho.length 0)

/-- The lambda `apply_pauli(which)` of `depolarize`: the conjugated buffer `out`. -/
def apply_pauli (d m : Nat) (rho : List (c64 R)) (which : Nat) : List (c64 R) :=
  if which = 0 then x_sweep d m rho
  else if which = 1 then y_sweep d m rho
  else z_sweep d m rho (List.replicate rho.length 0)

/-- The accumulation `acc[i] += out[i]` that ends `apply_pauli`. -/
def accumulate (acc out : List (c64 R)) : List (c64 R) :=
  (List.range acc.length).foldl (fun a i => a.set i (a.getD i 0 + out.getD i 0)) acc

/-- Method `depolarize`. -/
def depolarize (dm : DensityMatrix R) (target : Nat) (p : R) : DensityMatrix R :=
  let d := dm.dim
  let m := 1 <<< target
  let acc0 : List (c64 R) := List.replicate dm.rho_.length 0
  let acc1 := accumulate acc0 (apply_pauli d m dm.rho_ 0)
  let acc2 := accumulate acc1 (apply_pauli d m dm.rho_ 1)
  let acc3 := accumulate acc2 (apply_pauli d m dm.rho_ 2)
  renormalize_ { dm with rho_ := mix (1 - p) (p / 3) dm.rho_ acc3 }

/-- Modelled from the spec: `DensityMatrix::amp_damp`, which `run_density` calls but which is
declared and defined nowhere under `src/`. Kraus operators `K0 = diag(1, sqrt(1-p))` and
`K1 = sqrt(p) |0><1|` on the target qubit, `rho <- K0 rho K0† + K1 rho K1†`, followed by the
renormalisation that the spec places after every channel. -/
def amp_damp (L : Libm R) (dm : DensityMatrix R) (target : Nat) (p : R) : DensityMatrix R :=
  let d := dm.dim
  let m := 1 <<< target
  let k : Nat → R := fun x => if x &&& m = 0 then 1 else L.sqrt (1 - p)
  let out := (List.range d).foldl
    (fun out r =>
      (List.range d).foldl
        (fun out c =>
          let keep := c64.scale (k r * k c) (dm.rho_.getD (idx r c d) 0)
          let gain : c64 R :=
            if r &&& m = 0 ∧ c &&& m = 0 then
              c64.scale (L.sqrt p * L.sqrt p) (dm.rho_.getD (idx (r ||| m) (c ||| m) d) 0)
            else 0
          out.set (idx r c d) (keep + gain))
        out)
    (List.replicate dm.rho_.length 0)
  renormalize_ { dm with rho_ := out }

end DensityMatrix

section DensityExecutor

variable {R : Type} [LinearOrderedField R]

/-- One iteration of the `switch` in `run_density`. -/
def run_density_op (L : Libm R) (dm : DensityMatrix R) (op : Op R) : DensityMatrix R :=
  let q := op.qubits.getD 0 0
  match op.type with
  | .H => dm.apply_unitary_1q q (gates.H_coeffs L)
  | .X => dm.apply_unitary_1q q gates.X_coeffs
  | .Y => dm.apply_unitary_1q q gates.Y_coeffs
  | .Z => dm.apply_unitary_1q q gates.Z_coeffs
  | .S => dm.apply_unitary_1q q gates.S_coeffs
  | .RX => dm.apply_unitary_1q q (gates.RX_coeffs L op.angle)
  | .RY => dm.apply_unitary_1q q (gates.RY_coeffs L op.angle)
  | .RZ => dm.apply_unitary_1q q (gates.RZ_coeffs L op.angle)
  | .CNOT => dm.apply_cx q (op.qubits.getD 1 0)
  | .DEPHASE => dm.dephase q op.angle
  | .DEPOL => dm.depolarize q op.angle
  | .AMPDAMP => dm.amp_damp L q op.angle
  | .MEASURE => dm

/-- The density matrix after the operation loop of `run_density`. -/
def run_density_state (L : Libm R) (c : Circuit R) : DensityMatrix R :=
  c.ops.foldl (run_density_op L) (DensityMatrix.init c.nqubits)

/-- The executor `run_density(c, seed, collapse)`; `collapse` is ignored. -/
def run_density (L : Libm R) (src : RngSource R) (c : Circuit R) (seed : Nat)
    (_collapse : Bool) : DMRunResult R :=
  let dm := run_density_state L c
  let d := dm.dim
  let probabilities := (List.range d).map (fun i => c64.real (dm.rho_.getD (idx i i d) 0))
  let rng := Rng.seeded src seed
  let r := rng.uniform.1
  let idxv := sample_loop (fun i => probabilities.getD i 0) r (List.range d) 0
  ⟨bits_of c.nqubits idxv, probabilities⟩

end DensityExecutor

/-! ## optimize.hpp / optimize.cpp -/

/-- The record `OptimizeOptions`; every flag defaults to `true`. -/
structure OptimizeOptions where
  fuse_single_qubit : Bool
  cancel_involutory : Bool
  merge_rotations : Bool
  cancel_cnot_pairs : Bool

/-- The default options `{}`. -/
def OptimizeOptions.defaults : OptimizeOptions := ⟨true, true, true, true⟩

def is_involutory (t : OpType) : Bool :=
  t = OpType.X || t = OpType.H || t = OpType.Z

section Optimizer

variable {R : Type} [LinearOrderedField R]

/-- The test that sends an operation through the first pass verbatim. -/
def is_verbatim (t : OpType) : Bool :=
  t = OpType.MEASURE || t = OpType.CNOT || t = OpType.DEPHASE || t = OpType.DEPOL
    || t = OpType.AMPDAMP

/-- One iteration of the first loop of `optimize`; `out` is `out.ops`, `prev` its last
element (`out.ops.back()`). -/
def optimize_step1 (opts : OptimizeOptions) (out : List (Op R)) (op : Op R) : List (Op R) :=
  if is_verbatim op.type then out ++ [op]
  else
    match out.getLast? with
    | none => out ++ [op]
    | some prev =>
      if prev.qubits.length ≠ 1 ∨ prev.qubits.getD 0 0 ≠ op.qubits.getD 0 0 then out ++ [op]
      else if opts.merge_rotations ∧
          ((prev.type = OpType.RZ ∧ op.type = OpType.RZ) ∨
           (prev.type = OpType.RX ∧ op.type = OpType.RX) ∨
           (prev.type = OpType.RY ∧ op.type = OpType.RY)) then
        out.dropLast ++ [{ prev with angle := prev.angle + op.angle }]
      else if opts.cancel_involutory ∧ is_involutory prev.type ∧ prev.type = op.type then
        out.dropLast
      else if opts.cancel_involutory ∧ prev.type = OpType.S ∧ op.type = OpType.S then
        out.dropLast ++ [{ prev with type := OpType.Z, angle := 0 }]
      else out ++ [op]

/-- The first pass of `optimize`. -/
def optimize_pass1 (opts : OptimizeOptions) (ops : List (Op R)) : List (Op R) :=
  ops.foldl (optimize_step1 opts) []

/-- The test of the second pass for a rotation to drop: `fabs(angle) < 1e-15`. -/
def is_zero_rotation (op : Op R) : Bool :=
  (op.type = OpType.RX || op.type = OpType.RY || op.type = OpType.RZ)
    && decide (|op.angle| < 1 / 10 ^ 15)

/-- The second loop of `optimize`, on the operations from index `i` on. -/
def optimize_pass2 (opts : OptimizeOptions) : List (Op R) → List (Op R)
  | [] => []
  | [op] => if is_zero_rotation op then [] else [op]
  | op :: op2 :: rest =>
    if is_zero_rotation op then optimize_pass2 opts (op2 :: rest)
    else if opts.cancel_cnot_pairs ∧ op.type = OpType.CNOT ∧ op2.type = OpType.CNOT
        ∧ op.qubits = op2.qubits then
      optimize_pass2 opts rest
    else op :: optimize_pass2 opts (op2 :: rest)

/-- The function `optimize(in, opts)`. -/
def optimize (c : Circuit R) (opts : OptimizeOptions) : Circuit R :=
  ⟨c.nqubits, optimize_pass2 opts (optimize_pass1 opts c.ops)⟩

end Optimizer

/-! ## map.hpp : the line mapper -/

section Mapper

variable {R : Type} [LinearOrderedField R]

/-- The lambda `emit_swap(a, b)`: three CNOTs appended to the output. -/
def emit_swap (out : List (Op R)) (a b : Nat) : List (Op R) :=
  out ++ [⟨OpType.CNOT, [a, b], 0⟩, ⟨OpType.CNOT, [b, a], 0⟩, ⟨OpType.CNOT, [a, b], 0⟩]

/-- The inner loop over `l` that exchanges the logical qubits sitting at `a` and `a+1`. -/
def swap_phys (phys : List Nat) (a : Nat) : List Nat :=
  phys.map (fun x => if x = a then a + 1 else if x = a + 1 then a else x)

/-- The loop `while (lo+1 < hi) { emit_swap(lo, lo+1); ...; ++lo; }` of `map_to_line`;
`fuel` bounds the number of iterations. The state is `(out, phys, lo)`. -/
def walk_up : Nat → Nat → List (Op R) × List Nat × Nat → List (Op R) × List Nat × Nat
  | 0, _, st => st
  | fuel + 1, hi, (out, phys, lo) =>
    if lo + 1 < hi then walk_up fuel hi (emit_swap out lo (lo + 1), swap_phys phys lo, lo + 1)
    else (out, phys, lo)

/-- One iteration of the operation loop of `map_to_line`; the state is `(out.ops, phys)`. -/
def map_to_line_step (st : List (Op R) × List Nat) (op : Op R) : List (Op R) × List Nat :=
  let out := st.1
  let phys := st.2
  if op.type = OpType.CNOT ∧ op.qubits.length = 2 then
    let lc := op.qubits.getD 0 0
    let lt := op.qubits.getD 1 0
    let pc := phys.getD lc 0
    let pt := phys.getD lt 0
    let s1 := walk_up (pt - pc) pt (out, phys, pc)
    let pc1 := s1.2.2
    let s2 := walk_up (pc1 - pt) pc1 (s1.1, s1.2.1, pt)
    let pt1 := s2.2.2
    (s2.1 ++ [⟨OpType.CNOT, [pc1, pt1], 0⟩], s2.2.1)
  else if op.qubits.length = 1 then
    (out ++ [⟨op.type, [phys.getD (op.qubits.getD 0 0) 0], op.angle⟩], phys)
  else (out ++ [op], phys)

/-- The function `map_to_line(in)`. -/
def map_to_line (c : Circuit R) : Circuit R :=
  ⟨c.nqubits, (c.ops.foldl map_to_line_step ([], List.range c.nqubits)).1⟩

end Mapper

/-! ## unitary.cpp -/

section Unitary

variable {R : Type} [LinearOrderedField R]

/-- The function `eye(d)`. -/
def eye (d : Nat) : List (c64 R) :=
  (List.range d).foldl (fun m i => m.set (i * d + i) ⟨1, 0⟩) (List.replicate (d * d) 0)

/-- The function `kron2(A, arows, acols, B, brows, bcols)`. -/
def kron2 (A : List (c64 R)) (arows acols : Nat) (B : List (c64 R)) (brows bcols : Nat) :
    List (c64 R) :=
  (List.range arows).foldl
    (fun K i => (List.range acols).foldl
      (fun K j => (List.range brows).foldl
        (fun K r => (List.range bcols).foldl
          (fun K s =>
            K.set ((i * brows + r) * (acols * bcols) + (j * bcols + s))
              (A.getD (i * acols + j) 0 * B.getD (r * bcols + s) 0))
          K)
        K)
      K)
    (List.replicate (arows * brows * acols * bcols) 0)

/-- The function `matmul(A, B, d)`. -/
def matmul (A B : List (c64 R)) (d : Nat) : List (c64 R) :=
  (List.range d).foldl
    (fun C i => (List.range d).foldl
      (fun C k =>
        let aik := A.getD (i * d + k) 0
        (List.range d).foldl
          (fun C j => C.set (i * d + j) (C.getD (i * d + j) 0 + aik * B.getD (k * d + j) 0))
          C)
      C)
    (List.replicate (d * d) 0)

/-- The 2x2 identity literal `{{1,0},{0,0},{0,0},{1,0}}` passed to `kron2`. -/
def I2 : List (c64 R) := [⟨1, 0⟩, ⟨0, 0⟩, ⟨0, 0⟩, ⟨1, 0⟩]

/-- The function `gate_1q_matrix(u00, u01, u10, u11, n, target)`. -/
def gate_1q_matrix (u : Coeffs R) (n target : Nat) : List (c64 R) :=
  let U2 : List (c64 R) := [u.u00, u.u01, u.u10, u.u11]
  let left := target
  let right := n - target - 1
  let M1 := (List.range left).foldl (fun M _ => kron2 I2 2 2 M 2 (M.length / 2)) U2
  (List.range right).foldl (fun M _ => kron2 M (M.length / 2) 2 I2 2 2) M1

/-- The failures `build_unitary` throws. -/
inductive UnitaryError where
  | nonUnitaryOp
  | unsupportedUnitaryOp
  | unsupportedMultiQubitOp
deriving DecidableEq

/-- The validation loop that opens `build_unitary`. -/
def is_non_unitary (t : OpType) : Bool :=
  t = OpType.MEASURE || t = OpType.DEPHASE || t = OpType.DEPOL || t = OpType.AMPDAMP

/-- The `switch` of `build_unitary` choosing the coefficients of a single-qubit gate. -/
def unitary_coeffs (L : Libm R) (op : Op R) : Except UnitaryError (Coeffs R) :=
  match op.type with
  | .H => .ok (gates.H_coeffs L)
  | .X => .ok gates.X_coeffs
  | .Y => .ok gates.Y_coeffs
  | .Z => .ok gates.Z_coeffs
  | .S => .ok gates.S_coeffs
  | .RX => .ok (gates.RX_coeffs L op.angle)
  | .RY => .ok (gates.RY_coeffs L op.angle)
  | .RZ => .ok (gates.RZ_coeffs L op.angle)
  | _ => .error .unsupportedUnitaryOp

/-- The permutation matrix `P` that `build_unitary` builds for a CNOT. -/
def cnot_matrix (d cbit tbit : Nat) : List (c64 R) :=
  (List.range d).foldl
    (fun P i =>
      let c1 := decide ((i >>> cbit) &&& 1 ≠ 0)
      let j := if c1 then i ^^^ (1 <<< tbit) else i
      P.set (j * d + i) ⟨1, 0⟩)
    (List.replicate (d * d) 0)

/-- One iteration of the main loop of `build_unitary`. -/
def build_unitary_step (L : Libm R) (n d : Nat) (U : List (c64 R)) (op : Op R) :
    Except UnitaryError (List (c64 R)) :=
  if op.qubits.length = 1 then
    match unitary_coeffs L op with
    | .error e => .error e
    | .ok u => .ok (matmul (gate_1q_matrix u n (op.qubits.getD 0 0)) U d)
  else if op.type = OpType.CNOT then
    .ok (matmul (cnot_matrix d (op.qubits.getD 0 0) (op.qubits.getD 1 0)) U d)
  else .error .unsupportedMultiQubitOp

/-- The main loop of `build_unitary`, stopping at the first failure. -/
def build_unitary_loop (L : Libm R) (n d : Nat) :
    List (Op R) → List (c64 R) → Except UnitaryError (List (c64 R))
  | [], U => .ok U
  | op :: rest, U =>
    match build_unitary_step L n d U op with
    | .error e => .error e
    | .ok U1 => build_unitary_loop L n d rest U1

/-- The function `build_unitary(c)`. -/
def build_unitary (L : Libm R) (c : Circuit R) : Except UnitaryError (List (c64 R)) :=
  if c.ops.any (fun op => is_non_unitary op.type) then .error .nonUnitaryOp
  else
    let n := c.nqubits
    let d := 1 <<< n
    build_unitary_loop L n d c.ops (eye d)

end Unitary

/-! ## map_topo.hpp : the topology mapper -/

section Topology
variable {R : Type} [LinearOrderedField R]

/-- The inner loop `for (auto y : adj[x])` of `shortest_path` with its `break`;
the state is `(prev, q)`, the list holds the neighbours still to visit. -/
def bfs_visit (x t : Nat) : List Nat → List Int × List Nat → List Int × List Nat
  | [], st => st
  | y :: ys, (prev, q) =>
    if prev.getD y 0 = -1 then
      if y = t then (prev.set y (x : Int), q ++ [y])
      else bfs_visit x t ys (prev.set y (x : Int), q ++ [y])
    else bfs_visit x t ys (prev, q)

/-- The loop `while (!q.empty())` of `shortest_path`. Every pass pops one node and a node is
pushed at most once (when its `prev` entry leaves `-1`), so `adj.size()` passes suffice;
`fuel` counts them. -/
def bfs_loop (adj : List (List Nat)) (t : Nat) : Nat → List Int × List Nat → List Int
  | 0, st => st.1
  | fuel + 1, (prev, q) =>
    match q with
    | [] => prev
    | x :: rest => bfs_loop adj t fuel (bfs_visit x t (adj.getD x []) (prev, rest))

/-- The loop `while (path.back() != s) path.push_back(prev[path.back()])`; a path visits a
node at most once, so `adj.size()` passes suffice. -/
def backtrack (prev : List Int) (s : Nat) : Nat → List Nat → List Nat
  | 0, path => path
  | fuel + 1, path =>
    if path.getLastD 0 ≠ s then
      backtrack prev s fuel (path ++ [(prev.getD (path.getLastD 0) 0).toNat])
    else path

/-- The function `shortest_path(adj, s, t)`. -/
def shortest_path (adj : List (List Nat)) (s t : Nat) : List Nat :=
  if s = t then [s]
  else
    let prev0 := (List.replicate adj.length (-1 : Int)).set s (s : Int)
    let prev := bfs_loop adj t adj.length (prev0, [s])
    if prev.getD t 0 = -1 then []
    else (backtrack prev s adj.length [t]).reverse

/-- The lambda `swap_positions(a, b)` of `map_to_topology`. -/
def swap_positions (phys : List Nat) (a b : Nat) : List Nat :=
  phys.map (fun x => if x = a then b else if x = b then a else x)

/-- The loop `for (i = 0; i + 1 < path.size() - 1; ++i)` of `map_to_topology`;
the state is `(out.ops, phys)`. -/
def topology_swaps (path : List Nat) (st : List (Op R) × List Nat) : List (Op R) × List Nat :=
  (List.range (path.length - 1 - 1)).foldl
    (fun st i =>
      (emit_swap st.1 (path.getD (i + 1) 0) (path.getD (i + 2) 0),
        swap_positions st.2 (path.getD (i + 1) 0) (path.getD (i + 2) 0)))
    st

/-- One iteration of the operation loop of `map_to_topology`. -/
def map_to_topology_step (adj : List (List Nat)) (st : List (Op R) × List Nat) (op : Op R) :
    List (Op R) × List Nat :=
  let out := st.1
  let phys := st.2
  if op.type = OpType.CNOT ∧ op.qubits.length = 2 then
    let lc := op.qubits.getD 0 0
    let lt := op.qubits.getD 1 0
    let pc := phys.getD lc 0
    let pt := phys.getD lt 0
    let path := shortest_path adj pc pt
    if path.length < 2 then (out ++ [⟨OpType.CNOT, [pc, pt], 0⟩], phys)
    else
      let s := topology_swaps path (out, phys)
      (s.1 ++ [⟨OpType.CNOT, [s.2.getD lc 0, s.2.getD lt 0], 0⟩], s.2)
  else if op.qubits.length = 1 then
    (out ++ [⟨op.type, [phys.getD (op.qubits.getD 0 0) 0], op.angle⟩], phys)
  else (out ++ [op], phys)

/-- The function `map_to_topology(in, adj)`. -/
def map_to_topology (c : Circuit R) (adj : List (List Nat)) : Circuit R :=
  ⟨c.nqubits, (c.ops.foldl (map_to_topology_step adj) ([], List.range c.nqubits)).1⟩

end Topology

/-! ## grad.hpp / grad.cpp : the parameter-shift gradient -/

section Gradient
variable {R : Type} [LinearOrderedField R]

end Gradient

/-! ## mitigate.hpp : readout mitigation -/

section Mitigate
variable {R : Type} [LinearOrderedField R]

/-- The body of the innermost loop of `mitigate_readout`, at the pair `(i0, i1)`. -/
def mitigate_pair (ia ib ic id : R) (out : List R) (i0 i1 : Nat) : List R :=
  let x0 := out.getD i0 0
  let x1 := out.getD i1 0
  (out.set i0 (ia * x0 + ib * x1)).set i1 (ic * x0 + id * x1)

/-- The loop over `i` of `mitigate_readout` for one value of `base`. -/
def mitigate_block (ia ib ic id : R) (step : Nat) (out : List R) (base : Nat) : List R :=
  (List.range step).foldl
    (fun out i => mitigate_pair ia ib ic id out (base + i) (base + i + step)) out

/-- The loops over `base` and `i` for the axis `q`; `base` takes the multiples of
`step << 1` below `dim`. -/
def mitigate_axis (ia ib ic id : R) (dim : Nat) (out : List R) (q : Nat) : List R :=
  let step := 1 <<< q
  (List.range ((dim + (step <<< 1) - 1) / (step <<< 1))).foldl
    (fun out k => mitigate_block ia ib ic id step out (k * (step <<< 1))) out

/-- The function `mitigate_readout(p, nqubits, p01, p10)` in exact arithmetic. Clipping and
summing, one loop in the source, are the map and the left fold below. The code's `double`
arithmetic agrees with it up to rounding when `M` is well conditioned; the same function in
binary64 arithmetic is `mitigate_readout_f64`. -/
def mitigate_readout (p : List R) (nqubits : Nat) (p01 p10 : R) : List R :=
  let a := 1 - p01
  let b := p10
  let c := p01
  let d := 1 - p10
  let det := a * d - b * c
  if det = 0 then p
  else
    let ia := d / det
    let ib := -b / det
    let ic := -c / det
    let id := a / det
    let out := (List.range nqubits).foldl (mitigate_axis ia ib ic id p.length) p
    let clipped := out.map (fun v => if v < 0 then 0 else v)
    let s := clipped.foldl (fun s v => s + v) 0
    if s > 0 then clipped.map (fun v => v / s) else clipped

end Mitigate

/-! ## mitigate.hpp in IEEE-754 binary64 arithmetic -/

/-- A value of the type `double`: a finite number, an infinity, or NaN. The two zeros are
identified: `mitigate_readout` divides only by `det` and by `s`, both tested against zero
first, so the sign of a zero cannot be observed. -/
inductive F64 where
  | fin (x : ℚ)
  | inf (negative : Bool)
  | nan
deriving DecidableEq

namespace F64

/-- The number of binary digits of `n`; `fuel` bounds the number of halvings. -/
def bit_length : Nat → Nat → Nat
  | 0, _ => 0
  | fuel + 1, n => if n = 0 then 0 else bit_length fuel (n / 2) + 1

/-- The integer `⌊log2 (a / d)⌋` for positive `a` and `d`: the difference of the bit
lengths, lowered by one when `a / d` lies below that power of two. -/
def ilog2 (a d : Nat) : Int :=
  let e0 : Int := (bit_length a a : Int) - (bit_length d d : Int)
  if (if 0 ≤ e0 then a < 2 ^ e0.toNat * d else a * 2 ^ (-e0).toNat < d) then e0 - 1 else e0

/-- Rounding of a rational to binary64, to nearest with ties to even: 53 significant bits,
subnormal spacing `2^-1074` below `2^-1022`, infinity from `2^1024` on. -/
def round (x : ℚ) : F64 :=
  if x = 0 then fin 0
  else
    let a := x.num.natAbs
    let d := x.den
    let e := max (ilog2 a d) (-1022)
    let k := e - 52
    let num := if 0 ≤ k then a else a * 2 ^ (-k).toNat
    let den := if 0 ≤ k then d * 2 ^ k.toNat else d
    let q := num / den
    let r := num % den
    let m := if den < 2 * r ∨ (2 * r = den ∧ q % 2 = 1) then q + 1 else q
    if 1024 ≤ e ∨ (e = 1023 ∧ 2 ^ 53 ≤ m) then inf (decide (x < 0))
    else
      let y : ℚ := if 0 ≤ k then ((m * 2 ^ k.toNat : Nat) : ℚ) else mkRat m (2 ^ (-k).toNat)
      fin (if x < 0 then -y else y)

/-- Unary minus. -/
def neg : F64 → F64
  | fin x => fin (-x)
  | inf s => inf (!s)
  | nan => nan

/-- Addition of two `double`s. -/
def add : F64 → F64 → F64
  | fin x, fin y => round (x + y)
  | fin _, inf s => inf s
  | inf s, fin _ => inf s
  | inf s, inf t => if s = t then inf s else nan
  | nan, _ => nan
  | _, nan => nan

/-- Subtraction of two `double`s. -/
def sub (x y : F64) : F64 := add x (neg y)

/-- Multiplication of two `double`s. -/
def mul : F64 → F64 → F64
  | fin x, fin y => round (x * y)
  | fin x, inf s => if x = 0 then nan else inf (xor (decide (x < 0)) s)
  | inf s, fin y => if y = 0 then nan else inf (xor s (decide (y < 0)))
  | inf s, inf t => inf (xor s t)
  | nan, _ => nan
  | _, nan => nan

/-- Division of two `double`s. A zero divisor, whose result depends on the sign of the
zero, gives `nan` here; `mitigate_readout` never divides by zero. -/
def div : F64 → F64 → F64
  | fin x, fin y => if y = 0 then nan else round (x / y)
  | fin _, inf _ => fin 0
  | inf s, fin y => if y = 0 then nan else inf (xor s (decide (y < 0)))
  | inf _, inf _ => nan
  | nan, _ => nan
  | _, nan => nan

/-- The test `x == 0.0`. -/
def is_zero : F64 → Bool
  | fin x => decide (x = 0)
  | _ => false

/-- The test `x < 0.0`. -/
def lt_zero : F64 → Bool
  | fin x => decide (x < 0)
  | inf s => s
  | nan => false

/-- The test `x > 0`. -/
def gt_zero : F64 → Bool
  | fin x => decide (0 < x)
  | inf s => !s
  | nan => false

end F64

/-- The innermost loop body of `mitigate_readout` on `double`s: every product and every sum
is rounded on its own. -/
def mitigate_pair_f64 (ia ib ic id : F64) (out : List F64) (i0 i1 : Nat) : List F64 :=
  let x0 := out.getD i0 (F64.fin 0)
  let x1 := out.getD i1 (F64.fin 0)
  (out.set i0 (F64.add (F64.mul ia x0) (F64.mul ib x1))).set i1
    (F64.add (F64.mul ic x0) (F64.mul id x1))

/-- The loop over `i` of `mitigate_readout` on `double`s. -/
def mitigate_block_f64 (ia ib ic id : F64) (step : Nat) (out : List F64) (base : Nat) :
    List F64 :=
  (List.range step).foldl
    (fun out i => mitigate_pair_f64 ia ib ic id out (base + i) (base + i + step)) out

/-- The loop over `base` of `mitigate_readout` on `double`s. -/
def mitigate_axis_f64 (ia ib ic id : F64) (dim : Nat) (out : List F64) (q : Nat) : List F64 :=
  let step := 1 <<< q
  (List.range ((dim + (step <<< 1) - 1) / (step <<< 1))).foldl
    (fun out k => mitigate_block_f64 ia ib ic id step out (k * (step <<< 1))) out

/-- The function `mitigate_readout(p, nqubits, p01, p10)` with every operation carried out
in binary64 arithmetic, in the order the source writes them. -/
def mitigate_readout_f64 (p : List F64) (nqubits : Nat) (p01 p10 : F64) : List F64 :=
  let a := F64.sub (F64.fin 1) p01
  let b := p10
  let c := p01
  let d := F64.sub (F64.fin 1) p10
  let det := F64.sub (F64.mul a d) (F64.mul b c)
  if det.is_zero then p
  else
    let ia := F64.div d det
    let ib := F64.div (F64.neg b) det
    let ic := F64.div (F64.neg c) det
    let id := F64.div a det
    let out := (List.range nqubits).foldl (mitigate_axis_f64 ia ib ic id p.length) p
    let clipped := out.map (fun v => if v.lt_zero then F64.fin 0 else v)
    let s := clipped.foldl (fun s v => F64.add s v) (F64.fin 0)
    if s.gt_zero then clipped.map (fun v => F64.div v s) else clipped

/-! ## cli/main.cpp : the backend check of the `run` command -/

section CliGuard
variable {R : Type} [LinearOrderedField R]

/-- The block `// Validate ops vs backend` of the CLI `run` command: with the backend
`"state"`, the first AMPDAMP operation makes `main` print `AMPDAMP requires density backend`
and return the exit code `7`; `none` means that execution goes on. -/
def cli_validate_backend (backend : String) (ops : List (Op R)) : Option Nat :=
  if backend = "state" then
    if ops.any (fun op => decide (op.type = OpType.AMPDAMP)) then some 7 else none
  else none

end CliGuard

/-! ## rng.hpp : the PCG32 generator -/

/-- The struct `Pcg32`: two `uint64_t` fields. -/
structure Pcg32 where
  state : Nat
  inc : Nat

namespace Pcg32

/-- Method `next`: advances the 64-bit state and returns a `uint32_t`;
`-rot` is the negation of a `uint32_t`. -/
def next (g : Pcg32) : Nat × Pcg32 :=
  let oldstate := g.state
  let state := (oldstate * 6364136223846793005 + g.inc) % 2 ^ 64
  let xorshifted := (((oldstate >>> 18) ^^^ oldstate) >>> 27) % 2 ^ 32
  let rot := (oldstate >>> 59) % 2 ^ 32
  let neg_rot := (2 ^ 32 - rot) % 2 ^ 32
  ((xorshifted >>> rot) ||| ((xorshifted <<< (neg_rot &&& 31)) % 2 ^ 32), ⟨state, g.inc⟩)

/-- Method `seed_rng(seed, seq)`. -/
def seed_rng (seed seq : Nat) : Pcg32 :=
  let g0 : Pcg32 := ⟨0, ((seq <<< 1) % 2 ^ 64) ||| 1⟩
  let g1 := g0.next.2
  let g2 : Pcg32 := ⟨(g1.state + seed) % 2 ^ 64, g1.inc⟩
  g2.next.2

/-- Method `uniform01`: `(next() >> 8) * (1.0/9007199254740992.0)`. -/
def uniform01 {R : Type} [LinearOrderedField R] (g : Pcg32) : R × Pcg32 :=
  let d := g.next
  (((d.1 >>> 8 : Nat) : R) * (1 / 9007199254740992), d.2)

end Pcg32

/-! ## state_vector.cpp : snapshots -/

section SnapshotIO
variable {R : Type} [Field R]

end SnapshotIO

/-! # Specification-level definitions -/

section PairDefs
variable {R : Type} [CommRing R]

/-- Generic pair loop step. -/
def pair_step (q : Nat) (cond : Nat → Bool) (f0 f1 : c64 R → c64 R → c64 R)
    (a : List (c64 R)) (i : Nat) : List (c64 R) :=
  if i &&& 2 ^ q = 0 ∧ cond i = true then
    (a.set i (f0 (a.getD i 0) (a.getD (i ||| 2 ^ q) 0))).set (i ||| 2 ^ q)
      (f1 (a.getD i 0) (a.getD (i ||| 2 ^ q) 0))
  else a

/-- Closed form of a pair loop. -/
def pair_fn (q : Nat) (cond : Nat → Bool) (f0 f1 : c64 R → c64 R → c64 R)
    (ψ : Nat → c64 R) : Nat → c64 R := fun x =>
  if x &&& 2 ^ q = 0 then (if cond x then f0 (ψ x) (ψ (x ^^^ 2 ^ q)) else ψ x)
  else (if cond (x ^^^ 2 ^ q) then f1 (ψ (x ^^^ 2 ^ q)) (ψ x) else ψ x)

/-- The index of the pair an index belongs to: the index with bit `q` cleared. -/
def pair_base (q x : Nat) : Nat := if x &&& 2 ^ q = 0 then x else x ^^^ 2 ^ q

end PairDefs

section SpecDefs
variable {R : Type} [CommRing R]

/-- A buffer read as a function on indices (zero past the end). -/
def view (l : List (c64 R)) : Nat → c64 R := fun i => l.getD i 0

/-- The single-qubit gate on amplitudes, as the spec states it. -/
def gate_fn (q : Nat) (u : Coeffs R) (ψ : Nat → c64 R) : Nat → c64 R := fun x =>
  if x &&& 2 ^ q = 0 then u.u00 * ψ x + u.u01 * ψ (x ^^^ 2 ^ q)
  else u.u10 * ψ (x ^^^ 2 ^ q) + u.u11 * ψ x

/-- The CNOT index map: flip bit `t` when bit `c` is set. -/
def cx_index (c t x : Nat) : Nat := if x &&& 2 ^ c ≠ 0 then x ^^^ 2 ^ t else x

/-- CNOT on amplitudes. -/
def cx_fn (c t : Nat) (ψ : Nat → c64 R) : Nat → c64 R := fun x => ψ (cx_index c t x)

/-- The matrix is unitary: `U† U = I`. -/
def Coeffs.IsUnitary (u : Coeffs R) : Prop :=
  c64.conj u.u00 * u.u00 + c64.conj u.u10 * u.u10 = 1 ∧
  c64.conj u.u01 * u.u01 + c64.conj u.u11 * u.u11 = 1 ∧
  c64.conj u.u00 * u.u01 + c64.conj u.u10 * u.u11 = 0

end SpecDefs

section Laws
variable {R : Type} [LinearOrderedField R]

/-- What the development assumes of `<cmath>`: exact square roots of 1 and 2, and the
Pythagorean identity. -/
structure Libm.Lawful (L : Libm R) : Prop where
  sqrt_one : L.sqrt 1 = 1
  sqrt_two : L.sqrt 2 * L.sqrt 2 = 2
  cos_sq_add_sin_sq : ∀ x, L.cos x * L.cos x + L.sin x * L.sin x = 1

/-- Well-formed operation on `n` qubits (the invariants of the circuit data model). -/
def Op.Valid (n : Nat) (op : Op R) : Prop :=
  match op.type with
  | .CNOT => op.qubits.length = 2 ∧ op.qubits.getD 0 0 < n ∧ op.qubits.getD 1 0 < n ∧
      op.qubits.getD 0 0 ≠ op.qubits.getD 1 0
  | .MEASURE => op.qubits.length = 0
  | .DEPHASE => op.qubits.length = 1 ∧ op.qubits.getD 0 0 < n ∧ 0 ≤ op.angle ∧ op.angle ≤ 1
  | .DEPOL => op.qubits.length = 1 ∧ op.qubits.getD 0 0 < n ∧ 0 ≤ op.angle ∧ op.angle ≤ 1
  | .AMPDAMP => op.qubits.length = 1 ∧ op.qubits.getD 0 0 < n ∧ 0 ≤ op.angle ∧ op.angle ≤ 1
  | _ => op.qubits.length = 1 ∧ op.qubits.getD 0 0 < n

/-- Well-formed circuit: every operation is well formed for the circuit's qubit count. -/
def Circuit.Valid (c : Circuit R) : Prop := ∀ op ∈ c.ops, op.Valid c.nqubits

/-- Total probability of an amplitude function on `n` qubits. -/
def total (n : Nat) (ψ : Nat → c64 R) : R := ∑ x in Finset.range (2 ^ n), c64.norm (ψ x)

end Laws

section InvariantDefs
variable {R : Type} [LinearOrderedField R]

/-- The state-vector invariant: `2^n` amplitudes of total probability one. -/
def SvGood (n : Nat) (sv : StateVector R) : Prop :=
  sv.amp_.length = 2 ^ n ∧ total n (view sv.amp_) = 1

end InvariantDefs

section PureSemDefs
variable {R : Type} [LinearOrderedField R]

/-- The effect of one operation of `run` on the amplitude function and the generator:
the semantics the spec gives the executor (§4.3), with the gates acting as in §4.1. -/
def op_sem (L : Libm R) (op : Op R) (s : (Nat → c64 R) × Rng R) : (Nat → c64 R) × Rng R :=
  let q := op.qubits.getD 0 0
  match op.type with
  | .H => (gate_fn q (gates.H_coeffs L) s.1, s.2)
  | .X => (gate_fn q gates.X_coeffs s.1, s.2)
  | .Y => (gate_fn q gates.Y_coeffs s.1, s.2)
  | .Z => (gate_fn q gates.Z_coeffs s.1, s.2)
  | .S => (gate_fn q gates.S_coeffs s.1, s.2)
  | .RX => (gate_fn q (gates.RX_coeffs L op.angle) s.1, s.2)
  | .RY => (gate_fn q (gates.RY_coeffs L op.angle) s.1, s.2)
  | .RZ => (gate_fn q (gates.RZ_coeffs L op.angle) s.1, s.2)
  | .CNOT => (if q = op.qubits.getD 1 0 then s.1 else cx_fn q (op.qubits.getD 1 0) s.1, s.2)
  | .DEPHASE =>
    if s.2.uniform.1 < op.angle then (gate_fn q gates.Z_coeffs s.1, s.2.uniform.2)
    else (s.1, s.2.uniform.2)
  | .DEPOL =>
    if s.2.uniform.1 < op.angle then
      (gate_fn q
        (if s.2.uniform.2.uniform.1 < 1 / 3 then gates.X_coeffs
         else if s.2.uniform.2.uniform.1 < 2 / 3 then gates.Y_coeffs
         else gates.Z_coeffs) s.1, s.2.uniform.2.uniform.2)
    else (s.1, s.2.uniform.2)
  | .MEASURE => s
  | .AMPDAMP => s

/-- The effect of an operation list. -/
def ops_sem (L : Libm R) (ops : List (Op R)) (s : (Nat → c64 R) × Rng R) :
    (Nat → c64 R) × Rng R :=
  ops.foldl (fun s op => op_sem L op s) s

/-- The amplitude function of `|0..0>`. -/
def ket0 : Nat → c64 R := fun x => if x = 0 then 1 else 0

end PureSemDefs

section AlgebraDefs
variable {R : Type} [LinearOrderedField R]

/-- The addition laws and the values at zero that rotation merging relies on. -/
structure Libm.AngleLaws (L : Libm R) : Prop where
  cos_zero : L.cos 0 = 1
  sin_zero : L.sin 0 = 0
  cos_add : ∀ x y, L.cos (x + y) = L.cos x * L.cos y - L.sin x * L.sin y
  sin_add : ∀ x y, L.sin (x + y) = L.sin x * L.cos y + L.cos x * L.sin y

/-- The product of two 2x2 coefficient tables, `a` applied after `b`. -/
def Coeffs.mul (a b : Coeffs R) : Coeffs R :=
  ⟨a.u00 * b.u00 + a.u01 * b.u10, a.u00 * b.u01 + a.u01 * b.u11,
   a.u10 * b.u00 + a.u11 * b.u10, a.u10 * b.u01 + a.u11 * b.u11⟩

/-- The 2x2 identity. -/
def Coeffs.one : Coeffs R := ⟨1, 0, 0, 1⟩

end AlgebraDefs

section DriftDefs
variable {R : Type} [LinearOrderedField R]

end DriftDefs

section LayoutDefs
variable {R : Type} [LinearOrderedField R]

/-- A layout on `n` qubits: a list of `n` distinct physical positions below `n`,
indexed by logical qubit. -/
def IsLayout (n : Nat) (phys : List Nat) : Prop :=
  phys.length = n ∧ (∀ l, l < n → phys.getD l 0 < n) ∧
  ∀ l k, l < n → k < n → phys.getD l 0 = phys.getD k 0 → l = k

/-- Basis index `y` is basis index `x` with logical qubit `l` placed at bit `phys[l]`. -/
def Placed (n : Nat) (phys : List Nat) (x y : Nat) : Prop :=
  ∀ l, l < n → y.testBit (phys.getD l 0) = x.testBit l

/-- The basis index obtained by moving bit `l` of `x` to bit `phys[l]`. -/
def place (phys : List Nat) (x : Nat) : Nat :=
  (List.range phys.length).foldl
    (fun y l => if x.testBit l then y ||| 2 ^ phys.getD l 0 else y) 0

/-- The layout `map_to_line` ends with. -/
def final_layout (c : Circuit R) : List Nat :=
  (c.ops.foldl map_to_line_step ([], List.range c.nqubits)).2

/-- Amplitudes `φ` are the amplitudes `ψ` relabelled by the layout. -/
def Mapped (n : Nat) (phys : List Nat) (ψ φ : Nat → c64 R) : Prop :=
  ∀ x y, x < 2 ^ n → y < 2 ^ n → Placed n phys x y → φ y = ψ x

/-- The index map of a SWAP built from three CNOTs. -/
def swap_index (a b y : Nat) : Nat := cx_index a b (cx_index b a (cx_index a b y))

end LayoutDefs

section MapInvDefs
variable {R : Type} [LinearOrderedField R]

/-- The invariant of the mapper loop: the layout is a permutation, the emitted operations
are well formed, and running them gives the original state relabelled by the layout,
with the same generator state. -/
def MapInv (L : Libm R) (n : Nat) (s s0 : (Nat → c64 R) × Rng R) (out : List (Op R))
    (phys : List Nat) : Prop :=
  IsLayout n phys ∧ (∀ o ∈ out, o.Valid n) ∧
  Mapped n phys s.1 (ops_sem L out s0).1 ∧ (ops_sem L out s0).2 = s.2

end MapInvDefs

section MatrixDefs
variable {R : Type} [LinearOrderedField R]

/-- Entry `(r, c)` of the density buffer. -/
def DensityMatrix.entry (dm : DensityMatrix R) (r c : Nat) : c64 R :=
  dm.rho_.getD (idx r c dm.dim) 0

/-- The trace of the density buffer. -/
def DensityMatrix.trace (dm : DensityMatrix R) : c64 R :=
  ∑ i in Finset.range dm.dim, dm.entry i i

/-- The buffer holds `2^n * 2^n` entries. -/
def DensityMatrix.WellFormed (dm : DensityMatrix R) : Prop :=
  dm.rho_.length = dm.dim * dm.dim

/-- Matrix product of `d x d` matrices given as functions. -/
def mat_mul (d : Nat) (A B : Nat → Nat → c64 R) : Nat → Nat → c64 R :=
  fun r c => ∑ k in Finset.range d, A r k * B k c

/-- Conjugate transpose. -/
def dagger (A : Nat → Nat → c64 R) : Nat → Nat → c64 R := fun r c => c64.conj (A c r)

/-- The operator on `n` qubits that acts as the 2x2 matrix `u` on qubit `q` and as the
identity on every other qubit: entry `(r, c)` is `u[bit q of r][bit q of c]` when `r` and `c`
agree on all other bits, and zero otherwise. -/
def lift_1q (q : Nat) (u : Coeffs R) : Nat → Nat → c64 R := fun r c =>
  if c = r then (if r &&& 2 ^ q = 0 then u.u00 else u.u11)
  else if c = r ^^^ 2 ^ q then (if r &&& 2 ^ q = 0 then u.u01 else u.u10)
  else 0

end MatrixDefs

section ConjugationDefs
variable {R : Type} [LinearOrderedField R]

/-- The conjugation `G ρ G†` of the matrix `ρ` by the matrix `G`, both `d x d`. -/
def conjugation (d : Nat) (G ρ : Nat → Nat → c64 R) : Nat → Nat → c64 R :=
  mat_mul d (mat_mul d G ρ) (dagger G)

/-- The conjugate transpose of a 2x2 coefficient table. -/
def Coeffs.dagger (u : Coeffs R) : Coeffs R :=
  ⟨c64.conj u.u00, c64.conj u.u10, c64.conj u.u01, c64.conj u.u11⟩

end ConjugationDefs

section DepolDefs
variable {R : Type} [LinearOrderedField R]

/-- The product `P ρ P` for a one-qubit operator `P` on qubit `q` of `n` qubits. -/
def pauli_sandwich (n q : Nat) (P : Coeffs R) (ρ : Nat → Nat → c64 R) : Nat → Nat → c64 R :=
  mat_mul (2 ^ n) (mat_mul (2 ^ n) (lift_1q q P) ρ) (lift_1q q P)

/-- The depolarizing channel of the spec:
`(1-p) ρ + (p/3) (X ρ X + Y ρ Y + Z ρ Z)` with the Pauli matrices on qubit `q`. -/
def depolarize_spec (n q : Nat) (p : R) (ρ : Nat → Nat → c64 R) : Nat → Nat → c64 R :=
  fun r c =>
    c64.scale (1 - p) (ρ r c)
      + c64.scale (p / 3)
        (pauli_sandwich n q gates.X_coeffs ρ r c + pauli_sandwich n q gates.Y_coeffs ρ r c
          + pauli_sandwich n q gates.Z_coeffs ρ r c)

end DepolDefs

section ColumnDefs
variable {R : Type} [LinearOrderedField R]

/-- Column 0 of a row-major `d x d` matrix: the image of `|0..0>`. -/
def column0 (d : Nat) (U : List (c64 R)) : List (c64 R) :=
  (List.range d).map (fun r => U.getD (r * d) 0)

end ColumnDefs

section SamplingDefs
variable {R : Type} [LinearOrderedField R]

/-- The cumulative probability `Σ_{i ≤ k} p i` that the sampling loop compares the draw with. -/
def cumulative (p : Nat → R) (k : Nat) : R := ∑ i in Finset.range (k + 1), p i

/-- The basis probabilities `|a_i|²` of a state vector. -/
def StateVector.prob (sv : StateVector R) : Nat → R := fun i => c64.norm (sv.amp_.getD i 0)

end SamplingDefs

section SamplingCircuits
variable {R : Type} [LinearOrderedField R]

/-- The Bell circuit of the acceptance scenarios: `H 0; CNOT 0 1; MEASURE ALL` on two qubits. -/
def bell_circuit : Circuit R :=
  ⟨2, [⟨OpType.H, [0], 0⟩, ⟨OpType.CNOT, [0, 1], 0⟩, ⟨OpType.MEASURE, [], 0⟩]⟩

/-- The circuit GHZ(3): `H 0; CNOT 0 1; CNOT 0 2; MEASURE ALL` on three qubits. -/
def ghz_circuit : Circuit R :=
  ⟨3, [⟨OpType.H, [0], 0⟩, ⟨OpType.CNOT, [0, 1], 0⟩, ⟨OpType.CNOT, [0, 2], 0⟩,
    ⟨OpType.MEASURE, [], 0⟩]⟩

end SamplingCircuits

section LineAdjDefs
variable {R : Type} [LinearOrderedField R]

/-- The operation acts on two qubits `c`, `t` with `|c - t| = 1`. -/
def Op.LineAdjacent (o : Op R) : Prop :=
  o.qubits.length = 2 ∧
    (o.qubits.getD 0 0 + 1 = o.qubits.getD 1 0 ∨ o.qubits.getD 1 0 + 1 = o.qubits.getD 0 0)

end LineAdjDefs

section TopologyDefs

/-- Nodes `a` and `b` are joined by an edge of the adjacency list. -/
def Adjacent (adj : List (List Nat)) (a b : Nat) : Prop := b ∈ adj.getD a []

instance (adj : List (List Nat)) (a b : Nat) : Decidable (Adjacent adj a b) := by
  unfold Adjacent
  infer_instance

/-- The adjacency list is undirected: every edge is listed at both of its ends. -/
def Undirected (adj : List (List Nat)) : Prop :=
  ∀ a, a < adj.length → ∀ b ∈ adj.getD a [], b < adj.length ∧ a ∈ adj.getD b []

/-- The path graph `0 - 1 - 2 - 3`. -/
def line4 : List (List Nat) := [[1], [0, 2], [1, 3], [2]]

end TopologyDefs

section GramDefs
variable {R : Type} [LinearOrderedField R]

/-- Entry `(i, j)` of `U† U` for a row-major `d x d` matrix `U`. -/
def gram (d : Nat) (U : List (c64 R)) (i j : Nat) : c64 R :=
  ((List.range d).map (fun r => c64.conj (U.getD (r * d + i) 0) * U.getD (r * d + j) 0)).sum

/-- Row `r` of a row-major `d x d` matrix. -/
def matrix_row (d : Nat) (U : List (c64 R)) (r : Nat) : List (c64 R) :=
  (List.range d).map (fun c => U.getD (r * d + c) 0)

end GramDefs

section NonUnitaryDefs
variable {R : Type} [LinearOrderedField R]

/-- The operation is a measurement or a noise channel. -/
def Op.NonUnitary (op : Op R) : Prop :=
  op.type = OpType.MEASURE ∨ op.type = OpType.DEPHASE ∨ op.type = OpType.DEPOL ∨
    op.type = OpType.AMPDAMP

end NonUnitaryDefs

section GradientDefs
variable {R : Type} [LinearOrderedField R]

end GradientDefs

section SkippedDefs
variable {R : Type} [LinearOrderedField R]

/-- The operation is a CNOT whose control equals its target. -/
def Op.DegenerateCnot (op : Op R) : Prop :=
  op.type = OpType.CNOT ∧ op.qubits.getD 0 0 = op.qubits.getD 1 0

instance (op : Op R) : Decidable op.DegenerateCnot := by
  unfold Op.DegenerateCnot
  infer_instance

end SkippedDefs

section GhzDefs
variable {R : Type} [LinearOrderedField R]

/-- The GHZ circuit on `n` qubits: `H 0; CNOT 0 1; …; CNOT 0 (n-1)`, with a final
`MEASURE` when `measure` is set. -/
def ghz (n : Nat) (measure : Bool) : Circuit R :=
  ⟨n, ⟨OpType.H, [0], 0⟩ ::
    ((List.range (n - 1)).map (fun k => (⟨OpType.CNOT, [0, k + 1], 0⟩ : Op R))
      ++ (if measure then [⟨OpType.MEASURE, [], 0⟩] else []))⟩

/-- The amplitudes of the GHZ state on `m` qubits: `1/sqrt 2` at the indices `0` and
`2^m - 1`, zero elsewhere. -/
def ghz_state (L : Libm R) (m : Nat) : Nat → c64 R :=
  fun x => if x = 0 ∨ x = 2 ^ m - 1 then ⟨1 / L.sqrt 2, 0⟩ else 0

end GhzDefs

section MitigateDefs
variable {R : Type} [LinearOrderedField R]

/-- A real buffer read as a function on indices (zero past the end). -/
def rview (l : List R) : Nat → R := fun i => l.getD i 0

/-- The 2x2 matrix `[[a, b], [c, d]]` applied along the axis `q` of a vector indexed by
bit patterns. -/
def raxis (q : Nat) (a b c d : R) (f : Nat → R) : Nat → R := fun x =>
  if x &&& 2 ^ q = 0 then a * f x + b * f (x ^^^ 2 ^ q) else c * f (x ^^^ 2 ^ q) + d * f x

/-- The invariant of the loops of one axis, after every pair whose lower index is below `m`
has been updated. -/
def AxisInv (n q : Nat) (a b c d : R) (out o : List R) (m : Nat) : Prop :=
  o.length = 2 ^ n ∧
  ∀ x, x < 2 ^ n →
    o.getD x 0 = if pair_base q x < m then raxis q a b c d (rview out) x else out.getD x 0

end MitigateDefs

section AxesDefs
variable {R : Type} [LinearOrderedField R]

/-- The 2x2 matrix applied along the axes `0, 1, …, k-1`, in this order. -/
def axes_fn (k : Nat) (a b c d : R) (f : Nat → R) : Nat → R :=
  (List.range k).foldl (fun f q => raxis q a b c d f) f

/-- The readout-noise map of the claims: the assignment matrix
`M = [[1 - p01, p10], [p01, 1 - p10]]` applied to `p` along every qubit axis `0 .. n-1`.
Entry `x` of the result is the value at `x` of the function obtained from `p` by `raxis`
along each axis in turn; no loop of `mitigate_readout` takes part. -/
def apply_readout_noise (p : List R) (n : Nat) (p01 p10 : R) : List R :=
  (List.range (2 ^ n)).map (axes_fn n (1 - p01) p10 p01 (1 - p10) (rview p))

end AxesDefs

section MitigateParts
variable {R : Type} [LinearOrderedField R]

/-- The buffer `out` of `mitigate_readout` after its axis loops (the case `det ≠ 0`). -/
def mitigate_axes (p : List R) (nqubits : Nat) (p01 p10 : R) : List R :=
  (List.range nqubits).foldl
    (mitigate_axis ((1 - p10) / ((1 - p01) * (1 - p10) - p10 * p01))
      (-p10 / ((1 - p01) * (1 - p10) - p10 * p01))
      (-p01 / ((1 - p01) * (1 - p10) - p10 * p01))
      ((1 - p01) / ((1 - p01) * (1 - p10) - p10 * p01)) p.length) p

/-- The closing lines of `mitigate_readout`: clip the negative entries and divide by the
sum when it is positive. -/
def clip_renorm (out : List R) : List R :=
  if (out.map (fun v => if v < 0 then 0 else v)).foldl (fun s v => s + v) 0 > 0 then
    (out.map (fun v => if v < 0 then 0 else v)).map
      (fun v => v / (out.map (fun v => if v < 0 then 0 else v)).foldl (fun s v => s + v) 0)
  else out.map (fun v => if v < 0 then 0 else v)

end MitigateParts

section SwapCountDefs
variable {R : Type} [LinearOrderedField R]

/-- The number of SWAPs that `map_to_line` inserts in front of `op` under the layout `phys`:
for a two-qubit CNOT whose control and target sit at `pc` and `pt`, one per position
strictly between them; none for any other operation. -/
def line_swaps (phys : List Nat) (op : Op R) : Nat :=
  if op.type = OpType.CNOT ∧ op.qubits.length = 2 then
    (phys.getD (op.qubits.getD 1 0) 0 - phys.getD (op.qubits.getD 0 0) 0 - 1) +
    (phys.getD (op.qubits.getD 0 0) 0 - phys.getD (op.qubits.getD 1 0) 0 - 1)
  else 0

/-- The SWAPs inserted over a whole operation list, the layout evolving as in
`map_to_line`. -/
def total_swaps : List Nat → List (Op R) → Nat
  | _, [] => 0
  | phys, op :: rest =>
    line_swaps phys op + total_swaps (map_to_line_step ([], phys) op).2 rest

end SwapCountDefs

section CnotPermDefs
variable {R : Type} [LinearOrderedField R]

/-- The permutation matrix `P` of CNOT with control `c` and target `t`: `P|k> = |σ(k)>`,
where `σ = cx_index c t` flips bit `t` exactly when bit `c` is set. -/
def cnot_perm (c t : Nat) : Nat → Nat → c64 R := fun r k =>
  if r = cx_index c t k then 1 else 0

end CnotPermDefs

section ButterflyDefs

/-- The index pairs `(i0, i1)` that the loops of `mitigate_readout` visit for the axis `q`
on a buffer of `dim` entries, in loop order: `base` runs over the multiples of `2·step`
below `dim`, `i` over `0 .. step-1`, `i0 = base + i` and `i1 = i0 + step`. -/
def mitigate_axis_pairs (dim q : Nat) : List (Nat × Nat) :=
  (List.range ((dim + ((1 <<< q) <<< 1) - 1) / ((1 <<< q) <<< 1))).flatMap
    (fun k => (List.range (1 <<< q)).map
      (fun i => (k * ((1 <<< q) <<< 1) + i, k * ((1 <<< q) <<< 1) + i + (1 <<< q))))

end ButterflyDefs

section PathDefs

/-- `Reach adj s k v`: a walk with `k` edges leads from `s` to `v`. -/
inductive Reach (adj : List (List Nat)) (s : Nat) : Nat → Nat → Prop
  | refl : Reach adj s 0 s
  | step {k u w : Nat} : Reach adj s k u → Adjacent adj u w → Reach adj s (k + 1) w

/-- `p` is a path from `s` to `t`: it starts at `s`, ends at `t`, and consecutive nodes are
adjacent. -/
def IsPath (adj : List (List Nat)) (s t : Nat) (p : List Nat) : Prop :=
  p.head? = some s ∧ p.getLast? = some t ∧ List.Chain' (Adjacent adj) p

/-- `PrevChain adj s prev k v`: following `prev` from `v` reaches `s` after `k` steps, each
of them along an edge of `adj`, and no node before the last is `s`. -/
inductive PrevChain (adj : List (List Nat)) (s : Nat) (prev : List Int) : Nat → Nat → Prop
  | base : PrevChain adj s prev 0 s
  | step {k u v : Nat} : v ≠ s → prev.getD v 0 = (u : Int) → Adjacent adj u v →
      PrevChain adj s prev k u → PrevChain adj s prev (k + 1) v

/-- `D` gives the distance from `s` of every node that a walk from `s` reaches. -/
structure IsDist (adj : List (List Nat)) (s : Nat) (D : Nat → Nat) : Prop where
  wit : ∀ k v, Reach adj s k v → Reach adj s (D v) v
  le : ∀ k v, Reach adj s k v → D v ≤ k

/-- The table `prev2` keeps every entry of `prev` that is not `-1`. -/
def PrevExt (prev prev2 : List Int) : Prop :=
  prev2.length = prev.length ∧ ∀ v, prev.getD v 0 ≠ -1 → prev2.getD v 0 = prev.getD v 0

/-- The invariant of the breadth-first search of `shortest_path` while `t` is not reached;
`act` lists the visited nodes that may still have unvisited neighbours (the queue, with the
node being expanded in front). -/
structure BfsInv (adj : List (List Nat)) (s : Nat) (D : Nat → Nat) (prev : List Int)
    (act : List Nat) : Prop where
  len : prev.length = adj.length
  src : prev.getD s 0 = (s : Int)
  par : ∀ v, v < adj.length → prev.getD v 0 ≠ -1 → v ≠ s →
    ∃ u, u < adj.length ∧ prev.getD v 0 = (u : Int) ∧ prev.getD u 0 ≠ -1 ∧
      Adjacent adj u v ∧ D v = D u + 1
  reach : ∀ v, v < adj.length → prev.getD v 0 ≠ -1 → ∃ k, Reach adj s k v
  act_ok : ∀ a ∈ act, a < adj.length ∧ prev.getD a 0 ≠ -1
  sorted : act.Pairwise (fun a b => D a ≤ D b)
  near : ∀ a ∈ act, ∀ b ∈ act, D b ≤ D a + 1
  closed : ∀ v, v < adj.length → prev.getD v 0 ≠ -1 → v ∉ act →
    ∀ w ∈ adj.getD v [], prev.getD w 0 ≠ -1
  count : ∀ v, v < adj.length → prev.getD v 0 ≠ -1 → D v + prev.count (-1) < adj.length

end PathDefs

/-! # Theorems -/

/-! ## Complex scalars: basic facts -/
section ScalarLemmas
variable {R : Type} [CommRing R]

@[ext] theorem c64.ext {a b : c64 R} (hr : a.re = b.re) (hi : a.im = b.im) : a = b := by
  cases a; cases b; simp_all

@[simp] theorem c64.zero_re : (0 : c64 R).re = 0 := rfl
@[simp] theorem c64.zero_im : (0 : c64 R).im = 0 := rfl
@[simp] theorem c64.one_re : (1 : c64 R).re = 1 := rfl
@[simp] theorem c64.one_im : (1 : c64 R).im = 0 := rfl
@[simp] theorem c64.add_re (a b : c64 R) : (a + b).re = a.re + b.re := rfl
@[simp] theorem c64.add_im (a b : c64 R) : (a + b).im = a.im + b.im := rfl
@[simp] theorem c64.neg_re (a : c64 R) : (-a).re = -a.re := rfl
@[simp] theorem c64.neg_im (a : c64 R) : (-a).im = -a.im := rfl
@[simp] theorem c64.sub_re (a b : c64 R) : (a - b).re = a.re - b.re := rfl
@[simp] theorem c64.sub_im (a b : c64 R) : (a - b).im = a.im - b.im := rfl
@[simp] theorem c64.mul_re (a b : c64 R) : (a * b).re = a.re * b.re - a.im * b.im := rfl
@[simp] theorem c64.mul_im (a b : c64 R) : (a * b).im = a.re * b.im + a.im * b.re := rfl
@[simp] theorem c64.conj_re (a : c64 R) : (c64.conj a).re = a.re := rfl
@[simp] theorem c64.conj_im (a : c64 R) : (c64.conj a).im = -a.im := rfl
@[simp] theorem c64.scale_re (x : R) (a : c64 R) : (c64.scale x a).re = x * a.re := rfl
@[simp] theorem c64.scale_im (x : R) (a : c64 R) : (c64.scale x a).im = x * a.im := rfl
@[simp] theorem c64.real_eq (a : c64 R) : c64.real a = a.re := rfl

theorem c64.mk_zero : (⟨0, 0⟩ : c64 R) = 0 := rfl
theorem c64.mk_one : (⟨1, 0⟩ : c64 R) = 1 := rfl

theorem c64.scale_one (a : c64 R) : c64.scale 1 a = a := by
  ext <;> simp

theorem c64.norm_zero : c64.norm (0 : c64 R) = 0 := by
  simp [c64.norm]

theorem c64.norm_one : c64.norm (1 : c64 R) = 1 := by
  simp [c64.norm]

theorem c64.norm_scale (x : R) (a : c64 R) : c64.norm (c64.scale x a) = x * x * c64.norm a := by
  simp only [c64.norm, c64.scale_re, c64.scale_im]; ring

end ScalarLemmas

theorem c64.norm_nonneg {R : Type} [LinearOrderedField R] (a : c64 R) : 0 ≤ c64.norm a := by
  unfold c64.norm
  nlinarith [mul_self_nonneg a.re, mul_self_nonneg a.im]

/-! ## Buffers: reading after writing -/
section BufferLemmas
variable {α : Type}

theorem getD_set (l : List α) (i j : Nat) (v d : α) :
    (l.set i v).getD j d = if i = j ∧ i < l.length then v else l.getD j d := by
  simp only [List.getD_eq_getElem?_getD, List.getElem?_set]
  by_cases h : i = j
  · subst h
    by_cases h2 : i < l.length
    · simp [h2]
    · simp [h2, List.getElem?_eq_none (not_lt.mp h2)]
  · simp [h]

theorem getD_replicate (n j : Nat) (v d : α) :
    (List.replicate n v).getD j d = if j < n then v else d := by
  simp only [List.getD_eq_getElem?_getD, List.getElem?_replicate]
  split <;> rfl

theorem getD_of_length_le (l : List α) (j : Nat) (d : α) (h : l.length ≤ j) :
    l.getD j d = d := by
  simp [List.getD_eq_getElem?_getD, List.getElem?_eq_none h]

theorem ext_getD (l1 l2 : List α) (d : α) (hl : l1.length = l2.length)
    (h : ∀ i, i < l1.length → l1.getD i d = l2.getD i d) : l1 = l2 := by
  apply List.ext_getElem hl
  intro i h1 h2
  have := h i h1
  simpa [List.getD_eq_getElem?_getD, List.getElem?_eq_getElem h1, List.getElem?_eq_getElem h2]
    using this

theorem map_range_getD (l : List α) (d : α) :
    (List.range l.length).map (fun i => l.getD i d) = l := by
  apply ext_getD _ _ d (by simp)
  intro i hi
  simp only [List.length_map, List.length_range] at hi
  simp [List.getD_eq_getElem?_getD, List.getElem?_eq_getElem hi, hi]

theorem sum_map_range {M : Type} [AddCommMonoid M] (f : Nat → M) (n : Nat) :
    ((List.range n).map f).sum = ∑ i in Finset.range n, f i := by
  induction n with
  | zero => simp
  | succ n ih => rw [List.sum_range_succ, Finset.sum_range_succ, ih]

end BufferLemmas

/-! ## Bit masks `2^q` -/
section BitLemmas

theorem and_pow_eq_zero_iff (x q : Nat) : x &&& 2 ^ q = 0 ↔ x.testBit q = false := by
  rw [Nat.and_two_pow]
  cases x.testBit q <;> simp

theorem and_pow_ne_zero_iff (x q : Nat) : x &&& 2 ^ q ≠ 0 ↔ x.testBit q = true := by
  rw [Ne, and_pow_eq_zero_iff]; simp

theorem testBit_or_pow (x q i : Nat) :
    (x ||| 2 ^ q).testBit i = (x.testBit i || decide (q = i)) := by
  rw [Nat.testBit_or, Nat.testBit_two_pow]

theorem testBit_xor_pow (x q i : Nat) :
    (x ^^^ 2 ^ q).testBit i = (x.testBit i ^^ decide (q = i)) := by
  rw [Nat.testBit_xor, Nat.testBit_two_pow]

theorem xor_pow_lt (x q n : Nat) (hx : x < 2 ^ n) (hq : q < n) : x ^^^ 2 ^ q < 2 ^ n :=
  Nat.xor_lt_two_pow hx (Nat.pow_lt_pow_right (by decide) hq)

theorem or_pow_lt (x q n : Nat) (hx : x < 2 ^ n) (hq : q < n) : x ||| 2 ^ q < 2 ^ n :=
  Nat.or_lt_two_pow hx (Nat.pow_lt_pow_right (by decide) hq)

theorem xor_pow_xor_pow (x q : Nat) : (x ^^^ 2 ^ q) ^^^ 2 ^ q = x :=
  Nat.xor_cancel_right _ _

theorem xor_pow_ne (x q : Nat) : x ^^^ 2 ^ q ≠ x := by
  intro h
  have := congrArg (fun y => y.testBit q) h
  simp [testBit_xor_pow] at this

theorem or_pow_eq_xor_pow (x q : Nat) (h : x &&& 2 ^ q = 0) : x ||| 2 ^ q = x ^^^ 2 ^ q := by
  rw [and_pow_eq_zero_iff] at h
  apply Nat.eq_of_testBit_eq
  intro i
  rw [testBit_or_pow, testBit_xor_pow]
  by_cases hi : q = i
  · subst hi; simp [h]
  · simp [hi]

theorem xor_pow_and_pow (x q : Nat) :
    (x ^^^ 2 ^ q) &&& 2 ^ q = 0 ↔ x &&& 2 ^ q ≠ 0 := by
  rw [and_pow_eq_zero_iff, and_pow_ne_zero_iff, testBit_xor_pow]
  cases x.testBit q <;> simp

theorem xor_pow_and_pow_other (x q c : Nat) (h : c ≠ q) :
    (x ^^^ 2 ^ q) &&& 2 ^ c = 0 ↔ x &&& 2 ^ c = 0 := by
  rw [and_pow_eq_zero_iff, and_pow_eq_zero_iff, testBit_xor_pow]
  have : decide (q = c) = false := by simp; exact fun h2 => h h2.symm
  rw [this]; simp

end BitLemmas

section PairLoop
variable {R : Type} [CommRing R]

theorem pair_base_clear (q x : Nat) : pair_base q x &&& 2 ^ q = 0 := by
  unfold pair_base
  split
  · assumption
  · rw [xor_pow_and_pow]; assumption

theorem pair_base_eq_iff (q x k : Nat) (hk : k &&& 2 ^ q = 0) :
    pair_base q x = k ↔ x = k ∨ x = k ^^^ 2 ^ q := by
  unfold pair_base
  constructor
  · intro h
    split at h
    · exact Or.inl h
    · right; rw [← h, xor_pow_xor_pow]
  · rintro (h | h)
    · subst h; simp [hk]
    · subst h
      have : ¬ ((k ^^^ 2 ^ q) &&& 2 ^ q = 0) := by
        rw [xor_pow_and_pow]; simp [hk]
      simp [this, xor_pow_xor_pow]

theorem pair_loop_inv (q n : Nat) (hq : q < n) (cond : Nat → Bool)
    (f0 f1 : c64 R → c64 R → c64 R) (amp : List (c64 R)) (hlen : amp.length = 2 ^ n)
    (k : Nat) (hk : k ≤ 2 ^ n) :
    ((List.range k).foldl (pair_step q cond f0 f1) amp).length = 2 ^ n ∧
    ∀ x, ((List.range k).foldl (pair_step q cond f0 f1) amp).getD x 0 =
      if pair_base q x < k then pair_fn q cond f0 f1 (fun i => amp.getD i 0) x
      else amp.getD x 0 := by
  induction k with
  | zero => simp [hlen]
  | succ k ih =>
    obtain ⟨ihl, ihv⟩ := ih (by omega)
    rw [List.range_succ, List.foldl_append]
    simp only [List.foldl_cons, List.foldl_nil]
    generalize (List.range k).foldl (pair_step q cond f0 f1) amp = a at ihl ihv
    have hklt : k < 2 ^ n := by omega
    by_cases hc : k &&& 2 ^ q = 0
    · have hj : k ||| 2 ^ q = k ^^^ 2 ^ q := or_pow_eq_xor_pow k q hc
      have hjlt : k ^^^ 2 ^ q < 2 ^ n := xor_pow_lt k q n hklt hq
      have hbk : pair_base q k = k := by simp [pair_base, hc]
      have hbj : pair_base q (k ^^^ 2 ^ q) = k := by
        rw [pair_base_eq_iff q _ k hc]; right; rfl
      have hak : a.getD k 0 = amp.getD k 0 := by rw [ihv, hbk]; simp
      have haj : a.getD (k ^^^ 2 ^ q) 0 = amp.getD (k ^^^ 2 ^ q) 0 := by
        rw [ihv, hbj]; simp
      by_cases hcond : cond k = true
      · have hstep : pair_step q cond f0 f1 a k =
            (a.set k (f0 (amp.getD k 0) (amp.getD (k ^^^ 2 ^ q) 0))).set (k ^^^ 2 ^ q)
              (f1 (amp.getD k 0) (amp.getD (k ^^^ 2 ^ q) 0)) := by
          unfold pair_step
          rw [if_pos ⟨hc, hcond⟩, hj, hak, haj]
        rw [hstep]
        refine ⟨by simp [ihl], ?_⟩
        intro x
        rw [getD_set, getD_set, List.length_set, ihl]
        by_cases hx1 : x = k ^^^ 2 ^ q
        · subst hx1
          have hnc : ¬ ((k ^^^ 2 ^ q) &&& 2 ^ q = 0) := by
            rw [xor_pow_and_pow]; simp [hc]
          simp [hjlt, hbj, pair_fn, hnc, xor_pow_xor_pow, hcond]
        · by_cases hx2 : x = k
          · subst hx2
            have : ¬ (x ^^^ 2 ^ q = x) := xor_pow_ne x q
            simp [this, hklt, hbk, pair_fn, hc, hcond]
          · have hne : pair_base q x ≠ k := by
              rw [Ne, pair_base_eq_iff q x k hc]; tauto
            have h1 : ¬ (k ^^^ 2 ^ q = x) := fun h => hx1 h.symm
            have h2 : ¬ (k = x) := fun h => hx2 h.symm
            simp only [h1, h2, false_and, if_false, ihv]
            have : (pair_base q x < k + 1) ↔ (pair_base q x < k) := by omega
            simp only [this]
      · have hstep : pair_step q cond f0 f1 a k = a := by
          simp [pair_step, hcond]
        rw [hstep]
        refine ⟨ihl, ?_⟩
        intro x
        rw [ihv]
        by_cases hb : pair_base q x = k
        · have hx := (pair_base_eq_iff q x k hc).mp hb
          have hcf : cond k = false := by simpa using hcond
          rcases hx with hx | hx
          · subst hx
            simp [hb, pair_fn, hc, hcf]
          · subst hx
            have hnc : ¬ ((k ^^^ 2 ^ q) &&& 2 ^ q = 0) := by
              rw [xor_pow_and_pow]; simp [hc]
            simp [hb, pair_fn, hnc, xor_pow_xor_pow, hcf]
        · have : (pair_base q x < k + 1) ↔ (pair_base q x < k) := by omega
          simp only [this]
    · have hstep : pair_step q cond f0 f1 a k = a := by
        simp [pair_step, hc]
      rw [hstep]
      refine ⟨ihl, ?_⟩
      intro x
      rw [ihv]
      have hb : pair_base q x ≠ k := by
        intro h
        have := pair_base_clear q x
        rw [h] at this
        exact hc this
      have : (pair_base q x < k + 1) ↔ (pair_base q x < k) := by omega
      simp only [this]

end PairLoop

section LoopForms
variable {R : Type} [Field R]

theorem view_of_le (l : List (c64 R)) (x : Nat) (h : l.length ≤ x) : view l x = 0 :=
  getD_of_length_le l x 0 h

theorem gate_1q_loop_eq (q : Nat) (u : Coeffs R) (amp : List (c64 R)) :
    StateVector.gate_1q_loop (1 <<< q) u amp =
      (List.range amp.length).foldl
        (pair_step q (fun _ => true) (fun a b => u.u00 * a + u.u01 * b)
          (fun a b => u.u10 * a + u.u11 * b)) amp := by
  unfold StateVector.gate_1q_loop
  congr 1
  funext a i
  simp [pair_step, StateVector.pair_update, Nat.one_shiftLeft]

theorem gate_1q_loop_spec (q n : Nat) (hq : q < n) (u : Coeffs R) (amp : List (c64 R))
    (hlen : amp.length = 2 ^ n) :
    (StateVector.gate_1q_loop (1 <<< q) u amp).length = 2 ^ n ∧
    view (StateVector.gate_1q_loop (1 <<< q) u amp) = gate_fn q u (view amp) := by
  rw [gate_1q_loop_eq, hlen]
  obtain ⟨hl, hv⟩ := pair_loop_inv q n hq (fun _ => true) (fun a b => u.u00 * a + u.u01 * b)
    (fun a b => u.u10 * a + u.u11 * b) amp hlen (2 ^ n) le_rfl
  refine ⟨hl, ?_⟩
  funext x
  show List.getD _ x 0 = _
  rw [hv]
  by_cases hb : pair_base q x < 2 ^ n
  · simp [hb, pair_fn, gate_fn, view]
  · have hx : 2 ^ n ≤ x := by
      by_contra hlt
      apply hb
      unfold pair_base
      split
      · omega
      · exact xor_pow_lt x q n (by omega) hq
    have hx2 : 2 ^ n ≤ x ^^^ 2 ^ q := by
      by_contra hlt
      have := xor_pow_lt (x ^^^ 2 ^ q) q n (by omega) hq
      rw [xor_pow_xor_pow] at this
      omega
    have h1 : view amp x = 0 := view_of_le amp x (by omega)
    have h2 : view amp (x ^^^ 2 ^ q) = 0 := view_of_le amp _ (by omega)
    have h3 : amp.getD x 0 = 0 := h1
    simp [-List.getD_eq_getElem?_getD, hb, gate_fn, h1, h2, h3]

theorem cx_loop_eq (c t : Nat) (amp : List (c64 R)) :
    StateVector.cx_loop (1 <<< c) (1 <<< t) amp =
      (List.range amp.length).foldl
        (pair_step t (fun i => decide (i &&& 2 ^ c ≠ 0)) (fun _ b => b) (fun a _ => a)) amp := by
  unfold StateVector.cx_loop
  congr 1
  funext a i
  simp only [pair_step, StateVector.swap_entries, Nat.one_shiftLeft, decide_eq_true_eq]
  by_cases h1 : i &&& 2 ^ c ≠ 0 <;> by_cases h2 : i &&& 2 ^ t = 0 <;> simp [h1, h2]

theorem cx_loop_spec (c t n : Nat) (ht : t < n) (hct : c ≠ t) (amp : List (c64 R))
    (hlen : amp.length = 2 ^ n) :
    (StateVector.cx_loop (1 <<< c) (1 <<< t) amp).length = 2 ^ n ∧
    view (StateVector.cx_loop (1 <<< c) (1 <<< t) amp) = cx_fn c t (view amp) := by
  rw [cx_loop_eq, hlen]
  obtain ⟨hl, hv⟩ := pair_loop_inv t n ht (fun i => decide (i &&& 2 ^ c ≠ 0)) (fun _ b => b)
    (fun a _ => a) amp hlen (2 ^ n) le_rfl
  refine ⟨hl, ?_⟩
  funext x
  show List.getD _ x 0 = _
  rw [hv]
  have hother : ((x ^^^ 2 ^ t) &&& 2 ^ c = 0) ↔ (x &&& 2 ^ c = 0) :=
    xor_pow_and_pow_other x t c hct
  by_cases hb : pair_base t x < 2 ^ n
  · simp only [hb, if_true, pair_fn, cx_fn, cx_index, view, decide_eq_true_eq, hother]
    by_cases h1 : x &&& 2 ^ c = 0 <;> by_cases h2 : x &&& 2 ^ t = 0 <;>
      simp [-List.getD_eq_getElem?_getD, h1, h2, hother, xor_pow_xor_pow]
  · have hx : 2 ^ n ≤ x := by
      by_contra hlt
      apply hb
      unfold pair_base
      split
      · omega
      · exact xor_pow_lt x t n (by omega) ht
    have hx2 : 2 ^ n ≤ x ^^^ 2 ^ t := by
      by_contra hlt
      have := xor_pow_lt (x ^^^ 2 ^ t) t n (by omega) ht
      rw [xor_pow_xor_pow] at this
      omega
    have h1 : view amp x = 0 := view_of_le amp x (by omega)
    have h2 : view amp (x ^^^ 2 ^ t) = 0 := view_of_le amp _ (by omega)
    have h3 : amp.getD x 0 = 0 := h1
    simp only [hb, if_false, h3, cx_fn, cx_index]
    split <;> simp [h1, h2]

end LoopForms

section Unitarity
variable {R : Type} [LinearOrderedField R]

theorem X_unitary : (gates.X_coeffs : Coeffs R).IsUnitary := by
  refine ⟨?_, ?_, ?_⟩ <;> ext <;> simp [gates.X_coeffs]

theorem Y_unitary : (gates.Y_coeffs : Coeffs R).IsUnitary := by
  refine ⟨?_, ?_, ?_⟩ <;> ext <;> simp [gates.Y_coeffs]

theorem Z_unitary : (gates.Z_coeffs : Coeffs R).IsUnitary := by
  refine ⟨?_, ?_, ?_⟩ <;> ext <;> simp [gates.Z_coeffs]

theorem S_unitary : (gates.S_coeffs : Coeffs R).IsUnitary := by
  refine ⟨?_, ?_, ?_⟩ <;> ext <;> simp [gates.S_coeffs]

theorem H_unitary (L : Libm R) (hL : L.Lawful) : (gates.H_coeffs L).IsUnitary := by
  have h2 := hL.sqrt_two
  have hne : L.sqrt 2 ≠ 0 := by
    intro h; rw [h] at h2; norm_num at h2
  have hs : (1 / L.sqrt 2) * (1 / L.sqrt 2) = 1 / 2 := by
    field_simp; linarith
  refine ⟨?_, ?_, ?_⟩ <;> ext <;> simp only [gates.H_coeffs, c64.add_re, c64.add_im,
    c64.mul_re, c64.mul_im, c64.conj_re, c64.conj_im, c64.one_re, c64.one_im, c64.zero_re,
    c64.zero_im] <;> ring_nf <;> ring_nf at hs <;> linarith

theorem RX_unitary (L : Libm R) (hL : L.Lawful) (θ : R) : (gates.RX_coeffs L θ).IsUnitary := by
  have h := hL.cos_sq_add_sin_sq (θ / 2)
  refine ⟨?_, ?_, ?_⟩ <;> ext <;> simp only [gates.RX_coeffs, c64.add_re, c64.add_im,
    c64.mul_re, c64.mul_im, c64.conj_re, c64.conj_im, c64.one_re, c64.one_im, c64.zero_re,
    c64.zero_im] <;> ring_nf <;> ring_nf at h <;> linarith

theorem RY_unitary (L : Libm R) (hL : L.Lawful) (θ : R) : (gates.RY_coeffs L θ).IsUnitary := by
  have h := hL.cos_sq_add_sin_sq (θ / 2)
  refine ⟨?_, ?_, ?_⟩ <;> ext <;> simp only [gates.RY_coeffs, c64.add_re, c64.add_im,
    c64.mul_re, c64.mul_im, c64.conj_re, c64.conj_im, c64.one_re, c64.one_im, c64.zero_re,
    c64.zero_im] <;> ring_nf <;> ring_nf at h <;> linarith

theorem RZ_unitary (L : Libm R) (hL : L.Lawful) (θ : R) : (gates.RZ_coeffs L θ).IsUnitary := by
  have h := hL.cos_sq_add_sin_sq (θ / 2)
  have h' := hL.cos_sq_add_sin_sq (-(θ / 2))
  refine ⟨?_, ?_, ?_⟩ <;> ext <;> simp only [gates.RZ_coeffs, c64.add_re, c64.add_im,
    c64.mul_re, c64.mul_im, c64.conj_re, c64.conj_im, c64.one_re, c64.one_im, c64.zero_re,
    c64.zero_im] <;> ring_nf <;> ring_nf at h h' <;> linarith

theorem unitary_norm_pair (u : Coeffs R) (hu : u.IsUnitary) (a b : c64 R) :
    c64.norm (u.u00 * a + u.u01 * b) + c64.norm (u.u10 * a + u.u11 * b)
      = c64.norm a + c64.norm b := by
  obtain ⟨h1, h2, h3⟩ := hu
  have h1r := congrArg c64.re h1
  have h2r := congrArg c64.re h2
  have h3r := congrArg c64.re h3
  have h3i := congrArg c64.im h3
  simp only [c64.add_re, c64.add_im, c64.mul_re, c64.mul_im, c64.conj_re, c64.conj_im,
    c64.one_re, c64.zero_re, c64.zero_im] at h1r h2r h3r h3i
  simp only [c64.norm, c64.add_re, c64.add_im, c64.mul_re, c64.mul_im]
  linear_combination (a.re * a.re + a.im * a.im) * h1r + (b.re * b.re + b.im * b.im) * h2r
    + 2 * (a.re * b.re + a.im * b.im) * h3r - 2 * (a.re * b.im - a.im * b.re) * h3i

end Unitarity

section Sums
variable {R : Type} [LinearOrderedField R]

theorem sum_range_xor_pow (n q : Nat) (hq : q < n) (F : Nat → R) :
    ∑ x in Finset.range (2 ^ n), F (x ^^^ 2 ^ q) = ∑ x in Finset.range (2 ^ n), F x := by
  apply Finset.sum_nbij' (fun x => x ^^^ 2 ^ q) (fun x => x ^^^ 2 ^ q)
  · intro a ha
    simp only [Finset.mem_range] at ha ⊢
    exact xor_pow_lt a q n ha hq
  · intro a ha
    simp only [Finset.mem_range] at ha ⊢
    exact xor_pow_lt a q n ha hq
  · intro a _; exact xor_pow_xor_pow a q
  · intro a _; exact xor_pow_xor_pow a q
  · intro a _; rfl

theorem cx_index_lt (c t n x : Nat) (ht : t < n) (hx : x < 2 ^ n) : cx_index c t x < 2 ^ n := by
  unfold cx_index
  split
  · exact xor_pow_lt x t n hx ht
  · exact hx

theorem cx_index_invol (c t x : Nat) (hct : c ≠ t) : cx_index c t (cx_index c t x) = x := by
  unfold cx_index
  by_cases h : x &&& 2 ^ c = 0
  · simp [h]
  · have h2 : ¬ ((x ^^^ 2 ^ t) &&& 2 ^ c = 0) := by
      rw [xor_pow_and_pow_other x t c hct]; exact h
    simp [h, h2, xor_pow_xor_pow]

theorem sum_range_cx (n c t : Nat) (ht : t < n) (hct : c ≠ t) (F : Nat → R) :
    ∑ x in Finset.range (2 ^ n), F (cx_index c t x) = ∑ x in Finset.range (2 ^ n), F x := by
  apply Finset.sum_nbij' (cx_index c t) (cx_index c t)
  · intro a ha
    simp only [Finset.mem_range] at ha ⊢
    exact cx_index_lt c t n a ht ha
  · intro a ha
    simp only [Finset.mem_range] at ha ⊢
    exact cx_index_lt c t n a ht ha
  · intro a _; exact cx_index_invol c t a hct
  · intro a _; exact cx_index_invol c t a hct
  · intro a _; rfl

theorem total_gate_fn (n q : Nat) (hq : q < n) (u : Coeffs R) (hu : u.IsUnitary)
    (ψ : Nat → c64 R) : total n (gate_fn q u ψ) = total n ψ := by
  unfold total
  have hpair : ∀ x, c64.norm (gate_fn q u ψ x) + c64.norm (gate_fn q u ψ (x ^^^ 2 ^ q))
      = c64.norm (ψ x) + c64.norm (ψ (x ^^^ 2 ^ q)) := by
    intro x
    by_cases h : x &&& 2 ^ q = 0
    · have h2 : ¬ ((x ^^^ 2 ^ q) &&& 2 ^ q = 0) := by
        rw [xor_pow_and_pow]; simp [h]
      simp only [gate_fn, h, h2, if_true, if_false, xor_pow_xor_pow]
      exact unitary_norm_pair u hu _ _
    · have h2 : (x ^^^ 2 ^ q) &&& 2 ^ q = 0 := by
        rw [xor_pow_and_pow]; exact h
      simp only [gate_fn, h, h2, if_true, if_false, xor_pow_xor_pow]
      rw [add_comm, unitary_norm_pair u hu, add_comm]
  have e1 := sum_range_xor_pow n q hq (fun x => c64.norm (gate_fn q u ψ x))
  have e2 := sum_range_xor_pow n q hq (fun x => c64.norm (ψ x))
  have e3 : ∑ x in Finset.range (2 ^ n),
      (c64.norm (gate_fn q u ψ x) + c64.norm (gate_fn q u ψ (x ^^^ 2 ^ q)))
      = ∑ x in Finset.range (2 ^ n), (c64.norm (ψ x) + c64.norm (ψ (x ^^^ 2 ^ q))) :=
    Finset.sum_congr rfl (fun x _ => hpair x)
  rw [Finset.sum_add_distrib, Finset.sum_add_distrib] at e3
  simp only at e1 e2
  linarith

theorem total_cx_fn (n c t : Nat) (ht : t < n) (hct : c ≠ t) (ψ : Nat → c64 R) :
    total n (cx_fn c t ψ) = total n ψ := by
  unfold total cx_fn
  exact sum_range_cx n c t ht hct (fun x => c64.norm (ψ x))

theorem kahan_fold (l : List (c64 R)) (s : R) :
    l.foldl StateVector.kahan_step (s, 0) = (s + (l.map c64.norm).sum, 0) := by
  induction l generalizing s with
  | nil => simp
  | cons a l ih =>
    simp only [List.foldl_cons, List.map_cons, List.sum_cons]
    have : StateVector.kahan_step (s, 0) a = (s + c64.norm a, 0) := by
      simp [StateVector.kahan_step]
    rw [this, ih]
    simp [add_assoc]

theorem sum_norm_eq_total (n : Nat) (l : List (c64 R)) (hl : l.length = 2 ^ n) :
    (l.map c64.norm).sum = total n (view l) := by
  unfold total
  rw [← sum_map_range, ← hl]
  congr 1
  conv_lhs => rw [← map_range_getD l 0]
  rw [List.map_map]
  rfl

theorem normalize_of_unit (L : Libm R) (hL : L.Lawful) (n : Nat) (sv : StateVector R)
    (hl : sv.amp_.length = 2 ^ n) (ht : total n (view sv.amp_) = 1) :
    StateVector.normalize_ L sv = sv := by
  unfold StateVector.normalize_
  have : (sv.amp_.foldl StateVector.kahan_step (0, 0)).1 = 1 := by
    rw [kahan_fold, zero_add, sum_norm_eq_total n _ hl, ht]
  simp only [this, hL.sqrt_one]
  have hid : List.map (c64.scale (1 / 1 : R)) sv.amp_ = sv.amp_ := by
    have : (c64.scale (1 / 1 : R)) = id := by
      funext a; simp [c64.scale_one]
    rw [this, List.map_id]
  rw [hid]

end Sums

section Invariant
variable {R : Type} [LinearOrderedField R]

theorem view_init (n : Nat) :
    view (StateVector.init n : StateVector R).amp_ = fun x => if x = 0 then 1 else 0 := by
  funext x
  unfold view StateVector.init
  simp only
  rw [getD_set, getD_replicate, List.length_replicate, Nat.one_shiftLeft]
  have hpos : 0 < 2 ^ n := Nat.pow_pos (by decide)
  by_cases hx : x = 0
  · subst hx; simp [hpos, c64.mk_one]
  · have : ¬ (0 = x) := fun h => hx h.symm
    simp [this, hx]

theorem init_good (n : Nat) : SvGood n (StateVector.init n : StateVector R) := by
  refine ⟨by simp [StateVector.init, Nat.one_shiftLeft], ?_⟩
  rw [view_init]
  unfold total
  rw [Finset.sum_eq_single 0]
  · simp [c64.norm_one]
  · intro b _ hb; simp [hb, c64.norm_zero]
  · intro h; exfalso; apply h; simp

theorem apply_gate_1q_amp (L : Libm R) (hL : L.Lawful) (n : Nat) (sv : StateVector R)
    (hg : SvGood n sv) (q : Nat) (hq : q < n) (u : Coeffs R) (hu : u.IsUnitary) :
    (sv.apply_gate_1q L q u).amp_ = StateVector.gate_1q_loop (1 <<< q) u sv.amp_ ∧
    SvGood n (sv.apply_gate_1q L q u) := by
  obtain ⟨hl, hv⟩ := gate_1q_loop_spec q n hq u sv.amp_ hg.1
  have ht : total n (view (StateVector.gate_1q_loop (1 <<< q) u sv.amp_)) = 1 := by
    rw [hv, total_gate_fn n q hq u hu, hg.2]
  have key : sv.apply_gate_1q L q u =
      ⟨sv.n_, StateVector.gate_1q_loop (1 <<< q) u sv.amp_, sv.applied_ + 1⟩ := by
    unfold StateVector.apply_gate_1q
    simp only
    split
    · exact normalize_of_unit L hL n ⟨sv.n_, _, sv.applied_ + 1⟩ hl ht
    · rfl
  rw [key]
  exact ⟨rfl, hl, ht⟩

theorem apply_cx_amp (n : Nat) (sv : StateVector R) (hg : SvGood n sv) (c t : Nat)
    (ht : t < n) (hct : c ≠ t) :
    (sv.apply_cx c t).amp_ = StateVector.cx_loop (1 <<< c) (1 <<< t) sv.amp_ ∧
    SvGood n (sv.apply_cx c t) := by
  obtain ⟨hl, hv⟩ := cx_loop_spec c t n ht hct sv.amp_ hg.1
  unfold StateVector.apply_cx
  rw [if_neg hct]
  refine ⟨rfl, hl, ?_⟩
  show total n (view (StateVector.cx_loop (1 <<< c) (1 <<< t) sv.amp_)) = 1
  rw [hv, total_cx_fn n c t ht hct, hg.2]

theorem run_op_good (L : Libm R) (hL : L.Lawful) (n : Nat) (st : StateVector R × Rng R)
    (hg : SvGood n st.1) (op : Op R) (hop : op.Valid n) : SvGood n (run_op L st op).1 := by
  unfold run_op
  unfold Op.Valid at hop
  cases h : op.type <;> simp only [h] at hop ⊢
  · exact (apply_gate_1q_amp L hL n _ hg _ hop.2 _ (H_unitary L hL)).2
  · exact (apply_gate_1q_amp L hL n _ hg _ hop.2 _ X_unitary).2
  · exact (apply_gate_1q_amp L hL n _ hg _ hop.2 _ Y_unitary).2
  · exact (apply_gate_1q_amp L hL n _ hg _ hop.2 _ Z_unitary).2
  · exact (apply_gate_1q_amp L hL n _ hg _ hop.2 _ S_unitary).2
  · exact (apply_gate_1q_amp L hL n _ hg _ hop.2 _ (RX_unitary L hL _)).2
  · exact (apply_gate_1q_amp L hL n _ hg _ hop.2 _ (RY_unitary L hL _)).2
  · exact (apply_gate_1q_amp L hL n _ hg _ hop.2 _ (RZ_unitary L hL _)).2
  · exact (apply_cx_amp n _ hg _ _ hop.2.2.1 hop.2.2.2).2
  · exact hg
  · split
    · exact (apply_gate_1q_amp L hL n _ hg _ hop.2.1 _ Z_unitary).2
    · exact hg
  · split
    · split
      · exact (apply_gate_1q_amp L hL n _ hg _ hop.2.1 _ X_unitary).2
      · split
        · exact (apply_gate_1q_amp L hL n _ hg _ hop.2.1 _ Y_unitary).2
        · exact (apply_gate_1q_amp L hL n _ hg _ hop.2.1 _ Z_unitary).2
    · exact hg
  · exact hg

theorem foldl_run_op_good (L : Libm R) (hL : L.Lawful) (n : Nat) (ops : List (Op R))
    (hops : ∀ op ∈ ops, op.Valid n) (st : StateVector R × Rng R) (hg : SvGood n st.1) :
    SvGood n (ops.foldl (run_op L) st).1 := by
  induction ops generalizing st with
  | nil => exact hg
  | cons op ops ih =>
    rw [List.foldl_cons]
    apply ih (fun o ho => hops o (List.mem_cons_of_mem _ ho))
    exact run_op_good L hL n st hg op (hops op (List.mem_cons_self _ _))

theorem run_state_good (L : Libm R) (hL : L.Lawful) (src : RngSource R) (c : Circuit R)
    (hc : c.Valid) (seed : Nat) : SvGood c.nqubits (run_state L src c seed).1 :=
  foldl_run_op_good L hL c.nqubits c.ops hc _ (init_good c.nqubits)

theorem run_probabilities_eq (L : Libm R) (src : RngSource R) (c : Circuit R)
    (seed : Nat) (collapse : Bool) :
    (run L src c seed collapse).probabilities =
      (List.range (2 ^ c.nqubits)).map
        (fun i => c64.norm (view (run_state L src c seed).1.amp_ i)) := by
  simp [run, StateVector.probability_of_basis, view, Nat.one_shiftLeft,
    -List.getD_eq_getElem?_getD]

/-- Claim C4: for every well-formed circuit (gates, CNOT with control ≠ target, DEPHASE, DEPOL,
MEASURE, all qubit indices below `n`) and every seed, the probability vector returned by `run`
has length `2^n`, every entry is non-negative, and the entries sum to 1. Arithmetic is exact
and `<cmath>` is assumed lawful. -/
theorem run_probabilities_distribution (L : Libm R) (hL : L.Lawful) (src : RngSource R)
    (c : Circuit R) (hc : c.Valid) (seed : Nat) (collapse : Bool) :
    (run L src c seed collapse).probabilities.length = 2 ^ c.nqubits ∧
    (∀ p ∈ (run L src c seed collapse).probabilities, 0 ≤ p) ∧
    (run L src c seed collapse).probabilities.sum = 1 := by
  have hg := run_state_good L hL src c hc seed
  rw [run_probabilities_eq]
  refine ⟨by simp, ?_, ?_⟩
  · intro p hp
    rw [List.mem_map] at hp
    obtain ⟨i, _, rfl⟩ := hp
    exact c64.norm_nonneg _
  · rw [sum_map_range]
    exact hg.2

end Invariant

section Bridge
variable {R : Type} [LinearOrderedField R]

theorem apply_gate_1q_view (L : Libm R) (hL : L.Lawful) (n : Nat) (sv : StateVector R)
    (hg : SvGood n sv) (q : Nat) (hq : q < n) (u : Coeffs R) (hu : u.IsUnitary) :
    SvGood n (sv.apply_gate_1q L q u) ∧
    view (sv.apply_gate_1q L q u).amp_ = gate_fn q u (view sv.amp_) := by
  obtain ⟨h1, h2⟩ := apply_gate_1q_amp L hL n sv hg q hq u hu
  refine ⟨h2, ?_⟩
  rw [h1]
  exact (gate_1q_loop_spec q n hq u sv.amp_ hg.1).2

theorem apply_cx_view (n : Nat) (sv : StateVector R) (hg : SvGood n sv) (c t : Nat)
    (ht : t < n) (hct : c ≠ t) :
    SvGood n (sv.apply_cx c t) ∧ view (sv.apply_cx c t).amp_ = cx_fn c t (view sv.amp_) := by
  obtain ⟨h1, h2⟩ := apply_cx_amp n sv hg c t ht hct
  refine ⟨h2, ?_⟩
  rw [h1]
  exact (cx_loop_spec c t n ht hct sv.amp_ hg.1).2

theorem run_op_sem (L : Libm R) (hL : L.Lawful) (n : Nat) (st : StateVector R × Rng R)
    (hg : SvGood n st.1) (op : Op R) (hop : op.Valid n) :
    SvGood n (run_op L st op).1 ∧
    (view (run_op L st op).1.amp_, (run_op L st op).2) = op_sem L op (view st.1.amp_, st.2) := by
  unfold run_op op_sem
  unfold Op.Valid at hop
  cases h : op.type <;> simp only [h] at hop ⊢
  · obtain ⟨a, b⟩ := apply_gate_1q_view L hL n _ hg _ hop.2 _ (H_unitary L hL)
    exact ⟨a, by rw [b]⟩
  · obtain ⟨a, b⟩ := apply_gate_1q_view L hL n _ hg _ hop.2 _ X_unitary
    exact ⟨a, by rw [b]⟩
  · obtain ⟨a, b⟩ := apply_gate_1q_view L hL n _ hg _ hop.2 _ Y_unitary
    exact ⟨a, by rw [b]⟩
  · obtain ⟨a, b⟩ := apply_gate_1q_view L hL n _ hg _ hop.2 _ Z_unitary
    exact ⟨a, by rw [b]⟩
  · obtain ⟨a, b⟩ := apply_gate_1q_view L hL n _ hg _ hop.2 _ S_unitary
    exact ⟨a, by rw [b]⟩
  · obtain ⟨a, b⟩ := apply_gate_1q_view L hL n _ hg _ hop.2 _ (RX_unitary L hL op.angle)
    exact ⟨a, by rw [b]⟩
  · obtain ⟨a, b⟩ := apply_gate_1q_view L hL n _ hg _ hop.2 _ (RY_unitary L hL op.angle)
    exact ⟨a, by rw [b]⟩
  · obtain ⟨a, b⟩ := apply_gate_1q_view L hL n _ hg _ hop.2 _ (RZ_unitary L hL op.angle)
    exact ⟨a, by rw [b]⟩
  · obtain ⟨a, b⟩ := apply_cx_view n _ hg _ _ hop.2.2.1 hop.2.2.2
    exact ⟨a, by rw [b, if_neg hop.2.2.2]⟩
  · exact ⟨hg, trivial⟩
  · split
    · obtain ⟨a, b⟩ := apply_gate_1q_view L hL n _ hg _ hop.2.1 _ Z_unitary
      exact ⟨a, by rw [b]⟩
    · exact ⟨hg, rfl⟩
  · split
    · have hu : (if (st.2.uniform.2.uniform.1 < 1 / 3) then (gates.X_coeffs : Coeffs R)
          else if st.2.uniform.2.uniform.1 < 2 / 3 then gates.Y_coeffs
          else gates.Z_coeffs).IsUnitary := by
        split
        · exact X_unitary
        · split
          · exact Y_unitary
          · exact Z_unitary
      obtain ⟨a, b⟩ := apply_gate_1q_view L hL n _ hg _ hop.2.1 _ hu
      exact ⟨a, by rw [b]⟩
    · exact ⟨hg, rfl⟩
  · exact ⟨hg, trivial⟩

theorem foldl_run_op_sem (L : Libm R) (hL : L.Lawful) (n : Nat) (ops : List (Op R))
    (hops : ∀ op ∈ ops, op.Valid n) (st : StateVector R × Rng R) (hg : SvGood n st.1) :
    SvGood n (ops.foldl (run_op L) st).1 ∧
    (view (ops.foldl (run_op L) st).1.amp_, (ops.foldl (run_op L) st).2)
      = ops_sem L ops (view st.1.amp_, st.2) := by
  induction ops generalizing st with
  | nil => exact ⟨hg, rfl⟩
  | cons op ops ih =>
    obtain ⟨a, b⟩ := run_op_sem L hL n st hg op (hops op (List.mem_cons_self _ _))
    obtain ⟨c, d⟩ := ih (fun o ho => hops o (List.mem_cons_of_mem _ ho)) (run_op L st op) a
    rw [List.foldl_cons]
    refine ⟨c, ?_⟩
    rw [d, b]
    rfl

theorem run_probabilities_sem (L : Libm R) (hL : L.Lawful) (src : RngSource R)
    (c : Circuit R) (hc : c.Valid) (seed : Nat) (collapse : Bool) :
    (run L src c seed collapse).probabilities =
      (List.range (2 ^ c.nqubits)).map
        (fun i => c64.norm ((ops_sem L c.ops (ket0, Rng.seeded src seed)).1 i)) := by
  rw [run_probabilities_eq]
  have h := (foldl_run_op_sem L hL c.nqubits c.ops hc
    (StateVector.init c.nqubits, Rng.seeded src seed) (init_good c.nqubits)).2
  have h1 := congrArg Prod.fst h
  simp only at h1
  unfold run_state
  rw [h1, view_init]
  rfl

end Bridge

section Algebra
variable {R : Type} [LinearOrderedField R]

theorem Coeffs.ext' {a b : Coeffs R} (h0 : a.u00 = b.u00) (h1 : a.u01 = b.u01)
    (h2 : a.u10 = b.u10) (h3 : a.u11 = b.u11) : a = b := by
  cases a; cases b; simp_all

theorem X_mul_X : (gates.X_coeffs : Coeffs R).mul gates.X_coeffs = Coeffs.one := by
  apply Coeffs.ext' <;> ext <;> simp [gates.X_coeffs, Coeffs.mul, Coeffs.one]

theorem Z_mul_Z : (gates.Z_coeffs : Coeffs R).mul gates.Z_coeffs = Coeffs.one := by
  apply Coeffs.ext' <;> ext <;> simp [gates.Z_coeffs, Coeffs.mul, Coeffs.one]

theorem S_mul_S : (gates.S_coeffs : Coeffs R).mul gates.S_coeffs = gates.Z_coeffs := by
  apply Coeffs.ext' <;> ext <;> simp [gates.S_coeffs, gates.Z_coeffs, Coeffs.mul]

theorem H_mul_H (L : Libm R) (hL : L.Lawful) :
    (gates.H_coeffs L).mul (gates.H_coeffs L) = Coeffs.one := by
  have h2 := hL.sqrt_two
  have hne : L.sqrt 2 ≠ 0 := by
    intro h; rw [h] at h2; norm_num at h2
  have hs : (1 / L.sqrt 2) * (1 / L.sqrt 2) = 1 / 2 := by
    field_simp; linarith
  apply Coeffs.ext' <;> ext <;> simp only [gates.H_coeffs, Coeffs.mul, Coeffs.one, c64.add_re,
    c64.add_im, c64.mul_re, c64.mul_im, c64.one_re, c64.one_im, c64.zero_re, c64.zero_im]
    <;> ring_nf <;> ring_nf at hs <;> linarith

theorem RX_mul_RX (L : Libm R) (hA : L.AngleLaws) (a b : R) :
    (gates.RX_coeffs L b).mul (gates.RX_coeffs L a) = gates.RX_coeffs L (a + b) := by
  have e : (a + b) / 2 = a / 2 + b / 2 := by ring
  apply Coeffs.ext' <;> ext <;> simp only [gates.RX_coeffs, Coeffs.mul, c64.add_re,
    c64.add_im, c64.mul_re, c64.mul_im, e, hA.cos_add, hA.sin_add] <;> ring

theorem RY_mul_RY (L : Libm R) (hA : L.AngleLaws) (a b : R) :
    (gates.RY_coeffs L b).mul (gates.RY_coeffs L a) = gates.RY_coeffs L (a + b) := by
  have e : (a + b) / 2 = a / 2 + b / 2 := by ring
  apply Coeffs.ext' <;> ext <;> simp only [gates.RY_coeffs, Coeffs.mul, c64.add_re,
    c64.add_im, c64.mul_re, c64.mul_im, e, hA.cos_add, hA.sin_add] <;> ring

theorem RZ_mul_RZ (L : Libm R) (hA : L.AngleLaws) (a b : R) :
    (gates.RZ_coeffs L b).mul (gates.RZ_coeffs L a) = gates.RZ_coeffs L (a + b) := by
  have e : (a + b) / 2 = a / 2 + b / 2 := by ring
  apply Coeffs.ext' <;> ext <;> simp only [gates.RZ_coeffs, Coeffs.mul, c64.add_re,
    c64.add_im, c64.mul_re, c64.mul_im, e, neg_add, hA.cos_add, hA.sin_add, c64.zero_re,
    c64.zero_im] <;> ring

end Algebra

section OptimizerSound
variable {R : Type} [LinearOrderedField R]

theorem ops_sem_append (L : Libm R) (l1 l2 : List (Op R)) (s : (Nat → c64 R) × Rng R) :
    ops_sem L (l1 ++ l2) s = ops_sem L l2 (ops_sem L l1 s) := by
  unfold ops_sem
  rw [List.foldl_append]

theorem ops_sem_cons (L : Libm R) (op : Op R) (l : List (Op R)) (s : (Nat → c64 R) × Rng R) :
    ops_sem L (op :: l) s = ops_sem L l (op_sem L op s) := rfl

theorem ops_sem_nil (L : Libm R) (s : (Nat → c64 R) × Rng R) : ops_sem L [] s = s := rfl

theorem ops_sem_single (L : Libm R) (op : Op R) (s : (Nat → c64 R) × Rng R) :
    ops_sem L [op] s = op_sem L op s := rfl

end OptimizerSound

section OptimizerValid
variable {R : Type} [LinearOrderedField R]

end OptimizerValid

section RealLibm

theorem real_lawful : (⟨Real.sqrt, Real.cos, Real.sin⟩ : Libm ℝ).Lawful where
  sqrt_one := Real.sqrt_one
  sqrt_two := Real.mul_self_sqrt (by norm_num)
  cos_sq_add_sin_sq := fun x => by
    have := Real.cos_sq_add_sin_sq x
    nlinarith [this]

theorem real_angle_laws : (⟨Real.sqrt, Real.cos, Real.sin⟩ : Libm ℝ).AngleLaws where
  cos_zero := Real.cos_zero
  sin_zero := Real.sin_zero
  cos_add := Real.cos_add
  sin_add := Real.sin_add

end RealLibm

theorem range_two_pow_one : List.range (2 ^ 1) = [0, 1] := rfl

/-- A single rotation `RX 0 1e-16` is dropped by `optimize`, which changes the
probability vector: it is `[1, 0]` after optimisation and has a non-zero second entry before. -/
theorem optimize_changes_probabilities :
    (run ⟨Real.sqrt, Real.cos, Real.sin⟩ (fun _ _ => 0)
        (optimize ⟨1, [⟨OpType.RX, [0], 1 / 10 ^ 16⟩]⟩ OptimizeOptions.defaults)
        0 false).probabilities
      ≠ (run ⟨Real.sqrt, Real.cos, Real.sin⟩ (fun _ _ => 0)
        ⟨1, [⟨OpType.RX, [0], 1 / 10 ^ 16⟩]⟩ 0 false).probabilities := by
  have hv : (⟨1, [⟨OpType.RX, [0], 1 / 10 ^ 16⟩]⟩ : Circuit ℝ).Valid := by
    intro op hop
    simp only [List.mem_singleton] at hop
    subst hop
    simp [Op.Valid]
  have hz : is_zero_rotation (⟨OpType.RX, [0], 1 / 10 ^ 16⟩ : Op ℝ) = true := by
    simp only [is_zero_rotation, decide_True, Bool.true_or, Bool.true_and, decide_eq_true_eq]
    rw [abs_of_pos (by positivity)]
    norm_num
  have hopt : optimize (⟨1, [⟨OpType.RX, [0], 1 / 10 ^ 16⟩]⟩ : Circuit ℝ)
      OptimizeOptions.defaults = ⟨1, []⟩ := by
    have hp : optimize_pass1 OptimizeOptions.defaults
        ([⟨OpType.RX, [0], 1 / 10 ^ 16⟩] : List (Op ℝ)) = [⟨OpType.RX, [0], 1 / 10 ^ 16⟩] := rfl
    unfold optimize
    simp only [hp, optimize_pass2, hz, if_true]
  have hv0 : (⟨1, []⟩ : Circuit ℝ).Valid := by
    intro op hop; simp at hop
  rw [hopt, run_probabilities_sem _ real_lawful _ _ hv0, run_probabilities_sem _ real_lawful _ _ hv]
  simp only [range_two_pow_one, List.map_cons, List.map_nil, ops_sem_nil, ops_sem_single]
  intro h
  have h1 : c64.norm ((ket0 : Nat → c64 ℝ) 1) = c64.norm ((op_sem ⟨Real.sqrt, Real.cos, Real.sin⟩
      ⟨OpType.RX, [0], 1 / 10 ^ 16⟩ ((ket0 : Nat → c64 ℝ), Rng.seeded (fun _ _ => (0 : ℝ)) 0)).1 1) := by
    simpa using (List.cons.inj (List.cons.inj h).2).1
  have hk1 : (ket0 : Nat → c64 ℝ) 1 = 0 := by simp [ket0]
  have hk0 : (ket0 : Nat → c64 ℝ) 0 = 1 := by simp [ket0]
  have e1 : (1 : Nat) &&& 2 ^ 0 ≠ 0 := by decide
  have e2 : (1 : Nat) ^^^ 2 ^ 0 = 0 := by decide
  simp only [op_sem, gate_fn, List.getD_cons_zero, e1, if_false, e2, hk1, hk0, mul_zero, add_zero,
    mul_one, gates.RX_coeffs, c64.norm, c64.zero_re, c64.zero_im] at h1
  have hs : 0 < Real.sin (1 / 10 ^ 16 / 2) := by
    apply Real.sin_pos_of_pos_of_lt_pi
    · positivity
    · have := Real.pi_gt_three
      have h2 : (1 : ℝ) / 10 ^ 16 / 2 < 3 := by norm_num
      linarith
  nlinarith [hs]

section Drift
variable {R : Type} [LinearOrderedField R]

end Drift

section LayoutBits

theorem testBit_cx_index (c t x i : Nat) :
    (cx_index c t x).testBit i =
      if i = t then (x.testBit t ^^ x.testBit c) else x.testBit i := by
  unfold cx_index
  by_cases h : x &&& 2 ^ c ≠ 0
  · have hc : x.testBit c = true := (and_pow_ne_zero_iff x c).mp h
    rw [if_pos h, testBit_xor_pow]
    by_cases hi : i = t
    · subst hi; simp [hc]
    · have : ¬ (t = i) := fun e => hi e.symm
      simp [hi, this]
  · have hc : x.testBit c = false := by
      rw [← and_pow_eq_zero_iff]; simpa using h
    rw [if_neg h]
    by_cases hi : i = t
    · subst hi; simp [hc]
    · simp [hi]

theorem testBit_swap_index (a b y i : Nat) (hab : a ≠ b) :
    (swap_index a b y).testBit i =
      if i = a then y.testBit b else if i = b then y.testBit a else y.testBit i := by
  unfold swap_index
  have hba : ¬ (b = a) := fun e => hab e.symm
  by_cases h1 : i = a
  · subst h1
    simp only [testBit_cx_index, hab, hba, if_true, if_false]
    cases y.testBit i <;> cases y.testBit b <;> rfl
  · by_cases h2 : i = b
    · subst h2
      simp only [testBit_cx_index, hab, hba, h1, if_true, if_false]
      cases y.testBit i <;> cases y.testBit a <;> rfl
    · simp only [testBit_cx_index, h1, h2, if_false]

theorem swap_index_lt (a b n y : Nat) (ha : a < n) (hb : b < n) (hy : y < 2 ^ n) :
    swap_index a b y < 2 ^ n := by
  unfold swap_index
  exact cx_index_lt a b n _ hb (cx_index_lt b a n _ ha (cx_index_lt a b n _ hb hy))

theorem testBit_foldl_place (phys : List Nat) (x i : Nat) (ls : List Nat) (y0 : Nat) :
    (ls.foldl (fun y l => if x.testBit l then y ||| 2 ^ phys.getD l 0 else y) y0).testBit i
      = (y0.testBit i || ls.any (fun l => x.testBit l && decide (phys.getD l 0 = i))) := by
  induction ls generalizing y0 with
  | nil => simp
  | cons l ls ih =>
    rw [List.foldl_cons, ih, List.any_cons]
    by_cases hx : x.testBit l
    · simp only [hx, if_true, testBit_or_pow, Bool.true_and, Bool.or_assoc]
    · simp [hx]

theorem testBit_place (phys : List Nat) (x i : Nat) :
    (place phys x).testBit i
      = (List.range phys.length).any (fun l => x.testBit l && decide (phys.getD l 0 = i)) := by
  unfold place
  rw [testBit_foldl_place]
  simp

theorem place_placed (n : Nat) (phys : List Nat) (h : IsLayout n phys) (x : Nat) :
    Placed n phys x (place phys x) := by
  intro l hl
  rw [testBit_place, h.1]
  cases hx : x.testBit l
  · rw [List.any_eq_false]
    intro k hk
    rw [List.mem_range] at hk
    by_cases hk2 : phys.getD k 0 = phys.getD l 0
    · have := h.2.2 k l hk hl hk2
      subst this
      simp [hx]
    · simp [-List.getD_eq_getElem?_getD, hk2]
  · rw [List.any_eq_true]
    exact ⟨l, List.mem_range.mpr hl, by simp [-List.getD_eq_getElem?_getD, hx]⟩

theorem place_lt (n : Nat) (phys : List Nat) (h : IsLayout n phys) (x : Nat) :
    place phys x < 2 ^ n := by
  apply Nat.lt_pow_two_of_testBit
  intro i hi
  rw [testBit_place, h.1, List.any_eq_false]
  intro k hk
  rw [List.mem_range] at hk
  have := h.2.1 k hk
  have hne : phys.getD k 0 ≠ i := by omega
  simp [-List.getD_eq_getElem?_getD, hne]

theorem isLayout_range (n : Nat) : IsLayout n (List.range n) := by
  have hget : ∀ l, l < n → (List.range n).getD l 0 = l := by
    intro l hl
    simp [List.getD_eq_getElem?_getD, List.getElem?_range hl]
  refine ⟨List.length_range n, ?_, ?_⟩
  · intro l hl; rw [hget l hl]; exact hl
  · intro l k hl hk; rw [hget l hl, hget k hk]; exact id

end LayoutBits

section MappedLemmas
variable {R : Type} [LinearOrderedField R]

theorem placed_xor (n : Nat) (phys : List Nat) (h : IsLayout n phys) (x y q : Nat)
    (hq : q < n) (hp : Placed n phys x y) :
    Placed n phys (x ^^^ 2 ^ q) (y ^^^ 2 ^ phys.getD q 0) := by
  intro l hl
  rw [testBit_xor_pow, testBit_xor_pow, hp l hl]
  congr 1
  by_cases hql : q = l
  · subst hql; simp
  · have : phys.getD q 0 ≠ phys.getD l 0 := fun e => hql (h.2.2 q l hq hl e)
    simp [-List.getD_eq_getElem?_getD, hql, this]

theorem mapped_gate (n : Nat) (phys : List Nat) (h : IsLayout n phys) (ψ φ : Nat → c64 R)
    (hm : Mapped n phys ψ φ) (q : Nat) (hq : q < n) (u : Coeffs R) :
    Mapped n phys (gate_fn q u ψ) (gate_fn (phys.getD q 0) u φ) := by
  intro x y hx hy hp
  have hpq := h.2.1 q hq
  have hbit : (y &&& 2 ^ phys.getD q 0 = 0) ↔ (x &&& 2 ^ q = 0) := by
    rw [and_pow_eq_zero_iff, and_pow_eq_zero_iff, hp q hq]
  have h1 : φ y = ψ x := hm x y hx hy hp
  have h2 : φ (y ^^^ 2 ^ phys.getD q 0) = ψ (x ^^^ 2 ^ q) :=
    hm _ _ (xor_pow_lt x q n hx hq) (xor_pow_lt y _ n hy hpq) (placed_xor n phys h x y q hq hp)
  simp only [gate_fn, hbit, h1, h2]

theorem placed_cx (n : Nat) (phys : List Nat) (h : IsLayout n phys) (x y lc lt : Nat)
    (hlc : lc < n) (hlt : lt < n) (hp : Placed n phys x y) :
    Placed n phys (cx_index lc lt x) (cx_index (phys.getD lc 0) (phys.getD lt 0) y) := by
  intro l hl
  rw [testBit_cx_index, testBit_cx_index, hp lt hlt, hp lc hlc, hp l hl]
  by_cases hll : l = lt
  · subst hll; simp
  · have : phys.getD l 0 ≠ phys.getD lt 0 := fun e => hll (h.2.2 l lt hl hlt e)
    simp [-List.getD_eq_getElem?_getD, hll, this]

theorem mapped_cx (n : Nat) (phys : List Nat) (h : IsLayout n phys) (ψ φ : Nat → c64 R)
    (hm : Mapped n phys ψ φ) (lc lt : Nat) (hlc : lc < n) (hlt : lt < n) :
    Mapped n phys (cx_fn lc lt ψ) (cx_fn (phys.getD lc 0) (phys.getD lt 0) φ) := by
  intro x y hx hy hp
  simp only [cx_fn]
  exact hm _ _ (cx_index_lt lc lt n x hlt hx)
    (cx_index_lt _ _ n y (h.2.1 lt hlt) hy) (placed_cx n phys h x y lc lt hlc hlt hp)

theorem swap_phys_getD (phys : List Nat) (a l : Nat) (hl : l < phys.length) :
    (swap_phys phys a).getD l 0 =
      if phys.getD l 0 = a then a + 1 else if phys.getD l 0 = a + 1 then a else phys.getD l 0 := by
  unfold swap_phys
  simp [List.getD_eq_getElem?_getD, List.getElem?_map, List.getElem?_eq_getElem hl]

theorem isLayout_swap (n : Nat) (phys : List Nat) (h : IsLayout n phys) (a : Nat)
    (ha : a + 1 < n) : IsLayout n (swap_phys phys a) := by
  have hlen : (swap_phys phys a).length = n := by simp [swap_phys, h.1]
  refine ⟨hlen, ?_, ?_⟩
  · intro l hl
    rw [swap_phys_getD phys a l (by rw [h.1]; exact hl)]
    have := h.2.1 l hl
    split
    · omega
    · split <;> omega
  · intro l k hl hk
    rw [swap_phys_getD phys a l (by rw [h.1]; exact hl),
      swap_phys_getD phys a k (by rw [h.1]; exact hk)]
    intro e
    apply h.2.2 l k hl hk
    split at e <;> split at e <;> (try split at e) <;> (try split at e) <;> omega

theorem mapped_swap (n : Nat) (phys : List Nat) (h : IsLayout n phys) (ψ φ : Nat → c64 R)
    (hm : Mapped n phys ψ φ) (a : Nat) (ha : a + 1 < n) :
    Mapped n (swap_phys phys a) ψ (fun y => φ (swap_index a (a + 1) y)) := by
  intro x y hx hy hp
  apply hm x _ hx (swap_index_lt a (a + 1) n y (by omega) ha hy)
  intro l hl
  have hpl := hp l hl
  rw [swap_phys_getD phys a l (by rw [h.1]; exact hl)] at hpl
  rw [testBit_swap_index a (a + 1) y _ (by omega)]
  by_cases h1 : phys.getD l 0 = a
  · rw [if_pos h1] at hpl; rw [if_pos h1]; exact hpl
  · rw [if_neg h1] at hpl; rw [if_neg h1]
    by_cases h2 : phys.getD l 0 = a + 1
    · rw [if_pos h2] at hpl; rw [if_pos h2]; exact hpl
    · rw [if_neg h2] at hpl; rw [if_neg h2]; exact hpl

theorem swap_sem (L : Libm R) (a b : Nat) (hab : a ≠ b) (s : (Nat → c64 R) × Rng R) :
    ops_sem L [⟨OpType.CNOT, [a, b], 0⟩, ⟨OpType.CNOT, [b, a], 0⟩, ⟨OpType.CNOT, [a, b], 0⟩] s
      = (fun y => s.1 (swap_index a b y), s.2) := by
  have hba : ¬ (b = a) := fun e => hab e.symm
  simp only [ops_sem_cons, ops_sem_nil, op_sem, List.getD_cons_zero, List.getD_cons_succ, hab,
    hba, if_false]
  rfl

end MappedLemmas

section MapperSound
variable {R : Type} [LinearOrderedField R]

theorem walk_up_inv (L : Libm R) (n : Nat) (s s0 : (Nat → c64 R) × Rng R) (lm lf : Nat)
    (hlm : lm < n) (hlf : lf < n) (fuel hi : Nat) (out : List (Op R)) (phys : List Nat)
    (lo : Nat) (h1 : phys.getD lm 0 = lo) (h2 : phys.getD lf 0 = hi)
    (hinv : MapInv L n s s0 out phys) :
    MapInv L n s s0 (walk_up fuel hi (out, phys, lo)).1 (walk_up fuel hi (out, phys, lo)).2.1 ∧
    (walk_up fuel hi (out, phys, lo)).2.1.getD lm 0 = (walk_up fuel hi (out, phys, lo)).2.2 ∧
    (walk_up fuel hi (out, phys, lo)).2.1.getD lf 0 = hi := by
  induction fuel generalizing out phys lo with
  | zero => exact ⟨hinv, h1, h2⟩
  | succ fuel ih =>
    unfold walk_up
    split
    · rename_i hlt
      obtain ⟨hlay, hval, hmap, hrng⟩ := hinv
      have hhi : hi < n := by rw [← h2]; exact hlay.2.1 lf hlf
      have ha : lo + 1 < n := by omega
      apply ih
      · rw [swap_phys_getD phys lo lm (by rw [hlay.1]; exact hlm), h1]; simp
      · rw [swap_phys_getD phys lo lf (by rw [hlay.1]; exact hlf), h2]
        rw [if_neg (by omega), if_neg (by omega)]
      · have hsem : ops_sem L (emit_swap out lo (lo + 1)) s0
            = (fun y => (ops_sem L out s0).1 (swap_index lo (lo + 1) y), (ops_sem L out s0).2) := by
          unfold emit_swap
          rw [ops_sem_append, swap_sem L lo (lo + 1) (by omega)]
        refine ⟨isLayout_swap n phys hlay lo ha, ?_, ?_, ?_⟩
        · intro o ho
          unfold emit_swap at ho
          rcases List.mem_append.mp ho with h | h
          · exact hval o h
          · simp only [List.mem_cons, List.mem_singleton, List.not_mem_nil, or_false] at h
            rcases h with h | h | h <;> subst h <;> simp [Op.Valid] <;> omega
        · rw [hsem]
          exact mapped_swap n phys hlay _ _ hmap lo ha
        · rw [hsem]; exact hrng
    · exact ⟨hinv, h1, h2⟩

theorem retag_sem (L : Libm R) (n : Nat) (phys : List Nat) (hlay : IsLayout n phys)
    (op : Op R) (hop : op.Valid n) (hlen : op.qubits.length = 1) (hnc : op.type ≠ OpType.CNOT)
    (s t : (Nat → c64 R) × Rng R) (hm : Mapped n phys s.1 t.1) (hr : t.2 = s.2) :
    Mapped n phys (op_sem L op s).1
      (op_sem L ⟨op.type, [phys.getD (op.qubits.getD 0 0) 0], op.angle⟩ t).1 ∧
    (op_sem L ⟨op.type, [phys.getD (op.qubits.getD 0 0) 0], op.angle⟩ t).2 = (op_sem L op s).2 := by
  unfold Op.Valid at hop
  unfold op_sem
  cases h : op.type <;> simp only [h] at hop hnc ⊢ <;> simp only [List.getD_cons_zero, hr]
  · exact ⟨mapped_gate n phys hlay _ _ hm _ hop.2 _, trivial⟩
  · exact ⟨mapped_gate n phys hlay _ _ hm _ hop.2 _, trivial⟩
  · exact ⟨mapped_gate n phys hlay _ _ hm _ hop.2 _, trivial⟩
  · exact ⟨mapped_gate n phys hlay _ _ hm _ hop.2 _, trivial⟩
  · exact ⟨mapped_gate n phys hlay _ _ hm _ hop.2 _, trivial⟩
  · exact ⟨mapped_gate n phys hlay _ _ hm _ hop.2 _, trivial⟩
  · exact ⟨mapped_gate n phys hlay _ _ hm _ hop.2 _, trivial⟩
  · exact ⟨mapped_gate n phys hlay _ _ hm _ hop.2 _, trivial⟩
  · exact absurd rfl hnc
  · exact ⟨hm, trivial⟩
  · split
    · exact ⟨mapped_gate n phys hlay _ _ hm _ hop.2.1 _, rfl⟩
    · exact ⟨hm, rfl⟩
  · split
    · exact ⟨mapped_gate n phys hlay _ _ hm _ hop.2.1 _, rfl⟩
    · exact ⟨hm, rfl⟩
  · exact ⟨hm, trivial⟩

theorem retag_valid (n : Nat) (phys : List Nat) (hlay : IsLayout n phys)
    (op : Op R) (hop : op.Valid n) (hlen : op.qubits.length = 1) (hnc : op.type ≠ OpType.CNOT) :
    (⟨op.type, [phys.getD (op.qubits.getD 0 0) 0], op.angle⟩ : Op R).Valid n := by
  unfold Op.Valid at hop ⊢
  cases h : op.type <;> simp only [h] at hop hnc ⊢ <;>
    first
    | exact ⟨rfl, hlay.2.1 _ hop.2⟩
    | exact ⟨rfl, hlay.2.1 _ hop.2.1, hop.2.2⟩
    | exact absurd rfl hnc
    | (rw [hlen] at hop; exact absurd hop (by decide))

end MapperSound

section MapperStep
variable {R : Type} [LinearOrderedField R]

theorem map_to_line_step_inv (L : Libm R) (n : Nat) (s s0 : (Nat → c64 R) × Rng R)
    (out : List (Op R)) (phys : List Nat) (hinv : MapInv L n s s0 out phys)
    (op : Op R) (hop : op.Valid n) :
    MapInv L n (op_sem L op s) s0 (map_to_line_step (out, phys) op).1
      (map_to_line_step (out, phys) op).2 := by
  by_cases hc : op.type = OpType.CNOT
  · -- a CNOT: walk the endpoints together, then emit the gate
    have hv := hop
    unfold Op.Valid at hv
    simp only [hc] at hv
    obtain ⟨hlen, hlc, hlt, hne⟩ := hv
    unfold map_to_line_step
    simp only [hc, hlen, and_self, if_true]
    obtain ⟨hi1, ha1, hb1⟩ := walk_up_inv L n s s0 (op.qubits.getD 0 0) (op.qubits.getD 1 0)
      hlc hlt (phys.getD (op.qubits.getD 1 0) 0 - phys.getD (op.qubits.getD 0 0) 0)
      (phys.getD (op.qubits.getD 1 0) 0) out phys (phys.getD (op.qubits.getD 0 0) 0) rfl rfl hinv
    generalize walk_up (phys.getD (op.qubits.getD 1 0) 0 - phys.getD (op.qubits.getD 0 0) 0)
      (phys.getD (op.qubits.getD 1 0) 0) (out, phys, phys.getD (op.qubits.getD 0 0) 0) = r1
      at hi1 ha1 hb1
    obtain ⟨hi2, ha2, hb2⟩ := walk_up_inv L n s s0 (op.qubits.getD 1 0) (op.qubits.getD 0 0)
      hlt hlc (r1.2.2 - phys.getD (op.qubits.getD 1 0) 0) r1.2.2 r1.1 r1.2.1
      (phys.getD (op.qubits.getD 1 0) 0) hb1 ha1 hi1
    generalize walk_up (r1.2.2 - phys.getD (op.qubits.getD 1 0) 0) r1.2.2
      (r1.1, r1.2.1, phys.getD (op.qubits.getD 1 0) 0) = r2 at hi2 ha2 hb2
    obtain ⟨hlay, hval, hmap, hrng⟩ := hi2
    have hpc : r1.2.2 < n := by rw [← hb2]; exact hlay.2.1 _ hlc
    have hpt : r2.2.2 < n := by rw [← ha2]; exact hlay.2.1 _ hlt
    have hpne : r1.2.2 ≠ r2.2.2 := by
      intro e
      rw [← hb2, ← ha2] at e
      exact hne (hlay.2.2 _ _ hlc hlt e)
    refine ⟨hlay, ?_, ?_, ?_⟩
    · intro o ho
      rcases List.mem_append.mp ho with h | h
      · exact hval o h
      · rw [List.mem_singleton] at h
        subst h
        simp only [Op.Valid, List.length_cons, List.length_nil, List.getD_cons_zero,
          List.getD_cons_succ]
        exact ⟨trivial, hpc, hpt, hpne⟩
    · rw [ops_sem_append, ops_sem_single]
      have e1 : (op_sem L op s).1 = cx_fn (op.qubits.getD 0 0) (op.qubits.getD 1 0) s.1 := by
        simp only [op_sem, hc, hne, if_false]
      have e2 : (op_sem L ⟨OpType.CNOT, [r1.2.2, r2.2.2], 0⟩ (ops_sem L r2.1 s0)).1
          = cx_fn r1.2.2 r2.2.2 (ops_sem L r2.1 s0).1 := by
        simp only [op_sem, List.getD_cons_zero, List.getD_cons_succ, hpne, if_false]
      rw [e1, e2]
      have := mapped_cx n r2.2.1 hlay _ _ hmap _ _ hlc hlt
      rw [hb2, ha2] at this
      exact this
    · rw [ops_sem_append, ops_sem_single]
      have e1 : (op_sem L op s).2 = s.2 := by simp only [op_sem, hc]
      have e2 : (op_sem L ⟨OpType.CNOT, [r1.2.2, r2.2.2], 0⟩ (ops_sem L r2.1 s0)).2
          = (ops_sem L r2.1 s0).2 := by simp only [op_sem]
      rw [e1, e2, hrng]
  · obtain ⟨hlay, hval, hmap, hrng⟩ := hinv
    by_cases hlen : op.qubits.length = 1
    · -- a single-qubit gate or channel: retagged through the layout
      have hstep : map_to_line_step (out, phys) op
          = (out ++ [⟨op.type, [phys.getD (op.qubits.getD 0 0) 0], op.angle⟩], phys) := by
        unfold map_to_line_step
        simp only [hc, false_and, if_false, hlen, if_true]
      rw [hstep]
      obtain ⟨hm2, hr2⟩ := retag_sem L n phys hlay op hop hlen hc s (ops_sem L out s0) hmap hrng
      refine ⟨hlay, ?_, ?_, ?_⟩
      · intro o ho
        rcases List.mem_append.mp ho with h | h
        · exact hval o h
        · rw [List.mem_singleton] at h
          subst h
          exact retag_valid n phys hlay op hop hlen hc
      · show Mapped n phys _ (ops_sem L (out ++ [_]) s0).1
        rw [ops_sem_append, ops_sem_single]
        exact hm2
      · show (ops_sem L (out ++ [_]) s0).2 = _
        rw [ops_sem_append, ops_sem_single]
        exact hr2
    · -- MEASURE: emitted unchanged, no effect on the state
      have hstep : map_to_line_step (out, phys) op = (out ++ [op], phys) := by
        unfold map_to_line_step
        simp only [hc, false_and, if_false, hlen]
      have hm : op.type = OpType.MEASURE := by
        unfold Op.Valid at hop
        cases h : op.type <;> simp only [h] at hop hc <;>
          first
          | rfl
          | exact absurd hop.1 hlen
          | exact absurd trivial hc
      have hsem : op_sem L op s = s := by simp only [op_sem, hm]
      rw [hstep, hsem]
      refine ⟨hlay, ?_, ?_, ?_⟩
      · intro o ho
        rcases List.mem_append.mp ho with h | h
        · exact hval o h
        · rw [List.mem_singleton] at h
          subst h
          exact hop
      · show Mapped n phys _ (ops_sem L (out ++ [op]) s0).1
        rw [ops_sem_append, ops_sem_single]
        have : op_sem L op (ops_sem L out s0) = ops_sem L out s0 := by simp only [op_sem, hm]
        rw [this]; exact hmap
      · show (ops_sem L (out ++ [op]) s0).2 = _
        rw [ops_sem_append, ops_sem_single]
        have : op_sem L op (ops_sem L out s0) = ops_sem L out s0 := by simp only [op_sem, hm]
        rw [this]; exact hrng

theorem map_to_line_fold_inv (L : Libm R) (n : Nat) (s0 : (Nat → c64 R) × Rng R)
    (ops : List (Op R)) (hops : ∀ o ∈ ops, o.Valid n) (s : (Nat → c64 R) × Rng R)
    (st : List (Op R) × List Nat) (hinv : MapInv L n s s0 st.1 st.2) :
    MapInv L n (ops_sem L ops s) s0 (ops.foldl map_to_line_step st).1
      (ops.foldl map_to_line_step st).2 := by
  induction ops generalizing s st with
  | nil => exact hinv
  | cons op ops ih =>
    rw [List.foldl_cons, ops_sem_cons]
    apply ih (fun o ho => hops o (List.mem_cons_of_mem _ ho))
    exact map_to_line_step_inv L n s s0 st.1 st.2 hinv op (hops op (List.mem_cons_self _ _))

theorem mapped_identity (n : Nat) (ψ : Nat → c64 R) : Mapped n (List.range n) ψ ψ := by
  intro x y hx hy hp
  have : y = x := by
    apply Nat.eq_of_testBit_eq
    intro i
    by_cases hi : i < n
    · have := hp i hi
      rwa [show (List.range n).getD i 0 = i by
        simp [List.getD_eq_getElem?_getD, List.getElem?_range hi]] at this
    · have h1 : y.testBit i = false :=
        Nat.testBit_lt_two_pow (lt_of_lt_of_le hy (Nat.pow_le_pow_right (by decide) (by omega)))
      have h2 : x.testBit i = false :=
        Nat.testBit_lt_two_pow (lt_of_lt_of_le hx (Nat.pow_le_pow_right (by decide) (by omega)))
      rw [h1, h2]
  rw [this]

theorem map_to_line_inv (L : Libm R) (c : Circuit R) (hc : c.Valid)
    (s0 : (Nat → c64 R) × Rng R) :
    MapInv L c.nqubits (ops_sem L c.ops s0) s0 (map_to_line c).ops (final_layout c) := by
  apply map_to_line_fold_inv L c.nqubits s0 c.ops hc s0 ([], List.range c.nqubits)
  exact ⟨isLayout_range c.nqubits, by simp, mapped_identity c.nqubits s0.1, rfl⟩

theorem getD_map_range (f : Nat → R) (N i : Nat) (hi : i < N) :
    ((List.range N).map f).getD i 0 = f i := by
  simp [List.getD_eq_getElem?_getD, List.getElem?_range hi]

end MapperStep

section MapperFinal
variable {R : Type} [LinearOrderedField R]

theorem cx_fn_apply (c t : Nat) (ψ : Nat → c64 R) (x : Nat) :
    cx_fn c t ψ x = ψ (cx_index c t x) := rfl

theorem gate_fn_apply (q : Nat) (u : Coeffs R) (ψ : Nat → c64 R) (x : Nat) :
    gate_fn q u ψ x =
      if x &&& 2 ^ q = 0 then u.u00 * ψ x + u.u01 * ψ (x ^^^ 2 ^ q)
      else u.u10 * ψ (x ^^^ 2 ^ q) + u.u11 * ψ x := rfl

/-- The mapped circuit reports, at the relabelled basis index, the probability the input
circuit reports. -/
theorem map_to_line_sound (L : Libm R) (hL : L.Lawful) (src : RngSource R)
    (c : Circuit R) (hc : c.Valid) (seed : Nat) (collapse : Bool) :
    IsLayout c.nqubits (final_layout c) ∧
    ∀ x, x < 2 ^ c.nqubits →
      (run L src (map_to_line c) seed collapse).probabilities.getD (place (final_layout c) x) 0
        = (run L src c seed collapse).probabilities.getD x 0 := by
  obtain ⟨hlay, hval, hmap, _⟩ := map_to_line_inv L c hc (ket0, Rng.seeded src seed)
  refine ⟨hlay, ?_⟩
  intro x hx
  have hv2 : (map_to_line c).Valid := hval
  have hpl := place_lt c.nqubits (final_layout c) hlay x
  rw [run_probabilities_sem L hL src _ hv2 seed collapse,
    run_probabilities_sem L hL src c hc seed collapse]
  have hn : (map_to_line c).nqubits = c.nqubits := rfl
  rw [hn, getD_map_range _ _ _ hpl, getD_map_range _ _ _ hx]
  rw [hmap x _ hx hpl (place_placed c.nqubits (final_layout c) hlay x)]

/-- Claim C3, amended: for every well-formed circuit and every seed, the layout `map_to_line`
ends with is a permutation of the qubits, and `run` on `map_to_line(C)` returns at the basis
index whose bit `phys[l]` is bit `l` of `x` the probability `run` on `C` returns at `x`. -/
theorem map_to_line_probabilities (L : Libm R) (hL : L.Lawful) (src : RngSource R)
    (c : Circuit R) (hc : c.Valid) (seed : Nat) (collapse : Bool) :
    IsLayout c.nqubits (final_layout c) ∧
    ∀ x, x < 2 ^ c.nqubits →
      (run L src (map_to_line c) seed collapse).probabilities.getD (place (final_layout c) x) 0
        = (run L src c seed collapse).probabilities.getD x 0 :=
  map_to_line_sound L hL src c hc seed collapse

end MapperFinal

/-- Witness for claim C3: `H 0; CNOT 0 2` on three qubits. -/
theorem map_to_line_probabilities_witness :
    (⟨Real.sqrt, Real.cos, Real.sin⟩ : Libm ℝ).Lawful ∧
    (⟨3, [⟨OpType.H, [0], 0⟩, ⟨OpType.CNOT, [0, 2], 0⟩]⟩ : Circuit ℝ).Valid ∧
    (IsLayout 3 (final_layout (⟨3, [⟨OpType.H, [0], 0⟩, ⟨OpType.CNOT, [0, 2], 0⟩]⟩ : Circuit ℝ)) ∧
    ∀ x, x < 2 ^ 3 →
      (run ⟨Real.sqrt, Real.cos, Real.sin⟩ (fun _ _ => 0)
        (map_to_line ⟨3, [⟨OpType.H, [0], 0⟩, ⟨OpType.CNOT, [0, 2], 0⟩]⟩) 1 true).probabilities.getD
          (place (final_layout
            (⟨3, [⟨OpType.H, [0], 0⟩, ⟨OpType.CNOT, [0, 2], 0⟩]⟩ : Circuit ℝ)) x) 0
        = (run ⟨Real.sqrt, Real.cos, Real.sin⟩ (fun _ _ => 0)
          ⟨3, [⟨OpType.H, [0], 0⟩, ⟨OpType.CNOT, [0, 2], 0⟩]⟩ 1 true).probabilities.getD x 0) := by
  have hv : (⟨3, [⟨OpType.H, [0], 0⟩, ⟨OpType.CNOT, [0, 2], 0⟩]⟩ : Circuit ℝ).Valid := by
    intro op hop
    simp only [List.mem_cons, List.mem_singleton, List.not_mem_nil, or_false] at hop
    rcases hop with h | h <;> subst h <;> simp [Op.Valid]
  exact ⟨real_lawful, hv, map_to_line_probabilities _ real_lawful _ _ hv 1 true⟩

/-- Counterexample to claim C3: for `X 0; CNOT 0 2` on three qubits the mapped circuit leaves
the excitation on other physical qubits, so the two probability vectors differ. -/
theorem map_to_line_changes_probabilities :
    (run ⟨Real.sqrt, Real.cos, Real.sin⟩ (fun _ _ => 0)
        (map_to_line ⟨3, [⟨OpType.X, [0], 0⟩, ⟨OpType.CNOT, [0, 2], 0⟩]⟩) 0 false).probabilities
      ≠ (run ⟨Real.sqrt, Real.cos, Real.sin⟩ (fun _ _ => 0)
        ⟨3, [⟨OpType.X, [0], 0⟩, ⟨OpType.CNOT, [0, 2], 0⟩]⟩ 0 false).probabilities := by
  have hv : (⟨3, [⟨OpType.X, [0], 0⟩, ⟨OpType.CNOT, [0, 2], 0⟩]⟩ : Circuit ℝ).Valid := by
    intro op hop
    simp only [List.mem_cons, List.mem_singleton, List.not_mem_nil, or_false] at hop
    rcases hop with h | h <;> subst h <;> simp [Op.Valid]
  have hmapped := (map_to_line_sound _ real_lawful (fun _ _ => 0) _ hv 0 false).2 6
    (by decide)
  have hplace : place (final_layout
      (⟨3, [⟨OpType.X, [0], 0⟩, ⟨OpType.CNOT, [0, 2], 0⟩]⟩ : Circuit ℝ)) 6 = 5 := by
    have : final_layout (⟨3, [⟨OpType.X, [0], 0⟩, ⟨OpType.CNOT, [0, 2], 0⟩]⟩ : Circuit ℝ)
        = [1, 0, 2] := rfl
    rw [this]
    decide
  rw [hplace] at hmapped
  intro h
  rw [h] at hmapped
  rw [run_probabilities_sem _ real_lawful _ _ hv] at hmapped
  have e5 : (5 : Nat) < 2 ^ 3 := by decide
  have e6 : (6 : Nat) < 2 ^ 3 := by decide
  rw [getD_map_range _ _ _ e5, getD_map_range _ _ _ e6] at hmapped
  have c5 : cx_index 0 2 5 = 1 := by decide
  have c6 : cx_index 0 2 6 = 6 := by decide
  have b1 : (1 : Nat) &&& 2 ^ 0 ≠ 0 := by decide
  have b2 : (1 : Nat) ^^^ 2 ^ 0 = 0 := by decide
  have b3 : (6 : Nat) &&& 2 ^ 0 = 0 := by decide
  have b4 : (6 : Nat) ^^^ 2 ^ 0 = 7 := by decide
  have n02 : ¬ ((0 : Nat) = 2) := by decide
  have k0 : (ket0 : Nat → c64 ℝ) 0 = 1 := by simp [ket0]
  have k1 : (ket0 : Nat → c64 ℝ) 1 = 0 := by simp [ket0]
  have k6 : (ket0 : Nat → c64 ℝ) 6 = 0 := by simp [ket0]
  have k7 : (ket0 : Nat → c64 ℝ) 7 = 0 := by simp [ket0]
  simp only [ops_sem_cons, ops_sem_nil, op_sem, List.getD_cons_zero, List.getD_cons_succ,
    n02, cx_fn_apply, c5, c6, gate_fn_apply, b1, b2, b3, b4, k0, k1, k6, k7, if_true, if_false,
    gates.X_coeffs] at hmapped
  simp [c64.norm] at hmapped

section Scatter
variable {α : Type}

theorem idx_lt (d r c : Nat) (hr : r < d) (hc : c < d) : idx r c d < d * d := by
  unfold idx
  calc r * d + c < r * d + d := by omega
    _ = (r + 1) * d := by ring
    _ ≤ d * d := Nat.mul_le_mul_right d hr

theorem idx_inj (d r c r' c' : Nat) (hc : c < d) (hc' : c' < d)
    (h : idx r c d = idx r' c' d) : r = r' ∧ c = c' := by
  unfold idx at h
  have h1 : (r * d + c) / d = r := by
    rw [Nat.mul_comm, Nat.mul_add_div (by omega), Nat.div_eq_of_lt hc, Nat.add_zero]
  have h2 : (r' * d + c') / d = r' := by
    rw [Nat.mul_comm, Nat.mul_add_div (by omega), Nat.div_eq_of_lt hc', Nat.add_zero]
  have hr : r = r' := by rw [← h1, ← h2, h]
  subst hr
  exact ⟨rfl, by omega⟩

/-- A loop that writes `val k` at position `pos k` for each key of a list. -/
theorem writes_getD (keys : List Nat) (pos : Nat → Nat) (val : Nat → α) (init : List α)
    (dflt : α) (hinj : ∀ k ∈ keys, ∀ k' ∈ keys, pos k = pos k' → k = k')
    (hlt : ∀ k ∈ keys, pos k < init.length) :
    (keys.foldl (fun t k => t.set (pos k) (val k)) init).length = init.length ∧
    (∀ k ∈ keys, (keys.foldl (fun t k => t.set (pos k) (val k)) init).getD (pos k) dflt = val k) ∧
    (∀ p, (∀ k ∈ keys, pos k ≠ p) →
      (keys.foldl (fun t k => t.set (pos k) (val k)) init).getD p dflt = init.getD p dflt) := by
  induction keys generalizing init with
  | nil => simp
  | cons k ks ih =>
    have hinj' : ∀ a ∈ ks, ∀ b ∈ ks, pos a = pos b → a = b :=
      fun a ha b hb => hinj a (List.mem_cons_of_mem _ ha) b (List.mem_cons_of_mem _ hb)
    have hlt' : ∀ a ∈ ks, pos a < (init.set (pos k) (val k)).length := by
      intro a ha; rw [List.length_set]; exact hlt a (List.mem_cons_of_mem _ ha)
    obtain ⟨h1, h2, h3⟩ := ih (init.set (pos k) (val k)) hinj' hlt'
    rw [List.foldl_cons]
    refine ⟨by rw [h1, List.length_set], ?_, ?_⟩
    · intro a ha
      by_cases hmem : a ∈ ks
      · exact h2 a hmem
      · have hak : a = k := by
          rcases List.mem_cons.mp ha with h | h
          · exact h
          · exact absurd h hmem
        subst hak
        rw [h3 (pos a)]
        · rw [getD_set]
          simp [hlt a (List.mem_cons_self _ _)]
        · intro b hb e
          have := hinj b (List.mem_cons_of_mem _ hb) a (List.mem_cons_self _ _) e
          subst this
          exact hmem hb
    · intro p hp
      rw [h3 p (fun a ha => hp a (List.mem_cons_of_mem _ ha)), getD_set]
      have : pos k ≠ p := hp k (List.mem_cons_self _ _)
      simp [this]

/-- A doubly nested loop that writes `val r c` at position `pos r c`. -/
theorem scatter_getD (d : Nat) (pos : Nat → Nat → Nat) (val : Nat → Nat → α) (init : List α)
    (dflt : α)
    (hinj : ∀ r c r' c', r < d → c < d → r' < d → c' < d → pos r c = pos r' c' →
      r = r' ∧ c = c')
    (hlt : ∀ r c, r < d → c < d → pos r c < init.length) :
    ((List.range d).foldl
      (fun t r => (List.range d).foldl (fun t c => t.set (pos r c) (val r c)) t) init).length
      = init.length ∧
    ∀ r c, r < d → c < d →
      ((List.range d).foldl
        (fun t r => (List.range d).foldl (fun t c => t.set (pos r c) (val r c)) t) init).getD
        (pos r c) dflt = val r c := by
  have key : ∀ j, j ≤ d →
      ((List.range j).foldl
        (fun t r => (List.range d).foldl (fun t c => t.set (pos r c) (val r c)) t) init).length
        = init.length ∧
      (∀ r c, r < j → c < d →
        ((List.range j).foldl
          (fun t r => (List.range d).foldl (fun t c => t.set (pos r c) (val r c)) t) init).getD
          (pos r c) dflt = val r c) ∧
      (∀ p, (∀ r c, r < j → c < d → pos r c ≠ p) →
        ((List.range j).foldl
          (fun t r => (List.range d).foldl (fun t c => t.set (pos r c) (val r c)) t) init).getD
          p dflt = init.getD p dflt) := by
    intro j
    induction j with
    | zero => intro _; simp
    | succ j ih =>
      intro hj
      obtain ⟨h1, h2, h3⟩ := ih (by omega)
      rw [List.range_succ, List.foldl_append]
      simp only [List.foldl_cons, List.foldl_nil]
      generalize (List.range j).foldl
        (fun t r => (List.range d).foldl (fun t c => t.set (pos r c) (val r c)) t) init = t0
        at h1 h2 h3
      obtain ⟨g1, g2, g3⟩ := writes_getD (List.range d) (pos j) (val j) t0 dflt
        (fun k hk k' hk' e =>
          (hinj j k j k' (by omega) (List.mem_range.mp hk) (by omega) (List.mem_range.mp hk') e).2)
        (fun k hk => by rw [h1]; exact hlt j k (by omega) (List.mem_range.mp hk))
      refine ⟨by rw [g1, h1], ?_, ?_⟩
      · intro r c hr hc
        by_cases hrj : r = j
        · subst hrj
          exact g2 c (List.mem_range.mpr hc)
        · have hr' : r < j := by omega
          rw [g3 (pos r c), h2 r c hr' hc]
          intro k hk e
          exact hrj (hinj j k r c (by omega) (List.mem_range.mp hk) (by omega) hc e).1.symm
      · intro p hp
        rw [g3 p (fun k hk => hp j k (by omega) (List.mem_range.mp hk))]
        exact h3 p (fun r c hr hc => hp r c (by omega) hc)
  obtain ⟨h1, h2, _⟩ := key d le_rfl
  exact ⟨h1, h2⟩

/-- A loop that rewrites every entry in place from its old value. -/
theorem inplace_getD (f : Nat → α → α) (init : List α) (dflt : α) :
    ((List.range init.length).foldl (fun x i => x.set i (f i (x.getD i dflt))) init).length
      = init.length ∧
    ∀ i, i < init.length →
      ((List.range init.length).foldl (fun x i => x.set i (f i (x.getD i dflt))) init).getD i dflt
        = f i (init.getD i dflt) := by
  have key : ∀ k, k ≤ init.length →
      ((List.range k).foldl (fun x i => x.set i (f i (x.getD i dflt))) init).length
        = init.length ∧
      ∀ i, ((List.range k).foldl (fun x i => x.set i (f i (x.getD i dflt))) init).getD i dflt
        = if i < k then f i (init.getD i dflt) else init.getD i dflt := by
    intro k
    induction k with
    | zero => intro _; simp
    | succ k ih =>
      intro hk
      obtain ⟨h1, h2⟩ := ih (by omega)
      rw [List.range_succ, List.foldl_append]
      simp only [List.foldl_cons, List.foldl_nil]
      refine ⟨by rw [List.length_set, h1], ?_⟩
      intro i
      rw [getD_set, h1, h2 k, h2 i]
      by_cases hik : k = i
      · subst hik
        have : k < init.length := by omega
        simp [this]
      · have e : (i < k + 1) ↔ (i < k) := by omega
        simp only [hik, false_and, if_false, e]
  obtain ⟨h1, h2⟩ := key init.length le_rfl
  refine ⟨h1, ?_⟩
  intro i hi
  rw [h2 i, if_pos hi]

end Scatter

section MatrixLemmas
variable {R : Type} [LinearOrderedField R]

theorem lift_1q_mul (n q : Nat) (hq : q < n) (u : Coeffs R) (M : Nat → Nat → c64 R)
    (r c : Nat) (hr : r < 2 ^ n) :
    mat_mul (2 ^ n) (lift_1q q u) M r c =
      if r &&& 2 ^ q = 0 then u.u00 * M r c + u.u01 * M (r ^^^ 2 ^ q) c
      else u.u10 * M (r ^^^ 2 ^ q) c + u.u11 * M r c := by
  unfold mat_mul
  have hx : r ^^^ 2 ^ q < 2 ^ n := xor_pow_lt r q n hr hq
  have hne : r ≠ r ^^^ 2 ^ q := fun e => xor_pow_ne r q e.symm
  rw [Finset.sum_eq_add r (r ^^^ 2 ^ q) hne]
  · have h1 : ¬ (r ^^^ 2 ^ q = r) := xor_pow_ne r q
    simp only [lift_1q, if_true, h1, if_false]
    split <;> ring
  · intro k _ hk
    simp only [lift_1q, hk.1, hk.2, if_false, zero_mul]
  · intro h; exact absurd (Finset.mem_range.mpr hr) h
  · intro h; exact absurd (Finset.mem_range.mpr hx) h

theorem mul_lift_1q (n q : Nat) (hq : q < n) (u : Coeffs R) (M : Nat → Nat → c64 R)
    (r c : Nat) (hc : c < 2 ^ n) :
    mat_mul (2 ^ n) M (lift_1q q u) r c =
      if c &&& 2 ^ q = 0 then M r c * u.u00 + M r (c ^^^ 2 ^ q) * u.u10
      else M r (c ^^^ 2 ^ q) * u.u01 + M r c * u.u11 := by
  unfold mat_mul
  have hx : c ^^^ 2 ^ q < 2 ^ n := xor_pow_lt c q n hc hq
  have hne : c ≠ c ^^^ 2 ^ q := fun e => xor_pow_ne c q e.symm
  rw [Finset.sum_eq_add c (c ^^^ 2 ^ q) hne]
  · have h1 : ¬ (c ^^^ 2 ^ q = c) := xor_pow_ne c q
    have h2 : ¬ (c = c ^^^ 2 ^ q) := hne
    have h3 : (c ^^^ 2 ^ q) ^^^ 2 ^ q = c := xor_pow_xor_pow c q
    by_cases hb : c &&& 2 ^ q = 0
    · have hb2 : ¬ ((c ^^^ 2 ^ q) &&& 2 ^ q = 0) := by
        rw [xor_pow_and_pow]; simp [hb]
      simp only [lift_1q, if_true, h2, h3, if_false, hb, hb2]
    · have hb2 : (c ^^^ 2 ^ q) &&& 2 ^ q = 0 := by
        rw [xor_pow_and_pow]; exact hb
      simp only [lift_1q, if_true, h2, h3, if_false, hb, hb2]
      ring
  · intro k _ hk
    have h1 : ¬ (c = k) := fun e => hk.1 e.symm
    have h2 : ¬ (c = k ^^^ 2 ^ q) := by
      intro e
      apply hk.2
      rw [e, xor_pow_xor_pow]
    simp only [lift_1q, h1, h2, if_false, mul_zero]
  · intro h; exact absurd (Finset.mem_range.mpr hc) h
  · intro h; exact absurd (Finset.mem_range.mpr hx) h

theorem re_sum (s : Finset Nat) (f : Nat → c64 R) :
    (∑ i in s, f i).re = ∑ i in s, (f i).re := by
  induction s using Finset.induction_on with
  | empty => simp
  | insert ha ih => rw [Finset.sum_insert ha, Finset.sum_insert ha, c64.add_re, ih]

theorem foldl_add_eq_sum (f : Nat → R) (d : Nat) :
    (List.range d).foldl (fun tr i => tr + f i) 0 = ∑ i in Finset.range d, f i := by
  induction d with
  | zero => simp
  | succ d ih =>
    rw [List.range_succ, List.foldl_append, ih, Finset.sum_range_succ]
    rfl

theorem renormalize_of_unit (dm : DensityMatrix R) (h : dm.trace.re = 1) :
    dm.renormalize_ = dm := by
  unfold DensityMatrix.renormalize_
  have htr : (List.range dm.dim).foldl
      (fun tr i => tr + c64.real (dm.rho_.getD (idx i i dm.dim) 0)) 0 = 1 := by
    rw [foldl_add_eq_sum (fun i => c64.real (dm.rho_.getD (idx i i dm.dim) 0))]
    rw [← h, DensityMatrix.trace, re_sum]
    rfl
  simp only [htr, one_ne_zero, if_false]
  have hid : List.map (c64.scale (1 / 1 : R)) dm.rho_ = dm.rho_ := by
    have : (c64.scale (1 / 1 : R)) = id := by
      funext a; simp [c64.scale_one]
    rw [this, List.map_id]
  rw [hid]

end MatrixLemmas

section Dephase
variable {R : Type} [LinearOrderedField R]

theorem z_sweep_spec (d m : Nat) (rho init : List (c64 R)) (hlen : init.length = d * d) :
    (DensityMatrix.z_sweep d m rho init).length = d * d ∧
    ∀ r c, r < d → c < d →
      (DensityMatrix.z_sweep d m rho init).getD (idx r c d) 0 =
        if xor (decide (r &&& m ≠ 0)) (decide (c &&& m ≠ 0)) then -(rho.getD (idx r c d) 0)
        else rho.getD (idx r c d) 0 := by
  have := scatter_getD d (fun r c => idx r c d)
    (fun r c => if xor (decide (r &&& m ≠ 0)) (decide (c &&& m ≠ 0))
      then -(rho.getD (idx r c d) 0) else rho.getD (idx r c d) 0) init (0 : c64 R)
    (fun r c r' c' _ hc _ hc' e => idx_inj d r c r' c' hc hc' e)
    (fun r c hr hc => by rw [hlen]; exact idx_lt d r c hr hc)
  rw [hlen] at this
  exact this

theorem mix_spec (a w : R) (rho other : List (c64 R)) :
    (DensityMatrix.mix a w rho other).length = rho.length ∧
    ∀ i, i < rho.length →
      (DensityMatrix.mix a w rho other).getD i 0
        = c64.scale a (rho.getD i 0) + c64.scale w (other.getD i 0) :=
  inplace_getD (fun i x => c64.scale a x + c64.scale w (other.getD i 0)) rho 0

theorem dephase_entry_aux (dm : DensityMatrix R) (hwf : dm.WellFormed) (q : Nat) (p : R)
    (r c : Nat) (hr : r < dm.dim) (hc : c < dm.dim) :
    (DensityMatrix.mix (1 - p) p dm.rho_
        (DensityMatrix.z_sweep dm.dim (1 <<< q) dm.rho_ dm.rho_)).getD (idx r c dm.dim) 0
      = if (r &&& 2 ^ q = 0 ↔ c &&& 2 ^ q = 0) then dm.entry r c
        else c64.scale (1 - 2 * p) (dm.entry r c) := by
  have hz := (z_sweep_spec dm.dim (1 <<< q) dm.rho_ dm.rho_ hwf).2 r c hr hc
  have hm := (mix_spec (1 - p) p dm.rho_
    (DensityMatrix.z_sweep dm.dim (1 <<< q) dm.rho_ dm.rho_)).2 (idx r c dm.dim)
    (by rw [hwf]; exact idx_lt _ r c hr hc)
  rw [hm, hz, Nat.one_shiftLeft]
  unfold DensityMatrix.entry
  by_cases h1 : r &&& 2 ^ q = 0 <;> by_cases h2 : c &&& 2 ^ q = 0 <;>
    simp only [h1, h2, ne_eq, not_true_eq_false, not_false_eq_true, decide_True, decide_False,
      Bool.xor_self, Bool.xor_true, Bool.xor_false, Bool.not_true, Bool.not_false, if_true,
      if_false, iff_self, iff_true, iff_false, Bool.false_eq_true, Bool.true_xor,
      Bool.false_xor] <;>
    ext <;> simp <;> ring

theorem dephase_trace (dm : DensityMatrix R) (hwf : dm.WellFormed) (q : Nat) (p : R) :
    (⟨dm.n_, DensityMatrix.mix (1 - p) p dm.rho_
        (DensityMatrix.z_sweep dm.dim (1 <<< q) dm.rho_ dm.rho_)⟩ : DensityMatrix R).trace
      = dm.trace := by
  unfold DensityMatrix.trace
  apply Finset.sum_congr rfl
  intro i hi
  have hi' : i < dm.dim := Finset.mem_range.mp hi
  show List.getD _ (idx i i dm.dim) 0 = _
  rw [dephase_entry_aux dm hwf q p i i hi' hi']
  simp

/-- Claim C9: for every unit-trace density buffer on `n` qubits, every target `q < n` and
every `p`, `dephase` leaves `(1-p) ρ + p Z ρ Z` with `Z` on qubit `q`; entry by entry, an entry
whose row and column agree on bit `q` is unchanged and any other entry is multiplied by
`1 - 2p`. -/
theorem dephase_spec (dm : DensityMatrix R) (hwf : dm.WellFormed) (htr : dm.trace = 1)
    (q : Nat) (hq : q < dm.n_) (p : R) (r c : Nat) (hr : r < dm.dim) (hc : c < dm.dim) :
    (dm.dephase q p).entry r c
      = c64.scale (1 - p) (dm.entry r c)
        + c64.scale p (mat_mul dm.dim (mat_mul dm.dim (lift_1q q gates.Z_coeffs) dm.entry)
            (lift_1q q gates.Z_coeffs) r c) ∧
    (dm.dephase q p).entry r c
      = if (r &&& 2 ^ q = 0 ↔ c &&& 2 ^ q = 0) then dm.entry r c
        else c64.scale (1 - 2 * p) (dm.entry r c) := by
  have hd : dm.dim = 2 ^ dm.n_ := Nat.one_shiftLeft _
  have hren : dm.dephase q p = ⟨dm.n_, DensityMatrix.mix (1 - p) p dm.rho_
      (DensityMatrix.z_sweep dm.dim (1 <<< q) dm.rho_ dm.rho_)⟩ := by
    unfold DensityMatrix.dephase
    apply renormalize_of_unit
    rw [dephase_trace dm hwf q p, htr]
    rfl
  have hentry : (dm.dephase q p).entry r c
      = if (r &&& 2 ^ q = 0 ↔ c &&& 2 ^ q = 0) then dm.entry r c
        else c64.scale (1 - 2 * p) (dm.entry r c) := by
    rw [hren]
    exact dephase_entry_aux dm hwf q p r c hr hc
  refine ⟨?_, hentry⟩
  rw [hentry]
  have hr' : r < 2 ^ dm.n_ := by rw [← hd]; exact hr
  have hc' : c < 2 ^ dm.n_ := by rw [← hd]; exact hc
  rw [hd, mul_lift_1q dm.n_ q hq _ _ r c hc', lift_1q_mul dm.n_ q hq _ _ r c hr',
    lift_1q_mul dm.n_ q hq _ _ r _ hr']
  by_cases h1 : r &&& 2 ^ q = 0 <;> by_cases h2 : c &&& 2 ^ q = 0 <;>
    simp only [h1, h2, if_true, if_false, iff_self, iff_true, iff_false, not_true_eq_false,
      not_false_eq_true, gates.Z_coeffs] <;>
    ext <;> simp <;> ring

end Dephase

section OneQubit
variable {R : Type} [LinearOrderedField R]

theorem init_one : (DensityMatrix.init 1 : DensityMatrix R) = ⟨1, [1, 0, 0, 0]⟩ := rfl

theorem sweeps_one (u : Coeffs R) (a b c d : c64 R) :
    DensityMatrix.col_sweep 2 1 u (DensityMatrix.row_sweep 2 1 u [a, b, c, d]) =
      [(u.u00 * a + u.u01 * c) * c64.conj u.u00 + (u.u00 * b + u.u01 * d) * c64.conj u.u10,
       (u.u00 * a + u.u01 * c) * c64.conj u.u01 + (u.u00 * b + u.u01 * d) * c64.conj u.u11,
       (u.u10 * a + u.u11 * c) * c64.conj u.u00 + (u.u10 * b + u.u11 * d) * c64.conj u.u10,
       (u.u10 * a + u.u11 * c) * c64.conj u.u01 + (u.u10 * b + u.u11 * d) * c64.conj u.u11] :=
  rfl

theorem renormalize_one (a b c d : c64 R) :
    DensityMatrix.renormalize_ (⟨1, [a, b, c, d]⟩ : DensityMatrix R) =
      if a.re + d.re = 0 then ⟨1, [a, b, c, d]⟩
      else ⟨1, [c64.scale (1 / (a.re + d.re)) a, c64.scale (1 / (a.re + d.re)) b,
        c64.scale (1 / (a.re + d.re)) c, c64.scale (1 / (a.re + d.re)) d]⟩ := by
  have htr : (List.range (DensityMatrix.dim (⟨1, [a, b, c, d]⟩ : DensityMatrix R))).foldl
      (fun tr i => tr + c64.real
        ((⟨1, [a, b, c, d]⟩ : DensityMatrix R).rho_.getD
          (idx i i (DensityMatrix.dim (⟨1, [a, b, c, d]⟩ : DensityMatrix R))) 0)) 0
      = a.re + d.re := by
    show (0 + a.re) + d.re = a.re + d.re
    ring
  unfold DensityMatrix.renormalize_
  simp only [htr]
  rfl

theorem apply_unitary_1q_one (u : Coeffs R) (a b c d : c64 R) :
    DensityMatrix.apply_unitary_1q (⟨1, [a, b, c, d]⟩ : DensityMatrix R) 0 u =
      DensityMatrix.renormalize_ ⟨1,
        DensityMatrix.col_sweep 2 1 u (DensityMatrix.row_sweep 2 1 u [a, b, c, d])⟩ := rfl

theorem x_sweep_one (a b c d : c64 R) :
    DensityMatrix.x_sweep 2 1 [a, b, c, d] = [d, c, b, a] := rfl

theorem y_sweep_one (a b c d : c64 R) :
    DensityMatrix.y_sweep 2 1 [a, b, c, d] =
      [d * ⟨-1, 0⟩ * ⟨0, 1⟩, c * ⟨-1, 0⟩ * ⟨-1, 0⟩, b * ⟨0, 1⟩ * ⟨0, 1⟩, a * ⟨0, 1⟩ * ⟨-1, 0⟩] :=
  rfl

theorem z_sweep_one (a b c d : c64 R) (i0 i1 i2 i3 : c64 R) :
    DensityMatrix.z_sweep 2 1 [a, b, c, d] [i0, i1, i2, i3] = [a, -b, -c, d] := rfl

theorem accumulate_one (a b c d x y z w : c64 R) :
    DensityMatrix.accumulate [a, b, c, d] [x, y, z, w] = [a + x, b + y, c + z, d + w] := rfl

theorem mix_one (s t : R) (a b c d x y z w : c64 R) :
    DensityMatrix.mix s t [a, b, c, d] [x, y, z, w] =
      [c64.scale s a + c64.scale t x, c64.scale s b + c64.scale t y,
       c64.scale s c + c64.scale t z, c64.scale s d + c64.scale t w] := rfl

theorem depolarize_one (p : R) (a b c d : c64 R) :
    DensityMatrix.depolarize (⟨1, [a, b, c, d]⟩ : DensityMatrix R) 0 p =
      DensityMatrix.renormalize_ ⟨1,
        [c64.scale (1 - p) a + c64.scale (p / 3) (0 + d + d * ⟨-1, 0⟩ * ⟨0, 1⟩ + a),
         c64.scale (1 - p) b + c64.scale (p / 3) (0 + c + c * ⟨-1, 0⟩ * ⟨-1, 0⟩ + -b),
         c64.scale (1 - p) c + c64.scale (p / 3) (0 + b + b * ⟨0, 1⟩ * ⟨0, 1⟩ + -c),
         c64.scale (1 - p) d + c64.scale (p / 3) (0 + a + a * ⟨0, 1⟩ * ⟨-1, 0⟩ + d)]⟩ := by
  have h0 : DensityMatrix.depolarize (⟨1, [a, b, c, d]⟩ : DensityMatrix R) 0 p =
      DensityMatrix.renormalize_ ⟨1, DensityMatrix.mix (1 - p) (p / 3) [a, b, c, d]
        (DensityMatrix.accumulate (DensityMatrix.accumulate (DensityMatrix.accumulate
          [0, 0, 0, 0] (DensityMatrix.x_sweep 2 1 [a, b, c, d]))
          (DensityMatrix.y_sweep 2 1 [a, b, c, d]))
          (DensityMatrix.z_sweep 2 1 [a, b, c, d] [0, 0, 0, 0]))⟩ := rfl
  rw [h0, x_sweep_one, y_sweep_one, z_sweep_one, accumulate_one, accumulate_one, accumulate_one,
    mix_one]

end OneQubit

section Conjugation
variable {R : Type} [LinearOrderedField R]

theorem dagger_lift_1q (q : Nat) (u : Coeffs R) :
    dagger (lift_1q q u) = lift_1q q u.dagger := by
  funext r c
  unfold dagger lift_1q Coeffs.dagger
  by_cases h1 : c = r
  · subst h1
    simp only [if_true]
    split <;> rfl
  · have h2 : ¬ (r = c) := fun e => h1 e.symm
    simp only [h1, h2, if_false]
    by_cases h3 : c = r ^^^ 2 ^ q
    · have h4 : r = c ^^^ 2 ^ q := by rw [h3, xor_pow_xor_pow]
      have h5 : (c &&& 2 ^ q = 0) ↔ ¬ (r &&& 2 ^ q = 0) := by
        rw [h3, xor_pow_and_pow]
      by_cases h6 : r &&& 2 ^ q = 0
      · have h7 : ¬ (c &&& 2 ^ q = 0) := by rw [h5]; simp [h6]
        simp only [← h3, ← h4, if_true, h6, h7, if_false]
      · have h7 : c &&& 2 ^ q = 0 := by rw [h5]; exact h6
        simp only [← h3, ← h4, if_true, h6, h7, if_false]
    · have h4 : ¬ (r = c ^^^ 2 ^ q) := by
        intro e; apply h3; rw [e, xor_pow_xor_pow]
      simp only [h3, h4, if_false]
      ext <;> simp

/-- Entry-wise form of `G ρ G†` for `G` a one-qubit operator on qubit `q`. -/
theorem conjugation_lift_1q (n q : Nat) (hq : q < n) (u : Coeffs R) (M : Nat → Nat → c64 R)
    (r c : Nat) (hr : r < 2 ^ n) (hc : c < 2 ^ n) :
    conjugation (2 ^ n) (lift_1q q u) M r c =
      if c &&& 2 ^ q = 0 then
        (if r &&& 2 ^ q = 0 then u.u00 * M r c + u.u01 * M (r ^^^ 2 ^ q) c
          else u.u10 * M (r ^^^ 2 ^ q) c + u.u11 * M r c) * c64.conj u.u00
        + (if r &&& 2 ^ q = 0 then u.u00 * M r (c ^^^ 2 ^ q) + u.u01 * M (r ^^^ 2 ^ q) (c ^^^ 2 ^ q)
          else u.u10 * M (r ^^^ 2 ^ q) (c ^^^ 2 ^ q) + u.u11 * M r (c ^^^ 2 ^ q)) * c64.conj u.u01
      else
        (if r &&& 2 ^ q = 0 then u.u00 * M r (c ^^^ 2 ^ q) + u.u01 * M (r ^^^ 2 ^ q) (c ^^^ 2 ^ q)
          else u.u10 * M (r ^^^ 2 ^ q) (c ^^^ 2 ^ q) + u.u11 * M r (c ^^^ 2 ^ q)) * c64.conj u.u10
        + (if r &&& 2 ^ q = 0 then u.u00 * M r c + u.u01 * M (r ^^^ 2 ^ q) c
          else u.u10 * M (r ^^^ 2 ^ q) c + u.u11 * M r c) * c64.conj u.u11 := by
  unfold conjugation
  rw [dagger_lift_1q, mul_lift_1q n q hq _ _ r c hc, lift_1q_mul n q hq u M r c hr,
    lift_1q_mul n q hq u M r _ hr]
  rfl

end Conjugation

theorem apply_unitary_init_one :
    ((DensityMatrix.init 1 : DensityMatrix ℚ).apply_unitary_1q 0
        ⟨⟨3 / 5, 0⟩, ⟨4 / 5, 0⟩, ⟨-4 / 5, 0⟩, ⟨3 / 5, 0⟩⟩).rho_
      = [⟨-9 / 7, 0⟩, ⟨-12 / 7, 0⟩, ⟨12 / 7, 0⟩, ⟨16 / 7, 0⟩] := by
  rw [init_one, apply_unitary_1q_one, sweeps_one, renormalize_one]
  split
  · rename_i h
    exfalso
    norm_num at h
  · simp only [List.cons.injEq, and_true]
    refine ⟨?_, ?_, ?_, ?_⟩ <;> ext <;> norm_num

theorem init_one_trace : (DensityMatrix.init 1 : DensityMatrix ℚ).trace = 1 := by
  have e00 : (DensityMatrix.init 1 : DensityMatrix ℚ).entry 0 0 = 1 := rfl
  have e11 : (DensityMatrix.init 1 : DensityMatrix ℚ).entry 1 1 = 0 := rfl
  have hd : (DensityMatrix.init 1 : DensityMatrix ℚ).dim = 2 := rfl
  unfold DensityMatrix.trace
  rw [hd, Finset.sum_range_succ, Finset.sum_range_succ, Finset.sum_range_zero, e00, e11]
  ext <;> simp

/-- Claim C7 fails on the code: for the unitary `U = [[3/5, 4/5], [-4/5, 3/5]]` and the
unit-trace buffer `|0><0|` on one qubit, `apply_unitary_1q` leaves
`[[-9/7, -12/7], [12/7, 16/7]]`, while `G ρ G†` has diagonal `9/25, 16/25`. -/
theorem apply_unitary_1q_not_conjugation :
    (⟨⟨3 / 5, 0⟩, ⟨4 / 5, 0⟩, ⟨-4 / 5, 0⟩, ⟨3 / 5, 0⟩⟩ : Coeffs ℚ).IsUnitary ∧
    (DensityMatrix.init 1 : DensityMatrix ℚ).trace = 1 ∧
    ((DensityMatrix.init 1 : DensityMatrix ℚ).apply_unitary_1q 0
        ⟨⟨3 / 5, 0⟩, ⟨4 / 5, 0⟩, ⟨-4 / 5, 0⟩, ⟨3 / 5, 0⟩⟩).rho_
      = [⟨-9 / 7, 0⟩, ⟨-12 / 7, 0⟩, ⟨12 / 7, 0⟩, ⟨16 / 7, 0⟩] ∧
    conjugation (2 ^ 1) (lift_1q 0 ⟨⟨3 / 5, 0⟩, ⟨4 / 5, 0⟩, ⟨-4 / 5, 0⟩, ⟨3 / 5, 0⟩⟩)
        (DensityMatrix.init 1 : DensityMatrix ℚ).entry 0 0 = ⟨9 / 25, 0⟩ ∧
    conjugation (2 ^ 1) (lift_1q 0 ⟨⟨3 / 5, 0⟩, ⟨4 / 5, 0⟩, ⟨-4 / 5, 0⟩, ⟨3 / 5, 0⟩⟩)
        (DensityMatrix.init 1 : DensityMatrix ℚ).entry 1 1 = ⟨16 / 25, 0⟩ := by
  have e00 : (DensityMatrix.init 1 : DensityMatrix ℚ).entry 0 0 = 1 := rfl
  have e01 : (DensityMatrix.init 1 : DensityMatrix ℚ).entry 0 1 = 0 := rfl
  have e10 : (DensityMatrix.init 1 : DensityMatrix ℚ).entry 1 0 = 0 := rfl
  have e11 : (DensityMatrix.init 1 : DensityMatrix ℚ).entry 1 1 = 0 := rfl
  have b0 : (0 : Nat) &&& 2 ^ 0 = 0 := by decide
  have b1 : ¬ ((1 : Nat) &&& 2 ^ 0 = 0) := by decide
  have x0 : (0 : Nat) ^^^ 2 ^ 0 = 1 := by decide
  have x1 : (1 : Nat) ^^^ 2 ^ 0 = 0 := by decide
  refine ⟨?_, ?_, ?_, ?_, ?_⟩
  · refine ⟨?_, ?_, ?_⟩ <;> ext <;> norm_num
  · have hd : (DensityMatrix.init 1 : DensityMatrix ℚ).dim = 2 := rfl
    unfold DensityMatrix.trace
    rw [hd, Finset.sum_range_succ, Finset.sum_range_succ, Finset.sum_range_zero, e00, e11]
    ext <;> simp
  · exact apply_unitary_init_one
  · rw [conjugation_lift_1q 1 0 (by decide) _ _ 0 0 (by decide) (by decide)]
    simp only [b0, x0, if_true, e00, e01, e10, e11]
    ext <;> norm_num
  · rw [conjugation_lift_1q 1 0 (by decide) _ _ 1 1 (by decide) (by decide)]
    simp only [b1, x1, if_false, e00, e01, e10, e11]
    ext <;> norm_num

section EntryLemmas
variable {R : Type} [LinearOrderedField R]

theorem renormalize_n (dm : DensityMatrix R) : dm.renormalize_.n_ = dm.n_ := by
  unfold DensityMatrix.renormalize_
  simp only
  split <;> rfl

theorem depolarize_n (dm : DensityMatrix R) (q : Nat) (p : R) :
    (dm.depolarize q p).n_ = dm.n_ := by
  unfold DensityMatrix.depolarize
  exact renormalize_n _

theorem apply_unitary_1q_n (dm : DensityMatrix R) (q : Nat) (u : Coeffs R) :
    (dm.apply_unitary_1q q u).n_ = dm.n_ := by
  unfold DensityMatrix.apply_unitary_1q
  exact renormalize_n _

theorem entry_one (dm : DensityMatrix R) (hn : dm.n_ = 1) (r c : Nat) :
    dm.entry r c = dm.rho_.getD (r * 2 + c) 0 := by
  unfold DensityMatrix.entry DensityMatrix.dim idx
  rw [hn]
  rfl

theorem dim_one (dm : DensityMatrix R) (hn : dm.n_ = 1) : dm.dim = 2 := by
  unfold DensityMatrix.dim
  rw [hn]
  rfl

end EntryLemmas

theorem depolarize_init_one :
    ((DensityMatrix.init 1 : DensityMatrix ℚ).depolarize 0 (1 / 2)).rho_
      = [⟨4 / 5, 0⟩, ⟨0, 0⟩, ⟨0, 0⟩, ⟨1 / 5, -1 / 5⟩] := by
  rw [init_one, depolarize_one, renormalize_one]
  split
  · rename_i h
    exfalso
    norm_num at h
  · simp only [List.cons.injEq, and_true]
    refine ⟨?_, ?_, ?_, ?_⟩ <;> ext <;> norm_num

/-- Claim C8 fails on the code: for `|0><0|` on one qubit and `p = 1/2`, `depolarize` leaves
diagonal entries `4/5` and `1/5 - i/5`, while `(1-p) ρ + (p/3)(XρX + YρY + ZρZ)` has diagonal
`2/3` and `1/3`. -/
theorem depolarize_not_spec :
    (DensityMatrix.init 1 : DensityMatrix ℚ).trace = 1 ∧
    ((DensityMatrix.init 1 : DensityMatrix ℚ).depolarize 0 (1 / 2)).entry 0 0 = ⟨4 / 5, 0⟩ ∧
    ((DensityMatrix.init 1 : DensityMatrix ℚ).depolarize 0 (1 / 2)).entry 1 1
      = ⟨1 / 5, -1 / 5⟩ ∧
    depolarize_spec 1 0 (1 / 2) (DensityMatrix.init 1 : DensityMatrix ℚ).entry 0 0
      = ⟨2 / 3, 0⟩ ∧
    depolarize_spec 1 0 (1 / 2) (DensityMatrix.init 1 : DensityMatrix ℚ).entry 1 1
      = ⟨1 / 3, 0⟩ := by
  have e00 : (DensityMatrix.init 1 : DensityMatrix ℚ).entry 0 0 = 1 := rfl
  have e01 : (DensityMatrix.init 1 : DensityMatrix ℚ).entry 0 1 = 0 := rfl
  have e10 : (DensityMatrix.init 1 : DensityMatrix ℚ).entry 1 0 = 0 := rfl
  have e11 : (DensityMatrix.init 1 : DensityMatrix ℚ).entry 1 1 = 0 := rfl
  have b0 : (0 : Nat) &&& 2 ^ 0 = 0 := by decide
  have b1 : ¬ ((1 : Nat) &&& 2 ^ 0 = 0) := by decide
  have x0 : (0 : Nat) ^^^ 2 ^ 0 = 1 := by decide
  have x1 : (1 : Nat) ^^^ 2 ^ 0 = 0 := by decide
  have hentry : ∀ i, i < 4 →
      ((DensityMatrix.init 1 : DensityMatrix ℚ).depolarize 0 (1 / 2)).rho_.getD i 0
        = ([⟨4 / 5, 0⟩, ⟨0, 0⟩, ⟨0, 0⟩, ⟨1 / 5, -1 / 5⟩] : List (c64 ℚ)).getD i 0 := by
    intro i _; rw [depolarize_init_one]
  refine ⟨?_, ?_, ?_, ?_, ?_⟩
  · have hd : (DensityMatrix.init 1 : DensityMatrix ℚ).dim = 2 := rfl
    unfold DensityMatrix.trace
    rw [hd, Finset.sum_range_succ, Finset.sum_range_succ, Finset.sum_range_zero, e00, e11]
    ext <;> simp
  · rw [entry_one _ (depolarize_n _ _ _) 0 0]
    exact hentry 0 (by decide)
  · rw [entry_one _ (depolarize_n _ _ _) 1 1]
    exact hentry 3 (by decide)
  · unfold depolarize_spec pauli_sandwich
    rw [mul_lift_1q 1 0 (by decide) _ _ 0 0 (by decide),
      mul_lift_1q 1 0 (by decide) _ _ 0 0 (by decide),
      mul_lift_1q 1 0 (by decide) _ _ 0 0 (by decide)]
    simp only [lift_1q_mul 1 0 (by decide) _ _ 0 _ (by decide), b0, x0, if_true, e00, e01, e10,
      e11, gates.X_coeffs, gates.Y_coeffs, gates.Z_coeffs]
    ext <;> norm_num
  · unfold depolarize_spec pauli_sandwich
    rw [mul_lift_1q 1 0 (by decide) _ _ 1 1 (by decide),
      mul_lift_1q 1 0 (by decide) _ _ 1 1 (by decide),
      mul_lift_1q 1 0 (by decide) _ _ 1 1 (by decide)]
    simp only [lift_1q_mul 1 0 (by decide) _ _ 1 _ (by decide), b1, x1, if_false, e00, e01, e10,
      e11, gates.X_coeffs, gates.Y_coeffs, gates.Z_coeffs]
    ext <;> norm_num

/-- Claim C10 fails on the code: starting from `|0><0|` on one qubit, one `depolarize` with
`p = 1/2` leaves a diagonal entry that is not real and a trace different from 1, and one
`apply_unitary_1q` with a unitary matrix leaves `ρ[0][1] ≠ conj(ρ[1][0])`. -/
theorem density_invariants_broken :
    ((DensityMatrix.init 1 : DensityMatrix ℚ).depolarize 0 (1 / 2)).entry 1 1
      ≠ c64.conj (((DensityMatrix.init 1 : DensityMatrix ℚ).depolarize 0 (1 / 2)).entry 1 1) ∧
    ((DensityMatrix.init 1 : DensityMatrix ℚ).depolarize 0 (1 / 2)).trace ≠ 1 ∧
    ((DensityMatrix.init 1 : DensityMatrix ℚ).apply_unitary_1q 0
        ⟨⟨3 / 5, 0⟩, ⟨4 / 5, 0⟩, ⟨-4 / 5, 0⟩, ⟨3 / 5, 0⟩⟩).entry 0 1
      ≠ c64.conj (((DensityMatrix.init 1 : DensityMatrix ℚ).apply_unitary_1q 0
        ⟨⟨3 / 5, 0⟩, ⟨4 / 5, 0⟩, ⟨-4 / 5, 0⟩, ⟨3 / 5, 0⟩⟩).entry 1 0) := by
  have hdep : ∀ i, ((DensityMatrix.init 1 : DensityMatrix ℚ).depolarize 0 (1 / 2)).rho_.getD i 0
      = ([⟨4 / 5, 0⟩, ⟨0, 0⟩, ⟨0, 0⟩, ⟨1 / 5, -1 / 5⟩] : List (c64 ℚ)).getD i 0 := by
    intro i; rw [depolarize_init_one]
  have huni : ∀ i, ((DensityMatrix.init 1 : DensityMatrix ℚ).apply_unitary_1q 0
        ⟨⟨3 / 5, 0⟩, ⟨4 / 5, 0⟩, ⟨-4 / 5, 0⟩, ⟨3 / 5, 0⟩⟩).rho_.getD i 0
      = ([⟨-9 / 7, 0⟩, ⟨-12 / 7, 0⟩, ⟨12 / 7, 0⟩, ⟨16 / 7, 0⟩] : List (c64 ℚ)).getD i 0 := by
    intro i; rw [apply_unitary_init_one]
  have d11 : ((DensityMatrix.init 1 : DensityMatrix ℚ).depolarize 0 (1 / 2)).entry 1 1
      = ⟨1 / 5, -1 / 5⟩ := by
    rw [entry_one _ (depolarize_n _ _ _) 1 1]; exact hdep 3
  have d00 : ((DensityMatrix.init 1 : DensityMatrix ℚ).depolarize 0 (1 / 2)).entry 0 0
      = ⟨4 / 5, 0⟩ := by
    rw [entry_one _ (depolarize_n _ _ _) 0 0]; exact hdep 0
  have u01 : ((DensityMatrix.init 1 : DensityMatrix ℚ).apply_unitary_1q 0
        ⟨⟨3 / 5, 0⟩, ⟨4 / 5, 0⟩, ⟨-4 / 5, 0⟩, ⟨3 / 5, 0⟩⟩).entry 0 1 = ⟨-12 / 7, 0⟩ := by
    rw [entry_one _ (apply_unitary_1q_n _ _ _) 0 1]; exact huni 1
  have u10 : ((DensityMatrix.init 1 : DensityMatrix ℚ).apply_unitary_1q 0
        ⟨⟨3 / 5, 0⟩, ⟨4 / 5, 0⟩, ⟨-4 / 5, 0⟩, ⟨3 / 5, 0⟩⟩).entry 1 0 = ⟨12 / 7, 0⟩ := by
    rw [entry_one _ (apply_unitary_1q_n _ _ _) 1 0]; exact huni 2
  refine ⟨?_, ?_, ?_⟩
  · rw [d11]
    intro h
    have := congrArg c64.im h
    norm_num at this
  · have hd : ((DensityMatrix.init 1 : DensityMatrix ℚ).depolarize 0 (1 / 2)).dim = 2 :=
      dim_one _ (depolarize_n _ _ _)
    unfold DensityMatrix.trace
    rw [hd, Finset.sum_range_succ, Finset.sum_range_succ, Finset.sum_range_zero, d00, d11]
    intro h
    have := congrArg c64.im h
    norm_num at this
  · rw [u01, u10]
    intro h
    have := congrArg c64.re h
    norm_num at this

section RYDensity
variable {R : Type} [LinearOrderedField R]

theorem run_density_probabilities_one (L : Libm R) (src : RngSource R) (c : Circuit R)
    (seed : Nat) (collapse : Bool) (a b e d : c64 R)
    (h : run_density_state L c = ⟨1, [a, b, e, d]⟩) :
    (run_density L src c seed collapse).probabilities = [a.re, d.re] := by
  unfold run_density
  simp only [h]
  rfl

theorem run_density_probabilities_renorm (L : Libm R) (src : RngSource R) (c : Circuit R)
    (seed : Nat) (collapse : Bool) (a b e d : c64 R) (hne : a.re + d.re ≠ 0)
    (h : run_density_state L c = DensityMatrix.renormalize_ ⟨1, [a, b, e, d]⟩) :
    (run_density L src c seed collapse).probabilities
      = [a.re / (a.re + d.re), d.re / (a.re + d.re)] := by
  rw [renormalize_one, if_neg hne] at h
  rw [run_density_probabilities_one L src c seed collapse _ _ _ _ h]
  simp only [c64.scale_re, List.cons.injEq, and_true]
  constructor <;> field_simp

/-- What `run_density` reports for the one-qubit circuit `RY 0 θ`. -/
theorem run_density_RY (L : Libm R) (src : RngSource R) (θ : R) (seed : Nat) (collapse : Bool)
    (hne : L.cos (θ / 2) * L.cos (θ / 2) - L.sin (θ / 2) * L.sin (θ / 2) ≠ 0) :
    (run_density L src ⟨1, [⟨OpType.RY, [0], θ⟩]⟩ seed collapse).probabilities =
      [L.cos (θ / 2) * L.cos (θ / 2)
          / (L.cos (θ / 2) * L.cos (θ / 2) - L.sin (θ / 2) * L.sin (θ / 2)),
       -(L.sin (θ / 2) * L.sin (θ / 2))
          / (L.cos (θ / 2) * L.cos (θ / 2) - L.sin (θ / 2) * L.sin (θ / 2))] := by
  have hstate : run_density_state L (⟨1, [⟨OpType.RY, [0], θ⟩]⟩ : Circuit R)
      = DensityMatrix.apply_unitary_1q (⟨1, [1, 0, 0, 0]⟩ : DensityMatrix R) 0
          (gates.RY_coeffs L θ) := rfl
  rw [apply_unitary_1q_one, sweeps_one] at hstate
  have hA : (((gates.RY_coeffs L θ).u00 * 1 + (gates.RY_coeffs L θ).u01 * 0)
        * c64.conj (gates.RY_coeffs L θ).u00
        + ((gates.RY_coeffs L θ).u00 * 0 + (gates.RY_coeffs L θ).u01 * 0)
        * c64.conj (gates.RY_coeffs L θ).u10).re = L.cos (θ / 2) * L.cos (θ / 2) := by
    simp only [gates.RY_coeffs, c64.add_re, c64.mul_re, c64.mul_im, c64.conj_re, c64.conj_im,
      c64.one_re, c64.one_im, c64.zero_re, c64.zero_im, c64.add_im]
    ring
  have hD : (((gates.RY_coeffs L θ).u10 * 1 + (gates.RY_coeffs L θ).u11 * 0)
        * c64.conj (gates.RY_coeffs L θ).u01
        + ((gates.RY_coeffs L θ).u10 * 0 + (gates.RY_coeffs L θ).u11 * 0)
        * c64.conj (gates.RY_coeffs L θ).u11).re = -(L.sin (θ / 2) * L.sin (θ / 2)) := by
    simp only [gates.RY_coeffs, c64.add_re, c64.mul_re, c64.mul_im, c64.conj_re, c64.conj_im,
      c64.one_re, c64.one_im, c64.zero_re, c64.zero_im, c64.add_im]
    ring
  have hsub : L.cos (θ / 2) * L.cos (θ / 2) + -(L.sin (θ / 2) * L.sin (θ / 2))
      = L.cos (θ / 2) * L.cos (θ / 2) - L.sin (θ / 2) * L.sin (θ / 2) := by ring
  rw [run_density_probabilities_renorm L src _ seed collapse _ _ _ _ (by rw [hA, hD, hsub]; exact hne)
    hstate, hA, hD, hsub]

theorem run_RY (L : Libm R) (hL : L.Lawful) (src : RngSource R) (θ : R) (seed : Nat)
    (collapse : Bool) :
    (run L src ⟨1, [⟨OpType.RY, [0], θ⟩]⟩ seed collapse).probabilities =
      [L.cos (θ / 2) * L.cos (θ / 2), L.sin (θ / 2) * L.sin (θ / 2)] := by
  have hv : (⟨1, [⟨OpType.RY, [0], θ⟩]⟩ : Circuit R).Valid := by
    intro op hop
    simp only [List.mem_singleton] at hop
    subst hop
    simp [Op.Valid]
  rw [run_probabilities_sem L hL src _ hv]
  have b0 : (0 : Nat) &&& 2 ^ 0 = 0 := by decide
  have b1 : ¬ ((1 : Nat) &&& 2 ^ 0 = 0) := by decide
  have x0 : (0 : Nat) ^^^ 2 ^ 0 = 1 := by decide
  have x1 : (1 : Nat) ^^^ 2 ^ 0 = 0 := by decide
  have k0 : (ket0 : Nat → c64 R) 0 = 1 := by simp [ket0]
  have k1 : (ket0 : Nat → c64 R) 1 = 0 := by simp [ket0]
  simp only [range_two_pow_one, List.map_cons, List.map_nil, ops_sem_single, op_sem,
    List.getD_cons_zero, gate_fn_apply, b0, b1, x0, x1, if_true, if_false, k0, k1,
    gates.RY_coeffs, List.cons.injEq, and_true]
  constructor <;> simp [c64.norm]

end RYDensity

/-- Claim C1 fails on the code: for the one-qubit circuit `RY 0 π/3` the state-vector backend
reports `[3/4, 1/4]` and the density-matrix backend reports `[3/2, -1/2]`. -/
theorem backends_disagree_on_RY (src : RngSource ℝ) (seed : Nat) (collapse : Bool) :
    (run ⟨Real.sqrt, Real.cos, Real.sin⟩ src ⟨1, [⟨OpType.RY, [0], Real.pi / 3⟩]⟩
        seed collapse).probabilities = [3 / 4, 1 / 4] ∧
    (run_density ⟨Real.sqrt, Real.cos, Real.sin⟩ src ⟨1, [⟨OpType.RY, [0], Real.pi / 3⟩]⟩
        seed collapse).probabilities = [3 / 2, -1 / 2] := by
  have e : Real.pi / 3 / 2 = Real.pi / 6 := by ring
  have hc : Real.cos (Real.pi / 3 / 2) = Real.sqrt 3 / 2 := by rw [e, Real.cos_pi_div_six]
  have hs : Real.sin (Real.pi / 3 / 2) = 1 / 2 := by rw [e, Real.sin_pi_div_six]
  have h3 : Real.sqrt 3 * Real.sqrt 3 = 3 := Real.mul_self_sqrt (by norm_num)
  have hcc : Real.cos (Real.pi / 3 / 2) * Real.cos (Real.pi / 3 / 2) = 3 / 4 := by
    rw [hc]; nlinarith [h3]
  have hss : Real.sin (Real.pi / 3 / 2) * Real.sin (Real.pi / 3 / 2) = 1 / 4 := by
    rw [hs]; norm_num
  constructor
  · rw [run_RY _ real_lawful]
    simp only [hcc, hss]
  · rw [run_density_RY]
    · simp only [hcc, hss]
      norm_num
    · simp only [hcc, hss]
      norm_num

/-- Claim C5 fails on the code: for the one-qubit circuit `RY 0 2π/3`, `run_density` reports
the probability vector `[-1/2, 3/2]`, which has a negative entry. -/
theorem run_density_negative_probability (src : RngSource ℝ) (seed : Nat) (collapse : Bool) :
    (run_density ⟨Real.sqrt, Real.cos, Real.sin⟩ src
        ⟨1, [⟨OpType.RY, [0], 2 * Real.pi / 3⟩]⟩ seed collapse).probabilities
      = [-1 / 2, 3 / 2] := by
  have e : 2 * Real.pi / 3 / 2 = Real.pi / 3 := by ring
  have hc : Real.cos (2 * Real.pi / 3 / 2) = 1 / 2 := by rw [e, Real.cos_pi_div_three]
  have hs : Real.sin (2 * Real.pi / 3 / 2) = Real.sqrt 3 / 2 := by
    rw [e, Real.sin_pi_div_three]
  have h3 : Real.sqrt 3 * Real.sqrt 3 = 3 := Real.mul_self_sqrt (by norm_num)
  have hcc : Real.cos (2 * Real.pi / 3 / 2) * Real.cos (2 * Real.pi / 3 / 2) = 1 / 4 := by
    rw [hc]; norm_num
  have hss : Real.sin (2 * Real.pi / 3 / 2) * Real.sin (2 * Real.pi / 3 / 2) = 3 / 4 := by
    rw [hs]; nlinarith [h3]
  rw [run_density_RY]
  · simp only [hcc, hss]
    norm_num
  · simp only [hcc, hss]
    norm_num

section UnitaryEval
variable {R : Type} [LinearOrderedField R]

theorem range_four : List.range 4 = [0, 1, 2, 3] := rfl
theorem range_two : List.range 2 = [0, 1] := rfl
theorem range_one : List.range 1 = [0] := rfl

theorem eye_four : (eye 4 : List (c64 R)) =
    [1, 0, 0, 0, 0, 1, 0, 0, 0, 0, 1, 0, 0, 0, 0, 1] := by
  simp [eye, range_four, List.replicate, c64.mk_one]

theorem gate_X_two_zero : gate_1q_matrix (gates.X_coeffs : Coeffs R) 2 0 =
    [0, 0, 1, 0, 0, 0, 0, 1, 1, 0, 0, 0, 0, 1, 0, 0] := by
  simp [gate_1q_matrix, kron2, I2, range_two, range_one, List.replicate, gates.X_coeffs,
    c64.mk_one, c64.mk_zero]

theorem matmul_X_eye :
    matmul ([0, 0, 1, 0, 0, 0, 0, 1, 1, 0, 0, 0, 0, 1, 0, 0] : List (c64 R))
      [1, 0, 0, 0, 0, 1, 0, 0, 0, 0, 1, 0, 0, 0, 0, 1] 4 =
    [0, 0, 1, 0, 0, 0, 0, 1, 1, 0, 0, 0, 0, 1, 0, 0] := by
  simp [matmul, range_four, List.replicate]

/-- What `build_unitary` returns for `X 0` on two qubits. -/
theorem build_unitary_X (L : Libm R) :
    build_unitary L ⟨2, [⟨OpType.X, [0], 0⟩]⟩ =
      Except.ok [0, 0, 1, 0, 0, 0, 0, 1, 1, 0, 0, 0, 0, 1, 0, 0] := by
  have h : build_unitary L (⟨2, [⟨OpType.X, [0], 0⟩]⟩ : Circuit R) =
      Except.ok (matmul (gate_1q_matrix gates.X_coeffs 2 0) (eye 4) 4) := rfl
  rw [h, gate_X_two_zero, eye_four, matmul_X_eye]

/-- What the state vector holds after `X 0` on two qubits. -/
theorem run_state_X (L : Libm R) (src : RngSource R) (seed : Nat) :
    (run_state L src ⟨2, [⟨OpType.X, [0], 0⟩]⟩ seed).1.amp_ = [0, 1, 0, 0] := by
  have h255 : ¬ ((0 + 1 : Nat) &&& 255 = 0) := by decide
  have hs : (1 : Nat) <<< 0 = 1 := by decide
  have hi : (StateVector.init 2 : StateVector R).amp_ = [1, 0, 0, 0] := by
    simp [StateVector.init, List.replicate, c64.mk_one]
  simp only [run_state, List.foldl_cons, List.foldl_nil, run_op, List.getD_cons_zero,
    StateVector.apply_gate_1q, h255, if_false, hi, hs]
  have hz : (StateVector.init 2 : StateVector R).applied_ = 0 := rfl
  simp [hz, StateVector.gate_1q_loop, StateVector.pair_update, range_four, gates.X_coeffs,
    c64.mk_one, c64.mk_zero]

/-- Claim C6 fails on the code: for `X 0` on two qubits, column 0 of the matrix returned by
`build_unitary` is `[0, 0, 1, 0]` (qubit 1 flipped), while the state vector holds
`[0, 1, 0, 0]` (qubit 0 flipped). -/
theorem build_unitary_column_mismatch (L : Libm R) (src : RngSource R) (seed : Nat) :
    (build_unitary L ⟨2, [⟨OpType.X, [0], 0⟩]⟩).toOption.map (column0 4) = some [0, 0, 1, 0] ∧
    (run_state L src ⟨2, [⟨OpType.X, [0], 0⟩]⟩ seed).1.amp_ = [0, 1, 0, 0] := by
  refine ⟨?_, run_state_X L src seed⟩
  rw [build_unitary_X]
  simp [Except.toOption, column0, range_four]

end UnitaryEval

/-- Witness for claim C4: a Bell pair followed by a depolarizing channel and a measurement. -/
theorem run_probabilities_distribution_witness :
    (⟨Real.sqrt, Real.cos, Real.sin⟩ : Libm ℝ).Lawful ∧
    (⟨2, [⟨OpType.H, [0], 0⟩, ⟨OpType.CNOT, [0, 1], 0⟩, ⟨OpType.DEPOL, [1], 1 / 4⟩,
        ⟨OpType.MEASURE, [], 0⟩]⟩ : Circuit ℝ).Valid ∧
    ((run ⟨Real.sqrt, Real.cos, Real.sin⟩ (fun _ _ => 0)
        ⟨2, [⟨OpType.H, [0], 0⟩, ⟨OpType.CNOT, [0, 1], 0⟩, ⟨OpType.DEPOL, [1], 1 / 4⟩,
          ⟨OpType.MEASURE, [], 0⟩]⟩ 1234 false).probabilities.length = 2 ^ 2 ∧
     (∀ p ∈ (run ⟨Real.sqrt, Real.cos, Real.sin⟩ (fun _ _ => 0)
        ⟨2, [⟨OpType.H, [0], 0⟩, ⟨OpType.CNOT, [0, 1], 0⟩, ⟨OpType.DEPOL, [1], 1 / 4⟩,
          ⟨OpType.MEASURE, [], 0⟩]⟩ 1234 false).probabilities, 0 ≤ p) ∧
     (run ⟨Real.sqrt, Real.cos, Real.sin⟩ (fun _ _ => 0)
        ⟨2, [⟨OpType.H, [0], 0⟩, ⟨OpType.CNOT, [0, 1], 0⟩, ⟨OpType.DEPOL, [1], 1 / 4⟩,
          ⟨OpType.MEASURE, [], 0⟩]⟩ 1234 false).probabilities.sum = 1) := by
  have hv : (⟨2, [⟨OpType.H, [0], 0⟩, ⟨OpType.CNOT, [0, 1], 0⟩, ⟨OpType.DEPOL, [1], 1 / 4⟩,
      ⟨OpType.MEASURE, [], 0⟩]⟩ : Circuit ℝ).Valid := by
    intro op hop
    simp only [List.mem_cons, List.mem_singleton, List.not_mem_nil, or_false] at hop
    rcases hop with h | h | h | h <;> subst h <;> simp [Op.Valid] <;> norm_num
  exact ⟨real_lawful, hv, run_probabilities_distribution _ real_lawful _ _ hv 1234 false⟩

/-- Witness for claim C9: `|0><0|` on one qubit, `p = 1/4`, entry `(0, 1)`. -/
theorem dephase_spec_witness :
    (DensityMatrix.init 1 : DensityMatrix ℚ).WellFormed ∧
    (DensityMatrix.init 1 : DensityMatrix ℚ).trace = 1 ∧
    0 < (DensityMatrix.init 1 : DensityMatrix ℚ).n_ ∧
    0 < (DensityMatrix.init 1 : DensityMatrix ℚ).dim ∧
    1 < (DensityMatrix.init 1 : DensityMatrix ℚ).dim ∧
    (((DensityMatrix.init 1 : DensityMatrix ℚ).dephase 0 (1 / 4)).entry 0 1
      = c64.scale (1 - 1 / 4) ((DensityMatrix.init 1 : DensityMatrix ℚ).entry 0 1)
        + c64.scale (1 / 4)
          (mat_mul (DensityMatrix.init 1 : DensityMatrix ℚ).dim
            (mat_mul (DensityMatrix.init 1 : DensityMatrix ℚ).dim (lift_1q 0 gates.Z_coeffs)
              (DensityMatrix.init 1 : DensityMatrix ℚ).entry)
            (lift_1q 0 gates.Z_coeffs) 0 1) ∧
     ((DensityMatrix.init 1 : DensityMatrix ℚ).dephase 0 (1 / 4)).entry 0 1
      = if ((0 : Nat) &&& 2 ^ 0 = 0 ↔ (1 : Nat) &&& 2 ^ 0 = 0)
        then (DensityMatrix.init 1 : DensityMatrix ℚ).entry 0 1
        else c64.scale (1 - 2 * (1 / 4)) ((DensityMatrix.init 1 : DensityMatrix ℚ).entry 0 1)) :=
  ⟨rfl, init_one_trace, by decide, by decide, by decide,
    dephase_spec (DensityMatrix.init 1) rfl init_one_trace 0 (by decide) (1 / 4) 0 1
      (by decide) (by decide)⟩

section GateContract
variable {R : Type} [Field R]

theorem shiftLeft_one (q : Nat) : 1 <<< q = 2 ^ q := by
  rw [Nat.shiftLeft_eq, one_mul]

theorem shiftRight_and_one (i c : Nat) : (i >>> c) &&& 1 = if i.testBit c then 1 else 0 := by
  rw [Nat.and_one_is_mod, Nat.shiftRight_eq_div_pow, Nat.testBit_to_div_mod]
  rcases Nat.mod_two_eq_zero_or_one (i / 2 ^ c) with h | h <;> simp [h]

/-- Claim C11: for an amplitude buffer of length `2^n`, a target `q < n` and any 2x2 matrix,
`apply_gate_1q` leaves, before the renormalisation it performs every 256th application, the
buffer `a'` with `a'[i] = u00 a[i] + u01 a[j]` and `a'[j] = u10 a[i] + u11 a[j]` for every `i`
with bit `q` clear and `j = i | (1 << q)`, both computed from the old `a[i]`, `a[j]`; the
buffer keeps its length. -/
theorem apply_gate_1q_pairs (L : Libm R) (n : Nat) (sv : StateVector R)
    (hlen : sv.amp_.length = 2 ^ n) (q : Nat) (hq : q < n) (u : Coeffs R) :
    sv.apply_gate_1q L q u =
      (if (sv.applied_ + 1) &&& 255 = 0 then
        StateVector.normalize_ L
          ⟨sv.n_, StateVector.gate_1q_loop (1 <<< q) u sv.amp_, sv.applied_ + 1⟩
       else ⟨sv.n_, StateVector.gate_1q_loop (1 <<< q) u sv.amp_, sv.applied_ + 1⟩) ∧
    (StateVector.gate_1q_loop (1 <<< q) u sv.amp_).length = 2 ^ n ∧
    ∀ i, i < 2 ^ n → i &&& (1 <<< q) = 0 →
      (StateVector.gate_1q_loop (1 <<< q) u sv.amp_).getD i 0
          = u.u00 * sv.amp_.getD i 0 + u.u01 * sv.amp_.getD (i ||| (1 <<< q)) 0 ∧
      (StateVector.gate_1q_loop (1 <<< q) u sv.amp_).getD (i ||| (1 <<< q)) 0
          = u.u10 * sv.amp_.getD i 0 + u.u11 * sv.amp_.getD (i ||| (1 <<< q)) 0 := by
  obtain ⟨h1, h2⟩ := gate_1q_loop_spec q n hq u sv.amp_ hlen
  refine ⟨rfl, h1, ?_⟩
  intro i _ hi
  rw [shiftLeft_one] at hi ⊢
  have e1 := congrFun h2 i
  have e2 := congrFun h2 (i ||| 2 ^ q)
  have hj : ¬ ((i ||| 2 ^ q) &&& 2 ^ q = 0) := by
    rw [and_pow_eq_zero_iff, testBit_or_pow]; simp
  have hx : (i ||| 2 ^ q) ^^^ 2 ^ q = i := by
    rw [or_pow_eq_xor_pow i q hi, xor_pow_xor_pow]
  rw [shiftLeft_one] at e1 e2
  unfold view at e1 e2
  unfold gate_fn at e1 e2
  simp only [hi, if_true] at e1
  simp only [hj, if_false, hx] at e2
  rw [or_pow_eq_xor_pow i q hi]
  exact ⟨e1, by rw [or_pow_eq_xor_pow i q hi] at e2; exact e2⟩

/-- Witness for claim C11: the gate `X` on qubit 0 of the one-qubit state `|0>`. -/
theorem apply_gate_1q_pairs_witness :
    (StateVector.init 1 : StateVector ℚ).amp_.length = 2 ^ 1 ∧ (0 : Nat) < 1 ∧
    ((StateVector.init 1 : StateVector ℚ).apply_gate_1q ⟨id, id, id⟩ 0 gates.X_coeffs =
      (if ((StateVector.init 1 : StateVector ℚ).applied_ + 1) &&& 255 = 0 then
        StateVector.normalize_ ⟨id, id, id⟩
          ⟨(StateVector.init 1 : StateVector ℚ).n_,
            StateVector.gate_1q_loop (1 <<< 0) gates.X_coeffs
              (StateVector.init 1 : StateVector ℚ).amp_,
            (StateVector.init 1 : StateVector ℚ).applied_ + 1⟩
       else ⟨(StateVector.init 1 : StateVector ℚ).n_,
            StateVector.gate_1q_loop (1 <<< 0) gates.X_coeffs
              (StateVector.init 1 : StateVector ℚ).amp_,
            (StateVector.init 1 : StateVector ℚ).applied_ + 1⟩) ∧
    (StateVector.gate_1q_loop (1 <<< 0) gates.X_coeffs
      (StateVector.init 1 : StateVector ℚ).amp_).length = 2 ^ 1 ∧
    ∀ i, i < 2 ^ 1 → i &&& (1 <<< 0) = 0 →
      (StateVector.gate_1q_loop (1 <<< 0) gates.X_coeffs
          (StateVector.init 1 : StateVector ℚ).amp_).getD i 0
          = (gates.X_coeffs : Coeffs ℚ).u00 * (StateVector.init 1 : StateVector ℚ).amp_.getD i 0
            + (gates.X_coeffs : Coeffs ℚ).u01
              * (StateVector.init 1 : StateVector ℚ).amp_.getD (i ||| (1 <<< 0)) 0 ∧
      (StateVector.gate_1q_loop (1 <<< 0) gates.X_coeffs
          (StateVector.init 1 : StateVector ℚ).amp_).getD (i ||| (1 <<< 0)) 0
          = (gates.X_coeffs : Coeffs ℚ).u10 * (StateVector.init 1 : StateVector ℚ).amp_.getD i 0
            + (gates.X_coeffs : Coeffs ℚ).u11
              * (StateVector.init 1 : StateVector ℚ).amp_.getD (i ||| (1 <<< 0)) 0) :=
  ⟨rfl, by decide,
    apply_gate_1q_pairs ⟨id, id, id⟩ 1 (StateVector.init 1) rfl 0 (by decide) gates.X_coeffs⟩

/-- Claim C12: for an amplitude buffer of length `2^n` and control `c`, target `t` below `n`
with `c ≠ t`, `apply_cx` leaves `a'[i] = a[i xor (bit_c(i) * 2^t)]` for every index `i`:
`a[i]` and `a[i | (1 << t)]` are exchanged exactly for the `i` with bit `c` set and bit `t`
clear, and every other amplitude is unchanged. Length, qubit count and the application
counter are unchanged. -/
theorem apply_cx_permutes (n : Nat) (sv : StateVector R) (hlen : sv.amp_.length = 2 ^ n)
    (c t : Nat) (hc : c < n) (ht : t < n) (hct : c ≠ t) :
    (sv.apply_cx c t).amp_.length = 2 ^ n ∧
    (sv.apply_cx c t).n_ = sv.n_ ∧ (sv.apply_cx c t).applied_ = sv.applied_ ∧
    (∀ i, (sv.apply_cx c t).amp_.getD i 0
        = sv.amp_.getD (i ^^^ (((i >>> c) &&& 1) * 2 ^ t)) 0) ∧
    (∀ i, i &&& (1 <<< c) ≠ 0 → i &&& (1 <<< t) = 0 →
      (sv.apply_cx c t).amp_.getD i 0 = sv.amp_.getD (i ||| (1 <<< t)) 0 ∧
      (sv.apply_cx c t).amp_.getD (i ||| (1 <<< t)) 0 = sv.amp_.getD i 0) ∧
    (∀ i, i &&& (1 <<< c) = 0 → (sv.apply_cx c t).amp_.getD i 0 = sv.amp_.getD i 0) := by
  have _hc := hc
  obtain ⟨h1, h2⟩ := cx_loop_spec c t n ht hct sv.amp_ hlen
  have key : sv.apply_cx c t
      = { sv with amp_ := StateVector.cx_loop (1 <<< c) (1 <<< t) sv.amp_ } := by
    unfold StateVector.apply_cx
    rw [if_neg hct]
  have hv : ∀ i, (sv.apply_cx c t).amp_.getD i 0 = sv.amp_.getD (cx_index c t i) 0 := by
    intro i
    rw [key]
    exact congrFun h2 i
  refine ⟨by rw [key]; exact h1, by rw [key], by rw [key], ?_, ?_, ?_⟩
  · intro i
    rw [hv, shiftRight_and_one]
    unfold cx_index
    by_cases hb : i.testBit c = true
    · rw [if_pos ((and_pow_ne_zero_iff i c).2 hb), if_pos hb, one_mul]
    · rw [if_neg (fun h => hb ((and_pow_ne_zero_iff i c).1 h)), if_neg hb, zero_mul,
        Nat.xor_zero]
  · intro i hic hit
    rw [shiftLeft_one] at hic hit ⊢
    have hjc : (i ||| 2 ^ t) &&& 2 ^ c ≠ 0 := by
      rw [and_pow_ne_zero_iff, testBit_or_pow]
      rw [and_pow_ne_zero_iff] at hic
      simp [hic]
    constructor
    · rw [hv]; unfold cx_index; rw [if_pos hic, or_pow_eq_xor_pow i t hit]
    · rw [hv]; unfold cx_index
      rw [if_pos hjc, or_pow_eq_xor_pow i t hit, xor_pow_xor_pow]
  · intro i hic
    rw [shiftLeft_one] at hic
    rw [hv]; unfold cx_index
    rw [if_neg (fun h => h hic)]

end GateContract

section Sampling
variable {R : Type} [LinearOrderedField R]

theorem sample_loop_range' (p : Nat → R) (r : R) (m : Nat) :
    ∀ (s : Nat) (acc : R), acc = ∑ i in Finset.range s, p i →
      (∀ k, s ≤ k → k < s + m → r ≤ cumulative p k →
        (∀ j, s ≤ j → j < k → ¬ r ≤ cumulative p j) →
        sample_loop p r (List.range' s m) acc = k) ∧
      ((∀ j, s ≤ j → j < s + m → ¬ r ≤ cumulative p j) →
        sample_loop p r (List.range' s m) acc = 0) := by
  induction m with
  | zero =>
    intro s acc _
    refine ⟨fun k h1 h2 _ _ => ?_, fun _ => rfl⟩
    omega
  | succ m ih =>
    intro s acc hacc
    have hcum : acc + p s = cumulative p s := by
      unfold cumulative
      rw [Finset.sum_range_succ, hacc]
    have hstep : List.range' s (m + 1) = s :: List.range' (s + 1) m := rfl
    obtain ⟨ih1, ih2⟩ := ih (s + 1) (acc + p s) (by rw [Finset.sum_range_succ, hacc])
    constructor
    · intro k h1 h2 hge hmin
      rw [hstep]
      unfold sample_loop
      simp only [hcum]
      by_cases hks : k = s
      · subst hks
        rw [if_pos hge]
      · have hlt : s < k := by omega
        rw [if_neg (hmin s (le_refl s) hlt), hcum.symm]
        exact ih1 k (by omega) (by omega) hge (fun j hj1 hj2 => hmin j (by omega) hj2)
    · intro hnone
      rw [hstep]
      unfold sample_loop
      simp only [hcum]
      rw [if_neg (hnone s (le_refl s) (by omega)), hcum.symm]
      exact ih2 (fun j hj1 hj2 => hnone j (by omega) (by omega))

/-- The sampling loop over `0 .. N-1` returns the smallest index whose cumulative
probability reaches the draw. -/
theorem sample_loop_smallest (p : Nat → R) (r : R) (N k : Nat) (hk : k < N)
    (hge : r ≤ cumulative p k) (hmin : ∀ j, j < k → ¬ r ≤ cumulative p j) :
    sample_loop p r (List.range N) 0 = k := by
  rw [List.range_eq_range']
  exact (sample_loop_range' p r N 0 0 (by simp)).1 k (Nat.zero_le k) (by omega) hge
    (fun j _ hj => hmin j hj)

/-- When no cumulative probability reaches the draw, the loop leaves `idx` at its
initial value `0`. -/
theorem sample_loop_exceeds (p : Nat → R) (r : R) (N : Nat)
    (hnone : ∀ j, j < N → ¬ r ≤ cumulative p j) :
    sample_loop p r (List.range N) 0 = 0 := by
  rw [List.range_eq_range']
  exact (sample_loop_range' p r N 0 0 (by simp)).2 (fun j _ hj => hnone j (by omega))

theorem bits_of_length (n idx : Nat) : (bits_of n idx).length = n := by
  unfold bits_of
  simp

theorem bits_of_getD (n idx q : Nat) (hq : q < n) :
    (bits_of n idx).getD q 0 = (idx >>> q) &&& 1 := by
  unfold bits_of
  rw [List.getD_eq_getElem?_getD, List.getElem?_map, List.getElem?_range hq]
  rfl

theorem measure_all_eq (sv : StateVector R) (rng : Rng R) (collapse : Bool) :
    sv.measure_all rng collapse =
      (bits_of sv.n_ (sample_loop sv.prob rng.uniform.1 (List.range sv.amp_.length) 0),
        (if collapse = true then
          ⟨sv.n_, (List.replicate sv.amp_.length (0 : c64 R)).set
              (sample_loop sv.prob rng.uniform.1 (List.range sv.amp_.length) 0) ⟨1, 0⟩,
            sv.applied_⟩
         else sv),
        rng.uniform.2) := by
  unfold StateVector.measure_all StateVector.prob
  cases collapse <;> rfl

end Sampling

section MeasureContract
variable {R : Type} [LinearOrderedField R]

/-- Claim C13: when `k` is the smallest index whose cumulative probability
`Σ_{i ≤ k} |a_i|²` reaches the draw `u`, `measure_all` returns the `n` bits of `k`
(bit `q` is `(k >> q) & 1`), advances the generator by one draw, and leaves `a_k = 1` with
every other amplitude `0` when `collapse` is set, and the state unchanged otherwise. -/
theorem measure_all_selects_smallest (sv : StateVector R) (rng : Rng R) (collapse : Bool)
    (k : Nat) (hk : k < sv.amp_.length)
    (hge : rng.uniform.1 ≤ cumulative sv.prob k)
    (hmin : ∀ j, j < k → cumulative sv.prob j < rng.uniform.1) :
    (sv.measure_all rng collapse).1 = bits_of sv.n_ k ∧
    (sv.measure_all rng collapse).1.length = sv.n_ ∧
    (∀ q, q < sv.n_ → (sv.measure_all rng collapse).1.getD q 0 = (k >>> q) &&& 1) ∧
    (sv.measure_all rng collapse).2.2 = rng.uniform.2 ∧
    (collapse = true →
      (sv.measure_all rng collapse).2.1.amp_.length = sv.amp_.length ∧
      (sv.measure_all rng collapse).2.1.amp_.getD k 0 = 1 ∧
      ∀ i, i ≠ k → (sv.measure_all rng collapse).2.1.amp_.getD i 0 = 0) ∧
    (collapse = false → (sv.measure_all rng collapse).2.1 = sv) := by
  have hsel : sample_loop sv.prob rng.uniform.1 (List.range sv.amp_.length) 0 = k :=
    sample_loop_smallest sv.prob rng.uniform.1 sv.amp_.length k hk hge
      (fun j hj => not_le.2 (hmin j hj))
  rw [measure_all_eq, hsel]
  refine ⟨rfl, bits_of_length _ _, fun q hq => bits_of_getD _ _ q hq, rfl, ?_, ?_⟩
  · intro hc
    subst hc
    simp only [if_true]
    refine ⟨by simp, ?_, ?_⟩
    · rw [getD_set, if_pos ⟨rfl, by simpa using hk⟩]
      rfl
    · intro i hi
      rw [getD_set, if_neg (fun h => hi h.1.symm), getD_replicate]
      split <;> rfl
  · intro hc
    subst hc
    simp

end MeasureContract

section SamplingPositive
variable {R : Type} [LinearOrderedField R]

theorem cumulative_succ (p : Nat → R) (k : Nat) :
    cumulative p (k + 1) = cumulative p k + p (k + 1) := by
  unfold cumulative
  rw [Finset.sum_range_succ]

theorem cumulative_zero (p : Nat → R) : cumulative p 0 = p 0 := by
  unfold cumulative
  simp

/-- For a probability vector of total one and a draw in `[0, 1)`, the index the sampling
loop selects is below `N`, and its probability is positive as soon as the draw is positive
or the first probability is. -/
theorem sample_loop_positive (p : Nat → R) (r : R) (N : Nat)
    (hp : ∀ i, 0 ≤ p i) (htot : ∑ i in Finset.range N, p i = 1) (_hr0 : 0 ≤ r) (hr1 : r < 1)
    (h0 : 0 < r ∨ 0 < p 0) :
    sample_loop p r (List.range N) 0 < N ∧ 0 < p (sample_loop p r (List.range N) 0) := by
  have hN : 0 < N := by
    rcases Nat.eq_zero_or_pos N with h | h
    · subst h
      simp at htot
    · exact h
  have hex : ∃ k, r ≤ cumulative p k := by
    refine ⟨N - 1, ?_⟩
    unfold cumulative
    rw [Nat.sub_add_cancel hN, htot]
    exact le_of_lt hr1
  classical
  have hfind := Nat.find_spec hex
  have hmin : ∀ j, j < Nat.find hex → ¬ r ≤ cumulative p j := fun j hj => Nat.find_min hex hj
  have hlt : Nat.find hex < N := by
    have : Nat.find hex ≤ N - 1 := Nat.find_min' hex (by
      unfold cumulative
      rw [Nat.sub_add_cancel hN, htot]
      exact le_of_lt hr1)
    omega
  have hsel := sample_loop_smallest p r N (Nat.find hex) hlt hfind hmin
  rw [hsel]
  refine ⟨hlt, ?_⟩
  rcases Nat.eq_zero_or_pos (Nat.find hex) with hz | hpos
  · rw [hz] at hfind ⊢
    rw [cumulative_zero] at hfind
    rcases h0 with h | h
    · exact lt_of_lt_of_le h hfind
    · exact h
  · obtain ⟨j, hj⟩ : ∃ j, Nat.find hex = j + 1 := ⟨Nat.find hex - 1, by omega⟩
    rw [hj] at hfind ⊢
    rw [cumulative_succ] at hfind
    have := hmin j (by omega)
    have h2 := hp (j + 1)
    by_contra hneg
    have hzero : p (j + 1) = 0 := le_antisymm (not_lt.1 hneg) h2
    rw [hzero, add_zero] at hfind
    exact this hfind

theorem prob_nonneg (sv : StateVector R) (i : Nat) : 0 ≤ sv.prob i := c64.norm_nonneg _

theorem prob_total (n : Nat) (sv : StateVector R) (hg : SvGood n sv) :
    ∑ i in Finset.range sv.amp_.length, sv.prob i = 1 := by
  rw [hg.1]
  exact hg.2

theorem run_op_n (L : Libm R) (st : StateVector R × Rng R) (op : Op R) :
    (run_op L st op).1.n_ = st.1.n_ := by
  have hg : ∀ (sv : StateVector R) (q : Nat) (u : Coeffs R),
      (sv.apply_gate_1q L q u).n_ = sv.n_ := by
    intro sv q u
    unfold StateVector.apply_gate_1q
    simp only
    split <;> rfl
  have hx : ∀ (sv : StateVector R) (c t : Nat), (sv.apply_cx c t).n_ = sv.n_ := by
    intro sv c t
    unfold StateVector.apply_cx
    split <;> rfl
  unfold run_op
  cases h : op.type <;> simp only [hg, hx]
  · split
    · exact hg _ _ _
    · rfl
  · split
    · exact hg _ _ _
    · rfl

theorem run_state_n (L : Libm R) (src : RngSource R) (c : Circuit R) (seed : Nat) :
    (run_state L src c seed).1.n_ = c.nqubits := by
  unfold run_state
  have : ∀ (ops : List (Op R)) (st : StateVector R × Rng R),
      (ops.foldl (run_op L) st).1.n_ = st.1.n_ := by
    intro ops
    induction ops with
    | nil => intro st; rfl
    | cons op rest ih =>
      intro st
      rw [List.foldl_cons, ih, run_op_n]
  rw [this]
  rfl

theorem run_outcome (L : Libm R) (src : RngSource R) (c : Circuit R) (seed : Nat)
    (collapse : Bool) :
    (run L src c seed collapse).outcome =
      bits_of c.nqubits
        (sample_loop (run_state L src c seed).1.prob (run_state L src c seed).2.uniform.1
          (List.range (run_state L src c seed).1.amp_.length) 0) := by
  unfold run
  simp only
  rw [measure_all_eq, run_state_n]

end SamplingPositive

section BellGhz
variable {R : Type} [LinearOrderedField R]

theorem run_state_sem (L : Libm R) (hL : L.Lawful) (src : RngSource R) (c : Circuit R)
    (hc : c.Valid) (seed : Nat) :
    (view (run_state L src c seed).1.amp_, (run_state L src c seed).2)
      = ops_sem L c.ops (ket0, Rng.seeded src seed) := by
  have h := (foldl_run_op_sem L hL c.nqubits c.ops hc
    (StateVector.init c.nqubits, Rng.seeded src seed) (init_good c.nqubits)).2
  unfold run_state
  rw [h, view_init]
  rfl

theorem bell_valid : (bell_circuit : Circuit R).Valid := by
  intro op hop
  simp only [bell_circuit, List.mem_cons, List.mem_singleton, List.not_mem_nil, or_false] at hop
  rcases hop with h | h | h <;> subst h <;> simp [Op.Valid, bell_circuit]

theorem ghz_valid : (ghz_circuit : Circuit R).Valid := by
  intro op hop
  simp only [ghz_circuit, List.mem_cons, List.mem_singleton, List.not_mem_nil, or_false] at hop
  rcases hop with h | h | h | h <;> subst h <;> simp [Op.Valid, ghz_circuit]

theorem H_half (L : Libm R) (hL : L.Lawful) :
    0 < c64.norm ((gates.H_coeffs L).u00 * 1 + (gates.H_coeffs L).u01 * (0 : c64 R)) := by
  have h2 := hL.sqrt_two
  have hne : L.sqrt 2 ≠ 0 := by
    intro h
    rw [h] at h2
    norm_num at h2
  have : c64.norm ((gates.H_coeffs L).u00 * 1 + (gates.H_coeffs L).u01 * (0 : c64 R))
      = (1 / L.sqrt 2) * (1 / L.sqrt 2) := by
    simp [c64.norm, gates.H_coeffs]
  rw [this]
  exact mul_self_pos.2 (one_div_ne_zero hne)

theorem bell_sem (L : Libm R) (g : Rng R) :
    ops_sem L (bell_circuit : Circuit R).ops (ket0, g)
      = (cx_fn 0 1 (gate_fn 0 (gates.H_coeffs L) ket0), g) := rfl

theorem ghz_sem (L : Libm R) (g : Rng R) :
    ops_sem L (ghz_circuit : Circuit R).ops (ket0, g)
      = (cx_fn 0 2 (cx_fn 0 1 (gate_fn 0 (gates.H_coeffs L) ket0)), g) := rfl

theorem ket0_zero : (ket0 : Nat → c64 R) 0 = 1 := rfl

theorem ket0_pos (x : Nat) (hx : x ≠ 0) : (ket0 : Nat → c64 R) x = 0 := by
  unfold ket0
  rw [if_neg hx]

/-- The gate on qubit 0 leaves amplitude zero at every index above 1 of `|0..0>`. -/
theorem gate_ket0_high (u : Coeffs R) (y : Nat) (hy : 2 ≤ y) :
    gate_fn 0 u (ket0 : Nat → c64 R) y = 0 := by
  have h1 : y ≠ 0 := by omega
  have h2 : y ^^^ 2 ^ 0 ≠ 0 := by
    intro h
    have := congrArg (fun z => z ^^^ 2 ^ 0) h
    simp only [xor_pow_xor_pow] at this
    rw [this] at hy
    revert hy
    decide
  rw [gate_fn_apply, ket0_pos y h1, ket0_pos _ h2]
  split <;> simp

theorem bell_facts (L : Libm R) (hL : L.Lawful) (src : RngSource R) (seed : Nat) :
    SvGood 2 (run_state L src bell_circuit seed).1 ∧
    (run_state L src bell_circuit seed).2 = Rng.seeded src seed ∧
    0 < (run_state L src bell_circuit seed).1.prob 0 ∧
    (run_state L src bell_circuit seed).1.prob 1 = 0 ∧
    (run_state L src bell_circuit seed).1.prob 2 = 0 := by
  have hs := run_state_sem L hL src bell_circuit bell_valid seed
  rw [bell_sem] at hs
  have hv := congrArg Prod.fst hs
  have hr := congrArg Prod.snd hs
  simp only at hv hr
  have hp : ∀ i, (run_state L src bell_circuit seed).1.prob i
      = c64.norm (cx_fn 0 1 (gate_fn 0 (gates.H_coeffs L) ket0) i) := by
    intro i
    rw [← hv]
    rfl
  refine ⟨run_state_good L hL src bell_circuit bell_valid seed, hr, ?_, ?_, ?_⟩
  · rw [hp, cx_fn_apply, show cx_index 0 1 0 = 0 from by decide, gate_fn_apply,
      if_pos (by decide), show (0 : Nat) ^^^ 2 ^ 0 = 1 from by decide, ket0_zero,
      ket0_pos 1 (by decide)]
    exact H_half L hL
  · rw [hp, cx_fn_apply, show cx_index 0 1 1 = 3 from by decide,
      gate_ket0_high _ 3 (by decide)]
    exact c64.norm_zero
  · rw [hp, cx_fn_apply, show cx_index 0 1 2 = 2 from by decide,
      gate_ket0_high _ 2 (by decide)]
    exact c64.norm_zero

theorem ghz_facts (L : Libm R) (hL : L.Lawful) (src : RngSource R) (seed : Nat) :
    SvGood 3 (run_state L src ghz_circuit seed).1 ∧
    (run_state L src ghz_circuit seed).2 = Rng.seeded src seed ∧
    0 < (run_state L src ghz_circuit seed).1.prob 0 ∧
    ∀ i, 1 ≤ i → i ≤ 6 → (run_state L src ghz_circuit seed).1.prob i = 0 := by
  have hs := run_state_sem L hL src ghz_circuit ghz_valid seed
  rw [ghz_sem] at hs
  have hv := congrArg Prod.fst hs
  have hr := congrArg Prod.snd hs
  simp only at hv hr
  have hp : ∀ i, (run_state L src ghz_circuit seed).1.prob i
      = c64.norm (gate_fn 0 (gates.H_coeffs L) ket0 (cx_index 0 1 (cx_index 0 2 i))) := by
    intro i
    show c64.norm (view (run_state L src ghz_circuit seed).1.amp_ i) = _
    rw [hv]
    rfl
  refine ⟨run_state_good L hL src ghz_circuit ghz_valid seed, hr, ?_, ?_⟩
  · rw [hp, show cx_index 0 1 (cx_index 0 2 0) = 0 from by decide, gate_fn_apply,
      if_pos (by decide), show (0 : Nat) ^^^ 2 ^ 0 = 1 from by decide, ket0_zero,
      ket0_pos 1 (by decide)]
    exact H_half L hL
  · intro i h1 h6
    have hy : 2 ≤ cx_index 0 1 (cx_index 0 2 i) := by
      interval_cases i <;> decide
    rw [hp, gate_ket0_high _ _ hy]
    exact c64.norm_zero

end BellGhz

section OutcomeContract
variable {R : Type} [LinearOrderedField R]

/-- Claim C15, amended: for a lawful `<cmath>`, a unit-norm amplitude vector and a draw `u`
in `[0, 1)` such that `u > 0` or `|a_0|² > 0`, the index `k` that `measure_all` selects is a
basis index with `|a_k|² > 0`. The Bell and GHZ(3) states have `a_0 ≠ 0`, so for every draw
in `[0, 1)` the Bell circuit yields `00` or `11` and GHZ(3) yields `000` or `111`. -/
theorem sampled_outcome_positive (L : Libm R) (hL : L.Lawful) :
    (∀ (n : Nat) (sv : StateVector R) (rng : Rng R) (collapse : Bool), SvGood n sv →
      0 ≤ rng.uniform.1 → rng.uniform.1 < 1 → (0 < rng.uniform.1 ∨ 0 < sv.prob 0) →
      (sv.measure_all rng collapse).1
        = bits_of sv.n_ (sample_loop sv.prob rng.uniform.1 (List.range sv.amp_.length) 0) ∧
      sample_loop sv.prob rng.uniform.1 (List.range sv.amp_.length) 0 < 2 ^ n ∧
      0 < c64.norm
        (sv.amp_.getD (sample_loop sv.prob rng.uniform.1 (List.range sv.amp_.length) 0) 0)) ∧
    (∀ (src : RngSource R) (seed : Nat) (collapse : Bool), 0 ≤ src seed 0 → src seed 0 < 1 →
      (run L src bell_circuit seed collapse).outcome = [0, 0] ∨
      (run L src bell_circuit seed collapse).outcome = [1, 1]) ∧
    (∀ (src : RngSource R) (seed : Nat) (collapse : Bool), 0 ≤ src seed 0 → src seed 0 < 1 →
      (run L src ghz_circuit seed collapse).outcome = [0, 0, 0] ∨
      (run L src ghz_circuit seed collapse).outcome = [1, 1, 1]) := by
  refine ⟨?_, ?_, ?_⟩
  · intro n sv rng collapse hg h0 h1 hpos
    have h := sample_loop_positive sv.prob rng.uniform.1 sv.amp_.length (prob_nonneg sv)
      (prob_total n sv hg) h0 h1 hpos
    rw [measure_all_eq]
    refine ⟨rfl, ?_, h.2⟩
    rw [← hg.1]
    exact h.1
  · intro src seed collapse h0 h1
    obtain ⟨hg, hr, hp0, hp1, hp2⟩ := bell_facts L hL src seed
    have h := sample_loop_positive (run_state L src bell_circuit seed).1.prob (src seed 0)
      (run_state L src bell_circuit seed).1.amp_.length (prob_nonneg _)
      (prob_total 2 _ hg) h0 h1 (Or.inr hp0)
    rw [run_outcome, hr]
    have hu : (Rng.seeded src seed).uniform.1 = src seed 0 := rfl
    rw [hu]
    generalize sample_loop (run_state L src bell_circuit seed).1.prob (src seed 0)
      (List.range (run_state L src bell_circuit seed).1.amp_.length) 0 = k at h ⊢
    obtain ⟨hk, hpk⟩ := h
    rw [hg.1] at hk
    have hk4 : k < 4 := hk
    interval_cases k
    · left; rfl
    · rw [hp1] at hpk; exact absurd hpk (lt_irrefl 0)
    · rw [hp2] at hpk; exact absurd hpk (lt_irrefl 0)
    · right; rfl
  · intro src seed collapse h0 h1
    obtain ⟨hg, hr, hp0, hpz⟩ := ghz_facts L hL src seed
    have h := sample_loop_positive (run_state L src ghz_circuit seed).1.prob (src seed 0)
      (run_state L src ghz_circuit seed).1.amp_.length (prob_nonneg _)
      (prob_total 3 _ hg) h0 h1 (Or.inr hp0)
    rw [run_outcome, hr]
    have hu : (Rng.seeded src seed).uniform.1 = src seed 0 := rfl
    rw [hu]
    generalize sample_loop (run_state L src ghz_circuit seed).1.prob (src seed 0)
      (List.range (run_state L src ghz_circuit seed).1.amp_.length) 0 = k at h ⊢
    obtain ⟨hk, hpk⟩ := h
    rw [hg.1] at hk
    have hk8 : k < 8 := hk
    by_cases hk0 : k = 0
    · subst hk0; left; rfl
    · by_cases hk7 : k = 7
      · subst hk7; right; rfl
      · rw [hpz k (by omega) (by omega)] at hpk
        exact absurd hpk (lt_irrefl 0)

/-- Witness for claim C15: the Bell circuit with the draw `0`. -/
theorem sampled_outcome_positive_witness :
    (⟨Real.sqrt, Real.cos, Real.sin⟩ : Libm ℝ).Lawful ∧ (0 : ℝ) ≤ 0 ∧ (0 : ℝ) < 1 ∧
    ((run ⟨Real.sqrt, Real.cos, Real.sin⟩ (fun _ _ => 0) bell_circuit 5 true).outcome = [0, 0] ∨
     (run ⟨Real.sqrt, Real.cos, Real.sin⟩ (fun _ _ => 0) bell_circuit 5 true).outcome = [1, 1]) :=
  ⟨real_lawful, le_refl 0, zero_lt_one,
    (sampled_outcome_positive _ real_lawful).2.1 (fun _ _ => 0) 5 true (le_refl 0)
      zero_lt_one⟩

end OutcomeContract

/-- Witness for claim C12: `CNOT 0 1` on the two-qubit state `|00>`. -/
theorem apply_cx_permutes_witness :
    (StateVector.init 2 : StateVector ℚ).amp_.length = 2 ^ 2 ∧ (0 : Nat) < 2 ∧ (1 : Nat) < 2 ∧
    (0 : Nat) ≠ 1 ∧
    ∀ i, ((StateVector.init 2 : StateVector ℚ).apply_cx 0 1).amp_.getD i 0
        = (StateVector.init 2 : StateVector ℚ).amp_.getD (i ^^^ (((i >>> 0) &&& 1) * 2 ^ 1)) 0 :=
  ⟨rfl, by decide, by decide, by decide,
    (apply_cx_permutes 2 (StateVector.init 2) rfl 0 1 (by decide) (by decide)
      (by decide)).2.2.2.1⟩

theorem cumulative_one_zero :
    cumulative (StateVector.prob (⟨1, [1, 0], 0⟩ : StateVector ℚ)) 0 = 1 := by
  rw [cumulative_zero]
  show c64.norm (1 : c64 ℚ) = 1
  exact c64.norm_one

/-- Witness for claim C13: the state `|0>` on one qubit and the draw `1/2` select index 0. -/
theorem measure_all_selects_smallest_witness :
    (0 : Nat) < (⟨1, [1, 0], 0⟩ : StateVector ℚ).amp_.length ∧
    (⟨fun _ => 1 / 2, 0⟩ : Rng ℚ).uniform.1
      ≤ cumulative (StateVector.prob (⟨1, [1, 0], 0⟩ : StateVector ℚ)) 0 ∧
    (∀ j, j < 0 → cumulative (StateVector.prob (⟨1, [1, 0], 0⟩ : StateVector ℚ)) j
      < (⟨fun _ => 1 / 2, 0⟩ : Rng ℚ).uniform.1) ∧
    ((⟨1, [1, 0], 0⟩ : StateVector ℚ).measure_all ⟨fun _ => 1 / 2, 0⟩ true).1 = bits_of 1 0 ∧
    ((⟨1, [1, 0], 0⟩ : StateVector ℚ).measure_all ⟨fun _ => 1 / 2, 0⟩ true).2.1.amp_.getD 0 0
      = 1 :=
  have h := measure_all_selects_smallest (⟨1, [1, 0], 0⟩ : StateVector ℚ)
    ⟨fun _ => 1 / 2, 0⟩ true 0 (by decide)
    (by rw [cumulative_one_zero]; show (1 / 2 : ℚ) ≤ 1; norm_num)
    (fun j hj => absurd hj (Nat.not_lt_zero j))
  ⟨by decide, by rw [cumulative_one_zero]; show (1 / 2 : ℚ) ≤ 1; norm_num,
    fun j hj => absurd hj (Nat.not_lt_zero j), h.1, (h.2.2.2.2.1 rfl).2.1⟩

/-- Counterexample to claim C15: after `X 0` the one-qubit state is `|1>`; with the draw
`u = 0` the loop stops at index 0 because `0 <= |a_0|² = 0`, so `run` reports the outcome
`0`, whose probability is `0`. -/
theorem sampled_outcome_zero_probability :
    (⟨Real.sqrt, Real.cos, Real.sin⟩ : Libm ℝ).Lawful ∧
    (⟨1, [⟨OpType.X, [0], 0⟩, ⟨OpType.MEASURE, [], 0⟩]⟩ : Circuit ℝ).Valid ∧
    (0 : ℝ) ≤ 0 ∧ (0 : ℝ) < 1 ∧
    (run ⟨Real.sqrt, Real.cos, Real.sin⟩ (fun _ _ => 0)
      ⟨1, [⟨OpType.X, [0], 0⟩, ⟨OpType.MEASURE, [], 0⟩]⟩ 0 true).outcome = [0] ∧
    (run ⟨Real.sqrt, Real.cos, Real.sin⟩ (fun _ _ => 0)
      ⟨1, [⟨OpType.X, [0], 0⟩, ⟨OpType.MEASURE, [], 0⟩]⟩ 0 true).probabilities = [0, 1] := by
  have hv : (⟨1, [⟨OpType.X, [0], 0⟩, ⟨OpType.MEASURE, [], 0⟩]⟩ : Circuit ℝ).Valid := by
    intro op hop
    simp only [List.mem_cons, List.mem_singleton, List.not_mem_nil, or_false] at hop
    rcases hop with h | h <;> subst h <;> simp [Op.Valid]
  have hst : (run_state ⟨Real.sqrt, Real.cos, Real.sin⟩ (fun _ _ => 0)
      (⟨1, [⟨OpType.X, [0], 0⟩, ⟨OpType.MEASURE, [], 0⟩]⟩ : Circuit ℝ) 0)
      = (⟨1, [(gates.X_coeffs : Coeffs ℝ).u00 * 1 + (gates.X_coeffs : Coeffs ℝ).u01 * 0,
            (gates.X_coeffs : Coeffs ℝ).u10 * 1 + (gates.X_coeffs : Coeffs ℝ).u11 * 0], 1⟩,
          ⟨fun _ => 0, 0⟩) := rfl
  have hamp : [(gates.X_coeffs : Coeffs ℝ).u00 * 1 + (gates.X_coeffs : Coeffs ℝ).u01 * 0,
      (gates.X_coeffs : Coeffs ℝ).u10 * 1 + (gates.X_coeffs : Coeffs ℝ).u11 * 0]
      = [(0 : c64 ℝ), 1] := by
    simp only [gates.X_coeffs, List.cons.injEq, and_true]
    constructor <;> ext <;> simp
  rw [hamp] at hst
  refine ⟨real_lawful, hv, le_refl 0, zero_lt_one, ?_, ?_⟩
  · rw [run_outcome, hst]
    show bits_of 1 (sample_loop (StateVector.prob (⟨1, [0, 1], 1⟩ : StateVector ℝ)) 0
      (List.range 2) 0) = [0]
    have : sample_loop (StateVector.prob (⟨1, [0, 1], 1⟩ : StateVector ℝ)) 0
        (List.range 2) 0 = 0 :=
      sample_loop_smallest _ _ 2 0 (by decide)
        (by rw [cumulative_zero]; show (0 : ℝ) ≤ c64.norm (0 : c64 ℝ); rw [c64.norm_zero])
        (fun j hj => absurd hj (Nat.not_lt_zero j))
    rw [this]
    rfl
  · rw [run_probabilities_eq, hst]
    show [c64.norm (0 : c64 ℝ), c64.norm (1 : c64 ℝ)] = [0, 1]
    rw [c64.norm_zero, c64.norm_one]

theorem half_half_cumulative (j : Nat) (hj : j < 2) :
    cumulative (StateVector.prob (⟨1, [⟨1 / 2, 0⟩, ⟨1 / 2, 0⟩], 0⟩ : StateVector ℚ)) j
      < 3 / 4 := by
  have p0 : StateVector.prob (⟨1, [⟨1 / 2, 0⟩, ⟨1 / 2, 0⟩], 0⟩ : StateVector ℚ) 0 = 1 / 4 := by
    show c64.norm (⟨1 / 2, 0⟩ : c64 ℚ) = 1 / 4
    unfold c64.norm
    norm_num
  have p1 : StateVector.prob (⟨1, [⟨1 / 2, 0⟩, ⟨1 / 2, 0⟩], 0⟩ : StateVector ℚ) 1 = 1 / 4 := by
    show c64.norm (⟨1 / 2, 0⟩ : c64 ℚ) = 1 / 4
    unfold c64.norm
    norm_num
  interval_cases j
  · rw [cumulative_zero, p0]; norm_num
  · rw [cumulative_succ, cumulative_zero, p0, p1]; norm_num

/-- Claim C14 fails on the code: when no cumulative probability reaches the draw, the
sampling loop of `measure_all` leaves `idx` at its initial value `0`. On one qubit, with the
amplitudes `(1/2, 1/2)` (total probability `1/2`) and the draw `3/4`, `measure_all` returns
the bit `0`; the last basis index `2^1 - 1` has the bit `1`. -/
theorem sampling_does_not_clamp :
    ((⟨1, [⟨1 / 2, 0⟩, ⟨1 / 2, 0⟩], 0⟩ : StateVector ℚ).measure_all
      ⟨fun _ => 3 / 4, 0⟩ false).1 = [0] ∧
    bits_of 1 (2 ^ 1 - 1) = [1] := by
  refine ⟨?_, by decide⟩
  rw [measure_all_eq]
  show bits_of 1 (sample_loop _ (3 / 4) (List.range 2) 0) = [0]
  rw [sample_loop_exceeds _ _ 2 (fun j hj => not_le.2 (half_half_cumulative j hj))]
  rfl

section LineAdjacency
variable {R : Type} [LinearOrderedField R]

theorem walk_up_line (n fuel hi : Nat) (hhi : hi < n) (out : List (Op R)) (phys : List Nat)
    (lo : Nat) (hlay : IsLayout n phys)
    (hadj : ∀ o ∈ out, o.type = OpType.CNOT → o.LineAdjacent) :
    IsLayout n (walk_up fuel hi (out, phys, lo)).2.1 ∧
    (∀ o ∈ (walk_up fuel hi (out, phys, lo)).1, o.type = OpType.CNOT → o.LineAdjacent) ∧
    (lo < hi → hi - 1 - lo ≤ fuel → (walk_up fuel hi (out, phys, lo)).2.2 + 1 = hi) ∧
    (hi ≤ lo + 1 → (walk_up fuel hi (out, phys, lo)).2.2 = lo) := by
  induction fuel generalizing out phys lo with
  | zero =>
    refine ⟨hlay, hadj, ?_, fun _ => rfl⟩
    intro h1 h2
    show lo + 1 = hi
    omega
  | succ fuel ih =>
    unfold walk_up
    split
    · rename_i hlt
      have hadj2 : ∀ o ∈ emit_swap out lo (lo + 1), o.type = OpType.CNOT → o.LineAdjacent := by
        intro o ho
        unfold emit_swap at ho
        rcases List.mem_append.mp ho with h | h
        · exact hadj o h
        · simp only [List.mem_cons, List.mem_singleton, List.not_mem_nil, or_false] at h
          rcases h with h | h | h <;> subst h <;> intro _ <;> simp [Op.LineAdjacent]
      obtain ⟨i1, i2, i3, _⟩ := ih (emit_swap out lo (lo + 1)) (swap_phys phys lo) (lo + 1)
        (isLayout_swap n phys hlay lo (by omega)) hadj2
      refine ⟨i1, i2, ?_, ?_⟩
      · intro h1 h2
        exact i3 hlt (by omega)
      · intro h
        omega
    · rename_i hlt
      refine ⟨hlay, hadj, ?_, fun _ => rfl⟩
      intro h1 _
      show lo + 1 = hi
      omega

theorem map_to_line_step_adjacent (n : Nat) (out : List (Op R)) (phys : List Nat)
    (hlay : IsLayout n phys) (hadj : ∀ o ∈ out, o.type = OpType.CNOT → o.LineAdjacent)
    (op : Op R) (hop : op.Valid n) :
    IsLayout n (map_to_line_step (out, phys) op).2 ∧
    ∀ o ∈ (map_to_line_step (out, phys) op).1, o.type = OpType.CNOT → o.LineAdjacent := by
  by_cases hc : op.type = OpType.CNOT
  · have hv := hop
    unfold Op.Valid at hv
    simp only [hc] at hv
    obtain ⟨hlen, hlc, hlt, hne⟩ := hv
    have hpc : phys.getD (op.qubits.getD 0 0) 0 < n := hlay.2.1 _ hlc
    have hpt : phys.getD (op.qubits.getD 1 0) 0 < n := hlay.2.1 _ hlt
    have hpne : phys.getD (op.qubits.getD 0 0) 0 ≠ phys.getD (op.qubits.getD 1 0) 0 :=
      fun e => hne (hlay.2.2 _ _ hlc hlt e)
    unfold map_to_line_step
    simp only [hc, hlen, and_self, if_true]
    generalize phys.getD (op.qubits.getD 0 0) 0 = pc at hpc hpne
    generalize phys.getD (op.qubits.getD 1 0) 0 = pt at hpt hpne
    obtain ⟨a1, a2, a3, a4⟩ := walk_up_line n (pt - pc) pt hpt out phys pc hlay hadj
    generalize walk_up (pt - pc) pt (out, phys, pc) = r1 at a1 a2 a3 a4
    have hr1 : r1.2.2 < n := by
      rcases Nat.lt_or_ge pc pt with h | h
      · have := a3 h (by omega)
        omega
      · rw [a4 (by omega)]
        exact hpc
    obtain ⟨b1, b2, b3, b4⟩ := walk_up_line n (r1.2.2 - pt) r1.2.2 hr1 r1.1 r1.2.1 pt a1 a2
    generalize walk_up (r1.2.2 - pt) r1.2.2 (r1.1, r1.2.1, pt) = r2 at b1 b2 b3 b4
    refine ⟨b1, ?_⟩
    intro o ho
    rcases List.mem_append.mp ho with h | h
    · exact b2 o h
    · rw [List.mem_singleton] at h
      subst h
      intro _
      refine ⟨rfl, ?_⟩
      show r1.2.2 + 1 = r2.2.2 ∨ r2.2.2 + 1 = r1.2.2
      rcases Nat.lt_or_ge pc pt with h | h
      · have e1 := a3 h (by omega)
        have e2 := b4 (by omega)
        left
        omega
      · have e1 := a4 (by omega)
        have hlt2 : pt < r1.2.2 := by omega
        have e2 := b3 hlt2 (by omega)
        right
        exact e2
  · have hnc : ∀ (o : Op R), o.type = op.type → o.type = OpType.CNOT → o.LineAdjacent :=
      fun o h1 h2 => absurd (h1 ▸ h2) hc
    unfold map_to_line_step
    simp only [hc, false_and, if_false]
    split
    · refine ⟨hlay, ?_⟩
      intro o ho
      rcases List.mem_append.mp ho with h | h
      · exact hadj o h
      · rw [List.mem_singleton] at h
        subst h
        exact hnc _ rfl
    · refine ⟨hlay, ?_⟩
      intro o ho
      rcases List.mem_append.mp ho with h | h
      · exact hadj o h
      · rw [List.mem_singleton] at h
        subst h
        exact hnc _ rfl

theorem map_to_line_fold_adjacent (n : Nat) (ops : List (Op R))
    (hops : ∀ o ∈ ops, o.Valid n) (st : List (Op R) × List Nat) (hlay : IsLayout n st.2)
    (hadj : ∀ o ∈ st.1, o.type = OpType.CNOT → o.LineAdjacent) :
    IsLayout n (ops.foldl map_to_line_step st).2 ∧
    ∀ o ∈ (ops.foldl map_to_line_step st).1, o.type = OpType.CNOT → o.LineAdjacent := by
  induction ops generalizing st with
  | nil => exact ⟨hlay, hadj⟩
  | cons op rest ih =>
    rw [List.foldl_cons]
    obtain ⟨h1, h2⟩ := map_to_line_step_adjacent n st.1 st.2 hlay hadj op
      (hops op (List.mem_cons_self _ _))
    exact ih (fun o ho => hops o (List.mem_cons_of_mem _ ho)) _ h1 h2

/-- Claim C16: for a circuit whose qubit indices are below `n` and whose CNOTs have
control ≠ target, every CNOT in the output of `map_to_line` (the three CNOTs of every SWAP
and the CNOT emitted for each input CNOT) acts on two qubits `c`, `t` with `|c - t| = 1`. -/
theorem map_to_line_adjacent (c : Circuit R) (hc : c.Valid) :
    ∀ o ∈ (map_to_line c).ops, o.type = OpType.CNOT →
      o.qubits.length = 2 ∧
      (o.qubits.getD 0 0 + 1 = o.qubits.getD 1 0 ∨ o.qubits.getD 1 0 + 1 = o.qubits.getD 0 0) :=
  (map_to_line_fold_adjacent c.nqubits c.ops hc ([], List.range c.nqubits)
    (isLayout_range c.nqubits) (fun _ ho => absurd ho (List.not_mem_nil _))).2

/-- Witness for claim C16: the scenario `H 0; CNOT 0 2` on three qubits, whose output is
`H 0`, the SWAP on `(0, 1)` and `CNOT 1 2`; the theorem is applied to the final CNOT. -/
theorem map_to_line_adjacent_witness :
    (⟨3, [⟨OpType.H, [0], 0⟩, ⟨OpType.CNOT, [0, 2], 0⟩]⟩ : Circuit ℚ).Valid ∧
    (⟨OpType.CNOT, [1, 2], 0⟩ : Op ℚ)
      ∈ (map_to_line (⟨3, [⟨OpType.H, [0], 0⟩, ⟨OpType.CNOT, [0, 2], 0⟩]⟩ : Circuit ℚ)).ops ∧
    (⟨OpType.CNOT, [1, 2], 0⟩ : Op ℚ).type = OpType.CNOT ∧
    ((⟨OpType.CNOT, [1, 2], 0⟩ : Op ℚ).qubits.length = 2 ∧
      ((⟨OpType.CNOT, [1, 2], 0⟩ : Op ℚ).qubits.getD 0 0 + 1
          = (⟨OpType.CNOT, [1, 2], 0⟩ : Op ℚ).qubits.getD 1 0 ∨
        (⟨OpType.CNOT, [1, 2], 0⟩ : Op ℚ).qubits.getD 1 0 + 1
          = (⟨OpType.CNOT, [1, 2], 0⟩ : Op ℚ).qubits.getD 0 0)) :=
  have hv : (⟨3, [⟨OpType.H, [0], 0⟩, ⟨OpType.CNOT, [0, 2], 0⟩]⟩ : Circuit ℚ).Valid := by
    intro op hop
    simp only [List.mem_cons, List.mem_singleton, List.not_mem_nil, or_false] at hop
    rcases hop with h | h <;> subst h <;> simp [Op.Valid]
  have hops : (map_to_line (⟨3, [⟨OpType.H, [0], 0⟩, ⟨OpType.CNOT, [0, 2], 0⟩]⟩ : Circuit ℚ)).ops
      = [⟨OpType.H, [0], 0⟩, ⟨OpType.CNOT, [0, 1], 0⟩, ⟨OpType.CNOT, [1, 0], 0⟩,
         ⟨OpType.CNOT, [0, 1], 0⟩, ⟨OpType.CNOT, [1, 2], 0⟩] := rfl
  have hmem : (⟨OpType.CNOT, [1, 2], 0⟩ : Op ℚ)
      ∈ (map_to_line (⟨3, [⟨OpType.H, [0], 0⟩, ⟨OpType.CNOT, [0, 2], 0⟩]⟩ : Circuit ℚ)).ops := by
    rw [hops]
    simp
  ⟨hv, hmem, rfl, map_to_line_adjacent _ hv _ hmem rfl⟩

end LineAdjacency

section TopologyEval

/-- Claim C17 fails on the code: on the path graph `0 - 1 - 2 - 3` (undirected, connected)
the circuit `CNOT 0 3` is mapped to the SWAPs on `(1,2)` and `(2,3)` followed by `CNOT 0 2`,
and the nodes `0` and `2` are not adjacent. -/
theorem map_to_topology_not_adjacent :
    Undirected line4 ∧
    (∀ a, a < 4 → ∀ b, b < 4 → shortest_path line4 a b ≠ []) ∧
    shortest_path line4 0 3 = [0, 1, 2, 3] ∧
    ((map_to_topology (⟨4, [⟨OpType.CNOT, [0, 3], 0⟩]⟩ : Circuit ℚ) line4).ops.map
        (fun o => (o.type, o.qubits)))
      = [(OpType.CNOT, [1, 2]), (OpType.CNOT, [2, 1]), (OpType.CNOT, [1, 2]),
         (OpType.CNOT, [2, 3]), (OpType.CNOT, [3, 2]), (OpType.CNOT, [2, 3]),
         (OpType.CNOT, [0, 2])] ∧
    ¬ Adjacent line4 0 2 := by
  refine ⟨?_, by decide, by decide, by decide, by decide⟩
  unfold Undirected
  decide

end TopologyEval

section UnitaryGram

theorem build_unitary_X3 (L : Libm ℚ) :
    build_unitary L ⟨3, [⟨OpType.X, [0], 0⟩]⟩
      = build_unitary ⟨id, id, id⟩ ⟨3, [⟨OpType.X, [0], 0⟩]⟩ := rfl

set_option maxRecDepth 100000 in
theorem build_unitary_X3_eval :
    ((build_unitary (⟨id, id, id⟩ : Libm ℚ) ⟨3, [⟨OpType.X, [0], 0⟩]⟩).toOption.map
      (fun U => (U.length, matrix_row 8 U 0, column0 8 U, gram 8 U 0 0)))
      = some (64, [0, 0, 0, 0, 0, 0, 0, 0], [0, 1, 0, 0, 1, 0, 0, 0], ⟨2, 0⟩) := by
  decide!

/-- Claim C18 fails on the code: for `X 0` on three qubits `build_unitary` returns an
8 x 8 matrix whose row 0 is zero and whose column 0 is `[0,1,0,0,1,0,0,0]`, so entry `(0,0)`
of `U† U` is `2`, not `1`. -/
theorem build_unitary_not_unitary (L : Libm ℚ) :
    ((build_unitary L ⟨3, [⟨OpType.X, [0], 0⟩]⟩).toOption.map
      (fun U => (U.length, matrix_row 8 U 0, column0 8 U, gram 8 U 0 0)))
      = some (64, [0, 0, 0, 0, 0, 0, 0, 0], [0, 1, 0, 0, 1, 0, 0, 0], ⟨2, 0⟩) := by
  rw [build_unitary_X3]
  exact build_unitary_X3_eval

end UnitaryGram

section UnitaryValidation
variable {R : Type} [LinearOrderedField R]

theorem is_non_unitary_iff (op : Op R) : is_non_unitary op.type = true ↔ op.NonUnitary := by
  unfold is_non_unitary Op.NonUnitary
  simp only [Bool.or_eq_true, decide_eq_true_eq, or_assoc]

theorem any_non_unitary_iff (ops : List (Op R)) :
    ops.any (fun op => is_non_unitary op.type) = true ↔ ∃ op ∈ ops, op.NonUnitary := by
  rw [List.any_eq_true]
  constructor
  · rintro ⟨op, h1, h2⟩
    exact ⟨op, h1, (is_non_unitary_iff op).1 h2⟩
  · rintro ⟨op, h1, h2⟩
    exact ⟨op, h1, (is_non_unitary_iff op).2 h2⟩

theorem unitary_coeffs_ne (L : Libm R) (op : Op R) :
    unitary_coeffs L op ≠ .error .nonUnitaryOp := by
  unfold unitary_coeffs
  cases op.type <;> simp

theorem build_unitary_step_ne (L : Libm R) (n d : Nat) (U : List (c64 R)) (op : Op R) :
    build_unitary_step L n d U op ≠ .error .nonUnitaryOp := by
  unfold build_unitary_step
  split
  · have := unitary_coeffs_ne L op
    split
    · rename_i e he
      intro h
      injection h with h
      rw [h] at he
      exact this he
    · simp
  · split <;> simp

theorem build_unitary_loop_ne (L : Libm R) (n d : Nat) (ops : List (Op R)) :
    ∀ U, build_unitary_loop L n d ops U ≠ .error .nonUnitaryOp := by
  induction ops with
  | nil => intro U; simp [build_unitary_loop]
  | cons op rest ih =>
    intro U
    unfold build_unitary_loop
    have := build_unitary_step_ne L n d U op
    split
    · rename_i e he
      intro h
      injection h with h
      rw [h] at he
      exact this he
    · exact ih _

theorem build_unitary_step_ok (L : Libm R) (n d : Nat) (U : List (c64 R)) (op : Op R)
    (hv : op.Valid n) (hnu : ¬ op.NonUnitary) :
    ∃ U1, build_unitary_step L n d U op = .ok U1 := by
  unfold Op.NonUnitary at hnu
  unfold Op.Valid at hv
  unfold build_unitary_step unitary_coeffs
  cases h : op.type <;> simp only [h] at hv hnu <;> simp_all

theorem build_unitary_loop_ok (L : Libm R) (n d : Nat) (ops : List (Op R))
    (hv : ∀ op ∈ ops, ¬ op.NonUnitary → op.Valid n) (hnu : ∀ op ∈ ops, ¬ op.NonUnitary) :
    ∀ U, ∃ U1, build_unitary_loop L n d ops U = .ok U1 := by
  induction ops with
  | nil => intro U; exact ⟨U, rfl⟩
  | cons op rest ih =>
    intro U
    obtain ⟨U1, h1⟩ := build_unitary_step_ok L n d U op
      (hv op (List.mem_cons_self _ _) (hnu op (List.mem_cons_self _ _)))
      (hnu op (List.mem_cons_self _ _))
    unfold build_unitary_loop
    rw [h1]
    exact ih (fun o ho => hv o (List.mem_cons_of_mem _ ho))
      (fun o ho => hnu o (List.mem_cons_of_mem _ ho)) U1

/-- Claim C19: for a circuit whose operations other than measurements and noise channels
are well-formed gates, `build_unitary` fails with the non-unitary-op error exactly when the
circuit contains a MEASURE, DEPHASE, DEPOL or AMPDAMP operation, and returns a matrix
otherwise. The check comes first: whatever the other operations of a circuit are, one such
operation anywhere in it gives that error. -/
theorem build_unitary_rejects_non_unitary (L : Libm R) (c : Circuit R)
    (hg : ∀ op ∈ c.ops, ¬ op.NonUnitary → op.Valid c.nqubits) :
    (build_unitary L c = .error .nonUnitaryOp ↔ ∃ op ∈ c.ops, op.NonUnitary) ∧
    ((¬ ∃ op ∈ c.ops, op.NonUnitary) → ∃ U, build_unitary L c = .ok U) ∧
    (∀ c2 : Circuit R, (∃ op ∈ c2.ops, op.NonUnitary) →
      build_unitary L c2 = .error .nonUnitaryOp) := by
  have hpos : ∀ c2 : Circuit R, (∃ op ∈ c2.ops, op.NonUnitary) →
      build_unitary L c2 = .error .nonUnitaryOp := by
    intro c2 h
    unfold build_unitary
    rw [if_pos ((any_non_unitary_iff c2.ops).2 h)]
  refine ⟨⟨?_, hpos c⟩, ?_, hpos⟩
  · intro h
    by_contra hne
    have hany : ¬ (c.ops.any (fun op => is_non_unitary op.type) = true) :=
      fun h2 => hne ((any_non_unitary_iff c.ops).1 h2)
    unfold build_unitary at h
    rw [if_neg hany] at h
    exact build_unitary_loop_ne L _ _ _ _ h
  · intro hne
    have hany : ¬ (c.ops.any (fun op => is_non_unitary op.type) = true) :=
      fun h2 => hne ((any_non_unitary_iff c.ops).1 h2)
    unfold build_unitary
    rw [if_neg hany]
    exact build_unitary_loop_ok L _ _ c.ops hg (fun op ho h => hne ⟨op, ho, h⟩) _

/-- Witness for claim C19: `H 0; MEASURE` on one qubit is rejected. -/
theorem build_unitary_rejects_non_unitary_witness :
    (∀ op ∈ (⟨1, [⟨OpType.H, [0], 0⟩, ⟨OpType.MEASURE, [], 0⟩]⟩ : Circuit ℝ).ops,
      ¬ op.NonUnitary → op.Valid 1) ∧
    build_unitary ⟨Real.sqrt, Real.cos, Real.sin⟩
      (⟨1, [⟨OpType.H, [0], 0⟩, ⟨OpType.MEASURE, [], 0⟩]⟩ : Circuit ℝ)
      = .error .nonUnitaryOp :=
  have hg : ∀ op ∈ (⟨1, [⟨OpType.H, [0], 0⟩, ⟨OpType.MEASURE, [], 0⟩]⟩ : Circuit ℝ).ops,
      ¬ op.NonUnitary → op.Valid 1 := by
    intro op hop _
    simp only [List.mem_cons, List.mem_singleton, List.not_mem_nil, or_false] at hop
    rcases hop with h | h <;> subst h <;> simp [Op.Valid]
  ⟨hg, (build_unitary_rejects_non_unitary _ _ hg).1.2
    ⟨⟨OpType.MEASURE, [], 0⟩, by simp, Or.inl rfl⟩⟩

end UnitaryValidation

section GradientProof
variable {R : Type} [LinearOrderedField R]

end GradientProof

section OptimizerSize
variable {R : Type} [LinearOrderedField R]

theorem optimize_step1_length (opts : OptimizeOptions) (out : List (Op R)) (op : Op R) :
    (optimize_step1 opts out op).length ≤ out.length + 1 := by
  have hpush : (out ++ [op]).length ≤ out.length + 1 := by simp
  have hdrop : out.dropLast.length ≤ out.length + 1 := by
    rw [List.length_dropLast]; omega
  have hrepl : ∀ o : Op R, out ≠ [] → (out.dropLast ++ [o]).length ≤ out.length + 1 := by
    intro o hne
    rw [List.length_append, List.length_dropLast, List.length_singleton]
    omega
  unfold optimize_step1
  split
  · exact hpush
  · split
    · exact hpush
    · rename_i prev hprev
      have hne : out ≠ [] := by
        intro h
        rw [h] at hprev
        simp at hprev
      split
      · exact hpush
      · split
        · exact hrepl _ hne
        · split
          · exact hdrop
          · split
            · exact hrepl _ hne
            · exact hpush

theorem optimize_pass1_length_aux (opts : OptimizeOptions) (ops : List (Op R)) :
    ∀ out : List (Op R), (ops.foldl (optimize_step1 opts) out).length ≤ out.length + ops.length := by
  induction ops with
  | nil => intro out; simp
  | cons op rest ih =>
    intro out
    rw [List.foldl_cons, List.length_cons]
    have h1 := ih (optimize_step1 opts out op)
    have h2 := optimize_step1_length opts out op
    omega

theorem optimize_pass2_length (opts : OptimizeOptions) (l : List (Op R)) :
    (optimize_pass2 opts l).length ≤ l.length := by
  induction l using @optimize_pass2.induct R ‹LinearOrderedField R› opts with
  | case1 => simp [optimize_pass2]
  | case2 op h => simp [optimize_pass2, h]
  | case3 op h => simp [optimize_pass2, h]
  | case4 op op2 rest h ih =>
    simp only [optimize_pass2, h, if_true]
    simp only [List.length_cons] at ih ⊢
    omega
  | case5 op op2 rest h hc ih =>
    simp only [optimize_pass2, h, hc, Bool.false_eq_true, if_false, if_true, and_self]
    simp only [List.length_cons]
    omega
  | case6 op op2 rest h hc ih =>
    simp only [optimize_pass2, h, hc, Bool.false_eq_true, if_false]
    simp only [List.length_cons] at ih ⊢
    omega

/-- Claim C27: for every circuit and every setting of the options, `optimize` returns a
circuit with at most as many operations and with the same qubit count. -/
theorem optimize_no_longer (c : Circuit R) (opts : OptimizeOptions) :
    (optimize c opts).ops.length ≤ c.ops.length ∧ (optimize c opts).nqubits = c.nqubits := by
  refine ⟨?_, rfl⟩
  show (optimize_pass2 opts (optimize_pass1 opts c.ops)).length ≤ c.ops.length
  have h1 := optimize_pass2_length opts (optimize_pass1 opts c.ops)
  have h2 := optimize_pass1_length_aux opts c.ops []
  unfold optimize_pass1 at h1 ⊢
  simp only [List.length_nil, zero_add] at h2
  omega

/-- The first pass on two single-qubit operations on the same qubit, neither of them sent
through verbatim: the second operation meets the first as `out.ops.back()`. -/
theorem optimize_pass1_pair (opts : OptimizeOptions) (t : OpType) (q : Nat) (a b : R)
    (hv : is_verbatim t = false) :
    optimize_pass1 opts [⟨t, [q], a⟩, ⟨t, [q], b⟩]
      = if opts.merge_rotations ∧ (t = OpType.RZ ∨ t = OpType.RX ∨ t = OpType.RY) then
          [⟨t, [q], a + b⟩]
        else if opts.cancel_involutory ∧ is_involutory t then []
        else if opts.cancel_involutory ∧ t = OpType.S then [⟨OpType.Z, [q], 0⟩]
        else [⟨t, [q], a⟩, ⟨t, [q], b⟩] := by
  unfold optimize_pass1
  simp only [List.foldl_cons, List.foldl_nil]
  have h1 : optimize_step1 opts [] (⟨t, [q], a⟩ : Op R) = [⟨t, [q], a⟩] := by
    unfold optimize_step1
    simp [hv]
  rw [h1]
  unfold optimize_step1
  simp only [hv, Bool.false_eq_true, if_false, List.getLast?_singleton, List.length_singleton,
    ne_eq, not_true_eq_false, List.getD_cons_zero, or_self, and_self, List.dropLast_single,
    List.nil_append, and_true]
  rfl

/-- Claim C28: for `G` one of `X`, `H`, `Z`, every qubit `q`, every qubit count `n` (and
whatever the stored angle fields), `optimize` with the default options turns the
two-operation circuit `[G q, G q]` into a circuit with an empty operation list. -/
theorem optimize_cancels_involutory (n q : Nat) (a b : R) :
    optimize (⟨n, [⟨OpType.X, [q], a⟩, ⟨OpType.X, [q], b⟩]⟩ : Circuit R)
      OptimizeOptions.defaults = ⟨n, []⟩ ∧
    optimize (⟨n, [⟨OpType.H, [q], a⟩, ⟨OpType.H, [q], b⟩]⟩ : Circuit R)
      OptimizeOptions.defaults = ⟨n, []⟩ ∧
    optimize (⟨n, [⟨OpType.Z, [q], a⟩, ⟨OpType.Z, [q], b⟩]⟩ : Circuit R)
      OptimizeOptions.defaults = ⟨n, []⟩ := by
  refine ⟨?_, ?_, ?_⟩
  · unfold optimize
    simp only [optimize_pass1_pair OptimizeOptions.defaults OpType.X q a b (by decide)]
    simp [OptimizeOptions.defaults, is_involutory, optimize_pass2]
  · unfold optimize
    simp only [optimize_pass1_pair OptimizeOptions.defaults OpType.H q a b (by decide)]
    simp [OptimizeOptions.defaults, is_involutory, optimize_pass2]
  · unfold optimize
    simp only [optimize_pass1_pair OptimizeOptions.defaults OpType.Z q a b (by decide)]
    simp [OptimizeOptions.defaults, is_involutory, optimize_pass2]

/-- Claim C29: for `R` one of `RX`, `RY`, `RZ`, every qubit `q` and all angles `a`, `b`,
`optimize` with the default options turns `[R q a, R q b]` into the single operation
`R q (a + b)`, the sum taken as it is (no reduction modulo 2π), unless `|a + b| < 1e-15`,
in which case the result has no operations. -/
theorem optimize_merges_rotations (n q : Nat) (a b : R) :
    optimize (⟨n, [⟨OpType.RX, [q], a⟩, ⟨OpType.RX, [q], b⟩]⟩ : Circuit R)
        OptimizeOptions.defaults
      = ⟨n, if |a + b| < 1 / 10 ^ 15 then [] else [⟨OpType.RX, [q], a + b⟩]⟩ ∧
    optimize (⟨n, [⟨OpType.RY, [q], a⟩, ⟨OpType.RY, [q], b⟩]⟩ : Circuit R)
        OptimizeOptions.defaults
      = ⟨n, if |a + b| < 1 / 10 ^ 15 then [] else [⟨OpType.RY, [q], a + b⟩]⟩ ∧
    optimize (⟨n, [⟨OpType.RZ, [q], a⟩, ⟨OpType.RZ, [q], b⟩]⟩ : Circuit R)
        OptimizeOptions.defaults
      = ⟨n, if |a + b| < 1 / 10 ^ 15 then [] else [⟨OpType.RZ, [q], a + b⟩]⟩ := by
  refine ⟨?_, ?_, ?_⟩
  · unfold optimize
    simp only [optimize_pass1_pair OptimizeOptions.defaults OpType.RX q a b (by decide)]
    by_cases h : |a + b| < 1 / 10 ^ 15 <;>
      simp [OptimizeOptions.defaults, optimize_pass2, is_zero_rotation, h]
  · unfold optimize
    simp only [optimize_pass1_pair OptimizeOptions.defaults OpType.RY q a b (by decide)]
    by_cases h : |a + b| < 1 / 10 ^ 15 <;>
      simp [OptimizeOptions.defaults, optimize_pass2, is_zero_rotation, h]
  · unfold optimize
    simp only [optimize_pass1_pair OptimizeOptions.defaults OpType.RZ q a b (by decide)]
    by_cases h : |a + b| < 1 / 10 ^ 15 <;>
      simp [OptimizeOptions.defaults, optimize_pass2, is_zero_rotation, h]

end OptimizerSize

section Skipped
variable {R : Type} [LinearOrderedField R]

theorem foldl_filter_of_skip {α β : Type} (f : α → β → α) (keep : β → Bool) (l : List β)
    (h : ∀ b ∈ l, keep b = false → ∀ a, f a b = a) :
    ∀ a, l.foldl f a = (l.filter keep).foldl f a := by
  induction l with
  | nil => intro a; rfl
  | cons b rest ih =>
    intro a
    have ih2 := ih (fun x hx => h x (List.mem_cons_of_mem _ hx))
    by_cases hk : keep b = true
    · rw [List.filter_cons_of_pos hk, List.foldl_cons, List.foldl_cons, ih2]
    · have hk2 : keep b = false := by simpa using hk
      rw [List.filter_cons_of_neg hk, List.foldl_cons,
        h b (List.mem_cons_self _ _) hk2 a, ih2]

theorem run_op_ampdamp (L : Libm R) (st : StateVector R × Rng R) (op : Op R)
    (h : op.type = OpType.AMPDAMP) : run_op L st op = st := by
  unfold run_op
  simp only [h]

theorem run_op_degenerate_cnot (L : Libm R) (st : StateVector R × Rng R) (op : Op R)
    (h : op.DegenerateCnot) : run_op L st op = st := by
  unfold run_op
  simp only [h.1]
  unfold StateVector.apply_cx
  rw [if_pos h.2]

theorem run_congr_state (L : Libm R) (src : RngSource R) (c1 c2 : Circuit R) (seed : Nat)
    (collapse : Bool) (hn : c1.nqubits = c2.nqubits)
    (hs : run_state L src c1 seed = run_state L src c2 seed) :
    run L src c1 seed collapse = run L src c2 seed collapse := by
  unfold run
  rw [hs, hn]

/-- Claim C24, amended: `run` on the state-vector backend does not fail on AMPDAMP. Its
`switch` has no case for it, so the operation is stepped over and `run` returns the
`RunResult` of the circuit without its AMPDAMP operations. The rejection is made by the CLI
`run` command: with the backend `"state"` it returns the exit code 7 exactly when the circuit
contains an AMPDAMP operation, before `run` is called. -/
theorem run_ignores_ampdamp (L : Libm R) (src : RngSource R) (c : Circuit R) (seed : Nat)
    (collapse : Bool) :
    run L src c seed collapse
      = run L src ⟨c.nqubits, c.ops.filter (fun op => decide (op.type ≠ OpType.AMPDAMP))⟩
          seed collapse ∧
    (cli_validate_backend "state" c.ops = some 7 ↔ ∃ op ∈ c.ops, op.type = OpType.AMPDAMP) ∧
    (cli_validate_backend "state" c.ops = none ↔ ∀ op ∈ c.ops, op.type ≠ OpType.AMPDAMP) := by
  refine ⟨?_, ?_, ?_⟩
  · refine run_congr_state L src c ⟨c.nqubits, _⟩ seed collapse rfl ?_
    unfold run_state
    exact foldl_filter_of_skip (run_op L) _ c.ops
      (fun op _ hk st => run_op_ampdamp L st op (by simpa using hk)) _
  · unfold cli_validate_backend
    rw [if_pos rfl]
    by_cases h : c.ops.any (fun op => decide (op.type = OpType.AMPDAMP)) = true
    · rw [if_pos h]
      obtain ⟨op, h1, h2⟩ := List.any_eq_true.1 h
      exact ⟨fun _ => ⟨op, h1, by simpa using h2⟩, fun _ => rfl⟩
    · rw [if_neg h]
      constructor
      · intro h0
        exact absurd h0 (by simp)
      · rintro ⟨op, h1, h2⟩
        exact absurd (List.any_eq_true.2 ⟨op, h1, by simpa using h2⟩) h
  · unfold cli_validate_backend
    rw [if_pos rfl]
    by_cases h : c.ops.any (fun op => decide (op.type = OpType.AMPDAMP)) = true
    · rw [if_pos h]
      obtain ⟨op, h1, h2⟩ := List.any_eq_true.1 h
      constructor
      · intro h0
        exact absurd h0 (by simp)
      · intro hall
        exact absurd (by simpa using h2) (hall op h1)
    · rw [if_neg h]
      refine ⟨fun _ op h1 h2 => ?_, fun _ => rfl⟩
      exact h (List.any_eq_true.2 ⟨op, h1, by simpa using h2⟩)

/-- Claim C25, amended: the core does not reject a CNOT whose control equals its target.
`apply_cx` returns at once when `control == target`, so `run` returns the `RunResult` of the
circuit without these operations. -/
theorem run_ignores_degenerate_cnot (L : Libm R) (src : RngSource R) (c : Circuit R)
    (seed : Nat) (collapse : Bool) :
    run L src c seed collapse
      = run L src ⟨c.nqubits, c.ops.filter (fun op => decide (¬ op.DegenerateCnot))⟩
          seed collapse := by
  refine run_congr_state L src c ⟨c.nqubits, _⟩ seed collapse rfl ?_
  unfold run_state
  exact foldl_filter_of_skip (run_op L) _ c.ops
    (fun op _ hk st => run_op_degenerate_cnot L st op (by simpa using hk)) _

end Skipped

section SkippedEval

/-- What `run` returns for a one-qubit circuit whose operations leave `|0>` untouched, with
the draw `0`. -/
theorem run_of_untouched (c : Circuit ℝ) (hn : c.nqubits = 1)
    (hs : run_state ⟨Real.sqrt, Real.cos, Real.sin⟩ (fun _ _ => 0) c 0
      = (⟨1, [1, 0], 0⟩, ⟨fun _ => 0, 0⟩)) :
    (run ⟨Real.sqrt, Real.cos, Real.sin⟩ (fun _ _ => 0) c 0 false).outcome = [0] ∧
    (run ⟨Real.sqrt, Real.cos, Real.sin⟩ (fun _ _ => 0) c 0 false).probabilities = [1, 0] := by
  constructor
  · rw [run_outcome, hs, hn]
    show bits_of 1 (sample_loop (StateVector.prob (⟨1, [1, 0], 0⟩ : StateVector ℝ)) 0
      (List.range 2) 0) = [0]
    have : sample_loop (StateVector.prob (⟨1, [1, 0], 0⟩ : StateVector ℝ)) 0
        (List.range 2) 0 = 0 :=
      sample_loop_smallest _ _ 2 0 (by decide)
        (by rw [cumulative_zero]; show (0 : ℝ) ≤ c64.norm (1 : c64 ℝ); rw [c64.norm_one]
            exact zero_le_one)
        (fun j hj => absurd hj (Nat.not_lt_zero j))
    rw [this]
    rfl
  · rw [run_probabilities_eq, hs, hn]
    show [c64.norm (1 : c64 ℝ), c64.norm (0 : c64 ℝ)] = [1, 0]
    rw [c64.norm_zero, c64.norm_one]

/-- Counterexample to claim C24: on the one-qubit circuit `AMPDAMP 0 0.5`, `run` returns
a `RunResult`, the one of the empty circuit: outcome `0`, probabilities `[1, 0]`. -/
theorem run_accepts_ampdamp :
    (run ⟨Real.sqrt, Real.cos, Real.sin⟩ (fun _ _ => 0)
      ⟨1, [⟨OpType.AMPDAMP, [0], 1 / 2⟩]⟩ 0 false).outcome = [0] ∧
    (run ⟨Real.sqrt, Real.cos, Real.sin⟩ (fun _ _ => 0)
      ⟨1, [⟨OpType.AMPDAMP, [0], 1 / 2⟩]⟩ 0 false).probabilities = [1, 0] :=
  run_of_untouched _ rfl rfl

/-- Counterexample to claim C25: on the one-qubit circuit `CNOT 0 0`, `run` returns a
`RunResult`, the one of the empty circuit: outcome `0`, probabilities `[1, 0]`. -/
theorem run_accepts_degenerate_cnot :
    (run ⟨Real.sqrt, Real.cos, Real.sin⟩ (fun _ _ => 0)
      ⟨1, [⟨OpType.CNOT, [0, 0], 0⟩]⟩ 0 false).outcome = [0] ∧
    (run ⟨Real.sqrt, Real.cos, Real.sin⟩ (fun _ _ => 0)
      ⟨1, [⟨OpType.CNOT, [0, 0], 0⟩]⟩ 0 false).probabilities = [1, 0] :=
  run_of_untouched _ rfl rfl

end SkippedEval

section GhzBits

theorem ghz_index (m x : Nat) (hm : 1 ≤ m) :
    (cx_index 0 m x = 0 ∨ cx_index 0 m x = 2 ^ m - 1) ↔ (x = 0 ∨ x = 2 ^ (m + 1) - 1) := by
  have hm0 : (0 : Nat) ≠ m := by omega
  constructor
  · rintro (h | h)
    · left
      apply Nat.eq_of_testBit_eq
      intro i
      have hi := congrArg (fun y => y.testBit i) h
      have h0 := congrArg (fun y => y.testBit 0) h
      simp only [testBit_cx_index, Nat.zero_testBit, if_neg hm0] at hi h0
      rw [Nat.zero_testBit]
      by_cases him : i = m
      · subst him
        rw [if_pos rfl, h0] at hi
        simpa using hi
      · rw [if_neg him] at hi
        exact hi
    · right
      apply Nat.eq_of_testBit_eq
      intro i
      have hi := congrArg (fun y => y.testBit i) h
      have h0 := congrArg (fun y => y.testBit 0) h
      simp only [testBit_cx_index, Nat.testBit_two_pow_sub_one, if_neg hm0] at hi h0
      rw [Nat.testBit_two_pow_sub_one]
      have hx0 : x.testBit 0 = true := by rw [h0]; simp; omega
      by_cases him : i = m
      · subst him
        rw [if_pos rfl, hx0] at hi
        simp at hi
        rw [hi]
        simp
      · rw [if_neg him] at hi
        rw [hi]
        simp only [decide_eq_decide]
        omega
  · rintro (h | h)
    · left
      subst h
      show (if (0 : Nat) &&& 2 ^ 0 ≠ 0 then 0 ^^^ 2 ^ m else 0) = 0
      rw [if_neg (by decide)]
    · right
      apply Nat.eq_of_testBit_eq
      intro i
      rw [testBit_cx_index, h, Nat.testBit_two_pow_sub_one]
      simp only [Nat.testBit_two_pow_sub_one]
      by_cases him : i = m
      · subst him
        rw [if_pos rfl]
        simp
      · rw [if_neg him]
        simp only [decide_eq_decide]
        omega

end GhzBits

section GhzProof
variable {R : Type} [LinearOrderedField R]

theorem ghz_state_one (L : Libm R) :
    gate_fn 0 (gates.H_coeffs L) (ket0 : Nat → c64 R) = ghz_state L 1 := by
  funext x
  unfold ghz_state
  by_cases h2 : 2 ≤ x
  · rw [gate_ket0_high _ x h2, if_neg (by omega)]
  · have hx : x = 0 ∨ x = 1 := by omega
    rw [if_pos (by simpa using hx)]
    rcases hx with h | h <;> subst h
    · rw [gate_fn_apply, if_pos (by decide), show (0 : Nat) ^^^ 2 ^ 0 = 1 from by decide,
        ket0_zero, ket0_pos 1 (by decide)]
      ext <;> simp [gates.H_coeffs]
    · rw [gate_fn_apply, if_neg (by decide), show (1 : Nat) ^^^ 2 ^ 0 = 0 from by decide,
        ket0_zero, ket0_pos 1 (by decide)]
      ext <;> simp [gates.H_coeffs]

theorem ghz_state_succ (L : Libm R) (m : Nat) (hm : 1 ≤ m) :
    cx_fn 0 m (ghz_state L m) = ghz_state L (m + 1) := by
  funext x
  rw [cx_fn_apply]
  unfold ghz_state
  by_cases h : x = 0 ∨ x = 2 ^ (m + 1) - 1
  · rw [if_pos h, if_pos ((ghz_index m x hm).2 h)]
  · rw [if_neg h, if_neg (fun h2 => h ((ghz_index m x hm).1 h2))]

theorem ghz_cnots_sem (L : Libm R) (g : Rng R) (k : Nat) :
    ops_sem L ((List.range k).map (fun j => (⟨OpType.CNOT, [0, j + 1], 0⟩ : Op R)))
      (ghz_state L 1, g) = (ghz_state L (k + 1), g) := by
  induction k with
  | zero => rfl
  | succ k ih =>
    rw [List.range_succ, List.map_append, ops_sem_append, ih]
    show op_sem L ⟨OpType.CNOT, [0, k + 1], 0⟩ (ghz_state L (k + 1), g) = _
    have : op_sem L (⟨OpType.CNOT, [0, k + 1], 0⟩ : Op R) (ghz_state L (k + 1), g)
        = (cx_fn 0 (k + 1) (ghz_state L (k + 1)), g) := by
      simp [op_sem]
    rw [this, ghz_state_succ L (k + 1) (by omega)]

theorem ghz_sem_n (L : Libm R) (g : Rng R) (n : Nat) (hn : 1 ≤ n) (measure : Bool) :
    ops_sem L (ghz n measure : Circuit R).ops (ket0, g) = (ghz_state L n, g) := by
  unfold ghz
  simp only
  rw [ops_sem_cons]
  have h1 : op_sem L (⟨OpType.H, [0], 0⟩ : Op R) (ket0, g)
      = (gate_fn 0 (gates.H_coeffs L) ket0, g) := rfl
  rw [h1, ghz_state_one, ops_sem_append, ghz_cnots_sem, Nat.sub_add_cancel hn]
  cases measure <;> rfl

theorem ghz_valid_n (n : Nat) (hn : 1 ≤ n) (measure : Bool) :
    (ghz n measure : Circuit R).Valid := by
  intro op hop
  unfold ghz at hop
  simp only [List.mem_cons, List.mem_append, List.mem_map, List.mem_range] at hop
  rcases hop with h | ⟨k, hk, h⟩ | h
  · subst h
    simp [Op.Valid, ghz]
    omega
  · subst h
    simp [Op.Valid, ghz]
    omega
  · cases measure
    · simp at h
    · simp only [if_true, List.mem_singleton] at h
      subst h
      simp [Op.Valid]

theorem ghz_state_norm (L : Libm R) (hL : L.Lawful) (m x : Nat) :
    c64.norm (ghz_state L m x) = if x = 0 ∨ x = 2 ^ m - 1 then 1 / 2 else 0 := by
  unfold ghz_state
  split
  · have h2 := hL.sqrt_two
    have hne : L.sqrt 2 ≠ 0 := by
      intro h
      rw [h] at h2
      norm_num at h2
    unfold c64.norm
    simp only [mul_zero, add_zero]
    field_simp
    linarith
  · exact c64.norm_zero

/-- Claim C26: for every `n ≥ 2`, every seed and a lawful `<cmath>`, `run` on the GHZ
circuit `H 0; CNOT 0 1; …; CNOT 0 (n-1)`, with or without a final MEASURE, reports the
probability `1/2` at the basis indices `0` and `2^n - 1` and `0` at every other index;
for `n = 2` (the Bell pair) the vector is `[1/2, 0, 0, 1/2]`. -/
theorem ghz_probabilities (L : Libm R) (hL : L.Lawful) (src : RngSource R) (n : Nat)
    (hn : 2 ≤ n) (seed : Nat) (collapse measure : Bool) :
    (run L src (ghz n measure) seed collapse).probabilities
      = (List.range (2 ^ n)).map (fun i => if i = 0 ∨ i = 2 ^ n - 1 then (1 / 2 : R) else 0) ∧
    (run L src (ghz 2 measure) seed collapse).probabilities = [1 / 2, 0, 0, 1 / 2] := by
  have key : ∀ m, 1 ≤ m → (run L src (ghz m measure) seed collapse).probabilities
      = (List.range (2 ^ m)).map
          (fun i => if i = 0 ∨ i = 2 ^ m - 1 then (1 / 2 : R) else 0) := by
    intro m hm
    rw [run_probabilities_sem L hL src _ (ghz_valid_n m hm measure), ghz_sem_n L _ m hm]
    have hq : (ghz m measure : Circuit R).nqubits = m := rfl
    rw [hq]
    apply List.map_congr_left
    intro i _
    exact ghz_state_norm L hL m i
  refine ⟨key n (by omega), ?_⟩
  rw [key 2 (by omega)]
  rfl

end GhzProof

section Renormalisation
variable {R : Type} [LinearOrderedField R]

theorem sum_probability_of_basis (n : Nat) (sv : StateVector R) :
    ∑ i in Finset.range (2 ^ n), sv.probability_of_basis i = total n (view sv.amp_) := rfl

theorem total_map_scale (n : Nat) (x : R) (l : List (c64 R)) (hl : l.length = 2 ^ n) :
    total n (view (l.map (c64.scale x))) = x * x * total n (view l) := by
  unfold total
  rw [Finset.mul_sum]
  apply Finset.sum_congr rfl
  intro i hi
  have hi2 : i < l.length := by rw [hl]; exact Finset.mem_range.1 hi
  have : view (l.map (c64.scale x)) i = c64.scale x (view l i) := by
    unfold view
    rw [List.getD_eq_getElem?_getD, List.getD_eq_getElem?_getD, List.getElem?_map,
      List.getElem?_eq_getElem hi2]
    rfl
  rw [this, c64.norm_scale]

/-- The total probability after `normalize_` is one when the squared norm `N` of the buffer
is non-zero and `sqrt N * sqrt N = N`. -/
theorem normalize_total (L : Libm R) (n : Nat) (sv : StateVector R)
    (hl : sv.amp_.length = 2 ^ n) (hN : total n (view sv.amp_) ≠ 0)
    (hs : L.sqrt (total n (view sv.amp_)) * L.sqrt (total n (view sv.amp_))
      = total n (view sv.amp_)) :
    total n (view (StateVector.normalize_ L sv).amp_) = 1 := by
  have hk : (sv.amp_.foldl StateVector.kahan_step (0, 0)).1 = total n (view sv.amp_) := by
    rw [kahan_fold, zero_add, sum_norm_eq_total n _ hl]
  unfold StateVector.normalize_
  simp only [hk]
  rw [total_map_scale n _ _ hl]
  have hne : L.sqrt (total n (view sv.amp_)) ≠ 0 := by
    intro h
    rw [h, mul_zero] at hs
    exact hN hs.symm
  generalize total n (view sv.amp_) = N at hN hs hne
  generalize L.sqrt N = r at hs hne
  rw [← hs]
  field_simp

/-- Claim C30, amended: the state-vector engine renormalises only inside a gate application
whose incremented counter is a multiple of 256; `probability_of_basis` and `measure_all` read
the stored amplitudes as they are. For a buffer of length `2^n` and a target `q < n`:
after `apply_gate_1q` with an arbitrary 2x2 matrix the reported values sum to the squared
norm of the updated buffer when the counter is not a multiple of 256, and to 1 when it is
(the norm being non-zero and `sqrt` exact on it); they sum to 1 after a unitary matrix on
a unit-norm buffer; and `measure_all` compares its draw with the cumulative sums of the
stored `|a_i|²`. -/
theorem probabilities_not_renormalised (L : Libm R) (n : Nat) (sv : StateVector R)
    (hlen : sv.amp_.length = 2 ^ n) (q : Nat) (hq : q < n) (u : Coeffs R) :
    ((sv.applied_ + 1) &&& 255 ≠ 0 →
      ∑ i in Finset.range (2 ^ n), (sv.apply_gate_1q L q u).probability_of_basis i
        = total n (gate_fn q u (view sv.amp_))) ∧
    ((sv.applied_ + 1) &&& 255 = 0 → total n (gate_fn q u (view sv.amp_)) ≠ 0 →
      L.sqrt (total n (gate_fn q u (view sv.amp_)))
          * L.sqrt (total n (gate_fn q u (view sv.amp_)))
        = total n (gate_fn q u (view sv.amp_)) →
      ∑ i in Finset.range (2 ^ n), (sv.apply_gate_1q L q u).probability_of_basis i = 1) ∧
    (L.Lawful → total n (view sv.amp_) = 1 → u.IsUnitary →
      ∑ i in Finset.range (2 ^ n), (sv.apply_gate_1q L q u).probability_of_basis i = 1) ∧
    (∀ (rng : Rng R) (collapse : Bool),
      (sv.measure_all rng collapse).1
        = bits_of sv.n_
            (sample_loop (fun i => c64.norm (sv.amp_.getD i 0)) rng.uniform.1
              (List.range sv.amp_.length) 0)) := by
  obtain ⟨hl, hv⟩ := gate_1q_loop_spec q n hq u sv.amp_ hlen
  refine ⟨?_, ?_, ?_, ?_⟩
  · intro hnb
    have key : sv.apply_gate_1q L q u =
        ⟨sv.n_, StateVector.gate_1q_loop (1 <<< q) u sv.amp_, sv.applied_ + 1⟩ := by
      unfold StateVector.apply_gate_1q
      simp only
      rw [if_neg hnb]
    rw [sum_probability_of_basis, key]
    show total n (view (StateVector.gate_1q_loop (1 <<< q) u sv.amp_)) = _
    rw [hv]
  · intro hb hN hs
    have key : sv.apply_gate_1q L q u = StateVector.normalize_ L
        ⟨sv.n_, StateVector.gate_1q_loop (1 <<< q) u sv.amp_, sv.applied_ + 1⟩ := by
      unfold StateVector.apply_gate_1q
      simp only
      rw [if_pos hb]
    rw [sum_probability_of_basis, key]
    apply normalize_total L n _ hl
    · show total n (view (StateVector.gate_1q_loop (1 <<< q) u sv.amp_)) ≠ 0
      rw [hv]; exact hN
    · show L.sqrt (total n (view (StateVector.gate_1q_loop (1 <<< q) u sv.amp_))) * _ = _
      rw [hv]; exact hs
  · intro hL ht hu
    rw [sum_probability_of_basis]
    exact (apply_gate_1q_amp L hL n sv ⟨hlen, ht⟩ q hq u hu).2.2
  · intro rng collapse
    rw [measure_all_eq]
    rfl

/-- Witness for claim C30: the gate `X` on the one-qubit state `|0>`. -/
theorem probabilities_not_renormalised_witness :
    (StateVector.init 1 : StateVector ℝ).amp_.length = 2 ^ 1 ∧ (0 : Nat) < 1 ∧
    (⟨Real.sqrt, Real.cos, Real.sin⟩ : Libm ℝ).Lawful ∧
    total 1 (view (StateVector.init 1 : StateVector ℝ).amp_) = 1 ∧
    (gates.X_coeffs : Coeffs ℝ).IsUnitary ∧
    ∑ i in Finset.range (2 ^ 1),
      ((StateVector.init 1 : StateVector ℝ).apply_gate_1q ⟨Real.sqrt, Real.cos, Real.sin⟩ 0
        gates.X_coeffs).probability_of_basis i = 1 :=
  ⟨rfl, by decide, real_lawful, (init_good 1).2, X_unitary,
    (probabilities_not_renormalised ⟨Real.sqrt, Real.cos, Real.sin⟩ 1 (StateVector.init 1) rfl
      0 (by decide) gates.X_coeffs).2.2.1 real_lawful (init_good 1).2 X_unitary⟩

/-- Counterexample to claim C30: `apply_gate_1q` with the matrix `2 I` on the one-qubit
state `|0>` leaves the amplitudes `(2, 0)`; `probability_of_basis` then reports `4` and `0`,
which sum to `4`. -/
theorem probabilities_sum_four :
    ((StateVector.init 1 : StateVector ℝ).apply_gate_1q ⟨Real.sqrt, Real.cos, Real.sin⟩ 0
      ⟨⟨2, 0⟩, 0, 0, ⟨2, 0⟩⟩).amp_ = [⟨2, 0⟩, 0] ∧
    (List.range (2 ^ 1)).map
      ((StateVector.init 1 : StateVector ℝ).apply_gate_1q ⟨Real.sqrt, Real.cos, Real.sin⟩ 0
        ⟨⟨2, 0⟩, 0, 0, ⟨2, 0⟩⟩).probability_of_basis = [4, 0] ∧
    ∑ i in Finset.range (2 ^ 1),
      ((StateVector.init 1 : StateVector ℝ).apply_gate_1q ⟨Real.sqrt, Real.cos, Real.sin⟩ 0
        ⟨⟨2, 0⟩, 0, 0, ⟨2, 0⟩⟩).probability_of_basis i = 4 := by
  have hst : (StateVector.init 1 : StateVector ℝ).apply_gate_1q
      ⟨Real.sqrt, Real.cos, Real.sin⟩ 0 ⟨⟨2, 0⟩, 0, 0, ⟨2, 0⟩⟩
      = ⟨1, [(⟨2, 0⟩ : c64 ℝ) * 1 + 0 * 0, (0 : c64 ℝ) * 1 + ⟨2, 0⟩ * 0], 1⟩ := rfl
  have hamp : [(⟨2, 0⟩ : c64 ℝ) * 1 + 0 * 0, (0 : c64 ℝ) * 1 + ⟨2, 0⟩ * 0]
      = [(⟨2, 0⟩ : c64 ℝ), 0] := by
    simp
  rw [hamp] at hst
  have n2 : c64.norm (⟨2, 0⟩ : c64 ℝ) = 4 := by
    unfold c64.norm
    norm_num
  rw [hst]
  refine ⟨rfl, ?_, ?_⟩
  · show [c64.norm (⟨2, 0⟩ : c64 ℝ), c64.norm (0 : c64 ℝ)] = [4, 0]
    rw [n2, c64.norm_zero]
  · rw [show (2 : Nat) ^ 1 = 1 + 1 from rfl, Finset.sum_range_succ, Finset.sum_range_one]
    show c64.norm (⟨2, 0⟩ : c64 ℝ) + c64.norm (0 : c64 ℝ) = 4
    rw [n2, c64.norm_zero, add_zero]

end Renormalisation

section AxisBits

theorem block_index_clear (q k j : Nat) (hj : j < 2 ^ q) :
    (2 ^ (q + 1) * k + j) &&& 2 ^ q = 0 := by
  rw [and_pow_eq_zero_iff, Nat.testBit_mul_pow_two_add k (by rw [pow_succ]; omega) q,
    if_pos (by omega)]
  exact Nat.testBit_lt_two_pow hj

theorem block_index_set (q k j : Nat) (hj : j < 2 ^ q) :
    (2 ^ (q + 1) * k + (2 ^ q + j)) &&& 2 ^ q ≠ 0 := by
  rw [and_pow_ne_zero_iff, Nat.testBit_mul_pow_two_add k (by rw [pow_succ]; omega) q,
    if_pos (by omega), Nat.testBit_two_pow_add_eq, Nat.testBit_lt_two_pow hj]
  rfl

theorem block_index_add (q k j : Nat) (hj : j < 2 ^ q) :
    2 ^ (q + 1) * k + j + 2 ^ q = (2 ^ (q + 1) * k + j) ^^^ 2 ^ q := by
  apply Nat.eq_of_testBit_eq
  intro i
  have e : 2 ^ (q + 1) * k + j + 2 ^ q = 2 ^ (q + 1) * k + (2 ^ q + j) := by omega
  rw [e, Nat.testBit_mul_pow_two_add k (by rw [pow_succ]; omega) i, testBit_xor_pow,
    Nat.testBit_mul_pow_two_add k (by rw [pow_succ]; omega) i]
  by_cases h1 : i < q + 1
  · rw [if_pos h1, if_pos h1]
    by_cases h2 : i = q
    · subst h2
      rw [Nat.testBit_two_pow_add_eq, Nat.testBit_lt_two_pow hj]
      simp
    · rw [Nat.testBit_two_pow_add_gt (by omega)]
      simp [Ne.symm h2]
  · rw [if_neg h1, if_neg h1]
    have : ¬ (q = i) := by omega
    simp [this]

end AxisBits

section AxisLoop
variable {R : Type} [LinearOrderedField R]

theorem axisInv_skip (n q : Nat) (a b c d : R) (out o : List R) (m : Nat)
    (h : AxisInv n q a b c d out o m) (hm : m &&& 2 ^ q ≠ 0) :
    AxisInv n q a b c d out o (m + 1) := by
  refine ⟨h.1, fun x hx => ?_⟩
  rw [h.2 x hx]
  have hb : pair_base q x ≠ m := by
    intro e
    have := pair_base_clear q x
    rw [e] at this
    exact hm this
  have : (pair_base q x < m + 1) ↔ (pair_base q x < m) := by omega
  simp only [this]

theorem axisInv_step (n q : Nat) (hq : q < n) (a b c d : R) (out o : List R) (m : Nat)
    (h : AxisInv n q a b c d out o m) (hm : m &&& 2 ^ q = 0) (hmn : m < 2 ^ n)
    (hadd : m + 2 ^ q = m ^^^ 2 ^ q) :
    AxisInv n q a b c d out (mitigate_pair a b c d o m (m + 2 ^ q)) (m + 1) := by
  obtain ⟨hl, hv⟩ := h
  have hjlt : m ^^^ 2 ^ q < 2 ^ n := xor_pow_lt m q n hmn hq
  have hbk : pair_base q m = m := by simp [pair_base, hm]
  have hbj : pair_base q (m ^^^ 2 ^ q) = m := by
    rw [pair_base_eq_iff q _ m hm]; right; rfl
  have hak : o.getD m 0 = out.getD m 0 := by rw [hv m hmn, hbk]; simp
  have haj : o.getD (m ^^^ 2 ^ q) 0 = out.getD (m ^^^ 2 ^ q) 0 := by
    rw [hv _ hjlt, hbj]; simp
  have hnc : ¬ ((m ^^^ 2 ^ q) &&& 2 ^ q = 0) := by
    rw [xor_pow_and_pow]; simp [hm]
  unfold mitigate_pair
  simp only [hadd, hak, haj]
  refine ⟨by simp [hl], fun x hx => ?_⟩
  rw [getD_set, getD_set, List.length_set, hl]
  by_cases hx1 : x = m ^^^ 2 ^ q
  · subst hx1
    simp [hjlt, hbj, raxis, rview, hnc, xor_pow_xor_pow]
  · by_cases hx2 : x = m
    · subst hx2
      have : ¬ (x ^^^ 2 ^ q = x) := xor_pow_ne x q
      simp [this, hmn, hbk, raxis, rview, hm]
    · have hne : pair_base q x ≠ m := by
        rw [Ne, pair_base_eq_iff q x m hm]; tauto
      have h1 : ¬ (m ^^^ 2 ^ q = x) := fun e => hx1 e.symm
      have h2 : ¬ (m = x) := fun e => hx2 e.symm
      simp only [h1, h2, false_and, if_false, hv x hx]
      have : (pair_base q x < m + 1) ↔ (pair_base q x < m) := by omega
      simp only [this]

theorem mitigate_block_inv (n q : Nat) (hq : q < n) (a b c d : R) (out : List R) (k : Nat)
    (hk : 2 ^ (q + 1) * k + 2 ^ (q + 1) ≤ 2 ^ n) (j : Nat) (hj : j ≤ 2 ^ q) (o : List R)
    (h : AxisInv n q a b c d out o (2 ^ (q + 1) * k)) :
    AxisInv n q a b c d out
      ((List.range j).foldl
        (fun o i => mitigate_pair a b c d o (2 ^ (q + 1) * k + i) (2 ^ (q + 1) * k + i + 2 ^ q))
        o)
      (2 ^ (q + 1) * k + j) := by
  induction j with
  | zero => exact h
  | succ j ih =>
    rw [List.range_succ, List.foldl_append]
    simp only [List.foldl_cons, List.foldl_nil]
    have hjlt : j < 2 ^ q := by omega
    have h2 : 2 ^ (q + 1) = 2 ^ q + 2 ^ q := by rw [pow_succ]; omega
    exact axisInv_step n q hq a b c d out _ _ (ih (by omega)) (block_index_clear q k j hjlt)
      (by omega) (block_index_add q k j hjlt)

theorem axisInv_skip_many (n q : Nat) (a b c d : R) (out o : List R) (k j : Nat)
    (hj : j ≤ 2 ^ q) (h : AxisInv n q a b c d out o (2 ^ (q + 1) * k + 2 ^ q)) :
    AxisInv n q a b c d out o (2 ^ (q + 1) * k + (2 ^ q + j)) := by
  induction j with
  | zero => exact h
  | succ j ih =>
    have := axisInv_skip n q a b c d out o _ (ih (by omega))
      (block_index_set q k j (by omega))
    exact this

theorem mitigate_axis_inv (n q : Nat) (hq : q < n) (a b c d : R) (out : List R)
    (hl : out.length = 2 ^ n) (K : Nat) (hK : 2 ^ (q + 1) * K ≤ 2 ^ n) :
    AxisInv n q a b c d out
      ((List.range K).foldl
        (fun o k => mitigate_block a b c d (2 ^ q) o (k * 2 ^ (q + 1))) out)
      (2 ^ (q + 1) * K) := by
  induction K with
  | zero =>
    refine ⟨hl, fun x _ => ?_⟩
    simp
  | succ K ih =>
    rw [List.range_succ, List.foldl_append]
    simp only [List.foldl_cons, List.foldl_nil]
    have h2 : 2 ^ (q + 1) = 2 ^ q + 2 ^ q := by rw [pow_succ]; omega
    have hK2 : 2 ^ (q + 1) * K + 2 ^ (q + 1) ≤ 2 ^ n := by
      rw [Nat.mul_succ] at hK; exact hK
    have h1 := mitigate_block_inv n q hq a b c d out K hK2 (2 ^ q) (le_refl _) _
      (ih (le_trans (Nat.le_add_right _ _) hK2))
    have h3 := axisInv_skip_many n q a b c d out _ K (2 ^ q) (le_refl _) h1
    unfold mitigate_block
    rw [Nat.mul_comm K (2 ^ (q + 1))]
    rw [Nat.mul_succ, h2]
    rw [h2] at h3
    exact h3

/-- One axis of `mitigate_readout` on a buffer of length `2^n`: the 2x2 matrix is applied
along the axis `q`. -/
theorem mitigate_axis_spec (n q : Nat) (hq : q < n) (a b c d : R) (out : List R)
    (hl : out.length = 2 ^ n) :
    (mitigate_axis a b c d (2 ^ n) out q).length = 2 ^ n ∧
    ∀ x, x < 2 ^ n →
      (mitigate_axis a b c d (2 ^ n) out q).getD x 0 = raxis q a b c d (rview out) x := by
  have hs1 : (2 ^ q) <<< 1 = 2 ^ (q + 1) := by
    rw [Nat.shiftLeft_eq, pow_one, pow_succ]
  have hpos : 0 < 2 ^ (q + 1) := Nat.pow_pos (by decide)
  have hn : 2 ^ n = 2 ^ (q + 1) * 2 ^ (n - (q + 1)) := by
    rw [← pow_add]
    congr 1
    omega
  have hcount : (2 ^ n + 2 ^ (q + 1) - 1) / 2 ^ (q + 1) = 2 ^ (n - (q + 1)) := by
    rw [hn]
    generalize 2 ^ (n - (q + 1)) = K
    generalize 2 ^ (q + 1) = S at hpos
    have : S * K + S - 1 = S - 1 + S * K := by omega
    rw [this, Nat.add_mul_div_left _ _ hpos, Nat.div_eq_of_lt (by omega), zero_add]
  have h := mitigate_axis_inv n q hq a b c d out hl (2 ^ (n - (q + 1))) (by rw [← hn])
  rw [← hn] at h
  unfold mitigate_axis
  simp only [shiftLeft_one, hs1, hcount]
  refine ⟨h.1, fun x hx => ?_⟩
  rw [h.2 x hx, if_pos]
  unfold pair_base
  split
  · exact hx
  · exact xor_pow_lt x q n hx hq

end AxisLoop

section AxisAlgebra
variable {R : Type} [LinearOrderedField R]

theorem axes_fn_succ (k : Nat) (a b c d : R) (f : Nat → R) :
    axes_fn (k + 1) a b c d f = raxis k a b c d (axes_fn k a b c d f) := by
  unfold axes_fn
  rw [List.range_succ, List.foldl_append]
  rfl

theorem axes_fn_zero (a b c d : R) (f : Nat → R) : axes_fn 0 a b c d f = f := rfl

theorem raxis_comp (q : Nat) (a b c d a2 b2 c2 d2 : R) (f : Nat → R) :
    raxis q a b c d (raxis q a2 b2 c2 d2 f)
      = raxis q (a * a2 + b * c2) (a * b2 + b * d2) (c * a2 + d * c2) (c * b2 + d * d2) f := by
  funext x
  unfold raxis
  by_cases hx : x &&& 2 ^ q = 0
  · have hnx : ¬ ((x ^^^ 2 ^ q) &&& 2 ^ q = 0) := by rw [xor_pow_and_pow]; simp [hx]
    simp only [hx, hnx, if_true, if_false, xor_pow_xor_pow]
    ring
  · have hnx : (x ^^^ 2 ^ q) &&& 2 ^ q = 0 := (xor_pow_and_pow x q).2 hx
    simp only [hx, hnx, if_true, if_false, xor_pow_xor_pow]
    ring

theorem raxis_one (q : Nat) (f : Nat → R) : raxis q 1 0 0 1 f = f := by
  funext x
  unfold raxis
  split <;> simp

theorem raxis_comm (q q2 : Nat) (h : q ≠ q2) (a b c d a2 b2 c2 d2 : R) (f : Nat → R) :
    raxis q a b c d (raxis q2 a2 b2 c2 d2 f) = raxis q2 a2 b2 c2 d2 (raxis q a b c d f) := by
  funext x
  unfold raxis
  have e1 : ((x ^^^ 2 ^ q) &&& 2 ^ q2 = 0) ↔ (x &&& 2 ^ q2 = 0) :=
    xor_pow_and_pow_other x q q2 (Ne.symm h)
  have e2 : ((x ^^^ 2 ^ q2) &&& 2 ^ q = 0) ↔ (x &&& 2 ^ q = 0) :=
    xor_pow_and_pow_other x q2 q h
  have e3 : (x ^^^ 2 ^ q2) ^^^ 2 ^ q = (x ^^^ 2 ^ q) ^^^ 2 ^ q2 := by
    rw [Nat.xor_assoc, Nat.xor_comm (2 ^ q2), ← Nat.xor_assoc]
  by_cases h1 : x &&& 2 ^ q = 0 <;> by_cases h2 : x &&& 2 ^ q2 = 0 <;>
    simp only [h1, h2, e1, e2, e3, if_true, if_false] <;> ring

theorem raxis_inverse (q : Nat) (a b c d : R) (hdet : a * d - b * c ≠ 0) (f : Nat → R) :
    raxis q (d / (a * d - b * c)) (-b / (a * d - b * c)) (-c / (a * d - b * c))
      (a / (a * d - b * c)) (raxis q a b c d f) = f := by
  rw [raxis_comp]
  have h1 : d / (a * d - b * c) * a + -b / (a * d - b * c) * c = 1 := by
    field_simp
    ring
  have h2 : d / (a * d - b * c) * b + -b / (a * d - b * c) * d = 0 := by
    field_simp
    ring
  have h3 : -c / (a * d - b * c) * a + a / (a * d - b * c) * c = 0 := by
    field_simp
    ring
  have h4 : -c / (a * d - b * c) * b + a / (a * d - b * c) * d = 1 := by
    field_simp
    ring
  rw [h1, h2, h3, h4, raxis_one]

theorem axes_fn_comm (k q : Nat) (hk : k ≤ q) (a b c d a2 b2 c2 d2 : R) (f : Nat → R) :
    axes_fn k a b c d (raxis q a2 b2 c2 d2 f) = raxis q a2 b2 c2 d2 (axes_fn k a b c d f) := by
  induction k with
  | zero => rfl
  | succ k ih =>
    rw [axes_fn_succ, axes_fn_succ, ih (by omega), raxis_comm k q (by omega)]

/-- The inverse matrix applied along the axes `0 … k-1` undoes the matrix applied along
the same axes. -/
theorem axes_fn_inverse (k : Nat) (a b c d : R) (hdet : a * d - b * c ≠ 0) (f : Nat → R) :
    axes_fn k (d / (a * d - b * c)) (-b / (a * d - b * c)) (-c / (a * d - b * c))
      (a / (a * d - b * c)) (axes_fn k a b c d f) = f := by
  induction k with
  | zero => rfl
  | succ k ih =>
    rw [axes_fn_succ, axes_fn_succ, axes_fn_comm k k (le_refl k), raxis_inverse k a b c d hdet,
      ih]

theorem raxis_congr (n q : Nat) (hq : q < n) (a b c d : R) (f g : Nat → R)
    (h : ∀ x, x < 2 ^ n → f x = g x) :
    ∀ x, x < 2 ^ n → raxis q a b c d f x = raxis q a b c d g x := by
  intro x hx
  unfold raxis
  rw [h x hx, h _ (xor_pow_lt x q n hx hq)]

theorem axes_fn_congr (n k : Nat) (hk : k ≤ n) (a b c d : R) (f g : Nat → R)
    (h : ∀ x, x < 2 ^ n → f x = g x) :
    ∀ x, x < 2 ^ n → axes_fn k a b c d f x = axes_fn k a b c d g x := by
  induction k with
  | zero => exact h
  | succ k ih =>
    rw [axes_fn_succ, axes_fn_succ]
    exact raxis_congr n k (by omega) a b c d _ _ (ih (by omega))

/-- The axis loops of `mitigate_readout` on a buffer of length `2^n`, for the axes
`0 … k-1`. -/
theorem mitigate_axes_spec (n : Nat) (a b c d : R) (p : List R) (hl : p.length = 2 ^ n)
    (k : Nat) (hk : k ≤ n) :
    ((List.range k).foldl (mitigate_axis a b c d (2 ^ n)) p).length = 2 ^ n ∧
    ∀ x, x < 2 ^ n →
      ((List.range k).foldl (mitigate_axis a b c d (2 ^ n)) p).getD x 0
        = axes_fn k a b c d (rview p) x := by
  induction k with
  | zero => exact ⟨hl, fun x _ => rfl⟩
  | succ k ih =>
    obtain ⟨h1, h2⟩ := ih (by omega)
    rw [List.range_succ, List.foldl_append]
    simp only [List.foldl_cons, List.foldl_nil]
    obtain ⟨h3, h4⟩ := mitigate_axis_spec n k (by omega) a b c d _ h1
    refine ⟨h3, fun x hx => ?_⟩
    rw [h4 x hx, axes_fn_succ]
    exact raxis_congr n k (by omega) a b c d _ _ h2 x hx

theorem foldl_add_list (l : List R) (s : R) : l.foldl (fun s v => s + v) s = s + l.sum := by
  induction l generalizing s with
  | nil => simp
  | cons v l ih => rw [List.foldl_cons, ih, List.sum_cons, add_assoc]

end AxisAlgebra

section MitigateProofs
variable {R : Type} [LinearOrderedField R]

theorem mitigate_readout_eq (p : List R) (n : Nat) (p01 p10 : R)
    (hdet : (1 - p01) * (1 - p10) - p10 * p01 ≠ 0) :
    mitigate_readout p n p01 p10 = clip_renorm (mitigate_axes p n p01 p10) := by
  unfold mitigate_readout
  simp only
  rw [if_neg hdet]
  rfl

theorem clip_nonneg (l : List R) (h : ∀ v ∈ l, 0 ≤ v) :
    l.map (fun v => if v < 0 then 0 else v) = l := by
  conv_rhs => rw [← List.map_id l]
  apply List.map_congr_left
  intro v hv
  rw [if_neg (not_lt.2 (h v hv))]
  rfl

theorem clip_renorm_of_distribution (l : List R) (h : ∀ v ∈ l, 0 ≤ v) (hs : l.sum = 1) :
    clip_renorm l = l := by
  unfold clip_renorm
  rw [clip_nonneg l h, foldl_add_list, zero_add, hs, if_pos zero_lt_one]
  conv_rhs => rw [← List.map_id l]
  apply List.map_congr_left
  intro v _
  simp

theorem mitigate_axes_spec2 (n : Nat) (p01 p10 : R) (p : List R) (hl : p.length = 2 ^ n) :
    (mitigate_axes p n p01 p10).length = 2 ^ n ∧
    ∀ x, x < 2 ^ n → (mitigate_axes p n p01 p10).getD x 0
      = axes_fn n ((1 - p10) / ((1 - p01) * (1 - p10) - p10 * p01))
          (-p10 / ((1 - p01) * (1 - p10) - p10 * p01))
          (-p01 / ((1 - p01) * (1 - p10) - p10 * p01))
          ((1 - p01) / ((1 - p01) * (1 - p10) - p10 * p01)) (rview p) x := by
  unfold mitigate_axes
  rw [hl]
  exact mitigate_axes_spec n _ _ _ _ p hl n (le_refl n)

theorem apply_readout_noise_spec (n : Nat) (p01 p10 : R) (p : List R) :
    (apply_readout_noise p n p01 p10).length = 2 ^ n ∧
    ∀ x, x < 2 ^ n → (apply_readout_noise p n p01 p10).getD x 0
      = axes_fn n (1 - p01) p10 p01 (1 - p10) (rview p) x := by
  unfold apply_readout_noise
  refine ⟨by simp, fun x hx => ?_⟩
  exact getD_map_range _ _ x hx

theorem well_conditioned (p01 p10 : R) (hcond : p01 + p10 ≤ 1 / 2) :
    (1 - p01) * (1 - p10) - p10 * p01 ≠ 0 := by
  have e : (1 - p01) * (1 - p10) - p10 * p01 = 1 - (p01 + p10) := by ring
  rw [e]
  have : (0 : R) < 1 - (p01 + p10) := by linarith
  exact ne_of_gt this

/-- Claim C21, amended: in exact arithmetic, for every `n`, every `p01, p10 ≥ 0` with
`p01 + p10 ≤ 1/2` (so that `det M ≥ 1/2`) and every probability vector `p` of length `2^n`,
applying `M = [[1 - p01, p10], [p01, 1 - p10]]` along every qubit axis and then calling
`mitigate_readout` with the same `p01`, `p10` returns `p`. -/
theorem mitigate_readout_inverts_noise (n : Nat) (p01 p10 : R) (_h01 : 0 ≤ p01)
    (_h10 : 0 ≤ p10) (hcond : p01 + p10 ≤ 1 / 2) (p : List R) (hl : p.length = 2 ^ n)
    (hp : ∀ v ∈ p, 0 ≤ v) (hs : p.sum = 1) :
    mitigate_readout (apply_readout_noise p n p01 p10) n p01 p10 = p := by
  have hdet := well_conditioned p01 p10 hcond
  obtain ⟨hNl, hNv⟩ := apply_readout_noise_spec n p01 p10 p
  obtain ⟨hMl, hMv⟩ := mitigate_axes_spec2 n p01 p10 (apply_readout_noise p n p01 p10) hNl
  have hout : mitigate_axes (apply_readout_noise p n p01 p10) n p01 p10 = p := by
    apply ext_getD _ _ 0 (by rw [hMl, hl])
    intro x hx
    rw [hMl] at hx
    rw [hMv x hx, axes_fn_congr n n (le_refl n) _ _ _ _
        (rview (apply_readout_noise p n p01 p10))
        (axes_fn n (1 - p01) p10 p01 (1 - p10) (rview p)) hNv x hx,
      axes_fn_inverse n (1 - p01) p10 p01 (1 - p10) hdet]
    rfl
  rw [mitigate_readout_eq _ n p01 p10 hdet, hout, clip_renorm_of_distribution p hp hs]

/-- Claim C23, amended: when the assignment matrix is not invertible, that is when
`det M = 0` (`p01 + p10 = 1`), `mitigate_readout` does not fail: it returns its input vector
unchanged. -/
theorem mitigate_readout_singular (p : List R) (n : Nat) (p01 p10 : R)
    (hdet : (1 - p01) * (1 - p10) - p10 * p01 = 0) :
    mitigate_readout p n p01 p10 = p ∧ p01 + p10 = 1 := by
  constructor
  · unfold mitigate_readout
    simp only
    rw [if_pos hdet]
  · linear_combination -hdet

end MitigateProofs

section MitigateWitnesses

/-- Witness for claim C21: one qubit, `p = [9/10, 1/10]`, `p01 = 1/20`, `p10 = 1/50`; the
noisy vector is `[857/1000, 143/1000]`. -/
theorem mitigate_readout_inverts_noise_witness :
    ((0 : ℚ) ≤ 1 / 20) ∧ ((0 : ℚ) ≤ 1 / 50) ∧ ((1 / 20 : ℚ) + 1 / 50 ≤ 1 / 2) ∧
    ([9 / 10, 1 / 10] : List ℚ).length = 2 ^ 1 ∧
    (∀ v ∈ ([9 / 10, 1 / 10] : List ℚ), 0 ≤ v) ∧
    ([9 / 10, 1 / 10] : List ℚ).sum = 1 ∧
    apply_readout_noise ([9 / 10, 1 / 10] : List ℚ) 1 (1 / 20) (1 / 50)
      = [857 / 1000, 143 / 1000] ∧
    mitigate_readout (apply_readout_noise ([9 / 10, 1 / 10] : List ℚ) 1 (1 / 20) (1 / 50)) 1
      (1 / 20) (1 / 50) = [9 / 10, 1 / 10] :=
  have hp : ∀ v ∈ ([9 / 10, 1 / 10] : List ℚ), 0 ≤ v := by
    intro v hv
    simp only [List.mem_cons, List.mem_singleton, List.not_mem_nil, or_false] at hv
    rcases hv with h | h <;> subst h <;> norm_num
  have hs : ([9 / 10, 1 / 10] : List ℚ).sum = 1 := by norm_num
  ⟨by norm_num, by norm_num, by norm_num, rfl, hp, hs, by decide!,
    mitigate_readout_inverts_noise 1 (1 / 20) (1 / 50) (by norm_num) (by norm_num)
      (by norm_num) _ rfl hp hs⟩

/-- Witness for claim C23: `p01 = 1/4`, `p10 = 3/4`. -/
theorem mitigate_readout_singular_witness :
    ((1 - 1 / 4 : ℚ) * (1 - 3 / 4) - 3 / 4 * (1 / 4) = 0) ∧
    mitigate_readout ([3 / 4, 1 / 4] : List ℚ) 1 (1 / 4) (3 / 4) = [3 / 4, 1 / 4] :=
  have hdet : (1 - 1 / 4 : ℚ) * (1 - 3 / 4) - 3 / 4 * (1 / 4) = 0 := by norm_num
  ⟨hdet, (mitigate_readout_singular _ 1 (1 / 4) (3 / 4) hdet).1⟩

/-- Counterexample to claim C23: with `p01 = p10 = 1/2` the determinant is zero, and
`mitigate_readout` on `[9/10, 1/10]` returns `[9/10, 1/10]`, a probability vector. -/
theorem mitigate_readout_returns_input :
    ((1 - 1 / 2 : ℚ) * (1 - 1 / 2) - 1 / 2 * (1 / 2) = 0) ∧
    mitigate_readout ([9 / 10, 1 / 10] : List ℚ) 1 (1 / 2) (1 / 2) = [9 / 10, 1 / 10] ∧
    (∀ v ∈ mitigate_readout ([9 / 10, 1 / 10] : List ℚ) 1 (1 / 2) (1 / 2), 0 ≤ v) ∧
    (mitigate_readout ([9 / 10, 1 / 10] : List ℚ) 1 (1 / 2) (1 / 2)).sum = 1 := by
  have hdet : (1 - 1 / 2 : ℚ) * (1 - 1 / 2) - 1 / 2 * (1 / 2) = 0 := by norm_num
  have h : mitigate_readout ([9 / 10, 1 / 10] : List ℚ) 1 (1 / 2) (1 / 2) = [9 / 10, 1 / 10] := by
    unfold mitigate_readout
    simp only
    rw [if_pos hdet]
  refine ⟨hdet, h, ?_, ?_⟩
  · rw [h]
    intro v hv
    simp only [List.mem_cons, List.mem_singleton, List.not_mem_nil, or_false] at hv
    rcases hv with h | h <;> subst h <;> norm_num
  · rw [h]
    norm_num

/-- Counterexample to claim C21: in binary64 arithmetic, with `p01` and `p10` the doubles
nearest to `0.3` and `0.7` (their exact determinant is `2^-54`, not zero) and
`p = [7/8, 1/8]`: the exact noisy vector rounds to the doubles `[0.7, 0.3]`, on which
`mitigate_readout` returns `[1, 0]`; and on the noisy vector evaluated in binary64,
`[0.7, 0.30000000000000004]`, it returns `[0, 1]`. Neither is `[7/8, 1/8]`. -/
theorem mitigate_readout_f64_not_inverse :
    ((1 - mkRat 5404319552844595 (2 ^ 54)) * (1 - mkRat 3152519739159347 (2 ^ 52))
      - mkRat 3152519739159347 (2 ^ 52) * mkRat 5404319552844595 (2 ^ 54) ≠ (0 : ℚ)) ∧
    F64.round (3 / 10) = F64.fin (mkRat 5404319552844595 (2 ^ 54)) ∧
    F64.round (7 / 10) = F64.fin (mkRat 3152519739159347 (2 ^ 52)) ∧
    (∀ v ∈ ([7 / 8, 1 / 8] : List ℚ), 0 ≤ v) ∧ ([7 / 8, 1 / 8] : List ℚ).sum = 1 ∧
    (apply_readout_noise ([7 / 8, 1 / 8] : List ℚ) 1 (mkRat 5404319552844595 (2 ^ 54))
        (mkRat 3152519739159347 (2 ^ 52))).map F64.round
      = [F64.fin (mkRat 3152519739159347 (2 ^ 52)),
         F64.fin (mkRat 5404319552844595 (2 ^ 54))] ∧
    mitigate_readout_f64
        [F64.fin (mkRat 3152519739159347 (2 ^ 52)), F64.fin (mkRat 5404319552844595 (2 ^ 54))]
        1 (F64.fin (mkRat 5404319552844595 (2 ^ 54)))
        (F64.fin (mkRat 3152519739159347 (2 ^ 52)))
      = [F64.fin 1, F64.fin 0] ∧
    [F64.add
        (F64.mul (F64.sub (F64.fin 1) (F64.fin (mkRat 5404319552844595 (2 ^ 54))))
          (F64.fin (7 / 8)))
        (F64.mul (F64.fin (mkRat 3152519739159347 (2 ^ 52))) (F64.fin (1 / 8))),
      F64.add
        (F64.mul (F64.fin (mkRat 5404319552844595 (2 ^ 54))) (F64.fin (7 / 8)))
        (F64.mul (F64.sub (F64.fin 1) (F64.fin (mkRat 3152519739159347 (2 ^ 52))))
          (F64.fin (1 / 8)))]
      = [F64.fin (mkRat 3152519739159347 (2 ^ 52)),
         F64.fin (mkRat 1351079888211149 (2 ^ 52))] ∧
    mitigate_readout_f64
        [F64.fin (mkRat 3152519739159347 (2 ^ 52)), F64.fin (mkRat 1351079888211149 (2 ^ 52))]
        1 (F64.fin (mkRat 5404319552844595 (2 ^ 54)))
        (F64.fin (mkRat 3152519739159347 (2 ^ 52)))
      = [F64.fin 0, F64.fin 1] := by
  refine ⟨by decide!, by decide!, by decide!, by decide!, by decide!, by decide!, by decide!,
    by decide!, by decide!⟩

end MitigateWitnesses

/-- Witness for claim C26: GHZ on three qubits with a final MEASURE. -/
theorem ghz_probabilities_witness :
    (⟨Real.sqrt, Real.cos, Real.sin⟩ : Libm ℝ).Lawful ∧ (2 : Nat) ≤ 3 ∧
    (run ⟨Real.sqrt, Real.cos, Real.sin⟩ (fun _ _ => 0) (ghz 3 true) 1234 false).probabilities
      = (List.range (2 ^ 3)).map (fun i => if i = 0 ∨ i = 2 ^ 3 - 1 then (1 / 2 : ℝ) else 0) :=
  ⟨real_lawful, by decide,
    (ghz_probabilities _ real_lawful (fun _ _ => 0) 3 (by decide) 1234 false true).1⟩

section CollapseFlag
variable {R : Type} [LinearOrderedField R]

/-- Claim C39: for every circuit and every seed, `run(c, seed, true)` and
`run(c, seed, false)` return the same `RunResult`: the same probability vector, read from
the state before the measurement, and the same outcome, which `measure_all` computes before
it looks at the flag; the collapsed state is not part of the result. -/
theorem run_collapse_irrelevant (L : Libm R) (src : RngSource R) (c : Circuit R) (seed : Nat) :
    run L src c seed true = run L src c seed false ∧
    (run L src c seed true).probabilities = (run L src c seed false).probabilities ∧
    (run L src c seed true).outcome = (run L src c seed false).outcome := by
  have h : run L src c seed true = run L src c seed false := by
    unfold run StateVector.measure_all
    simp only [if_true, Bool.false_eq_true, if_false]
  exact ⟨h, by rw [h], by rw [h]⟩

end CollapseFlag

section GateTables
variable {R : Type} [LinearOrderedField R]

/-- Claim C37: as products of 2x2 complex matrices, the tables of `gates.hpp` satisfy
`H·H = X·X = Z·Z = I`, `S·S = Z`, and `R(a)·R(b) = R(a+b)` for `RX`, `RY`, `RZ` and all
angles `a`, `b`, in exact arithmetic and for a `<cmath>` with `sqrt(2)·sqrt(2) = 2` and the
addition laws of `cos` and `sin`. -/
theorem gate_tables_identities (L : Libm R) (hL : L.Lawful) (hA : L.AngleLaws) (a b : R) :
    (gates.H_coeffs L).mul (gates.H_coeffs L) = Coeffs.one ∧
    (gates.X_coeffs : Coeffs R).mul gates.X_coeffs = Coeffs.one ∧
    (gates.Z_coeffs : Coeffs R).mul gates.Z_coeffs = Coeffs.one ∧
    (gates.S_coeffs : Coeffs R).mul gates.S_coeffs = gates.Z_coeffs ∧
    (gates.RX_coeffs L a).mul (gates.RX_coeffs L b) = gates.RX_coeffs L (a + b) ∧
    (gates.RY_coeffs L a).mul (gates.RY_coeffs L b) = gates.RY_coeffs L (a + b) ∧
    (gates.RZ_coeffs L a).mul (gates.RZ_coeffs L b) = gates.RZ_coeffs L (a + b) := by
  refine ⟨H_mul_H L hL, X_mul_X, Z_mul_Z, S_mul_S, ?_, ?_, ?_⟩
  · rw [RX_mul_RX L hA b a, add_comm]
  · rw [RY_mul_RY L hA b a, add_comm]
  · rw [RZ_mul_RZ L hA b a, add_comm]

/-- Witness for claim C37: the real `sqrt`, `cos`, `sin` and the angles `1` and `2`. -/
theorem gate_tables_identities_witness :
    (⟨Real.sqrt, Real.cos, Real.sin⟩ : Libm ℝ).Lawful ∧
    (⟨Real.sqrt, Real.cos, Real.sin⟩ : Libm ℝ).AngleLaws ∧
    (gates.RY_coeffs (⟨Real.sqrt, Real.cos, Real.sin⟩ : Libm ℝ) 1).mul
        (gates.RY_coeffs ⟨Real.sqrt, Real.cos, Real.sin⟩ 2)
      = gates.RY_coeffs ⟨Real.sqrt, Real.cos, Real.sin⟩ (1 + 2) :=
  ⟨real_lawful, real_angle_laws,
    (gate_tables_identities _ real_lawful real_angle_laws 1 2).2.2.2.2.2.1⟩

end GateTables

section PcgRange
variable {R : Type} [LinearOrderedField R]

theorem pcg_next_lt (g : Pcg32) : g.next.1 < 2 ^ 32 := by
  unfold Pcg32.next
  apply Nat.or_lt_two_pow
  · rw [Nat.shiftRight_eq_div_pow]
    exact lt_of_le_of_lt (Nat.div_le_self _ _) (Nat.mod_lt _ (by norm_num))
  · exact Nat.mod_lt _ (by norm_num)

/-- Claim C38 fails on the code: `uniform01` shifts the 32-bit output of `next` right by
eight bits and multiplies the 24-bit integer left by `2^-53`, so for every generator state
the value lies in `[0, 2^-29)`; no state gives a value of `1/2` or more. -/
theorem uniform01_below_two_pow (g : Pcg32) :
    (0 : R) ≤ (g.uniform01 : R × Pcg32).1 ∧
    (g.uniform01 : R × Pcg32).1 < 1 / 2 ^ 29 ∧
    ¬ ((1 / 2 : R) ≤ (g.uniform01 : R × Pcg32).1) := by
  have hlt : g.next.1 >>> 8 < 2 ^ 24 := by
    rw [Nat.shiftRight_eq_div_pow]
    apply Nat.div_lt_of_lt_mul
    have := pcg_next_lt g
    calc g.next.1 < 2 ^ 32 := this
      _ = 2 ^ 8 * 2 ^ 24 := by norm_num
  have hc : ((g.next.1 >>> 8 : Nat) : R) < 2 ^ 24 := by
    have h : ((g.next.1 >>> 8 : Nat) : R) < ((2 ^ 24 : Nat) : R) := Nat.cast_lt.mpr hlt
    push_cast at h
    calc ((g.next.1 >>> 8 : Nat) : R) < 16777216 := h
      _ = 2 ^ 24 := by norm_num
  have h0 : (0 : R) ≤ ((g.next.1 >>> 8 : Nat) : R) := Nat.cast_nonneg _
  have e : (g.uniform01 : R × Pcg32).1 = ((g.next.1 >>> 8 : Nat) : R) * (1 / 9007199254740992) :=
    rfl
  have hb : (g.uniform01 : R × Pcg32).1 < 1 / 2 ^ 29 := by
    rw [e]
    have : ((g.next.1 >>> 8 : Nat) : R) * (1 / 9007199254740992)
        < 2 ^ 24 * (1 / 9007199254740992) :=
      mul_lt_mul_of_pos_right hc (by norm_num)
    calc ((g.next.1 >>> 8 : Nat) : R) * (1 / 9007199254740992)
        < 2 ^ 24 * (1 / 9007199254740992) := this
      _ = 1 / 2 ^ 29 := by norm_num
  refine ⟨?_, hb, ?_⟩
  · rw [e]
    exact mul_nonneg h0 (by norm_num)
  · intro h
    have : (1 / 2 ^ 29 : R) < 1 / 2 := by norm_num
    linarith

end PcgRange

section SwapCount
variable {R : Type} [LinearOrderedField R]

theorem walk_up_count (fuel hi : Nat) (out : List (Op R)) (phys : List Nat) (lo : Nat)
    (hf : hi - 1 - lo ≤ fuel) :
    (walk_up fuel hi (out, phys, lo)).1.length = out.length + 3 * (hi - 1 - lo) ∧
    (lo < hi → (walk_up fuel hi (out, phys, lo)).2.2 + 1 = hi) ∧
    (hi ≤ lo + 1 → (walk_up fuel hi (out, phys, lo)).2.2 = lo) := by
  induction fuel generalizing out phys lo with
  | zero =>
    have : hi - 1 - lo = 0 := by omega
    refine ⟨by rw [this]; rfl, ?_, fun _ => rfl⟩
    intro h
    show lo + 1 = hi
    omega
  | succ fuel ih =>
    unfold walk_up
    split
    · rename_i hlt
      obtain ⟨i1, i2, _⟩ := ih (emit_swap out lo (lo + 1)) (swap_phys phys lo) (lo + 1)
        (by omega)
      refine ⟨?_, fun _ => i2 hlt, fun h => by omega⟩
      rw [i1]
      unfold emit_swap
      rw [List.length_append]
      simp only [List.length_cons, List.length_nil]
      omega
    · rename_i hlt
      have : hi - 1 - lo = 0 := by omega
      refine ⟨by rw [this]; rfl, ?_, fun _ => rfl⟩
      intro h
      show lo + 1 = hi
      omega

theorem walk_up_layout (fuel hi : Nat) (out out2 : List (Op R)) (phys : List Nat) (lo : Nat) :
    (walk_up fuel hi (out, phys, lo)).2 = (walk_up fuel hi (out2, phys, lo)).2 := by
  induction fuel generalizing out out2 phys lo with
  | zero => rfl
  | succ fuel ih =>
    unfold walk_up
    split
    · exact ih _ _ _ _
    · rfl

theorem map_to_line_step_layout (out out2 : List (Op R)) (phys : List Nat) (op : Op R) :
    (map_to_line_step (out, phys) op).2 = (map_to_line_step (out2, phys) op).2 := by
  unfold map_to_line_step
  split
  · simp only
    have e1 := walk_up_layout
      (phys.getD (op.qubits.getD 1 0) 0 - phys.getD (op.qubits.getD 0 0) 0)
      (phys.getD (op.qubits.getD 1 0) 0) out out2 phys (phys.getD (op.qubits.getD 0 0) 0)
    have e11 := congrArg Prod.fst e1
    have e12 := congrArg Prod.snd e1
    rw [e11, e12]
    exact congrArg Prod.fst (walk_up_layout _ _ _ _ _ _)
  · split <;> rfl

theorem map_to_line_step_length (out : List (Op R)) (phys : List Nat) (op : Op R) :
    (map_to_line_step (out, phys) op).1.length = out.length + 1 + 3 * line_swaps phys op := by
  unfold map_to_line_step line_swaps
  split
  · simp only
    rw [List.length_append, List.length_singleton]
    obtain ⟨a1, a2, a3⟩ := walk_up_count
      (phys.getD (op.qubits.getD 1 0) 0 - phys.getD (op.qubits.getD 0 0) 0)
      (phys.getD (op.qubits.getD 1 0) 0) out phys (phys.getD (op.qubits.getD 0 0) 0)
      (by omega)
    generalize walk_up
      (phys.getD (op.qubits.getD 1 0) 0 - phys.getD (op.qubits.getD 0 0) 0)
      (phys.getD (op.qubits.getD 1 0) 0) (out, phys, phys.getD (op.qubits.getD 0 0) 0) = s1
      at a1 a2 a3
    obtain ⟨b1, _, _⟩ := walk_up_count (s1.2.2 - phys.getD (op.qubits.getD 1 0) 0) s1.2.2
      s1.1 s1.2.1 (phys.getD (op.qubits.getD 1 0) 0) (by omega)
    rw [b1, a1]
    by_cases h : phys.getD (op.qubits.getD 0 0) 0 < phys.getD (op.qubits.getD 1 0) 0
    · have := a2 h
      omega
    · have := a3 (by omega)
      omega
  · split
    · rw [List.length_append, List.length_singleton]
    · rw [List.length_append, List.length_singleton]

theorem map_to_line_fold_length (ops : List (Op R)) (out : List (Op R)) (phys : List Nat) :
    (ops.foldl map_to_line_step (out, phys)).1.length
      = out.length + ops.length + 3 * total_swaps phys ops := by
  induction ops generalizing out phys with
  | nil => simp [total_swaps]
  | cons op rest ih =>
    rw [List.foldl_cons]
    have e : map_to_line_step (out, phys) op
        = ((map_to_line_step (out, phys) op).1, (map_to_line_step ([], phys) op).2) := by
      rw [← map_to_line_step_layout out [] phys op]
    rw [e, ih, map_to_line_step_length]
    simp only [total_swaps, List.length_cons]
    ring

/-- Claim C33: for every circuit `C`, each step of `map_to_line` appends exactly one operation
for the input operation plus three CNOTs for every SWAP it inserts, so the output holds
`|C| + 3·(number of SWAPs)` operations, which is at least `|C|`. -/
theorem map_to_line_length (c : Circuit R) :
    c.ops.length ≤ (map_to_line c).ops.length ∧
    (map_to_line c).ops.length
      = c.ops.length + 3 * total_swaps (List.range c.nqubits) c.ops ∧
    (∀ (out : List (Op R)) (phys : List Nat) (op : Op R),
      (map_to_line_step (out, phys) op).1.length
        = out.length + 1 + 3 * line_swaps phys op) ∧
    ((map_to_line
        (⟨3, [⟨OpType.H, [0], 0⟩, ⟨OpType.CNOT, [0, 2], 0⟩]⟩ : Circuit R)).ops.length = 5) := by
  have h : (map_to_line c).ops.length
      = c.ops.length + 3 * total_swaps (List.range c.nqubits) c.ops := by
    unfold map_to_line
    simp only
    rw [map_to_line_fold_length]
    simp
  refine ⟨by omega, h, map_to_line_step_length, ?_⟩
  rfl

end SwapCount

section MapperRetag
variable {R : Type} [LinearOrderedField R]

/-- Claim C35 fails on the code: both mappers send every operation with exactly one qubit,
the noise operations included, through the current layout (`phys[q]`), because the branch
`op.qubits.size()==1` comes before the branch that pushes MEASURE and the noise operations
unchanged. After `CNOT 0 2` on three qubits `map_to_line` emits `DEPHASE 0 p` as
`DEPHASE 1 p`, and on the path graph `0 - 1 - 2` `map_to_topology` emits `DEPHASE 2 p` as
`DEPHASE 1 p`. Only an operation without qubits, as `MEASURE ALL`, is emitted unchanged. -/
theorem mappers_retag_noise (p : R) :
    (∀ (out : List (Op R)) (phys : List Nat) (t : OpType) (q : Nat) (a : R),
      map_to_line_step (out, phys) ⟨t, [q], a⟩ = (out ++ [⟨t, [phys.getD q 0], a⟩], phys)) ∧
    (∀ (adj : List (List Nat)) (out : List (Op R)) (phys : List Nat) (t : OpType) (q : Nat)
      (a : R),
      map_to_topology_step adj (out, phys) ⟨t, [q], a⟩
        = (out ++ [⟨t, [phys.getD q 0], a⟩], phys)) ∧
    (∀ (out : List (Op R)) (phys : List Nat) (a : R),
      map_to_line_step (out, phys) ⟨OpType.MEASURE, [], a⟩
        = (out ++ [⟨OpType.MEASURE, [], a⟩], phys)) ∧
    (∀ (adj : List (List Nat)) (out : List (Op R)) (phys : List Nat) (a : R),
      map_to_topology_step adj (out, phys) ⟨OpType.MEASURE, [], a⟩
        = (out ++ [⟨OpType.MEASURE, [], a⟩], phys)) ∧
    (map_to_line (⟨3, [⟨OpType.CNOT, [0, 2], 0⟩, ⟨OpType.DEPHASE, [0], p⟩]⟩ : Circuit R)).ops
      = [⟨OpType.CNOT, [0, 1], 0⟩, ⟨OpType.CNOT, [1, 0], 0⟩, ⟨OpType.CNOT, [0, 1], 0⟩,
         ⟨OpType.CNOT, [1, 2], 0⟩, ⟨OpType.DEPHASE, [1], p⟩] ∧
    (map_to_topology (⟨3, [⟨OpType.CNOT, [0, 2], 0⟩, ⟨OpType.DEPHASE, [2], p⟩]⟩ : Circuit R)
        [[1], [0, 2], [1]]).ops
      = [⟨OpType.CNOT, [1, 2], 0⟩, ⟨OpType.CNOT, [2, 1], 0⟩, ⟨OpType.CNOT, [1, 2], 0⟩,
         ⟨OpType.CNOT, [0, 1], 0⟩, ⟨OpType.DEPHASE, [1], p⟩] := by
  refine ⟨?_, ?_, ?_, ?_, rfl, ?_⟩
  · intro out phys t q a
    unfold map_to_line_step
    simp
  · intro adj out phys t q a
    unfold map_to_topology_step
    simp
  · intro out phys a
    unfold map_to_line_step
    simp
  · intro adj out phys a
    unfold map_to_topology_step
    simp
  · have hp : shortest_path [[1], [0, 2], [1]] 0 2 = [0, 1, 2] := by decide
    unfold map_to_topology
    simp only [List.foldl_cons, List.foldl_nil]
    have h1 : map_to_topology_step [[1], [0, 2], [1]] (([] : List (Op R)), List.range 3)
        ⟨OpType.CNOT, [0, 2], 0⟩
        = ([⟨OpType.CNOT, [1, 2], 0⟩, ⟨OpType.CNOT, [2, 1], 0⟩, ⟨OpType.CNOT, [1, 2], 0⟩,
            ⟨OpType.CNOT, [0, 1], 0⟩], [0, 2, 1]) := by
      unfold map_to_topology_step
      simp only [List.length_cons, List.length_nil, and_self, if_true]
      show (if (shortest_path [[1], [0, 2], [1]] 0 2).length < 2 then _ else _) = _
      rw [hp]
      rfl
    rw [h1]
    rfl

end MapperRetag

section DephaseZero
variable {R : Type} [LinearOrderedField R]

theorem run_op_stream (L : Libm R) (st : StateVector R × Rng R) (op : Op R) :
    (run_op L st op).2.stream = st.2.stream := by
  unfold run_op
  cases op.type <;> simp only [Rng.uniform] <;> try rfl
  · split <;> rfl
  · split <;> rfl

theorem foldl_run_op_stream (L : Libm R) (ops : List (Op R)) (st : StateVector R × Rng R) :
    (ops.foldl (run_op L) st).2.stream = st.2.stream := by
  induction ops generalizing st with
  | nil => rfl
  | cons op rest ih => rw [List.foldl_cons, ih, run_op_stream]

theorem run_op_deterministic (L : Libm R) (sv : StateVector R) (g g2 : Rng R) (op : Op R)
    (h1 : op.type ≠ OpType.DEPHASE) (h2 : op.type ≠ OpType.DEPOL) :
    (run_op L (sv, g) op).1 = (run_op L (sv, g2) op).1 := by
  unfold run_op
  cases h : op.type <;> simp only <;> first | rfl | exact absurd h h1 | exact absurd h h2

theorem foldl_run_op_deterministic (L : Libm R) (ops : List (Op R))
    (hops : ∀ op ∈ ops, op.type ≠ OpType.DEPHASE ∧ op.type ≠ OpType.DEPOL)
    (sv : StateVector R) (g g2 : Rng R) :
    (ops.foldl (run_op L) (sv, g)).1 = (ops.foldl (run_op L) (sv, g2)).1 := by
  induction ops generalizing sv g g2 with
  | nil => rfl
  | cons op rest ih =>
    rw [List.foldl_cons, List.foldl_cons]
    have h := hops op (List.mem_cons_self _ _)
    have e := run_op_deterministic L sv g g2 op h.1 h.2
    have hr : ∀ o ∈ rest, o.type ≠ OpType.DEPHASE ∧ o.type ≠ OpType.DEPOL :=
      fun o ho => hops o (List.mem_cons_of_mem _ ho)
    have e1 : run_op L (sv, g) op = ((run_op L (sv, g) op).1, (run_op L (sv, g) op).2) := rfl
    have e2 : run_op L (sv, g2) op = ((run_op L (sv, g2) op).1, (run_op L (sv, g2) op).2) :=
      rfl
    rw [e1, e2, ← e]
    exact ih hr _ _ _

theorem run_op_dephase_zero (L : Libm R) (st : StateVector R × Rng R) (q : Nat)
    (h : 0 ≤ st.2.stream st.2.pos) :
    run_op L st ⟨OpType.DEPHASE, [q], 0⟩ = (st.1, st.2.uniform.2) := by
  unfold run_op
  simp only
  rw [if_neg]
  exact not_lt.mpr h

theorem H_measure_probabilities (L : Libm R) (hL : L.Lawful) (src : RngSource R) (seed : Nat)
    (collapse : Bool) :
    (run L src ⟨1, [⟨OpType.H, [0], 0⟩, ⟨OpType.MEASURE, [], 0⟩]⟩ seed collapse).probabilities
      = [1 / 2, 1 / 2] := by
  have hv : (⟨1, [⟨OpType.H, [0], 0⟩, ⟨OpType.MEASURE, [], 0⟩]⟩ : Circuit R).Valid := by
    intro op hop
    simp only [List.mem_cons, List.mem_singleton, List.not_mem_nil, or_false] at hop
    rcases hop with h | h <;> subst h <;> simp [Op.Valid]
  rw [run_probabilities_sem L hL src _ hv]
  have h2 := hL.sqrt_two
  have hne : L.sqrt 2 ≠ 0 := by
    intro h; rw [h] at h2; norm_num at h2
  have hs : (1 / L.sqrt 2) * (1 / L.sqrt 2) = 1 / 2 := by
    field_simp; linarith
  show List.map (fun i => c64.norm (gate_fn 0 (gates.H_coeffs L) ket0 i)) (List.range (2 ^ 1))
    = [1 / 2, 1 / 2]
  have e3 : (0 : Nat) &&& 2 ^ 0 = 0 := by decide
  have e4 : (0 : Nat) ^^^ 2 ^ 0 = 1 := by decide
  have e1 : (1 : Nat) &&& 2 ^ 0 ≠ 0 := by decide
  have e2 : (1 : Nat) ^^^ 2 ^ 0 = 0 := by decide
  have hk1 : (ket0 : Nat → c64 R) 1 = 0 := by simp [ket0]
  have hk0 : (ket0 : Nat → c64 R) 0 = 1 := by simp [ket0]
  have a0 : c64.norm (gate_fn 0 (gates.H_coeffs L) (ket0 : Nat → c64 R) 0) = 1 / 2 := by
    simp only [gate_fn, e3, if_true, e4, hk0, hk1, gates.H_coeffs, c64.norm]
    simp only [c64.add_re, c64.add_im, c64.mul_re, c64.mul_im, c64.one_re, c64.one_im,
      c64.zero_re, c64.zero_im]
    ring_nf; ring_nf at hs; linarith
  have a1 : c64.norm (gate_fn 0 (gates.H_coeffs L) (ket0 : Nat → c64 R) 1) = 1 / 2 := by
    simp only [gate_fn, e1, if_false, e2, hk0, hk1, gates.H_coeffs, c64.norm]
    simp only [c64.add_re, c64.add_im, c64.mul_re, c64.mul_im, c64.one_re, c64.one_im,
      c64.zero_re, c64.zero_im]
    ring_nf; ring_nf at hs; linarith
  show [c64.norm (gate_fn 0 (gates.H_coeffs L) (ket0 : Nat → c64 R) 0),
    c64.norm (gate_fn 0 (gates.H_coeffs L) (ket0 : Nat → c64 R) 1)] = _
  rw [a0, a1]

/-- Claim C32, amended: on the state-vector backend `DEPHASE q 0.0` leaves the state alone
but consumes one draw of the generator. For draws in `[0, 1)`, inserting it at any position
of any circuit leaves the probability vector returned by `run` unchanged provided no DEPHASE
or DEPOL operation follows the insertion point; and `H 0; DEPHASE 0 0.0; MEASURE ALL` on one
qubit gives `[1/2, 1/2]` for a lawful `<cmath>`. -/
theorem dephase_zero_identity (L : Libm R) (hL : L.Lawful) (src : RngSource R) (n : Nat)
    (pre post : List (Op R)) (q seed : Nat) (collapse : Bool)
    (hsrc : ∀ k, 0 ≤ src seed k)
    (hpost : ∀ op ∈ post, op.type ≠ OpType.DEPHASE ∧ op.type ≠ OpType.DEPOL) :
    (run L src ⟨n, pre ++ ⟨OpType.DEPHASE, [q], 0⟩ :: post⟩ seed collapse).probabilities
      = (run L src ⟨n, pre ++ post⟩ seed collapse).probabilities ∧
    (run L src ⟨1, [⟨OpType.H, [0], 0⟩, ⟨OpType.DEPHASE, [0], 0⟩, ⟨OpType.MEASURE, [], 0⟩]⟩
        seed collapse).probabilities = [1 / 2, 1 / 2] := by
  have key : ∀ (m : Nat) (a b : List (Op R)) (r : Nat),
      (∀ op ∈ b, op.type ≠ OpType.DEPHASE ∧ op.type ≠ OpType.DEPOL) →
      (run L src ⟨m, a ++ ⟨OpType.DEPHASE, [r], 0⟩ :: b⟩ seed collapse).probabilities
        = (run L src ⟨m, a ++ b⟩ seed collapse).probabilities := by
    intro m a b r hb
    rw [run_probabilities_eq, run_probabilities_eq]
    have e : (run_state L src ⟨m, a ++ ⟨OpType.DEPHASE, [r], 0⟩ :: b⟩ seed).1
        = (run_state L src ⟨m, a ++ b⟩ seed).1 := by
      unfold run_state
      simp only [List.foldl_append, List.foldl_cons]
      have hst : (a.foldl (run_op L) (StateVector.init m, Rng.seeded src seed)).2.stream
          = src seed := by
        rw [foldl_run_op_stream]; rfl
      rw [run_op_dephase_zero L _ r (by rw [hst]; exact hsrc _)]
      exact foldl_run_op_deterministic L b hb _ _ _
    rw [e]
  refine ⟨key n pre post q hpost, ?_⟩
  have h := key 1 [⟨OpType.H, [0], 0⟩] [⟨OpType.MEASURE, [], 0⟩] 0 (by
    intro op hop
    simp only [List.mem_singleton] at hop
    subst hop
    exact ⟨by simp, by simp⟩)
  have h2 : (run L src ⟨1, [⟨OpType.H, [0], 0⟩, ⟨OpType.DEPHASE, [0], 0⟩,
      ⟨OpType.MEASURE, [], 0⟩]⟩ seed collapse).probabilities
      = (run L src ⟨1, [⟨OpType.H, [0], 0⟩, ⟨OpType.MEASURE, [], 0⟩]⟩ seed
        collapse).probabilities := h
  rw [h2]
  exact H_measure_probabilities L hL src seed collapse

/-- Witness for claim C32: `H 0` before and `MEASURE ALL` after the inserted operation, one
qubit, every draw equal to `1/2`. -/
theorem dephase_zero_identity_witness :
    (⟨Real.sqrt, Real.cos, Real.sin⟩ : Libm ℝ).Lawful ∧
    (∀ k : Nat, (0 : ℝ) ≤ (fun (_ _ : Nat) => (1 / 2 : ℝ)) 7 k) ∧
    (∀ op ∈ ([⟨OpType.MEASURE, [], 0⟩] : List (Op ℝ)),
      op.type ≠ OpType.DEPHASE ∧ op.type ≠ OpType.DEPOL) ∧
    (run ⟨Real.sqrt, Real.cos, Real.sin⟩ (fun _ _ => 1 / 2)
        ⟨1, [⟨OpType.H, [0], 0⟩] ++ ⟨OpType.DEPHASE, [0], 0⟩ :: [⟨OpType.MEASURE, [], 0⟩]⟩
        7 true).probabilities
      = (run ⟨Real.sqrt, Real.cos, Real.sin⟩ (fun _ _ => 1 / 2)
        ⟨1, [⟨OpType.H, [0], 0⟩] ++ [⟨OpType.MEASURE, [], 0⟩]⟩ 7 true).probabilities :=
  ⟨real_lawful, fun _ => by norm_num,
    fun op hop => by
      simp only [List.mem_singleton] at hop
      subst hop
      exact ⟨by decide, by decide⟩,
    (dephase_zero_identity _ real_lawful (fun _ _ => 1 / 2) 1 [⟨OpType.H, [0], 0⟩]
      [⟨OpType.MEASURE, [], 0⟩] 0 7 true (fun _ => by norm_num)
      (fun op hop => by
        simp only [List.mem_singleton] at hop
        subst hop
        exact ⟨by decide, by decide⟩)).1⟩

/-- Counterexample to claim C32: with the draws `9/10, 1/10, 1/10, ...`, all in `[0, 1)`,
`run` on the one-qubit circuit `DEPOL 0 0.5` returns the probabilities `[1, 0]` (the draw
`9/10` keeps the state), and after `DEPHASE 0 0.0` is inserted in front it returns `[0, 1]`:
the inserted operation takes the draw `9/10`, and DEPOL draws `1/10` twice and applies X. -/
theorem dephase_zero_shifts_draws :
    (∀ k : Nat, (0 : ℚ) ≤ (if k = 0 then 9 / 10 else 1 / 10) ∧
      (if k = 0 then 9 / 10 else 1 / 10 : ℚ) < 1) ∧
    (run (⟨id, id, id⟩ : Libm ℚ) (fun _ k => if k = 0 then 9 / 10 else 1 / 10)
        ⟨1, [⟨OpType.DEPOL, [0], 1 / 2⟩]⟩ 0 true).probabilities = [1, 0] ∧
    (run (⟨id, id, id⟩ : Libm ℚ) (fun _ k => if k = 0 then 9 / 10 else 1 / 10)
        ⟨1, [⟨OpType.DEPHASE, [0], 0⟩, ⟨OpType.DEPOL, [0], 1 / 2⟩]⟩ 0 true).probabilities
      = [0, 1] := by
  refine ⟨?_, ?_, ?_⟩
  · intro k
    split <;> norm_num
  · decide!
  · decide!

end DephaseZero

section SnapshotRoundTrip
variable {R : Type} [LinearOrderedField R]

end SnapshotRoundTrip

section DensityCx
variable {R : Type} [LinearOrderedField R]

theorem cx_sweep_spec (n c t : Nat) (ht : t < n) (hct : c ≠ t) (rho : List (c64 R))
    (hlen : rho.length = 2 ^ n * 2 ^ n) :
    (DensityMatrix.cx_sweep (2 ^ n) (2 ^ c) (2 ^ t) rho).length = 2 ^ n * 2 ^ n ∧
    ∀ r k, r < 2 ^ n → k < 2 ^ n →
      (DensityMatrix.cx_sweep (2 ^ n) (2 ^ c) (2 ^ t) rho).getD
        (idx (cx_index c t r) (cx_index c t k) (2 ^ n)) 0 = rho.getD (idx r k (2 ^ n)) 0 := by
  have h := scatter_getD (2 ^ n)
    (fun r k => idx (cx_index c t r) (cx_index c t k) (2 ^ n))
    (fun r k => rho.getD (idx r k (2 ^ n)) 0) (List.replicate rho.length (0 : c64 R)) 0
    (by
      intro r k r2 k2 hr hk hr2 hk2 e
      obtain ⟨e1, e2⟩ := idx_inj (2 ^ n) _ _ _ _ (cx_index_lt c t n k ht hk)
        (cx_index_lt c t n k2 ht hk2) e
      constructor
      · rw [← cx_index_invol c t r hct, e1, cx_index_invol c t r2 hct]
      · rw [← cx_index_invol c t k hct, e2, cx_index_invol c t k2 hct])
    (by
      intro r k hr hk
      rw [List.length_replicate, hlen]
      exact idx_lt (2 ^ n) _ _ (cx_index_lt c t n r ht hr) (cx_index_lt c t n k ht hk))
  have e : DensityMatrix.cx_sweep (2 ^ n) (2 ^ c) (2 ^ t) rho
      = (List.range (2 ^ n)).foldl
          (fun t1 r => (List.range (2 ^ n)).foldl
            (fun t2 k => t2.set (idx (cx_index c t r) (cx_index c t k) (2 ^ n))
              (rho.getD (idx r k (2 ^ n)) 0)) t1)
          (List.replicate rho.length (0 : c64 R)) := rfl
  rw [e]
  refine ⟨?_, h.2⟩
  rw [h.1, List.length_replicate, hlen]

/-- Claim C34: for every density buffer `ρ` on `n` qubits (`2^n · 2^n` entries) and every
control `c ≠ t` target, both below `n`, the buffer `ρ'` left by `DensityMatrix::apply_cx`
satisfies `ρ'[σ(r)][σ(k)] = ρ[r][k]` for all rows and columns `r, k < 2^n`, where `σ(x)`
flips bit `t` of `x` exactly when bit `c` of `x` is set; equivalently `ρ' = P ρ P†` for the
CNOT permutation matrix `P`. The qubit count and the buffer length are unchanged. -/
theorem density_apply_cx_permutes (dm : DensityMatrix R) (hwf : dm.WellFormed) (c t : Nat)
    (_hc : c < dm.n_) (ht : t < dm.n_) (hct : c ≠ t) :
    (dm.apply_cx c t).n_ = dm.n_ ∧ (dm.apply_cx c t).WellFormed ∧
    (∀ r k, r < 2 ^ dm.n_ → k < 2 ^ dm.n_ →
      (dm.apply_cx c t).entry (cx_index c t r) (cx_index c t k) = dm.entry r k) ∧
    (∀ r k, r < 2 ^ dm.n_ → k < 2 ^ dm.n_ →
      (dm.apply_cx c t).entry r k = conjugation (2 ^ dm.n_) (cnot_perm c t) dm.entry r k) := by
  have hd : dm.dim = 2 ^ dm.n_ := by unfold DensityMatrix.dim; exact shiftLeft_one _
  have hlen : dm.rho_.length = 2 ^ dm.n_ * 2 ^ dm.n_ := by
    have := hwf
    unfold DensityMatrix.WellFormed at this
    rw [hd] at this
    exact this
  obtain ⟨s1, s2⟩ := cx_sweep_spec dm.n_ c t ht hct dm.rho_ hlen
  have hrho : (dm.apply_cx c t).rho_
      = DensityMatrix.cx_sweep (2 ^ dm.n_) (2 ^ c) (2 ^ t) dm.rho_ := by
    unfold DensityMatrix.apply_cx
    simp only [hd, shiftLeft_one]
  have hd2 : (dm.apply_cx c t).dim = 2 ^ dm.n_ := hd
  have hperm : ∀ r k, r < 2 ^ dm.n_ → k < 2 ^ dm.n_ →
      (dm.apply_cx c t).entry (cx_index c t r) (cx_index c t k) = dm.entry r k := by
    intro r k hr hk
    unfold DensityMatrix.entry
    rw [hd2, hd, hrho]
    exact s2 r k hr hk
  refine ⟨rfl, ?_, hperm, ?_⟩
  · unfold DensityMatrix.WellFormed
    rw [hd2, hrho, s1]
  · intro r k hr hk
    have hσr := cx_index_lt c t dm.n_ r ht hr
    have hσk := cx_index_lt c t dm.n_ k ht hk
    have e1 := hperm (cx_index c t r) (cx_index c t k) hσr hσk
    rw [cx_index_invol c t r hct, cx_index_invol c t k hct] at e1
    rw [e1]
    unfold conjugation mat_mul dagger cnot_perm
    have inner : ∀ b, (∑ a in Finset.range (2 ^ dm.n_),
        (if r = cx_index c t a then (1 : c64 R) else 0) * dm.entry a b)
        = dm.entry (cx_index c t r) b := by
      intro b
      rw [Finset.sum_eq_single (cx_index c t r)]
      · rw [cx_index_invol c t r hct, if_pos rfl, one_mul]
      · intro a _ ha
        have : r ≠ cx_index c t a := by
          intro h
          apply ha
          rw [h, cx_index_invol c t a hct]
        rw [if_neg this, zero_mul]
      · intro h
        exact absurd (Finset.mem_range.mpr hσr) h
    simp only [inner]
    rw [Finset.sum_eq_single (cx_index c t k)]
    · rw [cx_index_invol c t k hct, if_pos rfl]
      have : c64.conj (1 : c64 R) = 1 := by ext <;> simp [c64.conj]
      rw [this, mul_one]
    · intro b _ hb
      have : k ≠ cx_index c t b := by
        intro h
        apply hb
        rw [h, cx_index_invol c t b hct]
      rw [if_neg this]
      have : c64.conj (0 : c64 R) = 0 := by ext <;> simp [c64.conj]
      rw [this, mul_zero]
    · intro h
      exact absurd (Finset.mem_range.mpr hσk) h

/-- Witness for claim C34: the projector on `|01>` (qubit 0 set) on two qubits, control 0
and target 1. -/
theorem density_apply_cx_permutes_witness :
    (⟨2, (List.replicate 16 0).set 5 1⟩ : DensityMatrix ℚ).WellFormed ∧
    (0 : Nat) < (⟨2, (List.replicate 16 0).set 5 1⟩ : DensityMatrix ℚ).n_ ∧
    (1 : Nat) < (⟨2, (List.replicate 16 0).set 5 1⟩ : DensityMatrix ℚ).n_ ∧ (0 : Nat) ≠ 1 ∧
    (∀ r k, r < 2 ^ (⟨2, (List.replicate 16 0).set 5 1⟩ : DensityMatrix ℚ).n_ →
      k < 2 ^ (⟨2, (List.replicate 16 0).set 5 1⟩ : DensityMatrix ℚ).n_ →
      ((⟨2, (List.replicate 16 0).set 5 1⟩ : DensityMatrix ℚ).apply_cx 0 1).entry
        (cx_index 0 1 r) (cx_index 0 1 k)
        = (⟨2, (List.replicate 16 0).set 5 1⟩ : DensityMatrix ℚ).entry r k) :=
  ⟨by unfold DensityMatrix.WellFormed; decide, by decide, by decide, by decide,
    (density_apply_cx_permutes ⟨2, (List.replicate 16 0).set 5 1⟩
      (by unfold DensityMatrix.WellFormed; decide) 0 1 (by decide) (by decide)
      (by decide)).2.2.1⟩

end DensityCx

section Butterfly
variable {R : Type} [LinearOrderedField R]

theorem foldl_flatMap_eq {α β γ : Type} (f : α → List β) (g : γ → β → γ) (ks : List α) (x : γ) :
    (ks.flatMap f).foldl g x = ks.foldl (fun x k => (f k).foldl g x) x := by
  induction ks generalizing x with
  | nil => rfl
  | cons k ks ih => rw [List.flatMap_cons, List.foldl_append, ih, List.foldl_cons]

theorem mitigate_axis_eq_pairs (ia ib ic id : R) (dim : Nat) (out : List R) (q : Nat) :
    mitigate_axis ia ib ic id dim out q
      = (mitigate_axis_pairs dim q).foldl
          (fun o pr => mitigate_pair ia ib ic id o pr.1 pr.2) out := by
  unfold mitigate_axis mitigate_axis_pairs mitigate_block
  rw [foldl_flatMap_eq]
  simp only [List.foldl_map]

theorem axis_count (n q : Nat) (hq : q < n) :
    (2 ^ n + 2 ^ (q + 1) - 1) / 2 ^ (q + 1) = 2 ^ (n - (q + 1)) ∧
    2 ^ n = 2 ^ (q + 1) * 2 ^ (n - (q + 1)) := by
  have hpos : 0 < 2 ^ (q + 1) := Nat.pow_pos (by decide)
  have hn : 2 ^ n = 2 ^ (q + 1) * 2 ^ (n - (q + 1)) := by
    rw [← pow_add]
    congr 1
    omega
  refine ⟨?_, hn⟩
  rw [hn]
  generalize 2 ^ (n - (q + 1)) = K
  generalize 2 ^ (q + 1) = S at hpos
  have : S * K + S - 1 = S - 1 + S * K := by omega
  rw [this, Nat.add_mul_div_left _ _ hpos, Nat.div_eq_of_lt (by omega), zero_add]

theorem mitigate_axis_pairs_eq (n q : Nat) (hq : q < n) :
    mitigate_axis_pairs (2 ^ n) q
      = (List.range (2 ^ (n - (q + 1)))).flatMap
          (fun k => (List.range (2 ^ q)).map
            (fun i => (2 ^ (q + 1) * k + i, 2 ^ (q + 1) * k + i + 2 ^ q))) := by
  have hs1 : (2 ^ q) <<< 1 = 2 ^ (q + 1) := by
    rw [Nat.shiftLeft_eq, pow_one, pow_succ]
  unfold mitigate_axis_pairs
  simp only [shiftLeft_one, hs1, (axis_count n q hq).1, Nat.mul_comm _ (2 ^ (q + 1))]

theorem mem_axis_pairs (n q : Nat) (hq : q < n) (pr : Nat × Nat) :
    pr ∈ mitigate_axis_pairs (2 ^ n) q ↔
      ∃ k, k < 2 ^ (n - (q + 1)) ∧ ∃ i, i < 2 ^ q ∧
        pr = (2 ^ (q + 1) * k + i, 2 ^ (q + 1) * k + i + 2 ^ q) := by
  rw [mitigate_axis_pairs_eq n q hq]
  simp only [List.mem_flatMap, List.mem_range, List.mem_map]
  constructor
  · rintro ⟨k, hk, i, hi, e⟩
    exact ⟨k, hk, i, hi, e.symm⟩
  · rintro ⟨k, hk, i, hi, e⟩
    exact ⟨k, hk, i, hi, e.symm⟩

theorem clear_bit_lt (q j : Nat) (hj : j < 2 ^ (q + 1)) (hb : j.testBit q = false) :
    j < 2 ^ q := by
  by_contra h
  have h1 : j = 2 ^ q + (j - 2 ^ q) := by omega
  have h2 : j - 2 ^ q < 2 ^ q := by
    rw [pow_succ] at hj; omega
  rw [h1, Nat.testBit_two_pow_add_eq, Nat.testBit_lt_two_pow h2] at hb
  simp at hb

/-- Claim C40: on a buffer of length `2^n` and for every axis `q < n`, the loops of
`mitigate_readout` visit the pairs `(i0, i1)` of `mitigate_axis_pairs`; every pair has
`i1 = i0 + 2^q`, bit `q` of `i0` clear and `i0 < i1 < 2^n`, so every read and write is inside
the buffer; no index `i0` (hence no pair) occurs twice; and every index below `2^n` with
bit `q` clear occurs as `i0`, so each of the `2^(n-1)` pairs is visited exactly once. -/
theorem mitigate_indices_in_range (n q : Nat) (hq : q < n) :
    (∀ (ia ib ic id : R) (out : List R),
      mitigate_axis ia ib ic id (2 ^ n) out q
        = (mitigate_axis_pairs (2 ^ n) q).foldl
            (fun o pr => mitigate_pair ia ib ic id o pr.1 pr.2) out) ∧
    (∀ pr ∈ mitigate_axis_pairs (2 ^ n) q,
      pr.2 = pr.1 + 2 ^ q ∧ pr.1 &&& 2 ^ q = 0 ∧ pr.1 < pr.2 ∧ pr.2 < 2 ^ n) ∧
    ((mitigate_axis_pairs (2 ^ n) q).map Prod.fst).Nodup ∧
    (mitigate_axis_pairs (2 ^ n) q).Nodup ∧
    (∀ x, x < 2 ^ n → x &&& 2 ^ q = 0 → (x, x + 2 ^ q) ∈ mitigate_axis_pairs (2 ^ n) q) ∧
    (mitigate_axis_pairs (2 ^ n) q).length = 2 ^ (n - 1) := by
  have hS : 2 ^ (q + 1) = 2 ^ q + 2 ^ q := by rw [pow_succ]; omega
  have hpos : 0 < 2 ^ q := Nat.pow_pos (by decide)
  obtain ⟨_, hn⟩ := axis_count n q hq
  have hnd : ((mitigate_axis_pairs (2 ^ n) q).map Prod.fst).Nodup := by
    rw [mitigate_axis_pairs_eq n q hq, List.map_flatMap]
    simp only [List.map_map]
    rw [List.nodup_flatMap]
    constructor
    · intro k _
      apply List.Nodup.map _ (List.nodup_range _)
      intro a b e
      simp only [Function.comp] at e
      omega
    · apply List.Pairwise.imp _ (List.pairwise_lt_range _)
      intro a b hab
      intro x hxa hxb
      simp only [List.mem_map, List.mem_range, Function.comp] at hxa hxb
      obtain ⟨i, hi, e1⟩ := hxa
      obtain ⟨j, hj, e2⟩ := hxb
      have hle : 2 ^ (q + 1) * (a + 1) ≤ 2 ^ (q + 1) * b := Nat.mul_le_mul_left _ hab
      rw [Nat.mul_succ] at hle
      omega
  refine ⟨fun ia ib ic id out => mitigate_axis_eq_pairs ia ib ic id (2 ^ n) out q, ?_, hnd,
    List.Nodup.of_map _ hnd, ?_, ?_⟩
  · intro pr hpr
    obtain ⟨k, hk, i, hi, e⟩ := (mem_axis_pairs n q hq pr).mp hpr
    subst e
    refine ⟨rfl, block_index_clear q k i hi, by simp only; omega, ?_⟩
    have hle : 2 ^ (q + 1) * (k + 1) ≤ 2 ^ (q + 1) * 2 ^ (n - (q + 1)) :=
      Nat.mul_le_mul_left _ hk
    rw [Nat.mul_succ, ← hn] at hle
    simp only
    omega
  · intro x hx hb
    rw [mem_axis_pairs n q hq]
    have hSpos : 0 < 2 ^ (q + 1) := Nat.pow_pos (by decide)
    have hdm : 2 ^ (q + 1) * (x / 2 ^ (q + 1)) + x % 2 ^ (q + 1) = x := Nat.div_add_mod _ _
    have hm : x % 2 ^ (q + 1) < 2 ^ (q + 1) := Nat.mod_lt _ hSpos
    have hbit : (x % 2 ^ (q + 1)).testBit q = false := by
      have h1 : x.testBit q = false := by
        rw [and_pow_eq_zero_iff] at hb
        exact hb
      rw [Nat.testBit_mod_two_pow]
      simp [h1]
    refine ⟨x / 2 ^ (q + 1), ?_, x % 2 ^ (q + 1), clear_bit_lt q _ hm hbit, ?_⟩
    · apply Nat.div_lt_of_lt_mul
      rw [← hn]
      exact hx
    · rw [hdm]
  · rw [mitigate_axis_pairs_eq n q hq, List.length_flatMap]
    have hc : (List.length ∘ fun k => List.map
        (fun i => (2 ^ (q + 1) * k + i, 2 ^ (q + 1) * k + i + 2 ^ q)) (List.range (2 ^ q)))
        = fun _ => 2 ^ q := by
      funext k
      simp
    rw [hc, List.map_const', List.sum_replicate, List.length_range, smul_eq_mul, ← pow_add]
    congr 1
    omega

/-- Witness for claim C40: two qubits, axis 1: the pairs `(0, 2)` and `(1, 3)`. -/
theorem mitigate_indices_in_range_witness :
    (1 : Nat) < 2 ∧ mitigate_axis_pairs (2 ^ 2) 1 = [(0, 2), (1, 3)] ∧
    (∀ pr ∈ mitigate_axis_pairs (2 ^ 2) 1,
      pr.2 = pr.1 + 2 ^ 1 ∧ pr.1 &&& 2 ^ 1 = 0 ∧ pr.1 < pr.2 ∧ pr.2 < 2 ^ 2) :=
  ⟨by decide, by decide, (@mitigate_indices_in_range ℚ _ 2 1 (by decide)).2.1⟩

end Butterfly

section BfsBasics

theorem isDist_exists (adj : List (List Nat)) (s : Nat) : ∃ D, IsDist adj s D := by
  classical
  refine ⟨fun v => if h : ∃ k, Reach adj s k v then Nat.find h else 0, ?_, ?_⟩
  · intro k v hk
    have h : ∃ k, Reach adj s k v := ⟨k, hk⟩
    simp only [h, dif_pos]
    exact Nat.find_spec h
  · intro k v hk
    have h : ∃ k, Reach adj s k v := ⟨k, hk⟩
    simp only [h, dif_pos]
    exact Nat.find_min' h hk

theorem isDist_zero (adj : List (List Nat)) (s : Nat) (D : Nat → Nat) (hD : IsDist adj s D) :
    D s = 0 := Nat.le_zero.mp (hD.le 0 s Reach.refl)

theorem adjacent_lt (adj : List (List Nat)) (hadj : ∀ l ∈ adj, ∀ y ∈ l, y < adj.length)
    (u w : Nat) (h : Adjacent adj u w) : u < adj.length ∧ w < adj.length := by
  unfold Adjacent at h
  by_cases hu : u < adj.length
  · refine ⟨hu, hadj (adj.getD u []) ?_ w h⟩
    rw [List.getD_eq_getElem?_getD, List.getElem?_eq_getElem hu]
    exact List.getElem_mem _
  · rw [getD_of_length_le _ _ _ (not_lt.mp hu)] at h
    exact absurd h (List.not_mem_nil _)

theorem count_set (prev : List Int) (y : Nat) (x : Nat) (h : prev.getD y 0 = -1) :
    (prev.set y (x : Int)).count (-1) + 1 = prev.count (-1) := by
  induction prev generalizing y with
  | nil => simp at h
  | cons a l ih =>
    have hx : ((x : Int) == -1) = false := by
      rw [beq_eq_false_iff_ne]
      omega
    cases y with
    | zero =>
      have ha : a = -1 := by simpa using h
      subst ha
      simp [List.count_cons, hx]
    | succ y =>
      have h2 : l.getD y 0 = -1 := by simpa using h
      have := ih y h2
      simp only [List.set_cons_succ, List.count_cons]
      omega

theorem count_pos_of_unvisited (prev : List Int) (t : Nat) (h : prev.getD t 0 = -1) :
    0 < prev.count (-1) := by
  rw [List.count_pos_iff]
  by_cases ht : t < prev.length
  · rw [List.getD_eq_getElem?_getD, List.getElem?_eq_getElem ht] at h
    simp only [Option.getD_some] at h
    rw [← h]
    exact List.getElem_mem _
  · rw [getD_of_length_le _ _ _ (not_lt.mp ht)] at h
    omega

theorem prevExt_refl (prev : List Int) : PrevExt prev prev := ⟨rfl, fun _ _ => rfl⟩

theorem prevExt_trans (a b c : List Int) (h1 : PrevExt a b) (h2 : PrevExt b c) :
    PrevExt a c := by
  refine ⟨by rw [h2.1, h1.1], fun v hv => ?_⟩
  have e := h1.2 v hv
  rw [h2.2 v (by rw [e]; exact hv), e]

theorem prevExt_set (prev : List Int) (y x : Nat) (h : prev.getD y 0 = -1) :
    PrevExt prev (prev.set y (x : Int)) := by
  refine ⟨List.length_set _ _ _, fun v hv => ?_⟩
  rw [getD_set]
  have : ¬ (y = v ∧ y < prev.length) := by
    rintro ⟨e, _⟩
    subst e
    exact hv h
  rw [if_neg this]

theorem prevChain_ext (adj : List (List Nat)) (s : Nat) (prev prev2 : List Int)
    (hext : PrevExt prev prev2) (k v : Nat) (h : PrevChain adj s prev k v) :
    PrevChain adj s prev2 k v := by
  induction h with
  | base => exact PrevChain.base
  | step hv hp ha _ ih =>
    refine PrevChain.step hv ?_ ha ih
    rw [hext.2 _ (by rw [hp]; omega), hp]

theorem bfs_visit_ext (x t : Nat) (ys : List Nat) (prev : List Int) (q : List Nat) :
    PrevExt prev (bfs_visit x t ys (prev, q)).1 := by
  induction ys generalizing prev q with
  | nil => exact prevExt_refl prev
  | cons y ys ih =>
    unfold bfs_visit
    split
    · rename_i hy
      split
      · exact prevExt_set prev y x hy
      · exact prevExt_trans _ _ _ (prevExt_set prev y x hy) (ih _ _)
    · exact ih _ _

theorem bfs_loop_ext (adj : List (List Nat)) (t fuel : Nat) (prev : List Int) (q : List Nat) :
    PrevExt prev (bfs_loop adj t fuel (prev, q)) := by
  induction fuel generalizing prev q with
  | zero => exact prevExt_refl prev
  | succ fuel ih =>
    unfold bfs_loop
    cases q with
    | nil => exact prevExt_refl prev
    | cons x rest =>
      simp only
      have h1 := bfs_visit_ext x t (adj.getD x []) prev rest
      have h2 := ih (bfs_visit x t (adj.getD x []) (prev, rest)).1
        (bfs_visit x t (adj.getD x []) (prev, rest)).2
      exact prevExt_trans _ _ _ h1 h2

theorem bfs_visit_measure (x t : Nat) (ys : List Nat) (prev : List Int) (q : List Nat) :
    (bfs_visit x t ys (prev, q)).2.length + (bfs_visit x t ys (prev, q)).1.count (-1)
      = q.length + prev.count (-1) := by
  induction ys generalizing prev q with
  | nil => rfl
  | cons y ys ih =>
    unfold bfs_visit
    split
    · rename_i hy
      have hc := count_set prev y x hy
      split
      · simp only [List.length_append, List.length_singleton]
        omega
      · rw [ih]
        simp only [List.length_append, List.length_singleton]
        omega
    · exact ih _ _

theorem bfs_loop_fuel (adj : List (List Nat)) (t fuel m : Nat) (prev : List Int)
    (q : List Nat) (h : q.length + prev.count (-1) ≤ fuel) :
    bfs_loop adj t (fuel + m) (prev, q) = bfs_loop adj t fuel (prev, q) := by
  induction fuel generalizing prev q with
  | zero =>
    have hq : q = [] := List.length_eq_zero.mp (by omega)
    subst hq
    cases m with
    | zero => rfl
    | succ m => rfl
  | succ fuel ih =>
    cases q with
    | nil =>
      rw [show fuel + 1 + m = (fuel + m) + 1 by omega]
      rfl
    | cons x rest =>
      rw [show fuel + 1 + m = (fuel + m) + 1 by omega]
      show bfs_loop adj t (fuel + m) (bfs_visit x t (adj.getD x []) (prev, rest))
        = bfs_loop adj t fuel (bfs_visit x t (adj.getD x []) (prev, rest))
      have hm := bfs_visit_measure x t (adj.getD x []) prev rest
      have e : bfs_visit x t (adj.getD x []) (prev, rest)
          = ((bfs_visit x t (adj.getD x []) (prev, rest)).1,
             (bfs_visit x t (adj.getD x []) (prev, rest)).2) := rfl
      rw [e]
      apply ih
      simp only [List.length_cons] at h
      omega

theorem first_unvisited (adj : List (List Nat)) (s : Nat) (prev : List Int)
    (hs : prev.getD s 0 ≠ -1) (k v : Nat) (h : Reach adj s k v) (hv : prev.getD v 0 = -1) :
    ∃ j u w, j < k ∧ Reach adj s j u ∧ prev.getD u 0 ≠ -1 ∧ w ∈ adj.getD u [] ∧
      prev.getD w 0 = -1 := by
  induction h with
  | refl => exact absurd hv hs
  | step hr ha ih =>
    rename_i k u w
    by_cases hu : prev.getD u 0 = -1
    · obtain ⟨j, u2, w2, hj, h1, h2, h3, h4⟩ := ih hu
      exact ⟨j, u2, w2, by omega, h1, h2, h3, h4⟩
    · exact ⟨k, u, w, by omega, hr, hu, ha, hv⟩

theorem chain_reach (adj : List (List Nat)) (s : Nat) (rest : List Nat) (u k t : Nat)
    (hr : Reach adj s k u) (hc : List.Chain' (Adjacent adj) (u :: rest))
    (hl : (u :: rest).getLast? = some t) : Reach adj s (k + rest.length) t := by
  induction rest generalizing u k with
  | nil =>
    simp only [List.getLast?_singleton, Option.some.injEq] at hl
    subst hl
    exact hr
  | cons w rest ih =>
    rw [List.chain'_cons] at hc
    have hl2 : (w :: rest).getLast? = some t := by
      rw [List.getLast?_cons_cons] at hl
      exact hl
    have := ih w (k + 1) (Reach.step hr hc.1) hc.2 hl2
    rw [List.length_cons, show k + (rest.length + 1) = k + 1 + rest.length by omega]
    exact this

theorem path_reach (adj : List (List Nat)) (s t : Nat) (p : List Nat)
    (h : IsPath adj s t p) : 0 < p.length ∧ Reach adj s (p.length - 1) t := by
  obtain ⟨h1, h2, h3⟩ := h
  cases p with
  | nil => simp at h1
  | cons a rest =>
    simp only [List.head?_cons, Option.some.injEq] at h1
    subst h1
    refine ⟨by simp, ?_⟩
    have := chain_reach adj a rest a 0 t Reach.refl h3 h2
    simpa using this

theorem backtrack_spec (adj : List (List Nat)) (s : Nat) (prev : List Int) (k v : Nat)
    (h : PrevChain adj s prev k v) :
    ∀ fuel, k ≤ fuel → ∀ pre : List Nat, ∃ l : List Nat,
      backtrack prev s fuel (pre ++ [v]) = pre ++ v :: l ∧ l.length = k ∧
      (v :: l).getLast? = some s ∧ List.Chain' (fun a b => Adjacent adj b a) (v :: l) := by
  induction h with
  | base =>
    intro fuel _ pre
    refine ⟨[], ?_, rfl, rfl, List.chain'_singleton _⟩
    cases fuel with
    | zero => rfl
    | succ fuel =>
      unfold backtrack
      rw [if_neg]
      simp
  | @step k u v hv hp ha _ ih =>
    intro fuel hf pre
    obtain ⟨f, rfl⟩ : ∃ f, fuel = f + 1 := ⟨fuel - 1, by omega⟩
    obtain ⟨l, h1, h2, h3, h4⟩ := ih f (by omega) (pre ++ [v])
    refine ⟨u :: l, ?_, by simp [h2], ?_, ?_⟩
    · unfold backtrack
      have hlast : (pre ++ [v]).getLastD 0 = v := by simp
      rw [if_pos (by rw [hlast]; exact hv), hlast, hp, Int.toNat_ofNat, h1]
      simp
    · rw [List.getLast?_cons_cons]
      exact h3
    · rw [List.chain'_cons]
      exact ⟨ha, h4⟩

end BfsBasics

section BfsInvariant

theorem chain_of_inv (adj : List (List Nat)) (s : Nat) (D : Nat → Nat) (hD : IsDist adj s D)
    (prev : List Int) (act : List Nat) (hinv : BfsInv adj s D prev act) :
    ∀ d v, D v = d → v < adj.length → prev.getD v 0 ≠ -1 → PrevChain adj s prev d v := by
  intro d
  induction d with
  | zero =>
    intro v hd hv hvis
    by_cases hvs : v = s
    · subst hvs; exact PrevChain.base
    · obtain ⟨u, _, _, _, _, e⟩ := hinv.par v hv hvis hvs
      omega
  | succ d ih =>
    intro v hd hv hvis
    by_cases hvs : v = s
    · subst hvs
      have := isDist_zero adj v D hD
      omega
    · obtain ⟨u, hu, hp, huv, ha, e⟩ := hinv.par v hv hvis hvs
      exact PrevChain.step hvs hp ha (ih u (by omega) hu huv)

theorem inv_drop (adj : List (List Nat)) (s : Nat) (D : Nat → Nat) (prev : List Int)
    (x : Nat) (q : List Nat) (hinv : BfsInv adj s D prev (x :: q))
    (hx : ∀ w ∈ adj.getD x [], prev.getD w 0 ≠ -1) : BfsInv adj s D prev q where
  len := hinv.len
  src := hinv.src
  par := hinv.par
  reach := hinv.reach
  act_ok := fun a ha => hinv.act_ok a (List.mem_cons_of_mem _ ha)
  sorted := (List.pairwise_cons.mp hinv.sorted).2
  near := fun a ha b hb =>
    hinv.near a (List.mem_cons_of_mem _ ha) b (List.mem_cons_of_mem _ hb)
  closed := by
    intro v hv hvis hvq w hw
    by_cases hvx : v = x
    · subst hvx; exact hx w hw
    · exact hinv.closed v hv hvis (by
        intro h
        rcases List.mem_cons.mp h with h | h
        · exact hvx h
        · exact hvq h) w hw
  count := hinv.count

theorem head_le (D : Nat → Nat) (x : Nat) (q : List Nat)
    (h : (x :: q).Pairwise (fun a b => D a ≤ D b)) : ∀ a ∈ x :: q, D x ≤ D a := by
  intro a ha
  rcases List.mem_cons.mp ha with e | e
  · subst e; exact le_refl _
  · exact (List.pairwise_cons.mp h).1 a e

theorem new_node_dist (adj : List (List Nat)) (hadj : ∀ l ∈ adj, ∀ y ∈ l, y < adj.length)
    (s : Nat) (D : Nat → Nat) (hD : IsDist adj s D) (prev : List Int) (x : Nat)
    (q : List Nat) (hinv : BfsInv adj s D prev (x :: q)) (y : Nat)
    (hy : y ∈ adj.getD x []) (hyu : prev.getD y 0 = -1) : D y = D x + 1 := by
  obtain ⟨hxn, hxv⟩ := hinv.act_ok x (List.mem_cons_self _ _)
  obtain ⟨kx, hkx⟩ := hinv.reach x hxn hxv
  have hrx := hD.wit kx x hkx
  have hry : Reach adj s (D x + 1) y := Reach.step hrx hy
  have hup : D y ≤ D x + 1 := hD.le _ _ hry
  have hsv : prev.getD s 0 ≠ -1 := by rw [hinv.src]; omega
  obtain ⟨j, u, w, hj, hru, huv, hw, hwu⟩ :=
    first_unvisited adj s prev hsv (D y) y (hD.wit _ _ hry) hyu
  have hun : u < adj.length := (adjacent_lt adj hadj u w hw).1
  have humem : u ∈ x :: q := by
    by_contra hne
    exact hinv.closed u hun huv hne w hw hwu
  have h1 : D x ≤ D u := head_le D x q hinv.sorted u humem
  have h2 : D u ≤ j := hD.le _ _ hru
  omega

theorem inv_push (adj : List (List Nat)) (hadj : ∀ l ∈ adj, ∀ y ∈ l, y < adj.length)
    (s : Nat) (D : Nat → Nat) (hD : IsDist adj s D) (prev : List Int) (x : Nat)
    (q : List Nat) (hinv : BfsInv adj s D prev (x :: q)) (y : Nat)
    (hy : y ∈ adj.getD x []) (hyu : prev.getD y 0 = -1) :
    BfsInv adj s D (prev.set y (x : Int)) (x :: (q ++ [y])) := by
  have hDy := new_node_dist adj hadj s D hD prev x q hinv y hy hyu
  obtain ⟨hxn, hxv⟩ := hinv.act_ok x (List.mem_cons_self _ _)
  have hyn : y < adj.length := (adjacent_lt adj hadj x y hy).2
  have hylen : y < prev.length := by rw [hinv.len]; exact hyn
  have hxy : x ≠ y := by
    intro e; subst e; exact hxv hyu
  have hsy : s ≠ y := by
    intro e; subst e
    have := hinv.src
    rw [hyu] at this
    omega
  have hget : ∀ v, (prev.set y (x : Int)).getD v 0
      = if v = y then (x : Int) else prev.getD v 0 := by
    intro v
    rw [getD_set]
    by_cases h : v = y
    · subst h; simp [hylen]
    · have : ¬ (y = v ∧ y < prev.length) := fun h2 => h h2.1.symm
      rw [if_neg this, if_neg h]
  have hvis : ∀ v, prev.getD v 0 ≠ -1 → (prev.set y (x : Int)).getD v 0 ≠ -1 := by
    intro v hv
    rw [hget]
    split
    · omega
    · exact hv
  have hold : ∀ v, (prev.set y (x : Int)).getD v 0 ≠ -1 → v ≠ y → prev.getD v 0 ≠ -1 := by
    intro v hv hne
    rw [hget, if_neg hne] at hv
    exact hv
  have hcount := count_set prev y x hyu
  refine ⟨?_, ?_, ?_, ?_, ?_, ?_, ?_, ?_, ?_⟩
  · rw [List.length_set]; exact hinv.len
  · rw [hget, if_neg hsy]; exact hinv.src
  · intro v hv hvv hvs
    by_cases hvy : v = y
    · subst hvy
      refine ⟨x, hxn, ?_, hvis x hxv, hy, hDy⟩
      rw [hget, if_pos rfl]
    · obtain ⟨u, hu, hp, huv, ha, e⟩ := hinv.par v hv (hold v hvv hvy) hvs
      refine ⟨u, hu, ?_, hvis u huv, ha, e⟩
      rw [hget, if_neg hvy]; exact hp
  · intro v hv hvv
    by_cases hvy : v = y
    · subst hvy
      obtain ⟨kx, hkx⟩ := hinv.reach x hxn hxv
      exact ⟨kx + 1, Reach.step hkx hy⟩
    · exact hinv.reach v hv (hold v hvv hvy)
  · intro a ha
    have : a ∈ (x :: q) ++ [y] := by simpa using ha
    rcases List.mem_append.mp this with h | h
    · obtain ⟨h1, h2⟩ := hinv.act_ok a h
      exact ⟨h1, hvis a h2⟩
    · simp only [List.mem_singleton] at h
      subst h
      refine ⟨hyn, ?_⟩
      rw [hget, if_pos rfl]; omega
  · have : x :: (q ++ [y]) = (x :: q) ++ [y] := rfl
    rw [this, List.pairwise_append]
    refine ⟨hinv.sorted, List.pairwise_singleton _ _, ?_⟩
    intro a ha b hb
    simp only [List.mem_singleton] at hb
    subst hb
    have := hinv.near x (List.mem_cons_self _ _) a ha
    omega
  · intro a ha b hb
    have ha2 : a ∈ (x :: q) ++ [y] := by simpa using ha
    have hb2 : b ∈ (x :: q) ++ [y] := by simpa using hb
    rcases List.mem_append.mp ha2 with h1 | h1 <;> rcases List.mem_append.mp hb2 with h2 | h2
    · exact hinv.near a h1 b h2
    · simp only [List.mem_singleton] at h2
      subst h2
      have := head_le D x q hinv.sorted a h1
      omega
    · simp only [List.mem_singleton] at h1
      subst h1
      have := hinv.near x (List.mem_cons_self _ _) b h2
      omega
    · simp only [List.mem_singleton] at h1 h2
      subst h1; subst h2
      omega
  · intro v hv hvv hvn w hw
    have hvy : v ≠ y := by
      intro e; subst e
      apply hvn
      simp
    have hvn2 : v ∉ x :: q := by
      intro h
      apply hvn
      have : v ∈ (x :: q) ++ [y] := List.mem_append_left _ h
      simpa using this
    exact hvis w (hinv.closed v hv (hold v hvv hvy) hvn2 w hw)
  · intro v hv hvv
    by_cases hvy : v = y
    · subst hvy
      have := hinv.count x hxn hxv
      omega
    · have := hinv.count v hv (hold v hvv hvy)
      omega

theorem bfs_visit_spec (adj : List (List Nat)) (hadj : ∀ l ∈ adj, ∀ y ∈ l, y < adj.length)
    (s : Nat) (D : Nat → Nat) (hD : IsDist adj s D) (x t : Nat) (ht : t < adj.length) :
    ∀ (ys done : List Nat) (prev : List Int) (q : List Nat),
      adj.getD x [] = done ++ ys →
      (∀ w ∈ done, prev.getD w 0 ≠ -1) →
      BfsInv adj s D prev (x :: q) →
      prev.getD t 0 = -1 →
      ((bfs_visit x t ys (prev, q)).1.getD t 0 = -1 ∧
        BfsInv adj s D (bfs_visit x t ys (prev, q)).1 (bfs_visit x t ys (prev, q)).2) ∨
      ((bfs_visit x t ys (prev, q)).1.getD t 0 ≠ -1 ∧
        PrevChain adj s (bfs_visit x t ys (prev, q)).1 (D t) t ∧ D t < adj.length) := by
  intro ys
  induction ys with
  | nil =>
    intro done prev q hsplit hdone hinv htu
    left
    refine ⟨htu, inv_drop adj s D prev x q hinv ?_⟩
    intro w hw
    rw [hsplit, List.append_nil] at hw
    exact hdone w hw
  | cons y ys ih =>
    intro done prev q hsplit hdone hinv htu
    have hy : y ∈ adj.getD x [] := by
      rw [hsplit]; simp
    have hsplit2 : adj.getD x [] = (done ++ [y]) ++ ys := by
      rw [hsplit]; simp
    unfold bfs_visit
    split
    · rename_i hyu
      have hinv2 := inv_push adj hadj s D hD prev x q hinv y hy hyu
      have hDy := new_node_dist adj hadj s D hD prev x q hinv y hy hyu
      obtain ⟨hxn, hxv⟩ := hinv.act_ok x (List.mem_cons_self _ _)
      split
      · rename_i hyt
        subst hyt
        right
        simp only
        have hylen : y < prev.length := by rw [hinv.len]; exact ht
        have hgy : (prev.set y (x : Int)).getD y 0 = (x : Int) := by
          rw [getD_set]; simp [hylen]
        refine ⟨by rw [hgy]; omega, ?_, ?_⟩
        · have hys : y ≠ s := by
            intro e; subst e
            have := hinv.src
            rw [hyu] at this
            omega
          have hcx := chain_of_inv adj s D hD prev (x :: q) hinv (D x) x rfl hxn hxv
          have hcx2 := prevChain_ext adj s prev _ (prevExt_set prev y x hyu) _ _ hcx
          rw [hDy]
          exact PrevChain.step hys hgy hy hcx2
        · have h1 := hinv.count x hxn hxv
          have h2 := count_pos_of_unvisited prev y hyu
          omega
      · rename_i hyt
        apply ih (done ++ [y]) _ _ hsplit2 _ hinv2
        · rw [getD_set]
          have : ¬ (y = t ∧ y < prev.length) := fun h => hyt h.1
          rw [if_neg this]
          exact htu
        · intro w hw
          rw [getD_set]
          split
          · omega
          · rcases List.mem_append.mp hw with h | h
            · exact hdone w h
            · simp only [List.mem_singleton] at h
              subst h
              rename_i hne
              exfalso
              apply hne
              refine ⟨rfl, ?_⟩
              rw [hinv.len]
              exact (adjacent_lt adj hadj x w hy).2
    · rename_i hyv
      apply ih (done ++ [y]) prev q hsplit2 _ hinv htu
      intro w hw
      rcases List.mem_append.mp hw with h | h
      · exact hdone w h
      · simp only [List.mem_singleton] at h
        subst h
        exact hyv

theorem bfs_loop_spec (adj : List (List Nat)) (hadj : ∀ l ∈ adj, ∀ y ∈ l, y < adj.length)
    (s : Nat) (D : Nat → Nat) (hD : IsDist adj s D) (t : Nat) (ht : t < adj.length) :
    ∀ (fuel : Nat) (prev : List Int) (q : List Nat),
      BfsInv adj s D prev q → prev.getD t 0 = -1 → q.length + prev.count (-1) ≤ fuel →
      ((bfs_loop adj t fuel (prev, q)).getD t 0 = -1 ∧ ¬ ∃ k, Reach adj s k t) ∨
      ((bfs_loop adj t fuel (prev, q)).getD t 0 ≠ -1 ∧
        PrevChain adj s (bfs_loop adj t fuel (prev, q)) (D t) t ∧ D t < adj.length) := by
  intro fuel
  induction fuel with
  | zero =>
    intro prev q _ htu hm
    have := count_pos_of_unvisited prev t htu
    omega
  | succ fuel ih =>
    intro prev q hinv htu hm
    cases q with
    | nil =>
      left
      refine ⟨htu, ?_⟩
      rintro ⟨k, hk⟩
      have hsv : prev.getD s 0 ≠ -1 := by rw [hinv.src]; omega
      obtain ⟨j, u, w, _, _, huv, hw, hwu⟩ := first_unvisited adj s prev hsv k t hk htu
      exact hinv.closed u (adjacent_lt adj hadj u w hw).1 huv (List.not_mem_nil _) w hw hwu
    | cons x rest =>
      show ((bfs_loop adj t fuel (bfs_visit x t (adj.getD x []) (prev, rest))).getD t 0 = -1
          ∧ ¬ ∃ k, Reach adj s k t) ∨
        ((bfs_loop adj t fuel (bfs_visit x t (adj.getD x []) (prev, rest))).getD t 0 ≠ -1 ∧
          PrevChain adj s (bfs_loop adj t fuel (bfs_visit x t (adj.getD x []) (prev, rest)))
            (D t) t ∧ D t < adj.length)
      have hm2 := bfs_visit_measure x t (adj.getD x []) prev rest
      have e : bfs_visit x t (adj.getD x []) (prev, rest)
          = ((bfs_visit x t (adj.getD x []) (prev, rest)).1,
             (bfs_visit x t (adj.getD x []) (prev, rest)).2) := rfl
      rcases bfs_visit_spec adj hadj s D hD x t ht (adj.getD x []) [] prev rest rfl
        (fun w hw => absurd hw (List.not_mem_nil _)) hinv htu with h | h
      · rw [e]
        apply ih _ _ h.2 h.1
        simp only [List.length_cons] at hm
        omega
      · right
        rw [e]
        have hext := bfs_loop_ext adj t fuel (bfs_visit x t (adj.getD x []) (prev, rest)).1
          (bfs_visit x t (adj.getD x []) (prev, rest)).2
        refine ⟨?_, prevChain_ext adj s _ _ hext _ _ h.2.1, h.2.2⟩
        rw [hext.2 t h.1]
        exact h.1

theorem bfs_initial (adj : List (List Nat)) (s : Nat) (hs : s < adj.length) (D : Nat → Nat)
    (hD : IsDist adj s D) :
    BfsInv adj s D ((List.replicate adj.length (-1 : Int)).set s (s : Int)) [s] ∧
    [s].length + ((List.replicate adj.length (-1 : Int)).set s (s : Int)).count (-1)
      = adj.length := by
  have hget : ∀ v, ((List.replicate adj.length (-1 : Int)).set s (s : Int)).getD v 0
      = if v = s then (s : Int) else if v < adj.length then -1 else 0 := by
    intro v
    rw [getD_set, getD_replicate, List.length_replicate]
    by_cases h : v = s
    · subst h; simp [hs]
    · have : ¬ (s = v ∧ s < adj.length) := fun h2 => h h2.1.symm
      rw [if_neg this, if_neg h]
  have hcnt : ((List.replicate adj.length (-1 : Int)).set s (s : Int)).count (-1) + 1
      = adj.length := by
    rw [count_set _ s s (by rw [getD_replicate, if_pos hs])]
    simp
  have hvis : ∀ v, v < adj.length →
      ((List.replicate adj.length (-1 : Int)).set s (s : Int)).getD v 0 ≠ -1 → v = s := by
    intro v hv h
    by_contra hne
    rw [hget, if_neg hne, if_pos hv] at h
    exact h rfl
  refine ⟨⟨?_, ?_, ?_, ?_, ?_, ?_, ?_, ?_, ?_⟩, ?_⟩
  · rw [List.length_set, List.length_replicate]
  · rw [hget, if_pos rfl]
  · intro v hv h hne
    exact absurd (hvis v hv h) hne
  · intro v hv h
    rw [hvis v hv h]
    exact ⟨0, Reach.refl⟩
  · intro a ha
    simp only [List.mem_singleton] at ha
    subst ha
    refine ⟨hs, ?_⟩
    rw [hget, if_pos rfl]; omega
  · exact List.pairwise_singleton _ _
  · intro a ha b hb
    simp only [List.mem_singleton] at ha hb
    subst ha; subst hb
    omega
  · intro v hv h hn
    exfalso
    apply hn
    rw [hvis v hv h]
    simp
  · intro v hv h
    rw [hvis v hv h, isDist_zero adj s D hD]
    omega
  · simp only [List.length_singleton]
    omega

end BfsInvariant

section BfsFinal

theorem shortest_path_of_chain (adj : List (List Nat)) (s t : Nat) (prev : List Int)
    (k : Nat) (hk : k < adj.length) (h : PrevChain adj s prev k t) :
    IsPath adj s t (backtrack prev s adj.length [t]).reverse ∧
    (backtrack prev s adj.length [t]).reverse.length = k + 1 ∧
    ∀ m, backtrack prev s (adj.length + m) [t] = backtrack prev s adj.length [t] := by
  obtain ⟨l, h1, h2, h3, h4⟩ := backtrack_spec adj s prev k t h adj.length (by omega) []
  simp only [List.nil_append] at h1
  refine ⟨⟨?_, ?_, ?_⟩, ?_, ?_⟩
  · rw [h1, List.head?_reverse]
    exact h3
  · rw [h1, List.getLast?_reverse]
    rfl
  · rw [h1, List.chain'_reverse]
    exact h4
  · rw [h1, List.length_reverse, List.length_cons, h2]
  · intro m
    obtain ⟨l2, g1, g2, _, _⟩ :=
      backtrack_spec adj s prev k t h (adj.length + m) (by omega) []
    simp only [List.nil_append] at g1
    have hb : ∀ fuel, k ≤ fuel → backtrack prev s fuel [t] = backtrack prev s k [t] := by
      intro fuel hf
      have key : ∀ (j v : Nat), PrevChain adj s prev j v → ∀ (f1 f2 : Nat), j ≤ f1 → j ≤ f2 →
          ∀ pre : List Nat, backtrack prev s f1 (pre ++ [v]) = backtrack prev s f2 (pre ++ [v]) := by
        intro j v hc
        induction hc with
        | base =>
          intro f1 f2 _ _ pre
          have e : ∀ f, backtrack prev s f (pre ++ [s]) = pre ++ [s] := by
            intro f
            cases f with
            | zero => rfl
            | succ f =>
              unfold backtrack
              rw [if_neg]
              simp
          rw [e f1, e f2]
        | @step j u v hv hp ha _ ih =>
          intro f1 f2 hf1 hf2 pre
          obtain ⟨g1, rfl⟩ : ∃ g, f1 = g + 1 := ⟨f1 - 1, by omega⟩
          obtain ⟨g2, rfl⟩ : ∃ g, f2 = g + 1 := ⟨f2 - 1, by omega⟩
          have hlast : (pre ++ [v]).getLastD 0 = v := by simp
          have e : ∀ g, backtrack prev s (g + 1) (pre ++ [v])
              = backtrack prev s g ((pre ++ [v]) ++ [u]) := by
            intro g
            conv_lhs => unfold backtrack
            rw [if_pos (by rw [hlast]; exact hv), hlast, hp, Int.toNat_ofNat]
          rw [e g1, e g2]
          exact ih g1 g2 (by omega) (by omega) (pre ++ [v])
      exact key k t h fuel k hf (le_refl _) []
    rw [hb (adj.length + m) (by omega), hb adj.length (by omega)]

/-- Claim C36: for every adjacency list whose neighbour indices are all below `adj.size()`
and all nodes `s, t < adj.size()`, `shortest_path(adj, s, t)` returns `[s]` when `s = t`,
the empty list when no path leads from `s` to `t`, and otherwise a path from `s` to `t`
(consecutive nodes adjacent in `adj`) with the least number of nodes, hence of edges, among
all paths from `s` to `t`. Both loops end within `adj.size()` passes: more passes give the
same result. -/
theorem shortest_path_correct (adj : List (List Nat))
    (hadj : ∀ l ∈ adj, ∀ y ∈ l, y < adj.length) (s t : Nat) (hs : s < adj.length)
    (ht : t < adj.length) :
    (s = t → shortest_path adj s t = [s]) ∧
    ((¬ ∃ p, IsPath adj s t p) → shortest_path adj s t = []) ∧
    ((∃ p, IsPath adj s t p) →
      IsPath adj s t (shortest_path adj s t) ∧
      ∀ p, IsPath adj s t p → (shortest_path adj s t).length ≤ p.length) ∧
    (∀ m, bfs_loop adj t (adj.length + m)
        ((List.replicate adj.length (-1 : Int)).set s (s : Int), [s])
      = bfs_loop adj t adj.length
        ((List.replicate adj.length (-1 : Int)).set s (s : Int), [s])) ∧
    (s ≠ t → (∃ p, IsPath adj s t p) → ∀ m,
      backtrack (bfs_loop adj t adj.length
          ((List.replicate adj.length (-1 : Int)).set s (s : Int), [s])) s (adj.length + m) [t]
        = backtrack (bfs_loop adj t adj.length
          ((List.replicate adj.length (-1 : Int)).set s (s : Int), [s])) s adj.length [t]) := by
  obtain ⟨D, hD⟩ := isDist_exists adj s
  obtain ⟨hinv, hmeasure⟩ := bfs_initial adj s hs D hD
  have hfuel : ∀ m, bfs_loop adj t (adj.length + m)
        ((List.replicate adj.length (-1 : Int)).set s (s : Int), [s])
      = bfs_loop adj t adj.length
        ((List.replicate adj.length (-1 : Int)).set s (s : Int), [s]) :=
    fun m => bfs_loop_fuel adj t adj.length m _ _ (le_of_eq hmeasure)
  have hself : s = t → shortest_path adj s t = [s] := by
    intro e
    unfold shortest_path
    rw [if_pos e]
  have hmin : ∀ p, IsPath adj s t p → D t + 1 ≤ p.length := by
    intro p hp
    obtain ⟨h1, h2⟩ := path_reach adj s t p hp
    have := hD.le _ _ h2
    omega
  have hcase : s ≠ t →
      (shortest_path adj s t = [] ∧ ¬ ∃ k, Reach adj s k t) ∨
      (IsPath adj s t (shortest_path adj s t) ∧ (shortest_path adj s t).length = D t + 1 ∧
        ∀ m, backtrack (bfs_loop adj t adj.length
            ((List.replicate adj.length (-1 : Int)).set s (s : Int), [s])) s
            (adj.length + m) [t]
          = backtrack (bfs_loop adj t adj.length
            ((List.replicate adj.length (-1 : Int)).set s (s : Int), [s])) s adj.length
            [t]) := by
    intro hne
    have htu : ((List.replicate adj.length (-1 : Int)).set s (s : Int)).getD t 0 = -1 := by
      rw [getD_set, getD_replicate]
      have : ¬ (s = t ∧ s < (List.replicate adj.length (-1 : Int)).length) :=
        fun h => hne h.1
      rw [if_neg this, if_pos ht]
    unfold shortest_path
    rw [if_neg hne]
    simp only
    rcases bfs_loop_spec adj hadj s D hD t ht adj.length _ _ hinv htu (le_of_eq hmeasure)
      with h | h
    · left
      rw [if_pos h.1]
      exact ⟨rfl, h.2⟩
    · right
      rw [if_neg h.1]
      exact shortest_path_of_chain adj s t _ (D t) h.2.2 h.2.1
  refine ⟨hself, ?_, ?_, hfuel, ?_⟩
  · intro hno
    by_cases hst : s = t
    · subst hst
      exfalso
      exact hno ⟨[s], rfl, rfl, List.chain'_singleton _⟩
    · rcases hcase hst with h | h
      · exact h.1
      · exact absurd ⟨_, h.1⟩ hno
  · rintro ⟨p0, hp0⟩
    by_cases hst : s = t
    · subst hst
      rw [hself rfl]
      refine ⟨⟨rfl, rfl, List.chain'_singleton _⟩, ?_⟩
      intro p hp
      have := (path_reach adj s s p hp).1
      simp only [List.length_singleton]
      omega
    · rcases hcase hst with h | h
      · exact absurd ⟨_, (path_reach adj s t p0 hp0).2⟩ h.2
      · refine ⟨h.1, fun p hp => ?_⟩
        rw [h.2.1]
        exact hmin p hp
  · intro hne hex
    obtain ⟨p0, hp0⟩ := hex
    rcases hcase hne with h | h
    · exact absurd ⟨_, (path_reach adj s t p0 hp0).2⟩ h.2
    · exact h.2.2

theorem line4_path : IsPath line4 0 3 [0, 1, 2, 3] := by
  refine ⟨rfl, rfl, ?_⟩
  simp [Adjacent, line4]

/-- Witness for claim C36: the path graph `0 - 1 - 2 - 3`, from node 0 to node 3. -/
theorem shortest_path_correct_witness :
    (∀ l ∈ line4, ∀ y ∈ l, y < line4.length) ∧ (0 : Nat) < line4.length ∧
    (3 : Nat) < line4.length ∧ (∃ p, IsPath line4 0 3 p) ∧
    shortest_path line4 0 3 = [0, 1, 2, 3] ∧
    IsPath line4 0 3 (shortest_path line4 0 3) ∧
    ∀ p, IsPath line4 0 3 p → (shortest_path line4 0 3).length ≤ p.length :=
  ⟨by decide, by decide, by decide,
    ⟨[0, 1, 2, 3], line4_path⟩, by decide,
    (shortest_path_correct line4 (by decide) 0 3 (by decide) (by decide)).2.2.1
      ⟨[0, 1, 2, 3], line4_path⟩⟩

end BfsFinal

end qsx
